import Mathlib

/-!
Tokenizer, UTF-8 codec, light Russian stemmer, indexer and index reader of the `ir`
search pipeline.

A shallow embedding of `lab3/src/utf8.cpp`, `lab7/src/stem_ru.cpp`,
`lab4/src/tokenize.cpp`, the dictionary, posting lists, sort and file emission of
`lab6/src/indexer.cpp` and the file reader of `lab7/src/search.cpp`, followed by the
properties proved about them.

Conventions of the embedding:

* an `unsigned char` is a `Byte` (`Fin 256`); arithmetic on it is done on its value;
* a `uint32_t` codepoint is a `Nat`; the shifts and masks of the decoder stay below
  `2 ^ 21`, so no 32-bit wrap-around can occur there, and additions that could wrap
  in principle are written with an explicit `% 2 ^ 32`;
* a pointer/length pair `(s, n)` is the list of the `n` bytes it designates;
* a `bool` result with out-parameters is an `Option` of the written values;
* a loop is a function with a bound on its iterations, `none` when the bound is reached
  or a read is out of bounds; each is proved to return where a property needs it;
* sizes, offsets and counts are natural numbers that are assumed to fit their C types;
  the hash and the integers of the file format are taken modulo `2 ^ 32` or `2 ^ 64`.
-/

namespace IR

/-- An `unsigned char`. -/
abbrev Byte := Fin 256

/-- The cast `(unsigned char) x`. -/
def toByte (x : Nat) : Byte := ⟨x % 256, Nat.mod_lt x (by decide)⟩

/-! Source file `lab3/src/utf8.cpp`. -/

/-- Function `utf8_decode_one(s, n, &used, &cp)`: `none` is the result `false`, `some (cp, used)`
is the result `true` with the two out-parameters. -/
def utf8_decode_one (s : List Byte) : Option (Nat × Nat) :=
  match s with
  | [] => none
  | b0 :: rest =>
    if b0.val < 0x80 then some (b0.val, 1)
    else if b0.val &&& 0xE0 = 0xC0 then
      match rest with
      | b1 :: _ =>
        if b1.val &&& 0xC0 ≠ 0x80 then none
        else
          let v := ((b0.val &&& 0x1F) <<< 6) ||| (b1.val &&& 0x3F)
          if v < 0x80 then none else some (v, 2)
      | _ => none
    else if b0.val &&& 0xF0 = 0xE0 then
      match rest with
      | b1 :: b2 :: _ =>
        if b1.val &&& 0xC0 ≠ 0x80 ∨ b2.val &&& 0xC0 ≠ 0x80 then none
        else
          let v := ((b0.val &&& 0x0F) <<< 12) ||| ((b1.val &&& 0x3F) <<< 6) |||
            (b2.val &&& 0x3F)
          if v < 0x800 then none else some (v, 3)
      | _ => none
    else if b0.val &&& 0xF8 = 0xF0 then
      match rest with
      | b1 :: b2 :: b3 :: _ =>
        if b1.val &&& 0xC0 ≠ 0x80 ∨ b2.val &&& 0xC0 ≠ 0x80 ∨ b3.val &&& 0xC0 ≠ 0x80 then none
        else
          let v := ((b0.val &&& 0x07) <<< 18) ||| ((b1.val &&& 0x3F) <<< 12) |||
            ((b2.val &&& 0x3F) <<< 6) ||| (b3.val &&& 0x3F)
          if v < 0x10000 ∨ v > 0x10FFFF then none else some (v, 4)
      | _ => none
    else none

/-- Function `utf8_encode_one(cp, out)`: the list of the bytes written to `out[0..]`; the value
the function returns is the number of bytes written, that is the length of this list. -/
def utf8_encode_one (cp : Nat) : List Byte :=
  if cp ≤ 0x7F then [toByte cp]
  else if cp ≤ 0x7FF then
    [toByte (0xC0 ||| ((cp >>> 6) &&& 0x1F)), toByte (0x80 ||| (cp &&& 0x3F))]
  else if cp ≤ 0xFFFF then
    [toByte (0xE0 ||| ((cp >>> 12) &&& 0x0F)), toByte (0x80 ||| ((cp >>> 6) &&& 0x3F)),
      toByte (0x80 ||| (cp &&& 0x3F))]
  else
    [toByte (0xF0 ||| ((cp >>> 18) &&& 0x07)), toByte (0x80 ||| ((cp >>> 12) &&& 0x3F)),
      toByte (0x80 ||| ((cp >>> 6) &&& 0x3F)), toByte (0x80 ||| (cp &&& 0x3F))]

/-- Function `is_latin_letter(cp)`. -/
def is_latin_letter (cp : Nat) : Bool :=
  (cp ≥ 0x41 && cp ≤ 0x5A) || (cp ≥ 0x61 && cp ≤ 0x7A)

/-- Function `is_digit(cp)`. -/
def is_digit (cp : Nat) : Bool :=
  cp ≥ 0x30 && cp ≤ 0x39

/-- Function `is_cyrillic_letter(cp)`. -/
def is_cyrillic_letter (cp : Nat) : Bool :=
  if cp = 0x0401 ∨ cp = 0x0451 then true
  else if cp ≥ 0x0410 ∧ cp ≤ 0x044F then true
  else false

/-- Function `is_token_char(cp)`. -/
def is_token_char (cp : Nat) : Bool :=
  is_digit cp || is_latin_letter cp || is_cyrillic_letter cp

/-- Function `to_lower_basic(cp)`, the additions being those of `uint32_t`. -/
def to_lower_basic (cp : Nat) : Nat :=
  if cp ≥ 0x41 ∧ cp ≤ 0x5A then (cp + 32) % 2 ^ 32
  else if cp = 0x0401 then 0x0451
  else if cp ≥ 0x0410 ∧ cp ≤ 0x042F then (cp + 32) % 2 ^ 32
  else cp

/-! Source file `lab7/src/stem_ru.cpp`. -/

/-- Function `has_digit_ascii(s, n)`: some byte of the buffer is an ASCII digit. -/
def has_digit_ascii (s : List Byte) : Bool :=
  s.any (fun b => b.val ≥ 0x30 && b.val ≤ 0x39)

/-- Function `looks_cyrillic_utf8(s, n)`: the loop runs over the indices `i` with `i + 1 < n`,
that is over the first `n - 1` bytes. -/
def looks_cyrillic_utf8 (s : List Byte) : Bool :=
  (s.take (s.length - 1)).any (fun b => b.val = 0xD0 || b.val = 0xD1)

/-- Function `ends_with(s, n, suf)`: `n` is the current length (the buffer itself may be longer),
`suf` the bytes of the C string, `m = strlen(suf)`, and the `memcmp` compares the `m`
bytes from `s + (n - m)` with `suf`. -/
def ends_with (s : List Byte) (n : Nat) (suf : List Byte) : Bool :=
  let m := suf.length
  if m = 0 ∨ m > n then false
  else ((s.drop (n - m)).take m == suf)

/-- Constant `MIN_STEM_BYTES`. -/
def MIN_STEM_BYTES : Nat := 6

/-- The table `suffixes[]` of `stem_ru_utf8`, each string as its UTF-8 bytes, in the
order of the source (the entries for "ыми" and "ими" occur twice there). -/
def suffixes : List (List Byte) := [
  [0xD0, 0xB8, 0xD1, 0x8F, 0xD0, 0xBC, 0xD0, 0xB8],  -- иями
  [0xD1, 0x8F, 0xD0, 0xBC, 0xD0, 0xB8],  -- ями
  [0xD0, 0xB0, 0xD0, 0xBC, 0xD0, 0xB8],  -- ами
  [0xD1, 0x8B, 0xD0, 0xBC, 0xD0, 0xB8],  -- ыми
  [0xD0, 0xB8, 0xD0, 0xBC, 0xD0, 0xB8],  -- ими
  [0xD0, 0xBE, 0xD0, 0xB3, 0xD0, 0xBE],  -- ого
  [0xD0, 0xB5, 0xD0, 0xB3, 0xD0, 0xBE],  -- его
  [0xD0, 0xBE, 0xD0, 0xBC, 0xD1, 0x83],  -- ому
  [0xD0, 0xB5, 0xD0, 0xBC, 0xD1, 0x83],  -- ему
  [0xD1, 0x8B, 0xD0, 0xBC, 0xD0, 0xB8],  -- ыми
  [0xD0, 0xB8, 0xD0, 0xBC, 0xD0, 0xB8],  -- ими
  [0xD1, 0x8B, 0xD1, 0x85],  -- ых
  [0xD0, 0xB8, 0xD1, 0x85],  -- их
  [0xD0, 0xB0, 0xD1, 0x85],  -- ах
  [0xD1, 0x8F, 0xD1, 0x85],  -- ях
  [0xD0, 0xBE, 0xD0, 0xB2],  -- ов
  [0xD0, 0xB5, 0xD0, 0xB2],  -- ев
  [0xD0, 0xBE, 0xD0, 0xBC],  -- ом
  [0xD0, 0xB5, 0xD0, 0xBC],  -- ем
  [0xD0, 0xB0, 0xD0, 0xBC],  -- ам
  [0xD1, 0x8F, 0xD0, 0xBC],  -- ям
  [0xD1, 0x83, 0xD1, 0x8E],  -- ую
  [0xD1, 0x8E, 0xD1, 0x8E],  -- юю
  [0xD0, 0xB0, 0xD1, 0x8F],  -- ая
  [0xD1, 0x8F, 0xD1, 0x8F],  -- яя
  [0xD0, 0xBE, 0xD0, 0xB5],  -- ое
  [0xD0, 0xB5, 0xD0, 0xB5],  -- ее
  [0xD1, 0x8B, 0xD0, 0xB9],  -- ый
  [0xD0, 0xB8, 0xD0, 0xB9],  -- ий
  [0xD1, 0x8B, 0xD0, 0xB5],  -- ые
  [0xD0, 0xB8, 0xD0, 0xB5],  -- ие
  [0xD0, 0xB0],  -- а
  [0xD1, 0x8F],  -- я
  [0xD0, 0xBE],  -- о
  [0xD0, 0xB5],  -- е
  [0xD1, 0x8B],  -- ы
  [0xD0, 0xB8],  -- и
  [0xD1, 0x83],  -- у
  [0xD1, 0x8E]]  -- ю

/-- The first trimming step of `stem_ru_utf8`: the reflexive ending, the four bytes
`D1 81 D1 8F` or `D1 81 D1 8C` at `tok + (n - 4)`. The result is the new `n`. -/
def stem_reflexive (tok : List Byte) (n : Nat) : Nat :=
  if n ≥ 4 then
    match tok.drop (n - 4) with
    | e0 :: e1 :: e2 :: e3 :: _ =>
      if e0.val = 0xD1 ∧ e1.val = 0x81 ∧ e2.val = 0xD1 ∧ (e3.val = 0x8F ∨ e3.val = 0x8C) then
        if n - 4 ≥ MIN_STEM_BYTES then n - 4 else n
      else n
    | _ => n
  else n

/-- The `for` loop of `stem_ru_utf8` over the remaining entries of the table: an entry
that is empty or longer than `n` is skipped (`continue`); at the first entry the buffer
ends with, the entry is removed when at least `MIN_STEM_BYTES` remain, and the loop
stops (`break`) either way. The result is the new `n`. -/
def stem_suffix_loop (tok : List Byte) (n : Nat) : List (List Byte) → Nat
  | [] => n
  | suf :: rest =>
    let m := suf.length
    if m = 0 ∨ m > n then stem_suffix_loop tok n rest
    else if ends_with tok n suf then
      (if n - m ≥ MIN_STEM_BYTES then n - m else n)
    else stem_suffix_loop tok n rest

/-- The last trimming step of `stem_ru_utf8`: a final soft or hard sign, the bytes
`D1 8C` or `D1 8A` at `tok[n - 2]`, `tok[n - 1]`. The result is the new `n`. -/
def stem_sign (tok : List Byte) (n : Nat) : Nat :=
  if n ≥ 2 then
    match tok.drop (n - 2) with
    | b0 :: b1 :: _ =>
      if b0.val = 0xD1 ∧ (b1.val = 0x8C ∨ b1.val = 0x8A) then
        if n - 2 ≥ MIN_STEM_BYTES then n - 2 else n
      else n
    | _ => n
  else n

/-- Function `stem_ru_utf8(tok, &len)` on the buffer `tok` of `*len = tok.length` bytes: the
value left in `*len`. The buffer is never written, so the stemmed token is the
prefix of `tok` of that length. -/
def stem_ru_utf8 (tok : List Byte) : Nat :=
  let n := tok.length
  if n < MIN_STEM_BYTES then n
  else if has_digit_ascii tok then n
  else if ¬ looks_cyrillic_utf8 tok then n
  else
    let n := stem_reflexive tok n
    let n := stem_suffix_loop tok n suffixes
    stem_sign tok n

/-- The stemmed token: the first `stem_ru_utf8 tok` bytes of the buffer. -/
def stem (tok : List Byte) : List Byte :=
  tok.take (stem_ru_utf8 tok)

/-! Source file `lab4/src/tokenize.cpp`. -/

/-- Structure `TokenizeStats` (`lab4/src/tokenize.h`). -/
structure TokenizeStats where
  bytes_in : Nat
  tokens_out : Nat
  token_chars_sum : Nat
deriving DecidableEq

/-- The state of `tokenize_file_to_stream_ex` between two steps: the output stream
`out`, as the list of the tokens written so far (each written token is followed by one
newline byte on the stream), the token buffer `tok` (`tok_len` is its length), the counter
`tok_chars` and the statistics. -/
structure TokState where
  out : List (List Byte)
  tok : List Byte
  tok_chars : Nat
  st : TokenizeStats
deriving DecidableEq

/-- Function `write_token(out, tok, len)`, writes assumed to succeed: nothing is written for
`len == 0`, otherwise the first `len` bytes of `tok` and a newline. -/
def write_token (out : List (List Byte)) (tok : List Byte) (len : Nat) : List (List Byte) :=
  if len = 0 then out else out ++ [tok.take len]

/-- Function `flush_token(out, tok, &tok_len, &tok_chars, st, do_stem)`. -/
def flush_token (s : TokState) (do_stem : Bool) : TokState :=
  if s.tok.length = 0 then s
  else
    let L := if do_stem then stem_ru_utf8 s.tok else s.tok.length
    { out := write_token s.out s.tok L
      tok := []
      tok_chars := 0
      st := { s.st with
        tokens_out := s.st.tokens_out + 1
        token_chars_sum := s.st.token_chars_sum + s.tok_chars } }

/-- The `while (i < n)` loop of `tokenize_file_to_stream_ex`, run for at most `fuel`
iterations; `none` when the fuel runs out before the loop ends. -/
def tokenize_loop (buf : List Byte) (do_stem : Bool) : Nat → Nat → TokState → Option TokState
  | 0, i, s => if i < buf.length then none else some s
  | fuel + 1, i, s =>
    if i < buf.length then
      match utf8_decode_one (buf.drop i) with
      | none => tokenize_loop buf do_stem fuel (i + 1) (flush_token s do_stem)
      | some (cp, used) =>
        if used = 0 then tokenize_loop buf do_stem fuel (i + 1) (flush_token s do_stem)
        else if is_token_char cp then
          let enc := utf8_encode_one (to_lower_basic cp)
          tokenize_loop buf do_stem fuel (i + used)
            { s with tok := s.tok ++ enc, tok_chars := s.tok_chars + 1 }
        else tokenize_loop buf do_stem fuel (i + used) (flush_token s do_stem)
    else some s

/-- Function `tokenize_file_to_stream_ex(input_path, out, st, do_stem)` on a file whose content
is `buf`, with file access and allocation assumed to succeed: the final state (stream
and statistics) after the loop and the last flush. Every iteration advances `i` by at
least one, so `buf.length` iterations suffice. -/
def tokenize_file_to_stream_ex (buf : List Byte) (do_stem : Bool) : Option TokState :=
  (tokenize_loop buf do_stem buf.length 0
    { out := [], tok := [], tok_chars := 0,
      st := { bytes_in := buf.length, tokens_out := 0, token_chars_sum := 0 } }).map
    (fun s => flush_token s do_stem)

/-- The tokens emitted for the document `buf`, in order. -/
def tokens_emitted (buf : List Byte) (do_stem : Bool) : Option (List (List Byte)) :=
  (tokenize_file_to_stream_ex buf do_stem).map (fun s => s.out)

/-- Decoding of a whole buffer into its codepoints with `utf8_decode_one`, for at most
`fuel` codepoints; `none` on a decoding error. -/
def decode_all : Nat → List Byte → Option (List Nat)
  | _, [] => some []
  | 0, _ :: _ => none
  | fuel + 1, b :: rest =>
    match utf8_decode_one (b :: rest) with
    | none => none
    | some (cp, used) =>
      if used = 0 then none
      else (decode_all fuel ((b :: rest).drop used)).map (fun cps => cp :: cps)

/-! Predicates and reference functions used in the statements and proofs. -/

/-- The UTF-8 encoding of a sequence of codepoints. -/
def encode_all : List Nat → List Byte
  | [] => []
  | cp :: cps => utf8_encode_one cp ++ encode_all cps

/-- The bytes are the encoding of a sequence of tokenic codepoints. -/
def IsTokenBytes (t : List Byte) : Prop :=
  ∃ cps : List Nat, (∀ cp ∈ cps, is_token_char cp = true) ∧ t = encode_all cps

/-- The loop invariant of the tokenizer at input offset `n`: the token buffer and all
written tokens are encodings of tokenic codepoints, written tokens are not empty, and
the bytes written plus the bytes pending do not exceed the bytes consumed. -/
def TokInv (s : TokState) (n : Nat) : Prop :=
  IsTokenBytes s.tok ∧ (∀ t ∈ s.out, t ≠ [] ∧ IsTokenBytes t) ∧
    (s.out.map List.length).sum + s.tok.length ≤ n

/-- The buffer has a Cyrillic lead byte (`D0` or `D1`) at index `k`. -/
def CutAt (tok : List Byte) (k : Nat) : Prop :=
  ∃ b, (tok.drop k).head? = some b ∧ (b.val = 0xD0 ∨ b.val = 0xD1)

/-- What one trimming pass may do to the length `n`: nothing, or remove at least two
bytes in front of which at least six remain, the first removed byte being `D0`/`D1`. -/
def Trimmed (tok : List Byte) (n r : Nat) : Prop :=
  r = n ∨ (MIN_STEM_BYTES ≤ r ∧ r + 2 ≤ n ∧ CutAt tok r)

/-- The document body `кот и собака` as UTF-8 bytes. -/
def doc_kot_i_sobaka : List Byte :=
  [0xD0, 0xBA, 0xD0, 0xBE, 0xD1, 0x82, 0x20, 0xD0, 0xB8, 0x20,
   0xD1, 0x81, 0xD0, 0xBE, 0xD0, 0xB1, 0xD0, 0xB0, 0xD0, 0xBA, 0xD0, 0xB0]

/-- The word `армии` as UTF-8 bytes. -/
def word_armii : List Byte :=
  [0xD0, 0xB0, 0xD1, 0x80, 0xD0, 0xBC, 0xD0, 0xB8, 0xD0, 0xB8]

/-! Reference definitions for the tokenizer claims, and the query term reader. -/

/-- The content of a token file (`*.tok`): every token followed by one newline byte. -/
def token_file_bytes : List (List Byte) → List Byte
  | [] => []
  | t :: ts => t ++ 0x0A :: token_file_bytes ts

/-- Reference definition, from the words of the specification: the maximal runs of
tokenic codepoints of a codepoint sequence, in order. The sequence is split at every
non-tokenic codepoint and the empty pieces are dropped. -/
def tokenic_runs (cps : List Nat) : List (List Nat) :=
  (cps.splitOnP (fun c => !is_token_char c)).filter (fun r => !r.isEmpty)

/-- Reference definition, from the words of the specification: a token is a maximal
tokenic run, lower-cased codepoint by codepoint, encoded as UTF-8, and truncated to the
length the stemmer returns when stemming is enabled. -/
def reference_token (do_stem : Bool) (run : List Nat) : List Byte :=
  let t := encode_all (run.map to_lower_basic)
  if do_stem then t.take (stem_ru_utf8 t) else t

/-- Reference definition: the token sequence of a codepoint sequence. -/
def reference_tokens (cps : List Nat) (do_stem : Bool) : List (List Byte) :=
  (tokenic_runs cps).map (reference_token do_stem)

/-- One iteration of the tokenizer loop seen on the decoded codepoint. -/
def cp_step (do_stem : Bool) (s : TokState) (cp : Nat) : TokState :=
  if is_token_char cp then
    { s with tok := s.tok ++ utf8_encode_one (to_lower_basic cp), tok_chars := s.tok_chars + 1 }
  else flush_token s do_stem

/-- The bytes are the encoding of tokenic codepoints that are their own lower case. -/
def IsLowerTokenBytes (t : List Byte) : Prop :=
  ∃ cps : List Nat, (∀ cp ∈ cps, is_token_char cp = true ∧ to_lower_basic cp = cp) ∧
    t = encode_all cps

/-- The codepoints of a token file whose tokens are the encodings of `runs`. -/
def file_codepoints : List (List Nat) → List Nat
  | [] => []
  | r :: rs => r ++ 0x0A :: file_codepoints rs

/-- The loop of `read_term` (`lab7/src/search.cpp`), run for at most `fuel` iterations,
on the state `pos`, `tok` (`len` is its length), `any`; `none` when the fuel runs out
before the loop ends. -/
def read_term_loop (q : List Byte) :
    Nat → Nat → List Byte → Bool → Option (Nat × List Byte × Bool)
  | 0, pos, tok, any => if pos < q.length then none else some (pos, tok, any)
  | fuel + 1, pos, tok, any =>
    if pos < q.length then
      match utf8_decode_one (q.drop pos) with
      | none => some (pos, tok, any)
      | some (cp, used) =>
        if used = 0 then some (pos, tok, any)
        else if ¬ is_token_char cp then some (pos, tok, any)
        else
          read_term_loop q fuel (pos + used) (tok ++ utf8_encode_one (to_lower_basic cp)) true
    else some (pos, tok, any)

/-- Function `read_term(q, n, &i, &out_s, &out_len)` of `lab7/src/search.cpp`, with
allocation assumed to succeed: `none` when the loop runs out of fuel, `some none` for
the result `false`, and `some (some (term, i))` for the result `true` with the term
bytes written to `out_s` (there are `out_len` of them) and the new value of `*i`. Every
iteration advances `pos` by at least one, so `q.length` iterations suffice. -/
def read_term (q : List Byte) (i : Nat) : Option (Option (List Byte × Nat)) :=
  match read_term_loop q q.length i [] false with
  | none => none
  | some (pos, tok, any) =>
    if ¬ any then some none
    else some (some (tok.take (stem_ru_utf8 tok), pos))

/-- The word `Кошка` as UTF-8 bytes. -/
def word_Koshka : List Byte :=
  [0xD0, 0x9A, 0xD0, 0xBE, 0xD1, 0x88, 0xD0, 0xBA, 0xD0, 0xB0]

/-! Source file `lab6/src/indexer.cpp`. -/

/-- Function `fnv1a64(s, n)` of `lab6/src/indexer.cpp`; the arithmetic is that of
`uint64_t`. -/
def fnv1a64 (s : List Byte) : Nat :=
  let h := s.foldl (fun h b => ((h ^^^ b.val) * 1099511628211) % 2 ^ 64) 1469598103934665603
  if h = 0 then 1 else h

/-- Reference definition, from the words of the specification: the standard 64-bit
FNV-1a hash (offset basis 14695981039346656037, prime 1099511628211, arithmetic modulo
`2 ^ 64`) with a result of 0 replaced by 1. -/
def fnv1a64_standard (s : List Byte) : Nat :=
  let h := s.foldl (fun h b => ((h ^^^ b.val) * 1099511628211) % 2 ^ 64) 14695981039346656037
  if h = 0 then 1 else h

/-! The term dictionary of `lab6/src/indexer.cpp`. Sizes, offsets and counts are
natural numbers: they are assumed to fit the C types that hold them (`size_t`, and
`uint32_t` for `off`, `len`, `term_id`, `df` and the document ids), and allocation is
assumed to succeed. A read outside an array and a loop that would not end give `none`. -/

/-- Constant `POST_BLOCK`. -/
def POST_BLOCK : Nat := 32

/-- Structure `TermEntry`. The chain of `PostBlock`s from `first` to `last` is the list
`chain`: each block is the list of its `used` document ids `doc[0..used)`. -/
structure TermEntry where
  hash : Nat
  off : Nat
  len : Nat
  term_id : Nat
  used : Bool
  chain : List (List Nat)
  df : Nat
deriving DecidableEq

/-- A slot as `calloc` leaves it: all fields zero. -/
def TermEntry.zero : TermEntry :=
  { hash := 0, off := 0, len := 0, term_id := 0, used := false, chain := [], df := 0 }

/-- Structure `TermDict`; `pool` is the content `pool.buf[0..pool.len)` of its
`BytePool`. -/
structure TermDict where
  tab : List TermEntry
  cap : Nat
  size : Nat
  pool : List Byte
deriving DecidableEq

/-- The term bytes `pool.buf[e.off .. e.off + e.len)` of an entry. -/
def term_bytes (pool : List Byte) (e : TermEntry) : List Byte :=
  (pool.drop e.off).take e.len

/-- Function `term_equals(d, e, s, n)`: equal lengths, and `memcmp` of the `n` bytes at
`pool.buf + e.off` with `s` gives 0. -/
def term_equals (d : TermDict) (e : TermEntry) (s : List Byte) : Bool :=
  if e.len ≠ s.length then false
  else ((d.pool.drop e.off).take s.length == s)

/-- Function `dict_init(d, cap)`. -/
def dict_init (cap : Nat) : TermDict :=
  { tab := List.replicate cap TermEntry.zero, cap := cap, size := 0, pool := [] }

/-- The loop `while (d->tab[pos].used) pos = (pos + 1) & mask;` of `dict_rehash`, for at
most `fuel` iterations: the position of the first slot that is not in use. -/
def probe_free (tab : List TermEntry) (mask : Nat) : Nat → Nat → Option Nat
  | 0, _ => none
  | fuel + 1, pos =>
    match tab[pos]? with
    | none => none
    | some e =>
      if e.used then probe_free tab mask fuel ((pos + 1) &&& mask)
      else some pos

/-- The `for` loop of `dict_rehash` over the remaining slots of the old table; the state
is the new table and `d->size`. -/
def dict_rehash_loop (mask : Nat) :
    List TermEntry → List TermEntry × Nat → Option (List TermEntry × Nat)
  | [], acc => some acc
  | e :: rest, (nt, size) =>
    if ¬ e.used then dict_rehash_loop mask rest (nt, size)
    else
      match probe_free nt mask nt.length (e.hash &&& mask) with
      | none => none
      | some pos => dict_rehash_loop mask rest (nt.set pos e, size + 1)

/-- Function `dict_rehash(d, new_cap)`. -/
def dict_rehash (d : TermDict) (new_cap : Nat) : Option TermDict :=
  match dict_rehash_loop (new_cap - 1) (d.tab.take d.cap)
      (List.replicate new_cap TermEntry.zero, 0) with
  | none => none
  | some (nt, size) => some { d with tab := nt, cap := new_cap, size := size }

/-- The outcome of the probe loop of `dict_get_or_add`: the term was found with this
`term_id`, or the loop stopped at this free slot. -/
inductive ProbeResult where
  | found (term_id : Nat)
  | free (pos : Nat)
deriving DecidableEq

/-- The loop `while (d->tab[pos].used)` of `dict_get_or_add`, for at most `fuel`
iterations. -/
def dict_probe (d : TermDict) (s : List Byte) (h mask : Nat) : Nat → Nat → Option ProbeResult
  | 0, _ => none
  | fuel + 1, pos =>
    match d.tab[pos]? with
    | none => none
    | some e =>
      if e.used then
        if e.hash = h ∧ term_equals d e s = true then some (ProbeResult.found e.term_id)
        else dict_probe d s h mask fuel ((pos + 1) &&& mask)
      else some (ProbeResult.free pos)

/-- Function `dict_get_or_add(d, s, n, &out_term_id)`: the new dictionary and the term
id written to `out_term_id`. -/
def dict_get_or_add (d : TermDict) (s : List Byte) : Option (TermDict × Nat) :=
  match (if (d.size + 1) * 10 ≥ d.cap * 7 then dict_rehash d (d.cap * 2) else some d) with
  | none => none
  | some d =>
    let h := fnv1a64 s
    let mask := d.cap - 1
    match dict_probe d s h mask d.cap (h &&& mask) with
    | none => none
    | some (ProbeResult.found id) => some (d, id)
    | some (ProbeResult.free pos) =>
      let ne : TermEntry :=
        { hash := h, off := d.pool.length, len := s.length, term_id := d.size, used := true,
          chain := [], df := 0 }
      some ({ d with tab := d.tab.set pos ne, size := d.size + 1, pool := d.pool ++ s }, d.size)

/-- A sequence of `dict_get_or_add` calls: the final dictionary and the ids returned, in
call order. -/
def dict_add_all : TermDict → List (List Byte) → Option (TermDict × List Nat)
  | d, [] => some (d, [])
  | d, s :: rest =>
    match dict_get_or_add d s with
    | none => none
    | some (d1, id) =>
      match dict_add_all d1 rest with
      | none => none
      | some (d2, ids) => some (d2, id :: ids)

/-- Reference definition: the distinct byte strings of a call sequence, in the order of
their first occurrence. -/
def distinct_terms : List (List Byte) → List (List Byte) → List (List Byte)
  | seen, [] => seen
  | seen, s :: rest => if s ∈ seen then distinct_terms seen rest else distinct_terms (seen ++ [s]) rest

/-- A slot of the table is in use. -/
def UsedAt (tab : List TermEntry) (p : Nat) : Prop :=
  ∃ e, tab[p]? = some e ∧ e.used = true

/-- Every entry in use is reachable from its home slot `hash % cap` over slots in use. -/
def PathOK (tab : List TermEntry) : Prop :=
  ∀ p e, tab[p]? = some e → e.used = true →
    ∃ j, j < tab.length ∧ p = (e.hash % tab.length + j) % tab.length ∧
      ∀ i, i < j → UsedAt tab ((e.hash % tab.length + i) % tab.length)

/-- An entry describes the term with its id in the list `terms`. -/
def EntOK (pool : List Byte) (terms : List (List Byte)) (e : TermEntry) : Prop :=
  e.off + e.len ≤ pool.length ∧ terms[e.term_id]? = some (term_bytes pool e) ∧
    e.hash = fnv1a64 (term_bytes pool e)

/-- The dictionary holds exactly the terms `terms`, the term with id `t` being
`terms[t]`. -/
def DictInv (d : TermDict) (terms : List (List Byte)) : Prop :=
  (∃ k, d.cap = 2 ^ k) ∧ d.tab.length = d.cap ∧ d.size = terms.length ∧
    d.size * 10 < d.cap * 7 ∧ terms.Nodup ∧ PathOK d.tab ∧
    ((d.tab.filter (fun e => e.used)).map (fun e => e.term_id)).Perm (List.range d.size) ∧
    ∀ e ∈ d.tab, e.used = true → EntOK d.pool terms e

/-- The entry that `dict_get_or_add` writes for a new term `s`. -/
def new_entry (d : TermDict) (s : List Byte) : TermEntry :=
  { hash := fnv1a64 s, off := d.pool.length, len := s.length, term_id := d.size,
    used := true, chain := [], df := 0 }

/-! Posting lists, the per-document set of term ids and the indexing of one document
(`lab6/src/indexer.cpp`). -/

/-- The document ids of a posting chain read from head to tail. -/
def chain_docs : List (List Nat) → List Nat
  | [] => []
  | b :: rest => b ++ chain_docs rest

/-- Function `postings_append(e, doc_id)`: a new block is linked when there is no last
block or the last block holds `POST_BLOCK` ids; the id is then stored in the last block
and `df` is incremented. -/
def postings_append (e : TermEntry) (doc_id : Nat) : TermEntry :=
  match e.chain.getLast? with
  | none => { e with chain := [[doc_id]], df := e.df + 1 }
  | some b =>
    if b.length = POST_BLOCK then { e with chain := e.chain ++ [[doc_id]], df := e.df + 1 }
    else { e with chain := e.chain.dropLast ++ [b ++ [doc_id]], df := e.df + 1 }

/-- Function `mix32(x)`; the arithmetic is that of `uint32_t`. -/
def mix32 (x : Nat) : Nat :=
  let x := x ^^^ (x >>> 16)
  let x := (x * 0x7feb352d) % 2 ^ 32
  let x := x ^^^ (x >>> 15)
  let x := (x * 0x846ca68b) % 2 ^ 32
  x ^^^ (x >>> 16)

/-- The value `0xFFFFFFFFu` that marks an empty slot of a `DocSet`. -/
def DOCSET_EMPTY : Nat := 0xFFFFFFFF

/-- Structure `DocSet`. -/
structure DocSet where
  tab : List Nat
  cap : Nat
  size : Nat
deriving DecidableEq

/-- The loop `while (s->cap < cap) s->cap <<= 1;` of `docset_init` and `docset_rehash`,
for at most `fuel` iterations. -/
def docset_cap_loop : Nat → Nat → Nat → Option Nat
  | 0, c, need => if c < need then none else some c
  | fuel + 1, c, need => if c < need then docset_cap_loop fuel (c <<< 1) need else some c

/-- Function `docset_init(s, cap)`. -/
def docset_init (cap : Nat) : Option DocSet :=
  match docset_cap_loop cap 1 cap with
  | none => none
  | some c => some { tab := List.replicate c DOCSET_EMPTY, cap := c, size := 0 }

/-- The loop `while (s->tab[pos] != 0xFFFFFFFFu) pos = (pos + 1) & mask;` of
`docset_rehash`, for at most `fuel` iterations. -/
def docset_probe_free (tab : List Nat) (mask : Nat) : Nat → Nat → Option Nat
  | 0, _ => none
  | fuel + 1, pos =>
    match tab[pos]? with
    | none => none
    | some cur =>
      if cur ≠ DOCSET_EMPTY then docset_probe_free tab mask fuel ((pos + 1) &&& mask)
      else some pos

/-- The `for` loop of `docset_rehash` over the remaining slots of the old table. -/
def docset_rehash_loop (mask : Nat) : List Nat → List Nat → Option (List Nat)
  | [], nt => some nt
  | v :: rest, nt =>
    if v = DOCSET_EMPTY then docset_rehash_loop mask rest nt
    else
      match docset_probe_free nt mask nt.length (mix32 v &&& mask) with
      | none => none
      | some pos => docset_rehash_loop mask rest (nt.set pos v)

/-- Function `docset_rehash(s, new_cap)`. -/
def docset_rehash (s : DocSet) (new_cap : Nat) : Option DocSet :=
  match docset_cap_loop new_cap 1 new_cap with
  | none => none
  | some c =>
    match docset_rehash_loop (c - 1) (s.tab.take s.cap) (List.replicate c DOCSET_EMPTY) with
    | none => none
    | some nt => some { s with tab := nt, cap := c }

/-- The loop `while (true)` of `docset_add`, for at most `fuel` iterations: `free pos`
when it stops at the empty slot `pos`, `found term_id` when it meets `term_id`. -/
def docset_probe (tab : List Nat) (term_id mask : Nat) : Nat → Nat → Option ProbeResult
  | 0, _ => none
  | fuel + 1, pos =>
    match tab[pos]? with
    | none => none
    | some cur =>
      if cur = DOCSET_EMPTY then some (ProbeResult.free pos)
      else if cur = term_id then some (ProbeResult.found term_id)
      else docset_probe tab term_id mask fuel ((pos + 1) &&& mask)

/-- Function `docset_add(s, term_id, &inserted_new)`: the new set and `inserted_new`. -/
def docset_add (s : DocSet) (term_id : Nat) : Option (DocSet × Bool) :=
  match (if (s.size + 1) * 10 ≥ s.cap * 7 then docset_rehash s (s.cap * 2) else some s) with
  | none => none
  | some s =>
    let mask := s.cap - 1
    match docset_probe s.tab term_id mask s.cap (mix32 term_id &&& mask) with
    | none => none
    | some (ProbeResult.free pos) =>
      some ({ s with tab := s.tab.set pos term_id, size := s.size + 1 }, true)
    | some (ProbeResult.found _) => some (s, false)

/-- The scan of a token file in `main` (`while (pos <= n)`), for at most `fuel`
iterations: the list of the terms `buf[start .. start + len)` that are passed to
`dict_get_or_add`, in order. A line ends at a newline or at the end of the buffer, one
final carriage return is dropped, and empty lines are skipped. -/
def scan_token_lines (buf : List Byte) :
    Nat → Nat → Nat → List (List Byte) → Option (List (List Byte))
  | 0, pos, _, acc => if pos ≤ buf.length then none else some acc
  | fuel + 1, pos, start, acc =>
    if pos ≤ buf.length then
      if pos = buf.length ∨ buf[pos]? = some 0x0A then
        let len := if pos > start then pos - start else 0
        let len := if len > 0 ∧ buf[start + len - 1]? = some 0x0D then len - 1 else len
        let acc := if len > 0 then acc ++ [(buf.drop start).take len] else acc
        scan_token_lines buf fuel (pos + 1) (pos + 1) acc
      else scan_token_lines buf fuel (pos + 1) start acc
    else some acc

/-- The terms of a token file, in order (empty when the scan does not end, which does
not happen). -/
def doc_token_lines (buf : List Byte) : List (List Byte) :=
  (scan_token_lines buf (buf.length + 1) 0 0 []).getD []

/-- The calls `dict_get_or_add` and `docset_add` made for the terms of one document. -/
def add_terms : TermDict → DocSet → List (List Byte) → Option (TermDict × DocSet)
  | d, ds, [] => some (d, ds)
  | d, ds, s :: rest =>
    match dict_get_or_add d s with
    | none => none
    | some (d1, term_id) =>
      match docset_add ds term_id with
      | none => none
      | some (ds1, _) => add_terms d1 ds1 rest

/-- The loop of `build_entries_by_id` over the remaining slots, `i` being the index of
the first of them. An entry of the result is the index of the table slot its pointer
designates, or `none` while it is not initialised. -/
def build_entries_by_id_loop :
    List TermEntry → Nat → List (Option Nat) → Option (List (Option Nat))
  | [], _, by_id => some by_id
  | e :: rest, i, by_id =>
    if e.used then
      if e.term_id < by_id.length then
        build_entries_by_id_loop rest (i + 1) (by_id.set e.term_id (some i))
      else none
    else build_entries_by_id_loop rest (i + 1) by_id

/-- Function `build_entries_by_id(d)`. -/
def build_entries_by_id (d : TermDict) : Option (List (Option Nat)) :=
  build_entries_by_id_loop (d.tab.take d.cap) 0 (List.replicate d.size none)

/-- The loop of `main` over the slots of the document set: every term id in the set
gets `global_doc_id` appended to the posting chain of its entry `by_id[tid]`. -/
def append_postings (by_id : List (Option Nat)) (global_doc_id : Nat) :
    List TermEntry → List Nat → Option (List TermEntry)
  | tab, [] => some tab
  | tab, tid :: rest =>
    if tid = DOCSET_EMPTY then append_postings by_id global_doc_id tab rest
    else
      match by_id[tid]? with
      | some (some slot) =>
        match tab[slot]? with
        | some e =>
          append_postings by_id global_doc_id (tab.set slot (postings_append e global_doc_id))
            rest
        | none => none
      | _ => none

/-- Structure `DocRec`. -/
structure DocRec where
  source_id : Nat
  page_id : Nat
  title_off : Nat
  title_len : Nat
deriving DecidableEq

/-- The variables of `main` that live across documents: the dictionary and the array
`docs[0 .. docs_count)`. -/
structure IndexState where
  dict : TermDict
  docs : List DocRec
deriving DecidableEq

/-- The body of the document loop of `main` for a token file with content `buf` that
is indexed (its metadata has a non-empty title), `doc` being the record stored for it. -/
def index_document (st : IndexState) (buf : List Byte) (doc : DocRec) : Option IndexState :=
  match docset_init 4096 with
  | none => none
  | some ds =>
    match scan_token_lines buf (buf.length + 1) 0 0 [] with
    | none => none
    | some terms =>
      match add_terms st.dict ds terms with
      | none => none
      | some (d, ds1) =>
        match build_entries_by_id d with
        | none => none
        | some by_id =>
          match append_postings by_id (st.docs.length + 1) d.tab (ds1.tab.take ds1.cap) with
          | none => none
          | some tab => some { dict := { d with tab := tab }, docs := st.docs ++ [doc] }

/-- The document loop of `main` over the indexed token files, in order. -/
def index_documents : IndexState → List (List Byte × DocRec) → Option IndexState
  | st, [] => some st
  | st, (buf, doc) :: rest =>
    match index_document st buf doc with
    | none => none
    | some st1 => index_documents st1 rest

/-- Reference definition: the global ids (counted from `g`) of the documents, given by
their term lists, that contain the term `t`, in ascending order. -/
def ref_postings (t : List Byte) : Nat → List (List (List Byte)) → List Nat
  | _, [] => []
  | g, doc :: rest => if t ∈ doc then g :: ref_postings t (g + 1) rest else ref_postings t (g + 1) rest

/-! Invariants of the document set and of the index under construction. -/

/-- A slot of a document set holds a term id. -/
def DsOcc (tab : List Nat) (p : Nat) : Prop :=
  ∃ v, tab[p]? = some v ∧ v ≠ DOCSET_EMPTY

/-- Every term id of a document set is reachable from its home slot over occupied
slots. -/
def DsPathOK (tab : List Nat) : Prop :=
  ∀ p v, tab[p]? = some v → v ≠ DOCSET_EMPTY →
    ∃ j, j < tab.length ∧ p = (mix32 v % tab.length + j) % tab.length ∧
      ∀ i, i < j → DsOcc tab ((mix32 v % tab.length + i) % tab.length)

/-- The document set holds exactly the term ids `elems`, each once. -/
def DsInv (s : DocSet) (elems : List Nat) : Prop :=
  (∃ k, s.cap = 2 ^ k) ∧ s.tab.length = s.cap ∧ s.size = elems.length ∧
    s.size * 10 < s.cap * 7 ∧ elems.Nodup ∧ (∀ x ∈ elems, x ≠ DOCSET_EMPTY) ∧
    DsPathOK s.tab ∧ (s.tab.filter (fun v => decide (v ≠ DOCSET_EMPTY))).Perm elems

/-- The posting data of an entry agrees with the documents indexed so far, given by
their term lists: the chain lists the ids of the documents that contain the term of the
entry, and `df` is its length. -/
def PostOK (pool : List Byte) (done : List (List (List Byte))) (e : TermEntry) : Prop :=
  chain_docs e.chain = ref_postings (term_bytes pool e) 1 done ∧
    e.df = (chain_docs e.chain).length

/-- The state of the index after the documents with the term lists `done`: the
dictionary holds the terms `terms`, which include every term of those documents, and
every entry in use has the right posting data. -/
def IndexInv (st : IndexState) (terms : List (List Byte)) (done : List (List (List Byte))) :
    Prop :=
  DictInv st.dict terms ∧ st.docs.length = done.length ∧
    (∀ t, t ∈ terms ↔ ∃ doc ∈ done, t ∈ doc) ∧
    ∀ e ∈ st.dict.tab, e.used = true → PostOK st.dict.pool done e

/-- The effect of the posting loop of one document on an entry: the entries in use
whose term id is in `ids` get the document id `g` appended. -/
def bump (ids : List Nat) (g : Nat) (e : TermEntry) : TermEntry :=
  if e.used = true ∧ e.term_id ∈ ids then postings_append e g else e

/-- Function `memcmp` on two byte ranges of the same length: zero when they are equal,
else the difference of the first two bytes that differ, taken as unsigned (the C
standard fixes only the sign). -/
def memcmp : List Byte → List Byte → Int
  | a :: as, b :: bs => if a = b then memcmp as bs else (a.val : Int) - (b.val : Int)
  | _, _ => 0

/-- Function `term_cmp(d, a, b)`. -/
def term_cmp (d : TermDict) (a b : TermEntry) : Int :=
  let m := if a.len < b.len then a.len else b.len
  let c := memcmp ((d.pool.drop a.off).take m) ((d.pool.drop b.off).take m)
  if c ≠ 0 then c
  else if a.len < b.len then -1
  else if a.len > b.len then 1
  else 0

/-- The entry `by_id[id]`, read through the slot index kept for the pointer. -/
def entry_by_id (d : TermDict) (by_id : List (Option Nat)) (id : Nat) : Option TermEntry :=
  match by_id[id]? with
  | some (some slot) => d.tab[slot]?
  | _ => none

/-- The element `ids[i]` for an index of type `int`; `none` outside the array. -/
def getI (ids : List Nat) (i : Int) : Option Nat :=
  if i < 0 then none else ids[i.toNat]?

/-- The loop `while (term_cmp(d, by_id[ids[i]], pivot) < 0) i++;` of `term_qsort`, for
at most `fuel` tests. -/
def qs_scan_up (d : TermDict) (by_id : List (Option Nat)) (pivot : TermEntry)
    (ids : List Nat) : Nat → Int → Option Int
  | 0, _ => none
  | fuel + 1, i =>
    match getI ids i with
    | none => none
    | some x =>
      match entry_by_id d by_id x with
      | none => none
      | some e =>
        if term_cmp d e pivot < 0 then qs_scan_up d by_id pivot ids fuel (i + 1) else some i

/-- The loop `while (term_cmp(d, by_id[ids[j]], pivot) > 0) j--;` of `term_qsort`, for
at most `fuel` tests. -/
def qs_scan_down (d : TermDict) (by_id : List (Option Nat)) (pivot : TermEntry)
    (ids : List Nat) : Nat → Int → Option Int
  | 0, _ => none
  | fuel + 1, j =>
    match getI ids j with
    | none => none
    | some x =>
      match entry_by_id d by_id x with
      | none => none
      | some e =>
        if term_cmp d e pivot > 0 then qs_scan_down d by_id pivot ids fuel (j - 1) else some j

/-- The loop `while (i <= j)` of `term_qsort`, for at most `fuel` iterations: the
array and the final `i` and `j`. -/
def qs_partition (d : TermDict) (by_id : List (Option Nat)) (pivot : TermEntry) :
    Nat → List Nat → Int → Int → Option (List Nat × Int × Int)
  | 0, ids, i, j => if i ≤ j then none else some (ids, i, j)
  | fuel + 1, ids, i, j =>
    if i ≤ j then
      match qs_scan_up d by_id pivot ids (ids.length + 1) i with
      | none => none
      | some i1 =>
        match qs_scan_down d by_id pivot ids (ids.length + 1) j with
        | none => none
        | some j1 =>
          if i1 ≤ j1 then
            match getI ids i1, getI ids j1 with
            | some x, some y =>
              qs_partition d by_id pivot fuel ((ids.set i1.toNat y).set j1.toNat x)
                (i1 + 1) (j1 - 1)
            | _, _ => none
          else qs_partition d by_id pivot fuel ids i1 j1
    else some (ids, i, j)

/-- Function `term_qsort(ids, l, r, d, by_id)`, for at most `fuel` nested rounds of the
loop `while (l < r)`. -/
def term_qsort (d : TermDict) (by_id : List (Option Nat)) :
    Nat → List Nat → Int → Int → Option (List Nat)
  | 0, ids, l, r => if l < r then none else some ids
  | fuel + 1, ids, l, r =>
    if l < r then
      match getI ids (Int.tdiv (l + r) 2) with
      | none => none
      | some pivot_id =>
        match entry_by_id d by_id pivot_id with
        | none => none
        | some pivot =>
          match qs_partition d by_id pivot ids.length ids l r with
          | none => none
          | some (ids1, i, j) =>
            if j - l < r - i then
              match (if l < j then term_qsort d by_id fuel ids1 l j else some ids1) with
              | none => none
              | some ids2 => term_qsort d by_id fuel ids2 i r
            else
              match (if i < r then term_qsort d by_id fuel ids1 i r else some ids1) with
              | none => none
              | some ids2 => term_qsort d by_id fuel ids2 l j
    else some ids

/-- The array `term_ids` of `main` after `term_qsort(term_ids, 0, terms_count - 1, ..)`:
it starts as `0, 1, .., terms_count - 1`. -/
def sorted_term_ids (d : TermDict) (by_id : List (Option Nat)) : Option (List Nat) :=
  term_qsort d by_id d.size (List.range d.size) 0 ((d.size : Int) - 1)

/-- The frame of a sort of `ids[l .. r]`: the array keeps its length and its elements,
is unchanged outside the range, and every element in the range was in the range. -/
def QsFrame (a b : List Nat) (l r : Int) : Prop :=
  b.length = a.length ∧ b.Perm a ∧
  (∀ t : Int, (t < l ∨ r < t) → getI b t = getI a t) ∧
  (∀ (t : Int) (x : Nat), l ≤ t → t ≤ r → getI b t = some x →
    ∃ s : Int, l ≤ s ∧ s ≤ r ∧ getI a s = some x)

/-- The keys of `ids[l .. r]` ascend (not strictly) under the key function `K`. -/
def SortedOn (K : Nat → List Byte) (a : List Nat) (l r : Int) : Prop :=
  ∀ (s t : Int) (x y : Nat), l ≤ s → s < t → t ≤ r →
    getI a s = some x → getI a t = some y → K x ≤ K y

/-- The comparison against the pivot agrees with the order of the keys: every id below
`T` has an entry, and `term_cmp` of that entry and the pivot is negative, positive
exactly when the key is before, after the key `P`. -/
def CmpOK (d : TermDict) (by_id : List (Option Nat)) (K : Nat → List Byte) (T : Nat)
    (pivot : TermEntry) (P : List Byte) : Prop :=
  ∀ x, x < T → ∃ e, entry_by_id d by_id x = some e ∧
    (term_cmp d e pivot < 0 ↔ K x < P) ∧ (term_cmp d e pivot > 0 ↔ P < K x)

/-- The state of the loop `while (i <= j)` of `term_qsort` on `ids[l .. r]` with the
pivot key `P`: the keys left of `i` are at most `P`, the keys right of `j` are at least
`P`, and either nothing has moved yet and the pivot is in the range, or both indices
have moved and, while `i <= j`, each inner scan has an element that stops it. -/
def PartInv (K : Nat → List Byte) (P : List Byte) (l r : Int) (ids : List Nat)
    (i j : Int) : Prop :=
  l ≤ i ∧ j ≤ r ∧ i ≤ r + 1 ∧ l - 1 ≤ j ∧ r < ids.length ∧
  (∀ (t : Int) (x : Nat), l ≤ t → t < i → getI ids t = some x → K x ≤ P) ∧
  (∀ (t : Int) (x : Nat), j < t → t ≤ r → getI ids t = some x → P ≤ K x) ∧
  ((i = l ∧ j = r ∧ ∃ (m : Int) (x : Nat), l ≤ m ∧ m ≤ r ∧ getI ids m = some x ∧ K x = P) ∨
   (l < i ∧ j < r ∧ (i ≤ j →
      (∃ (t : Int) (x : Nat), i ≤ t ∧ t ≤ r ∧ getI ids t = some x ∧ P ≤ K x) ∧
      (∃ (t : Int) (x : Nat), l ≤ t ∧ t ≤ j ∧ getI ids t = some x ∧ K x ≤ P))))

/-- The result of the loop `while (i <= j)` of `term_qsort` on `ids[l .. r]`. -/
def PartOut (K : Nat → List Byte) (P : List Byte) (l r : Int) (ids : List Nat)
    (i j : Int) : Prop :=
  j < i ∧ l < i ∧ j < r ∧ i ≤ r + 1 ∧ l - 1 ≤ j ∧
  (∀ (t : Int) (x : Nat), l ≤ t → t < i → getI ids t = some x → K x ≤ P) ∧
  (∀ (t : Int) (x : Nat), j < t → t ≤ r → getI ids t = some x → P ≤ K x)

/-! The emission of the index file by `main` (`lab6/src/indexer.cpp`). -/

/-- The `n` low bytes of `v`, least significant first. -/
def le_bytes : Nat → Nat → List Byte
  | 0, _ => []
  | n + 1, v => ⟨v % 256, Nat.mod_lt _ (by decide)⟩ :: le_bytes n (v / 256)

/-- Function `wr_u32(f, v)`: the four bytes of the `uint32_t` in the byte order of the
machine, taken to be little-endian, the order `rd_u32` of the reader decodes. -/
def wr_u32 (v : Nat) : List Byte := le_bytes 4 (v % 2 ^ 32)

/-- Function `wr_u64(f, v)`: the eight bytes of the `uint64_t`, least significant
first. -/
def wr_u64 (v : Nat) : List Byte := le_bytes 8 (v % 2 ^ 64)

/-- The entries `by_id[term_ids[si]]` for `si = 0, 1, ..`, in that order. -/
def entries_in_order (d : TermDict) (by_id : List (Option Nat)) :
    List Nat → Option (List TermEntry)
  | [] => some []
  | id :: rest =>
    match entry_by_id d by_id id with
    | none => none
    | some e =>
      match entries_in_order d by_id rest with
      | none => none
      | some es => some (e :: es)

/-- The loop that fills `postings_off`: `postings_off[si] = cur; cur += df * 4`. The
result is the array and the final `cur`, which is `postings_bytes`. -/
def postings_off_loop : List TermEntry → Nat → List Nat × Nat
  | [], cur => ([], cur)
  | e :: rest, cur =>
    let p := postings_off_loop rest (cur + e.df * 4)
    (cur :: p.1, p.2)

/-- One record of the dictionary section: `u32 len`, the term bytes, `u64
postings_off[si]`, `u32 df`, `u32 0`. -/
def dict_record (pool : List Byte) (e : TermEntry) (post_off : Nat) : List Byte :=
  wr_u32 e.len ++ (pool.drop e.off).take e.len ++ wr_u64 post_off ++ wr_u32 e.df ++ wr_u32 0

/-- The loop that writes the dictionary section. -/
def dict_section (pool : List Byte) : List TermEntry → List Nat → List Byte
  | e :: es, o :: os => dict_record pool e o ++ dict_section pool es os
  | _, _ => []

/-- The document ids of one posting chain as written: every block in turn, `u32` each. -/
def chain_bytes : List (List Nat) → List Byte
  | [] => []
  | b :: rest => (b.map wr_u32).flatten ++ chain_bytes rest

/-- The loop that writes the postings section. -/
def postings_section : List TermEntry → List Byte
  | [] => []
  | e :: es => chain_bytes e.chain ++ postings_section es

/-- The loop that fills `doc_off`: `doc_off[id - 1] = rel; rel += 16 + title_len`. -/
def doc_off_loop : List DocRec → Nat → List Nat
  | [], _ => []
  | r :: rest, rel => rel :: doc_off_loop rest (rel + (4 + 4 + 4 + 4 + r.title_len))

/-- One record of the docs section: `u32 id`, `u32 source_id`, `u32 page_id`, `u32
title_len` and the title bytes from the title pool. -/
def doc_record (title_pool : List Byte) (id : Nat) (r : DocRec) : List Byte :=
  wr_u32 id ++ wr_u32 r.source_id ++ wr_u32 r.page_id ++ wr_u32 r.title_len ++
    (title_pool.drop r.title_off).take r.title_len

/-- The loop that writes the records of the docs section, `id` being the id of the
first remaining document. -/
def doc_records (title_pool : List Byte) : List DocRec → Nat → List Byte
  | [], _ => []
  | r :: rest, id => doc_record title_pool id r ++ doc_records title_pool rest (id + 1)

/-- The docs section: `u64 docs_count`, the array `doc_off`, the records. -/
def docs_section (title_pool : List Byte) (docs : List DocRec) : List Byte :=
  wr_u64 docs.length ++ ((doc_off_loop docs 0).map wr_u64).flatten ++
    doc_records title_pool docs 1

/-- The 128 bytes of the header that `main` writes over the placeholder at the start of
the file. -/
def index_header (docs_count terms_count dict_offset dict_bytes postings_offset
    postings_bytes docs_offset docs_bytes : Nat) : List Byte :=
  [0x4D, 0x41, 0x49, 0x49, 0x52, 0x49, 0x44, 0x58] ++ wr_u32 2 ++ wr_u32 0x3 ++
    wr_u64 docs_count ++ wr_u64 terms_count ++ wr_u64 dict_offset ++ wr_u64 dict_bytes ++
    wr_u64 postings_offset ++ wr_u64 postings_bytes ++ wr_u64 docs_offset ++
    wr_u64 docs_bytes ++
    (wr_u64 0 ++ wr_u64 0 ++ wr_u64 0 ++ wr_u64 0 ++ wr_u64 0 ++ wr_u64 0)

/-- The values that `main` computes while it writes the index: the sorted ids, their
entries, the array `postings_off`, `postings_bytes`, and the bytes of the three
sections. -/
structure Emitted where
  term_ids : List Nat
  entries : List TermEntry
  postings_off : List Nat
  postings_bytes : Nat
  dict : List Byte
  postings : List Byte
  docs : List Byte
deriving DecidableEq

/-- The variable `dict_bytes` of `main`. -/
def Emitted.dict_bytes (p : Emitted) : Nat := p.dict.length

/-- The variable `postings_offset` of `main`: the file position after the dictionary
section, which starts at `dict_offset = 128`. -/
def Emitted.postings_offset (p : Emitted) : Nat := 128 + p.dict.length

/-- The variable `docs_offset` of `main`: the file position after the postings. -/
def Emitted.docs_offset (p : Emitted) : Nat := 128 + p.dict.length + p.postings.length

/-- The variable `docs_bytes` of `main`. -/
def Emitted.docs_bytes (p : Emitted) : Nat := p.docs.length

/-- The emission of `main` after the document loop, `title_pool` being the bytes of the
title pool: `build_entries_by_id`, the sort of the ids, the offsets and the sections.
The counts `terms_count = dict.size` and `docs_count` are assumed to fit `uint32_t`. -/
def emit_index (st : IndexState) (title_pool : List Byte) : Option Emitted :=
  match build_entries_by_id st.dict with
  | none => none
  | some by_id =>
    match sorted_term_ids st.dict by_id with
    | none => none
    | some term_ids =>
      match entries_in_order st.dict by_id term_ids with
      | none => none
      | some entries =>
        let po := postings_off_loop entries 0
        some { term_ids := term_ids, entries := entries, postings_off := po.1,
               postings_bytes := po.2,
               dict := dict_section st.dict.pool entries po.1,
               postings := postings_section entries,
               docs := docs_section title_pool st.docs }

/-- The bytes of the index file: the header, then the three sections. -/
def index_file (st : IndexState) (p : Emitted) : List Byte :=
  index_header st.docs.length st.dict.size 128 p.dict_bytes p.postings_offset
    p.postings_bytes p.docs_offset p.docs_bytes ++ p.dict ++ p.postings ++ p.docs

/-- The whole of `main` on the indexed token files, from an empty dictionary of
capacity `2 ^ k` (`main` takes `1 << 20`): the bytes of the file it writes. -/
def build_index (k : Nat) (docs : List (List Byte × DocRec)) (title_pool : List Byte) :
    Option (List Byte) :=
  match index_documents { dict := dict_init (2 ^ k), docs := [] } docs with
  | none => none
  | some st =>
    match emit_index st title_pool with
    | none => none
    | some p => some (index_file st p)

/-- A dictionary of three terms, `c`, `ab` and `a`, added in this order. -/
def dict_three : TermDict :=
  ((dict_add_all (dict_init (2 ^ 4)) [[0x63], [0x61, 0x62], [0x61]]).map Prod.fst).getD
    (dict_init (2 ^ 4))

/-! The reader of the index file (`lab7/src/search.cpp`). A pointer into the file is
the offset from its first byte; a read outside the file gives `none`. -/

/-- Function `rd_u32(p)` at offset `p` of the file. -/
def rd_u32 (buf : List Byte) (p : Nat) : Option Nat :=
  match buf[p]?, buf[p + 1]?, buf[p + 2]?, buf[p + 3]? with
  | some b0, some b1, some b2, some b3 =>
    some (b0.val ||| (b1.val <<< 8) ||| (b2.val <<< 16) ||| (b3.val <<< 24))
  | _, _, _, _ => none

/-- The loop `for (int i = 7; i >= 0; --i) v = (v << 8) | p[i];` of `rd_u64` with
`c = i + 1` iterations left. -/
def rd_u64_loop (buf : List Byte) (p : Nat) : Nat → Nat → Option Nat
  | 0, v => some v
  | i + 1, v =>
    match buf[p + i]? with
    | none => none
    | some b => rd_u64_loop buf p i (((v <<< 8) % 2 ^ 64) ||| b.val)

/-- Function `rd_u64(p)` at offset `p` of the file. -/
def rd_u64 (buf : List Byte) (p : Nat) : Option Nat := rd_u64_loop buf p 8 0

/-- Structure `IndexView`; the pointers `docs_ptr`, `docs_records_ptr` and
`docs_offs_ptr` are offsets into `base`. -/
structure IndexView where
  base : List Byte
  bytes : Nat
  version : Nat
  flags : Nat
  docs_count : Nat
  terms_count : Nat
  dict_offset : Nat
  dict_bytes : Nat
  postings_offset : Nat
  postings_bytes : Nat
  docs_offset : Nat
  docs_bytes : Nat
  dict_term_off : List Nat
  docs_ptr : Nat
  docs_records_ptr : Nat
  docs_offs_ptr : Nat
deriving DecidableEq

/-- The loop of `load_index` that fills `dict_term_off`, with `c` terms left and `off`
the offset of the next record; `none` when it returns false. -/
def load_dict_offs (buf : List Byte) (dict_end : Nat) : Nat → Nat → Option (List Nat)
  | 0, _ => some []
  | c + 1, off =>
    if (off + 4) % 2 ^ 64 > buf.length then none
    else
      match rd_u32 buf off with
      | none => none
      | some tl =>
        let off1 := (off + 4 + tl + 8 + 4 + 4) % 2 ^ 64
        if off1 > dict_end then none
        else
          match load_dict_offs buf dict_end c off1 with
          | none => none
          | some rest => some (off :: rest)

/-- Function `load_index` on the bytes of the file; `none` when it returns false. -/
def load_index (buf : List Byte) : Option IndexView :=
  if buf.length < 128 then none
  else if buf.take 8 ≠ [0x4D, 0x41, 0x49, 0x49, 0x52, 0x49, 0x44, 0x58] then none
  else
    match rd_u32 buf 8, rd_u32 buf 12, rd_u64 buf 16, rd_u64 buf 24, rd_u64 buf 32,
      rd_u64 buf 40, rd_u64 buf 48, rd_u64 buf 56, rd_u64 buf 64, rd_u64 buf 72 with
    | some version, some flags, some docs_count, some terms_count, some dict_offset,
      some dict_bytes, some postings_offset, some postings_bytes, some docs_offset,
      some docs_bytes =>
      if (dict_offset + dict_bytes) % 2 ^ 64 > buf.length then none
      else if (postings_offset + postings_bytes) % 2 ^ 64 > buf.length then none
      else if (docs_offset + docs_bytes) % 2 ^ 64 > buf.length then none
      else
        match load_dict_offs buf ((dict_offset + dict_bytes) % 2 ^ 64) terms_count
          dict_offset with
        | none => none
        | some offs =>
          if docs_bytes < 8 then none
          else
            some { base := buf, bytes := buf.length, version := version, flags := flags,
                   docs_count := docs_count, terms_count := terms_count,
                   dict_offset := dict_offset, dict_bytes := dict_bytes,
                   postings_offset := postings_offset, postings_bytes := postings_bytes,
                   docs_offset := docs_offset, docs_bytes := docs_bytes,
                   dict_term_off := offs, docs_ptr := docs_offset,
                   docs_offs_ptr := docs_offset + 8,
                   docs_records_ptr := docs_offset + 8 + 8 * docs_count }
    | _, _, _, _, _, _, _, _, _, _ => none

/-- Function `term_cmp_bytes(a, alen, b, blen)` on two byte strings. -/
def term_cmp_bytes (a b : List Byte) : Int :=
  let m := if a.length < b.length then a.length else b.length
  let c := memcmp (a.take m) (b.take m)
  if c ≠ 0 then c
  else if a.length < b.length then -1
  else if a.length > b.length then 1
  else 0

/-- The loop `while (lo <= hi)` of `dict_find`, for at most `fuel` iterations: `some
(some (p_off, df))` when the term is found, `some none` when `dict_find` returns false,
`none` for a read outside the file or the offset array; the `tl` term bytes of the
record that `term_cmp_bytes` is given are counted as read. -/
def dict_find_loop (iv : IndexView) (term : List Byte) :
    Nat → Int → Int → Option (Option (Nat × Nat))
  | 0, lo, hi => if lo ≤ hi then none else some none
  | fuel + 1, lo, hi =>
    if lo ≤ hi then
      let mid := Int.tdiv (lo + hi) 2
      match getI iv.dict_term_off mid with
      | none => none
      | some off =>
        match rd_u32 iv.base off with
        | none => none
        | some tl =>
          if off + 4 + tl ≤ iv.base.length then
            let c := term_cmp_bytes term ((iv.base.drop (off + 4)).take tl)
            if c = 0 then
              match rd_u64 iv.base (off + 4 + tl), rd_u32 iv.base (off + 4 + tl + 8) with
              | some p_off, some df => some (some (p_off, df))
              | _, _ => none
            else if c < 0 then dict_find_loop iv term fuel lo (mid - 1)
            else dict_find_loop iv term fuel (mid + 1) hi
          else none
    else some none

/-- Function `dict_find(iv, term, term_len, &post_off_rel, &df)`. -/
def dict_find (iv : IndexView) (term : List Byte) : Option (Option (Nat × Nat)) :=
  dict_find_loop iv term (iv.terms_count + 1) 0 ((iv.terms_count : Int) - 1)

/-- The loop of `load_postings`: `a[i] = rd_u32(p + 4 * i)` for `i = i0 .. i0 + c - 1`. -/
def load_postings_loop (buf : List Byte) (p : Nat) : Nat → Nat → Option (List Nat)
  | 0, _ => some []
  | c + 1, i =>
    match rd_u32 buf (p + 4 * i) with
    | none => none
    | some v =>
      match load_postings_loop buf p c (i + 1) with
      | none => none
      | some rest => some (v :: rest)

/-- Function `load_postings(iv, post_off_rel, df)`: `some none` when it returns the
null pointer, `none` for a read outside the file. -/
def load_postings (iv : IndexView) (post_off_rel df : Nat) : Option (Option (List Nat)) :=
  let abs := (iv.postings_offset + post_off_rel) % 2 ^ 64
  let need := (abs + df * 4) % 2 ^ 64
  if need > iv.bytes then some none
  else
    match load_postings_loop iv.base abs df 0 with
    | none => none
    | some a => some (some a)

/-- The outputs of `get_doc_meta_v2`; `title` is the offset of the title in the file. -/
structure DocMeta where
  source_id : Nat
  page_id : Nat
  title : Nat
  title_len : Nat
deriving DecidableEq

/-- The pointer `offs_p` of `get_doc_meta_v2`, where the 8 bytes of the record offset
are read. -/
def doc_offs_p (iv : IndexView) (doc_id : Nat) : Nat := iv.docs_offs_ptr + 8 * (doc_id - 1)

/-- The pointer `rec` of `get_doc_meta_v2`, where the 16 bytes of the four fields are
read; the title follows them. -/
def doc_rec_p (iv : IndexView) (rel : Nat) : Nat := iv.docs_records_ptr + rel

/-- Function `get_doc_meta_v2(iv, doc_id, ..)`: `some none` when it returns false,
`none` for a read outside the file. The field `rid` is read and dropped. -/
def get_doc_meta_v2 (iv : IndexView) (doc_id : Nat) : Option (Option DocMeta) :=
  if doc_id = 0 ∨ doc_id > iv.docs_count % 2 ^ 32 then some none
  else
    match rd_u64 iv.base (doc_offs_p iv doc_id) with
    | none => none
    | some rel =>
      match rd_u32 iv.base (doc_rec_p iv rel + 0), rd_u32 iv.base (doc_rec_p iv rel + 4),
        rd_u32 iv.base (doc_rec_p iv rel + 8), rd_u32 iv.base (doc_rec_p iv rel + 12) with
      | some _, some sid, some pid, some tl =>
        some (some { source_id := sid, page_id := pid, title := doc_rec_p iv rel + 16,
                     title_len := tl })
      | _, _, _, _ => none

/-- The bytes `s` stand at offset `p` of `buf`. -/
def At (buf : List Byte) (p : Nat) (s : List Byte) : Prop := s <+: buf.drop p

/-- The offsets of the records of a dictionary section that starts at `off`. -/
def record_offsets : Nat → List TermEntry → List Nat
  | _, [] => []
  | off, e :: es => off :: record_offsets (off + (4 + e.len + 8 + 4 + 4)) es

/-- The sizes of a corpus fit the C types of the writer and the reader: at most `N`
distinct terms with `N` below the mark `0xFFFFFFFF`, terms of at most `L` bytes and
document ids that fit `uint32_t`, records whose fields fit `uint32_t` and whose title
lies in the title pool, and a file shorter than `2 ^ 64` bytes. -/
def SizesFit (N L : Nat) (docs : List (List Byte × DocRec)) (title_pool : List Byte) : Prop :=
  (∀ ts : List (List Byte), ts.Nodup →
    (∀ t ∈ ts, ∃ d ∈ docs, t ∈ doc_token_lines d.1) → ts.length ≤ N) ∧
  N < 0xFFFFFFFF ∧
  (∀ d ∈ docs, ∀ t ∈ doc_token_lines d.1, t.length ≤ L) ∧
  L < 2 ^ 32 ∧
  docs.length < 2 ^ 32 ∧
  (∀ d ∈ docs, d.2.source_id < 2 ^ 32 ∧ d.2.page_id < 2 ^ 32 ∧ d.2.title_len < 2 ^ 32 ∧
    d.2.title_off + d.2.title_len ≤ title_pool.length) ∧
  128 + N * (20 + L) + 4 * (N * docs.length) + (8 + 8 * docs.length +
    (docs.map (fun d => 16 + d.2.title_len)).sum) < 2 ^ 64

/-- How a call ends that may stop the process: it returns a value (`ret`), or
`die("OOM")` prints the message and calls `exit(1)` (`oom`). -/
inductive Outcome (α : Type) where
  | ret (a : α)
  | oom
deriving DecidableEq, Repr

/-- Function `xrealloc(out, k * sizeof(uint32_t))` on the array `out[0..k)` of a set
operation. For `k = 0` the call is `realloc(out, 0)`, which frees the block and returns
the null pointer (the C library of glibc and the Microsoft C runtime), so that
`if (!q) die("OOM");` ends the process. For `k > 0` the allocation is assumed to
succeed, as is every `malloc`, that of 0 bytes included (it returns a pointer that is
not null in these libraries). -/
def xrealloc (out : List Nat) : Outcome (List Nat) :=
  if out.length = 0 then Outcome.oom else Outcome.ret out

/-- The loop of `op_and`, for at most `fuel` iterations. -/
def op_and_loop (A B : List Nat) : Nat → Nat → Nat → List Nat → Option (List Nat)
  | 0, i, j, out => if i < A.length ∧ j < B.length then none else some out
  | fuel + 1, i, j, out =>
    if i < A.length ∧ j < B.length then
      match A[i]?, B[j]? with
      | some a, some b =>
        if a = b then op_and_loop A B fuel (i + 1) (j + 1) (out ++ [a])
        else if a < b then op_and_loop A B fuel (i + 1) j out
        else op_and_loop A B fuel i (j + 1) out
      | _, _ => none
    else some out

/-- The array `out[0..k)` of `op_and(A, B)` when its loop has ended. Every iteration
advances `i` or `j`, so `A.n + B.n` iterations suffice. -/
def op_and_out (A B : List Nat) : Option (List Nat) :=
  op_and_loop A B (A.length + B.length) 0 0 []

/-- Function `op_and(A, B)`: the loop, then the final `xrealloc`. -/
def op_and (A B : List Nat) : Option (Outcome (List Nat)) :=
  (op_and_out A B).map xrealloc

/-- A loop `while (i < A.n) out[k++] = A.a[i++];`, for at most `fuel` iterations. -/
def copy_rest (A : List Nat) : Nat → Nat → List Nat → Option (List Nat)
  | 0, i, out => if i < A.length then none else some out
  | fuel + 1, i, out =>
    if i < A.length then
      match A[i]? with
      | some a => copy_rest A fuel (i + 1) (out ++ [a])
      | none => none
    else some out

/-- The first loop of `op_or`, for at most `fuel` iterations: the final `i`, `j` and
`out`. -/
def op_or_loop (A B : List Nat) : Nat → Nat → Nat → List Nat → Option (Nat × Nat × List Nat)
  | 0, i, j, out => if i < A.length ∧ j < B.length then none else some (i, j, out)
  | fuel + 1, i, j, out =>
    if i < A.length ∧ j < B.length then
      match A[i]?, B[j]? with
      | some a, some b =>
        if a = b then op_or_loop A B fuel (i + 1) (j + 1) (out ++ [a])
        else if a < b then op_or_loop A B fuel (i + 1) j (out ++ [a])
        else op_or_loop A B fuel i (j + 1) (out ++ [b])
      | _, _ => none
    else some (i, j, out)

/-- The array `out[0..k)` of `op_or(A, B)` when its three loops have ended. -/
def op_or_out (A B : List Nat) : Option (List Nat) :=
  match op_or_loop A B (A.length + B.length) 0 0 [] with
  | none => none
  | some (i, j, out) =>
    match copy_rest A A.length i out with
    | none => none
    | some out1 => copy_rest B B.length j out1

/-- Function `op_or(A, B)`: the loops, then the final `xrealloc`. -/
def op_or (A B : List Nat) : Option (Outcome (List Nat)) :=
  (op_or_out A B).map xrealloc

/-- The first loop of `op_not`, for at most `fuel` iterations: the final `i` and `out`. -/
def op_not_loop (ALL A : List Nat) : Nat → Nat → Nat → List Nat → Option (Nat × List Nat)
  | 0, i, j, out => if i < ALL.length ∧ j < A.length then none else some (i, out)
  | fuel + 1, i, j, out =>
    if i < ALL.length ∧ j < A.length then
      match ALL[i]?, A[j]? with
      | some x, some y =>
        if x = y then op_not_loop ALL A fuel (i + 1) (j + 1) out
        else if x < y then op_not_loop ALL A fuel (i + 1) j (out ++ [x])
        else op_not_loop ALL A fuel i (j + 1) out
      | _, _ => none
    else some (i, out)

/-- The array `out[0..k)` of `op_not(ALL, A)` when its two loops have ended. -/
def op_not_out (ALL A : List Nat) : Option (List Nat) :=
  match op_not_loop ALL A (ALL.length + A.length) 0 0 [] with
  | none => none
  | some (i, out) => copy_rest ALL ALL.length i out

/-- Function `op_not(ALL, A)`: the loops, then the final `xrealloc`. -/
def op_not (ALL A : List Nat) : Option (Outcome (List Nat)) :=
  (op_not_out ALL A).map xrealloc

/-- The list `ALL` of `main`: `ALL.a[i] = i + 1` for `i < n`. -/
def universe_list (n : Nat) : List Nat := (List.range n).map (fun i => i + 1)

/-! The query compiler of `lab7/src/search.cpp`: `tokenize_query` and `to_rpn`. -/

/-- Enumeration `TokType`. -/
inductive TokType where
  | T_END
  | T_TERM
  | T_AND
  | T_OR
  | T_NOT
  | T_LP
  | T_RP
deriving DecidableEq, Repr

/-- Structure `Tok`: the type and the `len` bytes at `s` (none for a null pointer). -/
structure Tok where
  t : TokType
  s : List Byte
deriving DecidableEq, Repr

/-- The token `Tok{t, nullptr, 0}`. -/
def Tok.op (t : TokType) : Tok := { t := t, s := [] }

/-- Function `is_space(c)` of `lab7/src/search.cpp`. -/
def is_space (c : Byte) : Bool :=
  c = 0x20 || c = 0x09 || c = 0x0D || c = 0x0A

/-- The statement `if (prev == T_TERM || prev == T_RP) ta_push(out, Tok{T_AND, nullptr, 0});`
of `tokenize_query`. -/
def push_implicit_and (prev : TokType) (out : List Tok) : List Tok :=
  if prev = TokType.T_TERM ∨ prev = TokType.T_RP then out ++ [Tok.op TokType.T_AND] else out

/-- The loop `while (i < n)` of `tokenize_query`, for at most `fuel` iterations, on the
state `i`, `prev`, `out`. -/
def tokenize_query_loop (q : List Byte) : Nat → Nat → TokType → List Tok → Option (List Tok)
  | 0, i, _, out => if i < q.length then none else some out
  | fuel + 1, i, prev, out =>
    if i < q.length then
      match q[i]? with
      | none => none
      | some c =>
        if is_space c then tokenize_query_loop q fuel (i + 1) prev out
        else if c = 0x28 then
          tokenize_query_loop q fuel (i + 1) TokType.T_LP
            (push_implicit_and prev out ++ [Tok.op TokType.T_LP])
        else if c = 0x29 then
          tokenize_query_loop q fuel (i + 1) TokType.T_RP (out ++ [Tok.op TokType.T_RP])
        else if c = 0x21 then
          tokenize_query_loop q fuel (i + 1) TokType.T_NOT
            (push_implicit_and prev out ++ [Tok.op TokType.T_NOT])
        else if c = 0x26 ∧ i + 1 < q.length ∧ q[i + 1]? = some 0x26 then
          tokenize_query_loop q fuel (i + 2) TokType.T_AND (out ++ [Tok.op TokType.T_AND])
        else if c = 0x7C ∧ i + 1 < q.length ∧ q[i + 1]? = some 0x7C then
          tokenize_query_loop q fuel (i + 2) TokType.T_OR (out ++ [Tok.op TokType.T_OR])
        else
          match read_term q i with
          | none => none
          | some none => tokenize_query_loop q fuel (i + 1) prev (push_implicit_and prev out)
          | some (some (s, pos)) =>
            tokenize_query_loop q fuel pos TokType.T_TERM
              (push_implicit_and prev out ++ [{ t := TokType.T_TERM, s := s }])
    else some out

/-- Function `tokenize_query(q, n, out)`. Every iteration advances `i`, so `n`
iterations suffice. -/
def tokenize_query (q : List Byte) : Option (List Tok) :=
  match tokenize_query_loop q q.length 0 TokType.T_END [] with
  | none => none
  | some out => some (out ++ [Tok.op TokType.T_END])

/-- Function `prec(t)`. -/
def prec (t : TokType) : Nat :=
  if t = TokType.T_NOT then 3
  else if t = TokType.T_AND then 2
  else if t = TokType.T_OR then 1
  else 0

/-- Function `is_op(t)`. -/
def is_op (t : TokType) : Bool :=
  t = TokType.T_NOT || t = TokType.T_AND || t = TokType.T_OR

/-- Function `right_assoc(t)`. -/
def right_assoc (t : TokType) : Bool := t = TokType.T_NOT

/-- The loop `while (ops.n && ts_top(&ops) != T_LP)` of `to_rpn` for a `)`: the stack,
top first, and the output. -/
def pop_to_lp : List TokType → List Tok → List TokType × List Tok
  | [], out => ([], out)
  | top :: ops, out =>
    if top ≠ TokType.T_LP then pop_to_lp ops (out ++ [Tok.op top]) else (top :: ops, out)

/-- The loop `while (ops.n && is_op(ts_top(&ops)))` of `to_rpn` for the operator `t`. -/
def pop_ops (t : TokType) : List TokType → List Tok → List TokType × List Tok
  | [], out => ([], out)
  | top :: ops, out =>
    if is_op top then
      if (right_assoc t ∧ prec t < prec top) ∨ (¬ right_assoc t ∧ prec t ≤ prec top) then
        pop_ops t ops (out ++ [Tok.op top])
      else (top :: ops, out)
    else (top :: ops, out)

/-- The loop `while (ops.n)` at the end of `to_rpn`. -/
def pop_all : List TokType → List Tok → List Tok
  | [], out => out
  | t :: ops, out => if t ≠ TokType.T_LP then pop_all ops (out ++ [Tok.op t]) else pop_all ops out

/-- The loop `for (i = 0; i < in->n; ++i)` of `to_rpn` over the remaining tokens: the
operator stack, top first, and the output when the loop ends. -/
def to_rpn_loop : List Tok → List TokType → List Tok → List TokType × List Tok
  | [], ops, out => (ops, out)
  | tk :: rest, ops, out =>
    if tk.t = TokType.T_END then (ops, out)
    else if tk.t = TokType.T_TERM then
      to_rpn_loop rest ops (out ++ [{ t := TokType.T_TERM, s := tk.s }])
    else if tk.t = TokType.T_LP then to_rpn_loop rest (TokType.T_LP :: ops) out
    else if tk.t = TokType.T_RP then
      match pop_to_lp ops out with
      | (top :: ops1, out1) =>
        if top = TokType.T_LP then to_rpn_loop rest ops1 out1
        else to_rpn_loop rest (top :: ops1) out1
      | ([], out1) => to_rpn_loop rest [] out1
    else if is_op tk.t then
      match pop_ops tk.t ops out with
      | (ops1, out1) => to_rpn_loop rest (tk.t :: ops1) out1
    else to_rpn_loop rest ops out

/-- Function `to_rpn(in, out)`. -/
def to_rpn (ts : List Tok) : List Tok :=
  match to_rpn_loop ts [] [] with
  | (ops, out) => pop_all ops out ++ [Tok.op TokType.T_END]

/-! The grammar of queries, for the statement about `to_rpn`. -/

/-- Reference definition: the parse trees of the grammar `E ::= E OR T | T`,
`T ::= T AND F | F`, `F ::= NOT F | TERM | ( E )`; the index is 1 for `E`, 2 for `T`
and 3 for `F`. -/
inductive PTree : Nat → Type where
  | term (s : List Byte) : PTree 3
  | paren (e : PTree 1) : PTree 3
  | not (f : PTree 3) : PTree 3
  | ofF (f : PTree 3) : PTree 2
  | and (t : PTree 2) (f : PTree 3) : PTree 2
  | ofT (t : PTree 2) : PTree 1
  | or (e : PTree 1) (t : PTree 2) : PTree 1

/-- Reference definition: the token sequence that a parse tree derives. -/
def PTree.tokens : {n : Nat} → PTree n → List Tok
  | _, PTree.term s => [{ t := TokType.T_TERM, s := s }]
  | _, PTree.paren e => Tok.op TokType.T_LP :: (e.tokens ++ [Tok.op TokType.T_RP])
  | _, PTree.not f => Tok.op TokType.T_NOT :: f.tokens
  | _, PTree.ofF f => f.tokens
  | _, PTree.and t f => t.tokens ++ Tok.op TokType.T_AND :: f.tokens
  | _, PTree.ofT t => t.tokens
  | _, PTree.or e t => e.tokens ++ Tok.op TokType.T_OR :: t.tokens

/-- Reference definition: the post-order traversal of a parse tree, operands before
their operator; parentheses and unit productions leave no token. -/
def PTree.postorder : {n : Nat} → PTree n → List Tok
  | _, PTree.term s => [{ t := TokType.T_TERM, s := s }]
  | _, PTree.paren e => e.postorder
  | _, PTree.not f => f.postorder ++ [Tok.op TokType.T_NOT]
  | _, PTree.ofF f => f.postorder
  | _, PTree.and t f => t.postorder ++ f.postorder ++ [Tok.op TokType.T_AND]
  | _, PTree.ofT t => t.postorder
  | _, PTree.or e t => e.postorder ++ t.postorder ++ [Tok.op TokType.T_OR]

/-- The top of the operator stack does not bind as tightly as an operator of level `n`
(no condition for level 3). -/
def TopOK (n : Nat) (S : List TokType) : Prop :=
  n = 3 ∨ ∀ t, S.head? = some t → is_op t = true → prec t < n

/-! The query evaluator of `lab7/src/search.cpp`, and the dictionary entries of a loaded
index as the reader sees them. -/

/-- The entry of the dictionary section at offset `off` of a loaded index, as `dict_find`
reads it: the `tl` term bytes after the length field, then `posting_offset` and `df`;
`none` when a part of it is outside the file. -/
def dict_entry_at (iv : IndexView) (off : Nat) : Option (List Byte × Nat × Nat) :=
  match rd_u32 iv.base off with
  | none => none
  | some tl =>
    if off + 4 + tl ≤ iv.base.length then
      match rd_u64 iv.base (off + 4 + tl), rd_u32 iv.base (off + 4 + tl + 8) with
      | some p_off, some df => some ((iv.base.drop (off + 4)).take tl, p_off, df)
      | _, _ => none
    else none

/-- The dictionary entries of a loaded index, in the order of `dict_term_off`. -/
def dict_entries (iv : IndexView) : List (List Byte × Nat × Nat) :=
  iv.dict_term_off.filterMap (dict_entry_at iv)

/-- Function `list_from_term(iv, term, len)`: the empty list when `dict_find` returns
false or `df` is 0. The result is `none` for a read outside the file and for the list
`List{nullptr, df}` that the source builds when `load_postings` returns the null
pointer. -/
def list_from_term (iv : IndexView) (term : List Byte) : Option (List Nat) :=
  match dict_find iv term with
  | none => none
  | some none => some []
  | some (some (off, df)) =>
    if df = 0 then some []
    else
      match load_postings iv off df with
      | some (some a) => some a
      | _ => none

/-- The end of `eval_rpn`: the empty list unless the stack holds exactly one list. -/
def eval_rpn_finish : List (List Nat) → List Nat
  | [out] => out
  | _ => []

/-- The loop of `eval_rpn` over the remaining tokens, with the stack of lists, top
first; `none` when a lookup reads outside the file, `oom` when a set operation ends
the process. -/
def eval_rpn_loop (iv : IndexView) (ALL : List Nat) :
    List Tok → List (List Nat) → Option (Outcome (List Nat))
  | [], st => some (Outcome.ret (eval_rpn_finish st))
  | tk :: rest, st =>
    if tk.t = TokType.T_END then some (Outcome.ret (eval_rpn_finish st))
    else if tk.t = TokType.T_TERM then
      match list_from_term iv tk.s with
      | none => none
      | some l => eval_rpn_loop iv ALL rest (l :: st)
    else if tk.t = TokType.T_NOT then
      match st with
      | [] => some (Outcome.ret [])
      | A :: st1 =>
        match op_not ALL A with
        | none => none
        | some Outcome.oom => some Outcome.oom
        | some (Outcome.ret R) => eval_rpn_loop iv ALL rest (R :: st1)
    else if tk.t = TokType.T_AND ∨ tk.t = TokType.T_OR then
      match st with
      | B :: A :: st1 =>
        match (if tk.t = TokType.T_AND then op_and A B else op_or A B) with
        | none => none
        | some Outcome.oom => some Outcome.oom
        | some (Outcome.ret R) => eval_rpn_loop iv ALL rest (R :: st1)
      | _ => some (Outcome.ret [])
    else eval_rpn_loop iv ALL rest st

/-- Function `eval_rpn(iv, rpn, ALL)`. -/
def eval_rpn (iv : IndexView) (rpn : List Tok) (ALL : List Nat) :
    Option (Outcome (List Nat)) :=
  eval_rpn_loop iv ALL rpn []

/-- Reference definition: the number of lists on the stack after a postfix sequence,
from `h` lists; `none` when a `NOT` finds no operand or an `AND` or `OR` finds fewer
than two. The sequence ends at its first `T_END`. -/
def stack_height : List Tok → Nat → Option Nat
  | [], h => some h
  | tk :: rest, h =>
    if tk.t = TokType.T_END then some h
    else if tk.t = TokType.T_TERM then stack_height rest (h + 1)
    else if tk.t = TokType.T_NOT then (if h < 1 then none else stack_height rest h)
    else if tk.t = TokType.T_AND ∨ tk.t = TokType.T_OR then
      (if h < 2 then none else stack_height rest (h - 1))
    else stack_height rest h

/-- A file of 136 bytes whose header declares `dict_offset = 2 ^ 64 - 1` and
`dict_bytes = 1`, no terms, no documents, and a docs section of 8 bytes at 128. -/
def wrapped_file : List Byte := index_header 0 0 (2 ^ 64 - 1) 1 128 0 128 8 ++ wr_u64 0

/-- The query `cat # dog`. -/
def query_cat_hash_dog : List Byte := [0x63, 0x61, 0x74, 0x20, 0x23, 0x20, 0x64, 0x6F, 0x67]

/-- The query `cat dog`. -/
def query_cat_dog : List Byte := [0x63, 0x61, 0x74, 0x20, 0x64, 0x6F, 0x67]

/-- The query `cat #`. -/
def query_cat_hash : List Byte := [0x63, 0x61, 0x74, 0x20, 0x23]

/-- The token `TERM cat`. -/
def tok_cat : Tok := { t := TokType.T_TERM, s := [0x63, 0x61, 0x74] }

/-- The token `TERM dog`. -/
def tok_dog : Tok := { t := TokType.T_TERM, s := [0x64, 0x6F, 0x67] }

/-- An index file with the two dictionary entries `a` (posting offset 0, `df` 1) and
`b` (posting offset 4, `df` 2), 12 bytes of postings and a docs section for no
documents. -/
def two_term_file : List Byte :=
  index_header 0 2 128 42 170 12 182 8 ++
    (dict_section [0x61, 0x62]
      [{ hash := 0, off := 0, len := 1, term_id := 0, used := true, chain := [], df := 1 },
       { hash := 0, off := 1, len := 1, term_id := 1, used := true, chain := [], df := 2 }]
      [0, 4]) ++
    (wr_u32 1 ++ wr_u32 1 ++ wr_u32 2) ++ wr_u64 0

/-- The view that `load_index` builds for `two_term_file`. -/
def two_term_view : IndexView :=
  { base := two_term_file, bytes := 190, version := 2, flags := 3, docs_count := 0,
    terms_count := 2, dict_offset := 128, dict_bytes := 42, postings_offset := 170,
    postings_bytes := 12, docs_offset := 182, docs_bytes := 8, dict_term_off := [128, 149],
    docs_ptr := 182, docs_offs_ptr := 190, docs_records_ptr := 190 }

/-! Reference definitions for the suffix pass of the stemmer, and the tokens that
`to_rpn` reads. -/

/-- Reference definition, from the words of the specification: the first entry of a
table, in table order, that the buffer of current length `n` ends with. -/
def first_matching_suffix (tok : List Byte) (n : Nat) (tbl : List (List Byte)) :
    Option (List Byte) :=
  tbl.find? (fun suf => ends_with tok n suf)

/-- Reference definition, from the words of the specification: the suffix pass looks
at the first matching entry only; it removes that entry when at least `MIN_STEM_BYTES`
bytes remain and leaves the length unchanged otherwise. -/
def suffix_pass_reference (tok : List Byte) (n : Nat) (tbl : List (List Byte)) : Nat :=
  match first_matching_suffix tok n tbl with
  | none => n
  | some suf => if n - suf.length ≥ MIN_STEM_BYTES then n - suf.length else n

/-- The word `стами` as UTF-8 bytes. -/
def word_stami : List Byte :=
  [0xD1, 0x81, 0xD1, 0x82, 0xD0, 0xB0, 0xD0, 0xBC, 0xD0, 0xB8]

/-- The tokens that the loop of `to_rpn` reads: those before the first `T_END`. -/
def tokens_before_end (ts : List Tok) : List Tok :=
  ts.takeWhile (fun tk => decide (tk.t ≠ TokType.T_END))

/-- The tokens of type `T_TERM` of a sequence, in order. -/
def term_tokens (ts : List Tok) : List Tok :=
  ts.filter (fun tk => decide (tk.t = TokType.T_TERM))

/-- The number of tokens of type `o` in a sequence. -/
def count_type (o : TokType) (ts : List Tok) : Nat :=
  (ts.map (fun tk => tk.t)).count o

/-- A sequence of `docset_add` calls: the final set. -/
def docset_add_all : DocSet → List Nat → Option DocSet
  | s, [] => some s
  | s, x :: rest =>
    match docset_add s x with
    | none => none
    | some (s1, _) => docset_add_all s1 rest

/-- The load-factor invariant of a `DocSet`: the capacity is a power of two and the
length of the table, at most `size` slots hold a term id, and `size * 10 < cap * 7`. -/
def DsLoad (s : DocSet) : Prop :=
  (∃ k, s.cap = 2 ^ k) ∧ s.tab.length = s.cap ∧
    (s.tab.filter (fun v => decide (v ≠ DOCSET_EMPTY))).length ≤ s.size ∧
    s.size * 10 < s.cap * 7

/-! The output stage of `lab7/src/search.cpp` and the fields of a `List`. -/

/-- Structure `List` of `lab7/src/search.cpp` (the name is taken here): the pointer `a`,
`none` for the null pointer and otherwise the ids of the array it points to, and the
count `n`. -/
structure PostList where
  a : Option (List Nat)
  n : Nat
deriving DecidableEq

/-- Function `list_from_term(iv, term, len)` with the two fields of the `List` it returns
kept apart: `List{nullptr, 0}` when `dict_find` returns false or `df` is 0, otherwise
`List{p, df}` with `p` the result of `load_postings`, which is not tested; `none` for a
read outside the file. -/
def list_from_term_raw (iv : IndexView) (term : List Byte) : Option PostList :=
  match dict_find iv term with
  | none => none
  | some none => some { a := none, n := 0 }
  | some (some (off, df)) =>
    if df = 0 then some { a := none, n := 0 }
    else
      match load_postings iv off df with
      | none => none
      | some p => some { a := p, n := df }

/-- Function `get_doc_meta_v1(iv, doc_id, ..)`: `some none` when it returns false, `none`
for a read outside the file. The record has no `source_id` field; the value 1 that
`print_results` uses for this version stands in its place. -/
def get_doc_meta_v1 (iv : IndexView) (doc_id : Nat) : Option (Option DocMeta) :=
  if doc_id = 0 ∨ doc_id > iv.docs_count % 2 ^ 32 then some none
  else
    match rd_u64 iv.base (doc_offs_p iv doc_id) with
    | none => none
    | some rel =>
      match rd_u32 iv.base (doc_rec_p iv rel + 4), rd_u32 iv.base (doc_rec_p iv rel + 8) with
      | some pid, some tl =>
        some (some { source_id := 1, page_id := pid, title := doc_rec_p iv rel + 12,
                     title_len := tl })
      | _, _ => none

/-- Function `base_url_by_source(source_id)`. -/
def base_url_by_source (source_id : Nat) : String :=
  if source_id = 1 then "https://ru.wikipedia.org/?curid="
  else if source_id = 2 then "https://ru.wikisource.org/?curid="
  else "https://ru.wikipedia.org/?curid="

/-- One result line that `print_results` prints: the document id, the page id, the
title bytes and the base of the URL (the page id follows it on the line). -/
structure ResultRow where
  doc_id : Nat
  page_id : Nat
  title : List Byte
  url : String
deriving DecidableEq

/-- The loop `for (uint32_t i = offset; i < end; ++i)` of `print_results`, for at most
`fuel` iterations, on a result list whose array holds `res`: the rows printed so far.
A document without metadata is skipped (`continue`); `none` for a read outside the
array or the file. -/
def print_results_loop (iv : IndexView) (res : List Nat) (e : Nat) :
    Nat → Nat → List ResultRow → Option (List ResultRow)
  | 0, i, rows => if i < e then none else some rows
  | fuel + 1, i, rows =>
    if i < e then
      match res[i]? with
      | none => none
      | some doc_id =>
        match (if iv.version ≥ 2 then get_doc_meta_v2 iv doc_id
               else get_doc_meta_v1 iv doc_id) with
        | none => none
        | some none => print_results_loop iv res e fuel (i + 1) rows
        | some (some m) =>
          if m.title + m.title_len ≤ iv.base.length then
            print_results_loop iv res e fuel (i + 1)
              (rows ++ [{ doc_id := doc_id, page_id := m.page_id,
                          title := (iv.base.drop m.title).take m.title_len,
                          url := base_url_by_source m.source_id }])
          else none
    else some rows

/-- Function `print_results(iv, res, limit, offset)` on a result list with `n =
res.length`: the `total` of the first line and the rows that follow. The sum
`offset + limit` is that of `uint32_t`. -/
def print_results (iv : IndexView) (res : List Nat) (limit offset : Nat) :
    Option (Nat × List ResultRow) :=
  let total := res.length
  let e0 := (offset + limit) % 2 ^ 32
  let e := if e0 > total then total else e0
  match print_results_loop iv res e (e - offset) offset [] with
  | none => none
  | some rows => some (total, rows)

/-- An index file like `two_term_file` whose entry `b` declares `df = 5` at posting
offset 4: its posting range ends at byte 194 of the 190 bytes of the file. -/
def short_postings_file : List Byte :=
  index_header 0 2 128 42 170 12 182 8 ++
    (dict_section [0x61, 0x62]
      [{ hash := 0, off := 0, len := 1, term_id := 0, used := true, chain := [], df := 1 },
       { hash := 0, off := 1, len := 1, term_id := 1, used := true, chain := [], df := 5 }]
      [0, 4]) ++
    (wr_u32 1 ++ wr_u32 1 ++ wr_u32 2) ++ wr_u64 0

/-- The view that `load_index` builds for `short_postings_file`. -/
def short_postings_view : IndexView :=
  { base := short_postings_file, bytes := 190, version := 2, flags := 3, docs_count := 0,
    terms_count := 2, dict_offset := 128, dict_bytes := 42, postings_offset := 170,
    postings_bytes := 12, docs_offset := 182, docs_bytes := 8, dict_term_off := [128, 149],
    docs_ptr := 182, docs_offs_ptr := 190, docs_records_ptr := 190 }

/-- An index file with no terms and the two documents of `corpus_two` (titles `A` and
`BC`, page ids 10 and 11). -/
def two_doc_file : List Byte :=
  index_header 2 0 128 0 128 0 128 59 ++
    docs_section [0x41, 0x42, 0x43]
      [{ source_id := 1, page_id := 10, title_off := 0, title_len := 1 },
       { source_id := 2, page_id := 11, title_off := 1, title_len := 2 }]

/-- The view that `load_index` builds for `two_doc_file`. -/
def two_doc_view : IndexView :=
  { base := two_doc_file, bytes := 187, version := 2, flags := 3, docs_count := 2,
    terms_count := 0, dict_offset := 128, dict_bytes := 0, postings_offset := 128,
    postings_bytes := 0, docs_offset := 128, docs_bytes := 59, dict_term_off := [],
    docs_ptr := 128, docs_offs_ptr := 136, docs_records_ptr := 152 }

/-! The scenario of the specification: the documents `кот и собака` and `кошка`. -/

/-- The term `кот`. -/
def term_kot : List Byte := [0xD0, 0xBA, 0xD0, 0xBE, 0xD1, 0x82]

/-- The term `и`. -/
def term_i : List Byte := [0xD0, 0xB8]

/-- The term `собак`. -/
def term_sobak : List Byte := [0xD1, 0x81, 0xD0, 0xBE, 0xD0, 0xB1, 0xD0, 0xB0, 0xD0, 0xBA]

/-- The term `кошк`. -/
def term_koshk : List Byte := [0xD0, 0xBA, 0xD0, 0xBE, 0xD1, 0x88, 0xD0, 0xBA]

/-- The document body `кошка` as UTF-8 bytes. -/
def doc_koshka : List Byte := [0xD0, 0xBA, 0xD0, 0xBE, 0xD1, 0x88, 0xD0, 0xBA, 0xD0, 0xB0]

/-- The two token files of the scenario, one term per line, with their records. -/
def scenario_corpus : List (List Byte × DocRec) :=
  [(token_file_bytes [term_kot, term_i, term_sobak],
      { source_id := 1, page_id := 10, title_off := 0, title_len := 1 }),
   (token_file_bytes [term_koshk],
      { source_id := 1, page_id := 11, title_off := 1, title_len := 2 })]

/-- The query `(кот || кошк) && !собак`. -/
def scenario_query : List Byte :=
  [0x28] ++ term_kot ++ [0x20, 0x7C, 0x7C, 0x20] ++ term_koshk ++ [0x29, 0x20, 0x26, 0x26, 0x20,
    0x21] ++ term_sobak

/-! Arithmetic of the bit operations. -/
set_option maxRecDepth 100000 in
theorem byte_lead2_iff : ∀ b : Byte, (b.val &&& 0xE0 = 0xC0) ↔ (192 ≤ b.val ∧ b.val < 224) := by
  decide

set_option maxRecDepth 100000 in
theorem byte_lead3_iff : ∀ b : Byte, (b.val &&& 0xF0 = 0xE0) ↔ (224 ≤ b.val ∧ b.val < 240) := by
  decide

set_option maxRecDepth 100000 in
theorem byte_lead4_iff : ∀ b : Byte, (b.val &&& 0xF8 = 0xF0) ↔ (240 ≤ b.val ∧ b.val < 248) := by
  decide

set_option maxRecDepth 100000 in
theorem byte_cont_iff : ∀ b : Byte, (b.val &&& 0xC0 = 0x80) ↔ (128 ≤ b.val ∧ b.val < 192) := by
  decide

theorem toByte_val (x : Nat) : (toByte x).val = x % 256 := rfl

theorem and_1F (x : Nat) : x &&& 0x1F = x % 32 := Nat.and_pow_two_sub_one_eq_mod x 5
theorem and_3F (x : Nat) : x &&& 0x3F = x % 64 := Nat.and_pow_two_sub_one_eq_mod x 6
theorem and_0F (x : Nat) : x &&& 0x0F = x % 16 := Nat.and_pow_two_sub_one_eq_mod x 4
theorem and_07 (x : Nat) : x &&& 0x07 = x % 8 := Nat.and_pow_two_sub_one_eq_mod x 3

theorem shl_lor (a b i : Nat) (h : b < 2 ^ i) : (a <<< i) ||| b = a * 2 ^ i + b := by
  rw [Nat.shiftLeft_eq, Nat.mul_comm a, Nat.mul_add_lt_is_or h]

theorem lor2 (a b : Nat) (hb : b < 64) : (a <<< 6) ||| b = a * 64 + b :=
  shl_lor a b 6 hb

theorem lor3 (a b c : Nat) (hb : b < 64) (hc : c < 64) :
    (a <<< 12) ||| (b <<< 6) ||| c = a * 4096 + b * 64 + c := by
  have h1 : (a <<< 12) ||| (b <<< 6) = (a * 64 + b) <<< 6 := by
    rw [shl_lor a (b <<< 6) 12 (by rw [Nat.shiftLeft_eq]; omega)]
    simp only [Nat.shiftLeft_eq]; omega
  rw [h1, shl_lor _ c 6 hc]; omega

theorem lor4 (a b c d : Nat) (hb : b < 64) (hc : c < 64) (hd : d < 64) :
    (a <<< 18) ||| (b <<< 12) ||| (c <<< 6) ||| d = a * 262144 + b * 4096 + c * 64 + d := by
  have h1 : (a <<< 18) ||| (b <<< 12) = (a * 64 + b) <<< 12 := by
    rw [shl_lor a (b <<< 12) 18 (by rw [Nat.shiftLeft_eq]; omega)]
    simp only [Nat.shiftLeft_eq]; omega
  rw [h1, lor3 _ c d hc hd]; omega

theorem lor_C0 (x : Nat) (h : x < 32) : 0xC0 ||| x = 192 + x := by
  have := shl_lor 6 x 5 h; simpa using this
theorem lor_80 (x : Nat) (h : x < 64) : 0x80 ||| x = 128 + x := by
  have := shl_lor 2 x 6 h; simpa using this
theorem lor_E0 (x : Nat) (h : x < 16) : 0xE0 ||| x = 224 + x := by
  have := shl_lor 14 x 4 h; simpa using this
theorem lor_F0 (x : Nat) (h : x < 8) : 0xF0 ||| x = 240 + x := by
  have := shl_lor 30 x 3 h; simpa using this

/-! The codec in arithmetic form. -/

theorem utf8_encode_one_arith (cp : Nat) :
    utf8_encode_one cp =
      if cp ≤ 0x7F then [toByte cp]
      else if cp ≤ 0x7FF then [toByte (192 + cp / 64 % 32), toByte (128 + cp % 64)]
      else if cp ≤ 0xFFFF then
        [toByte (224 + cp / 4096 % 16), toByte (128 + cp / 64 % 64), toByte (128 + cp % 64)]
      else
        [toByte (240 + cp / 262144 % 8), toByte (128 + cp / 4096 % 64),
          toByte (128 + cp / 64 % 64), toByte (128 + cp % 64)] := by
  unfold utf8_encode_one
  simp only [and_1F, and_3F, and_0F, and_07, Nat.shiftRight_eq_div_pow]
  rw [lor_C0 _ (Nat.mod_lt _ (by decide)), lor_80 (cp % 64) (Nat.mod_lt _ (by decide)),
    lor_80 (cp / 2 ^ 6 % 64) (Nat.mod_lt _ (by decide)),
    lor_80 (cp / 2 ^ 12 % 64) (Nat.mod_lt _ (by decide)),
    lor_E0 _ (Nat.mod_lt _ (by decide)), lor_F0 _ (Nat.mod_lt _ (by decide))]

theorem utf8_decode_one_arith (b0 : Byte) (rest : List Byte) :
    utf8_decode_one (b0 :: rest) =
      if b0.val < 128 then some (b0.val, 1)
      else if 192 ≤ b0.val ∧ b0.val < 224 then
        match rest with
        | b1 :: _ =>
          if ¬ (128 ≤ b1.val ∧ b1.val < 192) then none
          else if b0.val % 32 * 64 + b1.val % 64 < 128 then none
          else some (b0.val % 32 * 64 + b1.val % 64, 2)
        | _ => none
      else if 224 ≤ b0.val ∧ b0.val < 240 then
        match rest with
        | b1 :: b2 :: _ =>
          if ¬ (128 ≤ b1.val ∧ b1.val < 192) ∨ ¬ (128 ≤ b2.val ∧ b2.val < 192) then none
          else if b0.val % 16 * 4096 + b1.val % 64 * 64 + b2.val % 64 < 2048 then none
          else some (b0.val % 16 * 4096 + b1.val % 64 * 64 + b2.val % 64, 3)
        | _ => none
      else if 240 ≤ b0.val ∧ b0.val < 248 then
        match rest with
        | b1 :: b2 :: b3 :: _ =>
          if ¬ (128 ≤ b1.val ∧ b1.val < 192) ∨ ¬ (128 ≤ b2.val ∧ b2.val < 192) ∨
              ¬ (128 ≤ b3.val ∧ b3.val < 192) then none
          else if b0.val % 8 * 262144 + b1.val % 64 * 4096 + b2.val % 64 * 64 + b3.val % 64
                < 65536 ∨
              b0.val % 8 * 262144 + b1.val % 64 * 4096 + b2.val % 64 * 64 + b3.val % 64
                > 1114111 then none
          else some (b0.val % 8 * 262144 + b1.val % 64 * 4096 + b2.val % 64 * 64 + b3.val % 64, 4)
        | _ => none
      else none := by
  unfold utf8_decode_one
  simp only [byte_lead2_iff, byte_lead3_iff, byte_lead4_iff, byte_cont_iff, ne_eq,
    and_1F, and_3F, and_0F, and_07]
  have m64 : ∀ x : Nat, x % 64 < 64 := fun x => Nat.mod_lt _ (by decide)
  simp only [lor2 _ _ (m64 _), lor3 _ _ _ (m64 _) (m64 _), lor4 _ _ _ _ (m64 _) (m64 _) (m64 _)]

theorem decode_encode_append (cp : Nat) (h : cp ≤ 0x10FFFF) (rest : List Byte) :
    utf8_decode_one (utf8_encode_one cp ++ rest) = some (cp, (utf8_encode_one cp).length) := by
  rw [utf8_encode_one_arith]
  split_ifs with h1 h2 h3
  · simp only [List.cons_append, List.nil_append, utf8_decode_one_arith, toByte_val, List.length]
    rw [if_pos (by omega)]
    congr 2; omega
  · simp only [List.cons_append, List.nil_append, utf8_decode_one_arith, toByte_val, List.length]
    rw [if_neg (by omega), if_pos (by omega)]
    rw [if_neg (by omega), if_neg (by omega)]
    congr 2; omega
  · simp only [List.cons_append, List.nil_append, utf8_decode_one_arith, toByte_val, List.length]
    rw [if_neg (by omega), if_neg (by omega), if_pos (by omega)]
    rw [if_neg (by omega), if_neg (by omega)]
    congr 2; omega
  · simp only [List.cons_append, List.nil_append, utf8_decode_one_arith, toByte_val, List.length]
    rw [if_neg (by omega), if_neg (by omega), if_neg (by omega), if_pos (by omega)]
    rw [if_neg (by omega), if_neg (by omega)]
    congr 2; omega

/-- The four shapes of a successful decoding, in arithmetic form. -/
theorem decode_cases (s : List Byte) (cp used : Nat)
    (h : utf8_decode_one s = some (cp, used)) :
    (∃ b0 rest, s = b0 :: rest ∧ b0.val < 128 ∧ cp = b0.val ∧ used = 1) ∨
    (∃ b0 b1 rest, s = b0 :: b1 :: rest ∧ 192 ≤ b0.val ∧ b0.val < 224 ∧
      128 ≤ b1.val ∧ b1.val < 192 ∧ cp = b0.val % 32 * 64 + b1.val % 64 ∧
      128 ≤ cp ∧ used = 2) ∨
    (∃ b0 b1 b2 rest, s = b0 :: b1 :: b2 :: rest ∧ 224 ≤ b0.val ∧ b0.val < 240 ∧
      128 ≤ b1.val ∧ b1.val < 192 ∧ 128 ≤ b2.val ∧ b2.val < 192 ∧
      cp = b0.val % 16 * 4096 + b1.val % 64 * 64 + b2.val % 64 ∧ 2048 ≤ cp ∧ used = 3) ∨
    (∃ b0 b1 b2 b3 rest, s = b0 :: b1 :: b2 :: b3 :: rest ∧ 240 ≤ b0.val ∧ b0.val < 248 ∧
      128 ≤ b1.val ∧ b1.val < 192 ∧ 128 ≤ b2.val ∧ b2.val < 192 ∧
      128 ≤ b3.val ∧ b3.val < 192 ∧
      cp = b0.val % 8 * 262144 + b1.val % 64 * 4096 + b2.val % 64 * 64 + b3.val % 64 ∧
      65536 ≤ cp ∧ cp ≤ 1114111 ∧ used = 4) := by
  cases s with
  | nil => simp [utf8_decode_one] at h
  | cons b0 rest =>
    rw [utf8_decode_one_arith] at h
    split_ifs at h with h1 h2 h3 h4
    · simp only [Option.some.injEq, Prod.mk.injEq] at h
      exact Or.inl ⟨b0, rest, rfl, h1, h.1.symm, h.2.symm⟩
    · cases rest with
      | nil => simp at h
      | cons b1 tl =>
        simp only at h
        split_ifs at h with h5 h6
        simp only [Option.some.injEq, Prod.mk.injEq] at h
        refine Or.inr (Or.inl ⟨b0, b1, tl, rfl, h2.1, h2.2, ?_, ?_, h.1.symm, ?_, h.2.symm⟩) <;>
          omega
    · match rest, h with
      | [], h => simp at h
      | [_], h => simp at h
      | b1 :: b2 :: tl, h =>
        simp only at h
        split_ifs at h with h5 h6
        simp only [Option.some.injEq, Prod.mk.injEq] at h
        refine Or.inr (Or.inr (Or.inl ⟨b0, b1, b2, tl, rfl, h3.1, h3.2, ?_, ?_, ?_, ?_,
          h.1.symm, ?_, h.2.symm⟩)) <;> omega
    · match rest, h with
      | [], h => simp at h
      | [_], h => simp at h
      | [_, _], h => simp at h
      | b1 :: b2 :: b3 :: tl, h =>
        simp only at h
        split_ifs at h with h5 h6
        simp only [Option.some.injEq, Prod.mk.injEq] at h
        refine Or.inr (Or.inr (Or.inr ⟨b0, b1, b2, b3, tl, rfl, h4.1, h4.2, ?_, ?_, ?_, ?_,
          ?_, ?_, h.1.symm, ?_, ?_, h.2.symm⟩)) <;> omega

theorem toByte_eq_of_val (x : Nat) (b : Byte) (h : x = b.val) : toByte x = b := by
  apply Fin.ext
  rw [toByte_val, h]
  exact Nat.mod_eq_of_lt b.isLt

theorem encode_of_decode (s : List Byte) (cp used : Nat)
    (h : utf8_decode_one s = some (cp, used)) :
    utf8_encode_one cp = s.take used := by
  rw [utf8_encode_one_arith]
  rcases decode_cases s cp used h with
    ⟨b0, rest, rfl, h0, rfl, rfl⟩ |
    ⟨b0, b1, rest, rfl, h0, h0', h1, h1', rfl, hv, rfl⟩ |
    ⟨b0, b1, b2, rest, rfl, h0, h0', h1, h1', h2, h2', rfl, hv, rfl⟩ |
    ⟨b0, b1, b2, b3, rest, rfl, h0, h0', h1, h1', h2, h2', h3, h3', rfl, hv, hv', rfl⟩
  · rw [if_pos (by omega)]
    simp only [List.take_succ_cons, List.take_zero]
    rw [toByte_eq_of_val _ b0 rfl]
  · rw [if_neg (by omega), if_pos (by omega)]
    simp only [List.take_succ_cons, List.take_zero]
    rw [toByte_eq_of_val _ b0 (by omega), toByte_eq_of_val _ b1 (by omega)]
  · rw [if_neg (by omega), if_neg (by omega), if_pos (by omega)]
    simp only [List.take_succ_cons, List.take_zero]
    rw [toByte_eq_of_val _ b0 (by omega), toByte_eq_of_val _ b1 (by omega),
      toByte_eq_of_val _ b2 (by omega)]
  · rw [if_neg (by omega), if_neg (by omega), if_neg (by omega)]
    simp only [List.take_succ_cons, List.take_zero]
    rw [toByte_eq_of_val _ b0 (by omega), toByte_eq_of_val _ b1 (by omega),
      toByte_eq_of_val _ b2 (by omega), toByte_eq_of_val _ b3 (by omega)]

/-- Bounds on the outputs of a successful decoding. -/
theorem decode_bounds (s : List Byte) (cp used : Nat)
    (h : utf8_decode_one s = some (cp, used)) :
    1 ≤ used ∧ used ≤ 4 ∧ used ≤ s.length ∧ cp ≤ 0x10FFFF ∧
      (used = 1 → cp < 0x80) ∧ (used = 2 → 0x80 ≤ cp ∧ cp ≤ 0x7FF) ∧
      (used = 3 → 0x800 ≤ cp ∧ cp ≤ 0xFFFF) ∧ (used = 4 → 0x10000 ≤ cp) := by
  rcases decode_cases s cp used h with
    ⟨b0, rest, rfl, h0, rfl, rfl⟩ |
    ⟨b0, b1, rest, rfl, h0, h0', h1, h1', rfl, hv, rfl⟩ |
    ⟨b0, b1, b2, rest, rfl, h0, h0', h1, h1', h2, h2', rfl, hv, rfl⟩ |
    ⟨b0, b1, b2, b3, rest, rfl, h0, h0', h1, h1', h2, h2', h3, h3', rfl, hv, hv', rfl⟩ <;>
  · simp only [List.length_cons]
    omega

/-- Every byte after the first of a successfully decoded sequence is a continuation
byte. -/
theorem decode_continuation (s : List Byte) (cp used : Nat)
    (h : utf8_decode_one s = some (cp, used)) :
    ∀ b ∈ (s.take used).drop 1, b.val &&& 0xC0 = 0x80 := by
  intro b hb
  rw [byte_cont_iff]
  rcases decode_cases s cp used h with
    ⟨b0, rest, rfl, h0, rfl, rfl⟩ |
    ⟨b0, b1, rest, rfl, h0, h0', h1, h1', rfl, hv, rfl⟩ |
    ⟨b0, b1, b2, rest, rfl, h0, h0', h1, h1', h2, h2', rfl, hv, rfl⟩ |
    ⟨b0, b1, b2, b3, rest, rfl, h0, h0', h1, h1', h2, h2', h3, h3', rfl, hv, hv', rfl⟩
  · simp at hb
  · simp only [List.take_succ_cons, List.take_zero, List.drop_succ_cons, List.drop_zero,
      List.mem_cons, List.mem_nil_iff, or_false] at hb
    subst hb; exact ⟨h1, h1'⟩
  · simp only [List.take_succ_cons, List.take_zero, List.drop_succ_cons, List.drop_zero,
      List.mem_cons, List.mem_nil_iff, or_false] at hb
    rcases hb with rfl | rfl
    · exact ⟨h1, h1'⟩
    · exact ⟨h2, h2'⟩
  · simp only [List.take_succ_cons, List.take_zero, List.drop_succ_cons, List.drop_zero,
      List.mem_cons, List.mem_nil_iff, or_false] at hb
    rcases hb with rfl | rfl | rfl
    · exact ⟨h1, h1'⟩
    · exact ⟨h2, h2'⟩
    · exact ⟨h3, h3'⟩

/-! The stemmer. -/

theorem Trimmed.trans {tok : List Byte} {a b c : Nat} (h1 : Trimmed tok a b)
    (h2 : Trimmed tok b c) : Trimmed tok a c := by
  rcases h1 with rfl | ⟨h1a, h1b, _⟩
  · exact h2
  · rcases h2 with rfl | ⟨h2a, h2b, h2c⟩
    · exact Or.inr ⟨h1a, h1b, by assumption⟩
    · exact Or.inr ⟨h2a, by omega, h2c⟩

theorem stem_reflexive_trimmed (tok : List Byte) (n : Nat) :
    Trimmed tok n (stem_reflexive tok n) := by
  unfold stem_reflexive
  by_cases h : n ≥ 4
  · rw [if_pos h]
    split
    · rename_i e0 e1 e2 e3 tl heq
      by_cases hc : e0.val = 0xD1 ∧ e1.val = 0x81 ∧ e2.val = 0xD1 ∧ (e3.val = 0x8F ∨ e3.val = 0x8C)
      · rw [if_pos hc]
        by_cases h6 : n - 4 ≥ MIN_STEM_BYTES
        · rw [if_pos h6]
          refine Or.inr ⟨h6, by omega, e0, ?_, Or.inr hc.1⟩
          rw [heq]; rfl
        · rw [if_neg h6]; exact Or.inl rfl
      · rw [if_neg hc]; exact Or.inl rfl
    · exact Or.inl rfl
  · rw [if_neg h]; exact Or.inl rfl

theorem stem_sign_trimmed (tok : List Byte) (n : Nat) :
    Trimmed tok n (stem_sign tok n) := by
  unfold stem_sign
  by_cases h : n ≥ 2
  · rw [if_pos h]
    split
    · rename_i b0 b1 tl heq
      by_cases hc : b0.val = 0xD1 ∧ (b1.val = 0x8C ∨ b1.val = 0x8A)
      · rw [if_pos hc]
        by_cases h6 : n - 2 ≥ MIN_STEM_BYTES
        · rw [if_pos h6]
          refine Or.inr ⟨h6, by omega, b0, ?_, Or.inr hc.1⟩
          rw [heq]; rfl
        · rw [if_neg h6]; exact Or.inl rfl
      · rw [if_neg hc]; exact Or.inl rfl
    · exact Or.inl rfl
  · rw [if_neg h]; exact Or.inl rfl

/-- Every entry of the table starts with a Cyrillic lead byte and has at least two
bytes. -/
theorem suffixes_shape :
    ∀ suf ∈ suffixes, 2 ≤ suf.length ∧ ∃ b, suf.head? = some b ∧ (b.val = 0xD0 ∨ b.val = 0xD1) := by
  decide

theorem head_of_take_eq {l suf : List Byte} {m : Nat} {b : Byte} (h : l.take m = suf)
    (hb : suf.head? = some b) : l.head? = some b := by
  subst h
  cases l with
  | nil => simp at hb
  | cons a tl =>
    cases m with
    | zero => simp at hb
    | succ m => simpa using hb

theorem stem_suffix_loop_trimmed (tok : List Byte) (n : Nat) (tbl : List (List Byte))
    (htbl : ∀ suf ∈ tbl, 2 ≤ suf.length ∧
      ∃ b, suf.head? = some b ∧ (b.val = 0xD0 ∨ b.val = 0xD1)) :
    Trimmed tok n (stem_suffix_loop tok n tbl) := by
  induction tbl with
  | nil => exact Or.inl rfl
  | cons suf rest ih =>
    have ih := ih (fun s hs => htbl s (List.mem_cons_of_mem _ hs))
    obtain ⟨hlen, b, hb, hlead⟩ := htbl suf (List.mem_cons_self _ _)
    unfold stem_suffix_loop
    simp only
    by_cases h1 : suf.length = 0 ∨ suf.length > n
    · rw [if_pos h1]; exact ih
    · rw [if_neg h1]
      by_cases h2 : ends_with tok n suf = true
      · rw [if_pos h2]
        by_cases h3 : n - suf.length ≥ MIN_STEM_BYTES
        · rw [if_pos h3]
          refine Or.inr ⟨h3, by omega, b, ?_, hlead⟩
          unfold ends_with at h2
          simp only [h1, if_false, beq_iff_eq] at h2
          exact head_of_take_eq h2 hb
        · rw [if_neg h3]; exact Or.inl rfl
      · rw [if_neg h2]; exact ih

theorem stem_ru_utf8_trimmed (tok : List Byte) :
    Trimmed tok tok.length (stem_ru_utf8 tok) := by
  unfold stem_ru_utf8
  simp only
  by_cases h1 : tok.length < MIN_STEM_BYTES
  · rw [if_pos h1]; exact Or.inl rfl
  · rw [if_neg h1]
    by_cases h2 : has_digit_ascii tok = true
    · rw [if_pos h2]; exact Or.inl rfl
    · rw [if_neg h2]
      by_cases h3 : ¬ looks_cyrillic_utf8 tok = true
      · rw [if_pos h3]; exact Or.inl rfl
      · rw [if_neg h3]
        exact ((stem_reflexive_trimmed tok _).trans
          (stem_suffix_loop_trimmed tok _ suffixes suffixes_shape)).trans
          (stem_sign_trimmed tok _)

theorem stem_ru_utf8_le (tok : List Byte) : stem_ru_utf8 tok ≤ tok.length := by
  rcases stem_ru_utf8_trimmed tok with h | ⟨_, h, _⟩ <;> omega

theorem stem_ru_utf8_short (tok : List Byte) (h : tok.length < 8) :
    stem_ru_utf8 tok = tok.length := by
  rcases stem_ru_utf8_trimmed tok with h' | ⟨h1, h2, _⟩
  · exact h'
  · unfold MIN_STEM_BYTES at h1; omega

theorem stem_ru_utf8_floor (tok : List Byte) (h : 6 ≤ tok.length) : 6 ≤ stem_ru_utf8 tok := by
  rcases stem_ru_utf8_trimmed tok with h' | ⟨h1, _, _⟩
  · omega
  · exact h1

/-! Token class. -/

theorem is_token_char_iff (cp : Nat) :
    is_token_char cp = true ↔
      (0x30 ≤ cp ∧ cp ≤ 0x39) ∨ (0x41 ≤ cp ∧ cp ≤ 0x5A) ∨ (0x61 ≤ cp ∧ cp ≤ 0x7A) ∨
        (0x410 ≤ cp ∧ cp ≤ 0x44F) ∨ cp = 0x401 ∨ cp = 0x451 := by
  unfold is_token_char is_digit is_latin_letter is_cyrillic_letter
  simp only [Bool.or_eq_true, Bool.and_eq_true, decide_eq_true_eq, ge_iff_le]
  constructor
  · rintro ((h | h) | h)
    · exact Or.inl h
    · rcases h with h | h
      · exact Or.inr (Or.inl h)
      · exact Or.inr (Or.inr (Or.inl h))
    · split_ifs at h with h1 h2
      · rcases h1 with h1 | h1
        · exact Or.inr (Or.inr (Or.inr (Or.inr (Or.inl h1))))
        · exact Or.inr (Or.inr (Or.inr (Or.inr (Or.inr h1))))
      · exact Or.inr (Or.inr (Or.inr (Or.inl h2)))
  · rintro (h | h | h | h | h | h)
    · exact Or.inl (Or.inl h)
    · exact Or.inl (Or.inr (Or.inl h))
    · exact Or.inl (Or.inr (Or.inr h))
    · right; rw [if_neg (by omega), if_pos h]
    · right; rw [if_pos (Or.inl h)]
    · right; rw [if_pos (Or.inr h)]

theorem to_lower_basic_eq (cp : Nat) :
    to_lower_basic cp =
      if (0x41 ≤ cp ∧ cp ≤ 0x5A) ∨ (0x410 ≤ cp ∧ cp ≤ 0x42F) then cp + 32
      else if cp = 0x401 then 0x451 else cp := by
  unfold to_lower_basic
  split_ifs <;> omega

theorem to_lower_basic_tokenic (cp : Nat) (h : is_token_char cp = true) :
    is_token_char (to_lower_basic cp) = true := by
  rw [is_token_char_iff] at h ⊢
  rw [to_lower_basic_eq]
  split_ifs <;> omega

theorem utf8_encode_one_length (cp : Nat) :
    (utf8_encode_one cp).length =
      if cp ≤ 0x7F then 1 else if cp ≤ 0x7FF then 2 else if cp ≤ 0xFFFF then 3 else 4 := by
  unfold utf8_encode_one
  split_ifs <;> rfl

theorem to_lower_basic_length (cp : Nat) :
    (utf8_encode_one (to_lower_basic cp)).length = (utf8_encode_one cp).length := by
  rw [utf8_encode_one_length, utf8_encode_one_length, to_lower_basic_eq]
  split_ifs <;> omega

/-- The encoding of a tokenic codepoint: one ASCII byte other than the newline, or a
lead byte followed by one continuation byte. -/
theorem tokenic_encode_shape (cp : Nat) (h : is_token_char cp = true) :
    (∃ a, utf8_encode_one cp = [a] ∧ a.val < 0x80 ∧ a.val ≠ 0x0A) ∨
      (∃ l c, utf8_encode_one cp = [l, c] ∧ 0x80 ≤ l.val ∧ 0x80 ≤ c.val ∧ c.val < 0xC0) := by
  rw [is_token_char_iff] at h
  rw [utf8_encode_one_arith]
  by_cases h1 : cp ≤ 0x7F
  · rw [if_pos h1]
    exact Or.inl ⟨_, rfl, by rw [toByte_val]; omega, by rw [toByte_val]; omega⟩
  · rw [if_neg h1, if_pos (by omega)]
    exact Or.inr ⟨_, _, rfl, by rw [toByte_val]; omega, by rw [toByte_val]; omega,
      by rw [toByte_val]; omega⟩

/-! Encoded token buffers. -/

theorem encode_all_append (xs ys : List Nat) :
    encode_all (xs ++ ys) = encode_all xs ++ encode_all ys := by
  induction xs with
  | nil => rfl
  | cons x xs ih =>
    show utf8_encode_one x ++ encode_all (xs ++ ys) = _
    rw [ih]
    simp only [encode_all, List.append_assoc]

theorem utf8_encode_one_ne_nil (cp : Nat) : utf8_encode_one cp ≠ [] := by
  intro h
  have := utf8_encode_one_length cp
  rw [h] at this
  simp only [List.length_nil] at this
  split_ifs at this

theorem length_le_encode_all (cps : List Nat) : cps.length ≤ (encode_all cps).length := by
  induction cps with
  | nil => simp [encode_all]
  | cons x xs ih =>
    have h1 := utf8_encode_one_length x
    simp only [encode_all, List.length_cons, List.length_append]
    split_ifs at h1 <;> omega

theorem decode_all_encode_all (cps : List Nat) (h : ∀ cp ∈ cps, cp ≤ 0x10FFFF) :
    ∀ fuel, cps.length ≤ fuel → decode_all fuel (encode_all cps) = some cps := by
  induction cps with
  | nil => intro fuel _; cases fuel <;> rfl
  | cons x xs ih =>
    intro fuel hf
    cases fuel with
    | zero => simp at hf
    | succ fuel =>
      have hx := h x (List.mem_cons_self _ _)
      have hdec := decode_encode_append x hx (encode_all xs)
      have hne := utf8_encode_one_ne_nil x
      simp only [encode_all]
      cases hen : utf8_encode_one x with
      | nil => exact absurd hen hne
      | cons b tl =>
        rw [hen] at hdec
        simp only [List.cons_append] at hdec ⊢
        simp only [decode_all, hdec]
        have hlen : (b :: tl).length ≠ 0 := by simp
        rw [if_neg hlen]
        have hdrop : List.drop (b :: tl).length (b :: (tl ++ encode_all xs)) = encode_all xs := by
          rw [← List.cons_append, List.drop_left]
        rw [hdrop, ih (fun cp hcp => h cp (List.mem_cons_of_mem _ hcp)) fuel
          (by simpa using hf)]
        rfl

/-- A prefix of an encoded tokenic sequence that ends in front of a lead byte is the
encoding of a prefix of the sequence. -/
theorem take_encode_all_of_lead (cps : List Nat) (h : ∀ cp ∈ cps, is_token_char cp = true) :
    ∀ k b, ((encode_all cps).drop k).head? = some b → 0xC0 ≤ b.val →
      ∃ j, (encode_all cps).take k = encode_all (cps.take j) := by
  induction cps with
  | nil => intro k b hb; simp [encode_all] at hb
  | cons x xs ih =>
    intro k b hb hlead
    have ih := ih (fun cp hcp => h cp (List.mem_cons_of_mem _ hcp))
    rcases tokenic_encode_shape x (h x (List.mem_cons_self _ _)) with
      ⟨a, ha, _, _⟩ | ⟨l, c, hlc, _, hc1, hc2⟩
    · simp only [encode_all, ha, List.cons_append, List.nil_append] at hb ⊢
      cases k with
      | zero => exact ⟨0, rfl⟩
      | succ k =>
        simp only [List.drop_succ_cons] at hb
        obtain ⟨j, hj⟩ := ih k b hb hlead
        refine ⟨j + 1, ?_⟩
        simp only [List.take_succ_cons, encode_all, ha, List.cons_append, List.nil_append, hj]
    · simp only [encode_all, hlc, List.cons_append, List.nil_append] at hb ⊢
      match k, hb with
      | 0, _ => exact ⟨0, rfl⟩
      | 1, hb =>
        simp only [List.drop_succ_cons, List.drop_zero, List.head?_cons,
          Option.some.injEq] at hb
        subst hb; omega
      | k + 2, hb =>
        simp only [List.drop_succ_cons] at hb
        obtain ⟨j, hj⟩ := ih k b hb hlead
        refine ⟨j + 1, ?_⟩
        simp only [List.take_succ_cons, encode_all, hlc, List.cons_append, List.nil_append, hj]

theorem IsTokenBytes.nil : IsTokenBytes [] := ⟨[], by simp, rfl⟩

theorem IsTokenBytes.append_encode {t : List Byte} (ht : IsTokenBytes t) {cp : Nat}
    (h : is_token_char cp = true) : IsTokenBytes (t ++ utf8_encode_one cp) := by
  obtain ⟨cps, hcps, rfl⟩ := ht
  refine ⟨cps ++ [cp], ?_, ?_⟩
  · intro c hc
    rcases List.mem_append.1 hc with hc | hc
    · exact hcps c hc
    · rw [List.mem_singleton.1 hc]; exact h
  · rw [encode_all_append]; simp [encode_all]

/-- The stemmed prefix of an encoded tokenic sequence is again one. -/
theorem IsTokenBytes.stem {t : List Byte} (ht : IsTokenBytes t) :
    IsTokenBytes (t.take (stem_ru_utf8 t)) := by
  rcases stem_ru_utf8_trimmed t with h | ⟨_, _, b, hb, hlead⟩
  · rw [h, List.take_length]; exact ht
  · obtain ⟨cps, hcps, rfl⟩ := ht
    obtain ⟨j, hj⟩ := take_encode_all_of_lead cps hcps _ b hb (by omega)
    exact ⟨cps.take j, fun cp hcp => hcps cp (List.mem_of_mem_take hcp), hj⟩

/-! The tokenizer loop. -/

theorem flush_token_inv (s : TokState) (do_stem : Bool) (n : Nat) (h : TokInv s n) :
    TokInv (flush_token s do_stem) n := by
  obtain ⟨htok, hout, hsum⟩ := h
  unfold flush_token
  by_cases h0 : s.tok.length = 0
  · rw [if_pos h0]; exact ⟨htok, hout, hsum⟩
  · rw [if_neg h0]
    have hL : ∀ L, L ≠ 0 → L ≤ s.tok.length → IsTokenBytes (s.tok.take L) →
        TokInv { out := write_token s.out s.tok L, tok := [], tok_chars := 0,
                 st := { s.st with tokens_out := s.st.tokens_out + 1,
                                   token_chars_sum := s.st.token_chars_sum + s.tok_chars } } n := by
      intro L hL0 hLle hLtok
      unfold write_token
      rw [if_neg hL0]
      refine ⟨IsTokenBytes.nil, ?_, ?_⟩
      · intro t ht
        rcases List.mem_append.1 ht with ht | ht
        · exact hout t ht
        · rw [List.mem_singleton.1 ht]
          refine ⟨?_, hLtok⟩
          intro hnil
          have := congrArg List.length hnil
          simp only [List.length_take, List.length_nil] at this
          omega
      · simp only [List.map_append, List.sum_append, List.map_cons, List.map_nil,
          List.sum_cons, List.sum_nil, List.length_take, List.length_nil]
        omega
    cases do_stem with
    | false =>
      simp only [Bool.false_eq_true, if_false]
      exact hL _ h0 (le_refl _) (by rw [List.take_length]; exact htok)
    | true =>
      simp only [if_true]
      refine hL _ ?_ (stem_ru_utf8_le _) htok.stem
      rcases stem_ru_utf8_trimmed s.tok with h | ⟨h, _, _⟩
      · omega
      · unfold MIN_STEM_BYTES at h; omega

theorem tokenize_loop_inv (buf : List Byte) (do_stem : Bool) :
    ∀ fuel i s, i ≤ buf.length → buf.length ≤ i + fuel → TokInv s i →
      ∃ s1, tokenize_loop buf do_stem fuel i s = some s1 ∧ TokInv s1 buf.length := by
  intro fuel
  induction fuel with
  | zero =>
    intro i s hi hf hinv
    have : i = buf.length := by omega
    subst this
    exact ⟨s, by simp [tokenize_loop], hinv⟩
  | succ fuel ih =>
    intro i s hi hf hinv
    by_cases hlt : i < buf.length
    · have hmono : ∀ {s : TokState} {a b : Nat}, a ≤ b → TokInv s a → TokInv s b :=
        fun hab h => ⟨h.1, h.2.1, le_trans h.2.2 hab⟩
      cases hdec : utf8_decode_one (buf.drop i) with
      | none =>
        simp only [tokenize_loop, if_pos hlt, hdec]
        exact ih (i + 1) _ hlt (by omega)
          (hmono (Nat.le_succ i) (flush_token_inv s do_stem i hinv))
      | some r =>
        obtain ⟨cp, used⟩ := r
        obtain ⟨hu1, _, hu2, _⟩ := decode_bounds _ _ _ hdec
        rw [List.length_drop] at hu2
        simp only [tokenize_loop, if_pos hlt, hdec]
        rw [if_neg (by omega)]
        by_cases htc : is_token_char cp = true
        · rw [if_pos htc]
          refine ih (i + used) _ (by omega) (by omega) ⟨?_, hinv.2.1, ?_⟩
          · exact hinv.1.append_encode (to_lower_basic_tokenic cp htc)
          · have hlen : (utf8_encode_one cp).length = used := by
              rw [encode_of_decode _ _ _ hdec, List.length_take, List.length_drop]
              omega
            have := hinv.2.2
            simp only [List.length_append, to_lower_basic_length, hlen]
            omega
        · rw [if_neg htc]
          exact ih (i + used) _ (by omega) (by omega)
            (hmono (Nat.le_add_right i used) (flush_token_inv s do_stem i hinv))
    · have : i = buf.length := by omega
      subst this
      exact ⟨s, by simp [tokenize_loop], hinv⟩

theorem tokenize_inv (buf : List Byte) (do_stem : Bool) :
    ∃ s, tokenize_file_to_stream_ex buf do_stem = some s ∧ TokInv s buf.length := by
  obtain ⟨s1, hs1, hinv⟩ := tokenize_loop_inv buf do_stem buf.length 0
    { out := [], tok := [], tok_chars := 0,
      st := { bytes_in := buf.length, tokens_out := 0, token_chars_sum := 0 } }
    (Nat.zero_le _) (by omega) ⟨IsTokenBytes.nil, by simp, by simp⟩
  refine ⟨flush_token s1 do_stem, ?_, flush_token_inv s1 do_stem _ hinv⟩
  unfold tokenize_file_to_stream_ex
  rw [hs1]; rfl

/-- No byte of an encoded tokenic sequence is a newline. -/
theorem IsTokenBytes.no_newline {t : List Byte} (ht : IsTokenBytes t) :
    ∀ b ∈ t, b.val ≠ 0x0A := by
  obtain ⟨cps, hcps, rfl⟩ := ht
  induction cps with
  | nil => intro b hb; simp [encode_all] at hb
  | cons x xs ih =>
    intro b hb
    simp only [encode_all, List.mem_append] at hb
    rcases hb with hb | hb
    · rcases tokenic_encode_shape x (hcps x (List.mem_cons_self _ _)) with
        ⟨a, ha, _, ha2⟩ | ⟨l, c, hlc, hl, hc1, _⟩
      · rw [ha, List.mem_singleton] at hb; subst hb; exact ha2
      · rw [hlc] at hb
        simp only [List.mem_cons, List.mem_nil_iff, or_false, List.not_mem_nil] at hb
        rcases hb with rfl | rfl <;> omega
    · exact ih (fun cp hcp => hcps cp (List.mem_cons_of_mem _ hcp)) b hb

/-- An encoded tokenic sequence decodes to tokenic codepoints. -/
theorem IsTokenBytes.decode {t : List Byte} (ht : IsTokenBytes t) :
    ∃ cps, decode_all t.length t = some cps ∧ ∀ cp ∈ cps, is_token_char cp = true := by
  obtain ⟨cps, hcps, rfl⟩ := ht
  refine ⟨cps, decode_all_encode_all cps ?_ _ (length_le_encode_all cps), hcps⟩
  intro cp hcp
  have := (is_token_char_iff cp).1 (hcps cp hcp)
  omega

/-! Claims C1 to C10: the codec, the stemmer and the tokenizer. -/

/-- C1: for every codepoint `cp ≤ 0x10FFFF`, decoding the bytes written by
`utf8_encode_one cp` succeeds, returns `cp`, and reports `used` equal to the number of
bytes the encoder returned; the same holds when further bytes follow in the buffer. -/
theorem utf8_decode_encode_roundtrip (cp : Nat) (h : cp ≤ 0x10FFFF) :
    utf8_decode_one (utf8_encode_one cp) = some (cp, (utf8_encode_one cp).length) ∧
      ∀ rest : List Byte,
        utf8_decode_one (utf8_encode_one cp ++ rest) = some (cp, (utf8_encode_one cp).length) := by
  refine ⟨?_, decode_encode_append cp h⟩
  have := decode_encode_append cp h []
  rwa [List.append_nil] at this

/-- Witness of C1 at the codepoint U+043A, whose encoding is `D0 BA`. -/
theorem utf8_decode_encode_roundtrip_witness :
    0x43A ≤ 0x10FFFF ∧
      (utf8_decode_one (utf8_encode_one 0x43A) = some (0x43A, (utf8_encode_one 0x43A).length) ∧
        ∀ rest : List Byte,
          utf8_decode_one (utf8_encode_one 0x43A ++ rest) =
            some (0x43A, (utf8_encode_one 0x43A).length)) :=
  ⟨by decide, utf8_decode_encode_roundtrip 0x43A (by decide)⟩

/-- C2: whenever `utf8_decode_one` succeeds on a buffer with result `(cp, used)`,
`utf8_encode_one cp` returns `used` and writes exactly the first `used` bytes of the
buffer. Hence only shortest-form sequences are accepted: the value is at most
`0x10FFFF`, a 2-byte sequence has `cp ≥ 0x80`, a 3-byte one `cp ≥ 0x800`, a 4-byte one
`cp ≥ 0x10000`, and every byte after the first has its top two bits equal to `10`. -/
theorem utf8_encode_decode_roundtrip (s : List Byte) (cp used : Nat)
    (h : utf8_decode_one s = some (cp, used)) :
    (utf8_encode_one cp).length = used ∧ utf8_encode_one cp = s.take used ∧
      cp ≤ 0x10FFFF ∧ (used = 2 → 0x80 ≤ cp) ∧ (used = 3 → 0x800 ≤ cp) ∧
      (used = 4 → 0x10000 ≤ cp) ∧ ∀ b ∈ (s.take used).drop 1, b.val &&& 0xC0 = 0x80 := by
  obtain ⟨_, _, hle, hmax, _, h2, h3, h4⟩ := decode_bounds s cp used h
  have henc := encode_of_decode s cp used h
  refine ⟨?_, henc, hmax, fun hu => (h2 hu).1, fun hu => (h3 hu).1, h4,
    decode_continuation s cp used h⟩
  rw [henc, List.length_take]
  omega

/-- Witness of C2 at the buffer `D0 BA 20`, which decodes to U+043A using two bytes. -/
theorem utf8_encode_decode_roundtrip_witness :
    utf8_decode_one [0xD0, 0xBA, 0x20] = some (0x43A, 2) ∧
      ((utf8_encode_one 0x43A).length = 2 ∧
        utf8_encode_one 0x43A = ([0xD0, 0xBA, 0x20] : List Byte).take 2 ∧
        0x43A ≤ 0x10FFFF ∧ (2 = 2 → 0x80 ≤ 0x43A) ∧ (2 = 3 → 0x800 ≤ 0x43A) ∧
        (2 = 4 → 0x10000 ≤ 0x43A) ∧
        ∀ b ∈ (([0xD0, 0xBA, 0x20] : List Byte).take 2).drop 1, b.val &&& 0xC0 = 0x80) :=
  ⟨by decide, utf8_encode_decode_roundtrip [0xD0, 0xBA, 0x20] 0x43A 2 (by decide)⟩

/-- C3, counterexample: the three bytes `ED A0 80` decode successfully to the surrogate
U+D800, so a decoded value need not be a Unicode scalar value. -/
theorem utf8_decode_surrogate :
    utf8_decode_one [0xED, 0xA0, 0x80] = some (0xD800, 3) ∧
      ¬ ∀ (s : List Byte) (cp used : Nat), utf8_decode_one s = some (cp, used) →
          cp ≤ 0x10FFFF ∧ ¬ (0xD800 ≤ cp ∧ cp ≤ 0xDFFF) := by
  have h1 : utf8_decode_one [0xED, 0xA0, 0x80] = some (0xD800, 3) := by decide
  exact ⟨h1, fun h => (h _ _ _ h1).2 ⟨by decide, by decide⟩⟩

/-- C3, amended: every codepoint returned by a successful `utf8_decode_one` lies in
`[0, 0x10FFFF]`, and in the range of its length class (below `0x80` for one byte,
`0x80..0x7FF` for two, `0x800..0xFFFF` for three, from `0x10000` for four); the
surrogates `0xD800..0xDFFF` are inside the three-byte range and are not excluded. -/
theorem utf8_decode_range (s : List Byte) (cp used : Nat)
    (h : utf8_decode_one s = some (cp, used)) :
    cp ≤ 0x10FFFF ∧ (used = 1 → cp < 0x80) ∧ (used = 2 → 0x80 ≤ cp ∧ cp ≤ 0x7FF) ∧
      (used = 3 → 0x800 ≤ cp ∧ cp ≤ 0xFFFF) ∧ (used = 4 → 0x10000 ≤ cp) := by
  obtain ⟨_, _, _, hmax, h1, h2, h3, h4⟩ := decode_bounds s cp used h
  exact ⟨hmax, h1, h2, h3, h4⟩

/-- Witness of the amended C3 at the buffer `ED A0 80`. -/
theorem utf8_decode_range_witness :
    utf8_decode_one [0xED, 0xA0, 0x80] = some (0xD800, 3) ∧
      (0xD800 ≤ 0x10FFFF ∧ (3 = 1 → 0xD800 < 0x80) ∧ (3 = 2 → 0x80 ≤ 0xD800 ∧ 0xD800 ≤ 0x7FF) ∧
        (3 = 3 → 0x800 ≤ 0xD800 ∧ 0xD800 ≤ 0xFFFF) ∧ (3 = 4 → 0x10000 ≤ 0xD800)) :=
  ⟨by decide, utf8_decode_range [0xED, 0xA0, 0x80] 0xD800 3 (by decide)⟩

/-- C4: `is_token_char cp` holds exactly when `cp` is an ASCII digit, an ASCII letter,
in U+0410..U+044F, or one of U+0401 and U+0451; and `to_lower_basic cp` is `cp + 32`
for ASCII `A`-`Z` and for U+0410..U+042F, U+0451 for U+0401, and `cp` otherwise. -/
theorem token_class_and_lowercase (cp : Nat) :
    (is_token_char cp = true ↔
      (0x30 ≤ cp ∧ cp ≤ 0x39) ∨ (0x41 ≤ cp ∧ cp ≤ 0x5A) ∨ (0x61 ≤ cp ∧ cp ≤ 0x7A) ∨
        (0x410 ≤ cp ∧ cp ≤ 0x44F) ∨ cp = 0x401 ∨ cp = 0x451) ∧
      to_lower_basic cp =
        (if (0x41 ≤ cp ∧ cp ≤ 0x5A) ∨ (0x410 ≤ cp ∧ cp ≤ 0x42F) then cp + 32
         else if cp = 0x401 then 0x451 else cp) :=
  ⟨is_token_char_iff cp, to_lower_basic_eq cp⟩

/-- C5: `stem_ru_utf8` returns a length `n ≤ len`; for `len < 6` it returns `len`, for
`len ≥ 6` it returns at least 6; and none of the three trimming passes, started from a
length of at least 6, leaves fewer than 6 bytes. -/
theorem stem_ru_utf8_length_bounds (tok : List Byte) :
    stem_ru_utf8 tok ≤ tok.length ∧
      (tok.length < 6 → stem_ru_utf8 tok = tok.length) ∧
      (6 ≤ tok.length → 6 ≤ stem_ru_utf8 tok) ∧
      ∀ n, 6 ≤ n →
        6 ≤ stem_reflexive tok n ∧ stem_reflexive tok n ≤ n ∧
        6 ≤ stem_suffix_loop tok n suffixes ∧ stem_suffix_loop tok n suffixes ≤ n ∧
        6 ≤ stem_sign tok n ∧ stem_sign tok n ≤ n := by
  have key : ∀ {n r : Nat}, Trimmed tok n r → 6 ≤ n → 6 ≤ r ∧ r ≤ n := by
    intro n r h hn
    rcases h with h | ⟨h1, h2, _⟩
    · omega
    · unfold MIN_STEM_BYTES at h1; omega
  refine ⟨stem_ru_utf8_le tok, fun h => stem_ru_utf8_short tok (by omega),
    stem_ru_utf8_floor tok, ?_⟩
  intro n hn
  have h1 := key (stem_reflexive_trimmed tok n) hn
  have h2 := key (stem_suffix_loop_trimmed tok n suffixes suffixes_shape) hn
  have h3 := key (stem_sign_trimmed tok n) hn
  exact ⟨h1.1, h1.2, h2.1, h2.2, h3.1, h3.2⟩

/-- C6: a buffer that contains an ASCII digit anywhere, or that has no byte equal to
`0xD0` or `0xD1` among its first `len - 1` bytes, keeps its length. -/
theorem stem_ru_utf8_guards (tok : List Byte)
    (h : (∃ b ∈ tok, 0x30 ≤ b.val ∧ b.val ≤ 0x39) ∨
      (∀ b ∈ tok.take (tok.length - 1), b.val ≠ 0xD0 ∧ b.val ≠ 0xD1)) :
    stem_ru_utf8 tok = tok.length := by
  unfold stem_ru_utf8
  simp only
  by_cases h1 : tok.length < MIN_STEM_BYTES
  · rw [if_pos h1]
  · rw [if_neg h1]
    by_cases h2 : has_digit_ascii tok = true
    · rw [if_pos h2]
    · rw [if_neg h2]
      by_cases h3 : ¬ looks_cyrillic_utf8 tok = true
      · rw [if_pos h3]
      · exfalso
        rcases h with ⟨b, hb, hb1, hb2⟩ | h
        · apply h2
          unfold has_digit_ascii
          rw [List.any_eq_true]
          exact ⟨b, hb, by simp [hb1, hb2]⟩
        · apply h3
          unfold looks_cyrillic_utf8
          rw [List.any_eq_true]
          rintro ⟨b, hb, hb2⟩
          have := h b hb
          simp only [Bool.or_eq_true, decide_eq_true_eq] at hb2
          rcases hb2 with hb2 | hb2
          · exact this.1 hb2
          · exact this.2 hb2

/-- Witness of C6 at the token `кот1` (`D0 BA D0 BE D1 82 31`), which holds a digit. -/
theorem stem_ru_utf8_guards_witness :
    ((∃ b ∈ ([0xD0, 0xBA, 0xD0, 0xBE, 0xD1, 0x82, 0x31] : List Byte),
        0x30 ≤ b.val ∧ b.val ≤ 0x39) ∨
      (∀ b ∈ ([0xD0, 0xBA, 0xD0, 0xBE, 0xD1, 0x82, 0x31] : List Byte).take
          (([0xD0, 0xBA, 0xD0, 0xBE, 0xD1, 0x82, 0x31] : List Byte).length - 1),
        b.val ≠ 0xD0 ∧ b.val ≠ 0xD1)) ∧
      stem_ru_utf8 [0xD0, 0xBA, 0xD0, 0xBE, 0xD1, 0x82, 0x31] =
        ([0xD0, 0xBA, 0xD0, 0xBE, 0xD1, 0x82, 0x31] : List Byte).length :=
  ⟨Or.inl ⟨0x31, by decide, by decide, by decide⟩,
    stem_ru_utf8_guards [0xD0, 0xBA, 0xD0, 0xBE, 0xD1, 0x82, 0x31]
      (Or.inl ⟨0x31, by decide, by decide, by decide⟩)⟩

/-- C7, counterexample: the stemmer is not idempotent. The word `армии` (10 bytes) is
stemmed to `арми` (8 bytes, the ending `и` removed), and `арми` is stemmed to `арм`
(6 bytes, the next `и` removed). -/
theorem stem_not_idempotent :
    stem_ru_utf8 word_armii = 8 ∧ stem_ru_utf8 (word_armii.take 8) = 6 ∧
      stem (stem word_armii) ≠ stem word_armii := by
  decide

/-- C7, amended: a second application of the stemmer only trims further, never below
the floor: `stem (stem x)` is a prefix of `stem x` with at least `min 6 (stem x).length`
bytes; and `stem (stem x) = stem x` whenever `stem x` has fewer than 8 bytes, or `x`
contains an ASCII digit, or `x` has no byte `0xD0`/`0xD1` among its first `len - 1`. -/
theorem stem_twice (x : List Byte) :
    (∃ t, stem x = stem (stem x) ++ t) ∧
      min 6 (stem x).length ≤ (stem (stem x)).length ∧
      ((stem x).length < 8 → stem (stem x) = stem x) ∧
      (has_digit_ascii x = true ∨ looks_cyrillic_utf8 x = false → stem (stem x) = stem x) := by
  have hshort : (stem x).length < 8 → stem (stem x) = stem x := by
    intro h
    show (stem x).take (stem_ru_utf8 (stem x)) = stem x
    rw [stem_ru_utf8_short _ h, List.take_length]
  refine ⟨⟨(stem x).drop (stem_ru_utf8 (stem x)), (List.take_append_drop _ _).symm⟩, ?_,
    hshort, ?_⟩
  · show min 6 (stem x).length ≤ ((stem x).take (stem_ru_utf8 (stem x))).length
    rw [List.length_take]
    have h1 := stem_ru_utf8_le (stem x)
    by_cases h6 : 6 ≤ (stem x).length
    · have := stem_ru_utf8_floor _ h6
      omega
    · have := stem_ru_utf8_short (stem x) (by omega)
      omega
  · intro h
    have hx : stem_ru_utf8 x = x.length := by
      unfold stem_ru_utf8
      simp only
      split_ifs <;> first | rfl | (rcases h with h | h <;> simp_all)
    have hsx : stem x = x := by
      show x.take (stem_ru_utf8 x) = x
      rw [hx, List.take_length]
    rw [hsx, hsx]

/-- C8, counterexample: with stemming enabled the document body `кот и собака` is not
tokenized into the three lines `кот`, `и`, `соба`. -/
theorem tokenize_kot_i_sobaka_not_soba :
    tokens_emitted doc_kot_i_sobaka true ≠
      some [[0xD0, 0xBA, 0xD0, 0xBE, 0xD1, 0x82], [0xD0, 0xB8],
        [0xD1, 0x81, 0xD0, 0xBE, 0xD0, 0xB1, 0xD0, 0xB0]] := by
  decide

/-- C8, amended: with stemming enabled the document body `кот и собака` is tokenized
into exactly three lines, in order `кот`, `и`, `собак`: the ending `а` of `собака`
(12 bytes) is removed and 10 bytes remain. -/
theorem tokenize_kot_i_sobaka :
    tokens_emitted doc_kot_i_sobaka true =
      some [[0xD0, 0xBA, 0xD0, 0xBE, 0xD1, 0x82], [0xD0, 0xB8],
        [0xD1, 0x81, 0xD0, 0xBE, 0xD0, 0xB1, 0xD0, 0xB0, 0xD0, 0xBA]] := by
  decide

/-- C9: for every input byte sequence and either setting of `do_stem` the tokenizer
returns, and every token it has written is non-empty, contains no newline byte, and
decodes completely into codepoints that are all tokenic. -/
theorem tokenize_tokens_tokenic (buf : List Byte) (do_stem : Bool) :
    ∃ s, tokenize_file_to_stream_ex buf do_stem = some s ∧
      ∀ t ∈ s.out, t ≠ [] ∧ (∀ b ∈ t, b.val ≠ 0x0A) ∧
        ∃ cps, decode_all t.length t = some cps ∧ ∀ cp ∈ cps, is_token_char cp = true := by
  obtain ⟨s, hs, _, hout, _⟩ := tokenize_inv buf do_stem
  exact ⟨s, hs, fun t ht => ⟨(hout t ht).1, (hout t ht).2.no_newline, (hout t ht).2.decode⟩⟩

/-- C10: for every input byte sequence and either setting of `do_stem` the tokenizer
returns, and the byte lengths of the tokens it has written (newlines not counted) sum
to at most the number of input bytes. -/
theorem tokenize_output_le_input (buf : List Byte) (do_stem : Bool) :
    ∃ s, tokenize_file_to_stream_ex buf do_stem = some s ∧
      (s.out.map List.length).sum ≤ buf.length := by
  obtain ⟨s, hs, _, _, hsum⟩ := tokenize_inv buf do_stem
  exact ⟨s, hs, by omega⟩

/-! The tokenizer against its reference definition. -/

theorem encode_all_of_decode_all :
    ∀ (fuel : Nat) (l : List Byte) (cps : List Nat),
      decode_all fuel l = some cps → l = encode_all cps ∧ ∀ cp ∈ cps, cp ≤ 0x10FFFF := by
  intro fuel
  induction fuel with
  | zero =>
    intro l cps h
    cases l with
    | nil =>
      simp only [decode_all, Option.some.injEq] at h
      subst h; exact ⟨rfl, by simp⟩
    | cons b rest => simp [decode_all] at h
  | succ fuel ih =>
    intro l cps h
    cases l with
    | nil =>
      simp only [decode_all, Option.some.injEq] at h
      subst h; exact ⟨rfl, by simp⟩
    | cons b rest =>
      simp only [decode_all] at h
      cases hdec : utf8_decode_one (b :: rest) with
      | none => simp [hdec] at h
      | some r =>
        obtain ⟨cp, used⟩ := r
        simp only [hdec] at h
        by_cases hu : used = 0
        · simp [hu] at h
        · rw [if_neg hu] at h
          cases hrest : decode_all fuel (List.drop used (b :: rest)) with
          | none => simp [hrest] at h
          | some cps1 =>
            simp only [hrest, Option.map_some', Option.some.injEq] at h
            subst h
            obtain ⟨h1, h2⟩ := ih _ _ hrest
            have henc := encode_of_decode _ _ _ hdec
            have hb := decode_bounds _ _ _ hdec
            refine ⟨?_, ?_⟩
            · show b :: rest = utf8_encode_one cp ++ encode_all cps1
              rw [henc, ← h1, List.take_append_drop]
            · intro c hc
              rcases List.mem_cons.1 hc with rfl | hc
              · exact hb.2.2.2.1
              · exact h2 c hc

theorem tokenize_loop_of_decode_all (buf : List Byte) (do_stem : Bool) :
    ∀ (fuel1 fuel2 i : Nat) (s : TokState) (cps : List Nat),
      decode_all fuel1 (buf.drop i) = some cps → buf.length ≤ i + fuel2 →
      tokenize_loop buf do_stem fuel2 i s = some (cps.foldl (cp_step do_stem) s) := by
  intro fuel1
  induction fuel1 with
  | zero =>
    intro fuel2 i s cps h hf
    cases hd : buf.drop i with
    | nil =>
      rw [hd] at h
      simp only [decode_all, Option.some.injEq] at h
      subst h
      have hlen : ¬ i < buf.length := by
        have := congrArg List.length hd
        simp only [List.length_drop, List.length_nil] at this
        omega
      cases fuel2 <;> simp [tokenize_loop, hlen]
    | cons b rest => rw [hd] at h; simp [decode_all] at h
  | succ fuel1 ih =>
    intro fuel2 i s cps h hf
    cases hd : buf.drop i with
    | nil =>
      rw [hd] at h
      simp only [decode_all, Option.some.injEq] at h
      subst h
      have hlen : ¬ i < buf.length := by
        have := congrArg List.length hd
        simp only [List.length_drop, List.length_nil] at this
        omega
      cases fuel2 <;> simp [tokenize_loop, hlen]
    | cons b rest =>
      have hlen : i < buf.length := by
        have := congrArg List.length hd
        simp only [List.length_drop, List.length_cons] at this
        omega
      rw [hd] at h
      simp only [decode_all] at h
      cases hdec : utf8_decode_one (b :: rest) with
      | none => simp [hdec] at h
      | some r =>
        obtain ⟨cp, used⟩ := r
        simp only [hdec] at h
        by_cases hu : used = 0
        · simp [hu] at h
        · rw [if_neg hu] at h
          cases hrest : decode_all fuel1 (List.drop used (b :: rest)) with
          | none => simp [hrest] at h
          | some cps1 =>
            simp only [hrest, Option.map_some', Option.some.injEq] at h
            subst h
            cases fuel2 with
            | zero => omega
            | succ fuel2 =>
              have hdrop : List.drop used (b :: rest) = buf.drop (i + used) := by
                rw [← hd, List.drop_drop]
              rw [hdrop] at hrest
              have hrec := ih fuel2 (i + used) (cp_step do_stem s cp) cps1 hrest (by omega)
              simp only [tokenize_loop, if_pos hlen, hd, hdec, if_neg hu, List.foldl_cons]
              by_cases htc : is_token_char cp = true
              · rw [if_pos htc]
                have hstep : cp_step do_stem s cp =
                    { s with tok := s.tok ++ utf8_encode_one (to_lower_basic cp),
                             tok_chars := s.tok_chars + 1 } := by
                  simp only [cp_step, if_pos htc]
                rw [hstep]
                rw [hstep] at hrec
                exact hrec
              · rw [if_neg htc]
                have hstep : cp_step do_stem s cp = flush_token s do_stem := by
                  simp only [cp_step, if_neg htc]
                rw [hstep]
                rw [hstep] at hrec
                exact hrec

theorem encode_all_eq_nil_iff (cps : List Nat) : encode_all cps = [] ↔ cps = [] := by
  cases cps with
  | nil => simp [encode_all]
  | cons c cs =>
    simp only [encode_all, List.append_eq_nil, reduceCtorEq, iff_false, not_and]
    intro h
    exact absurd h (utf8_encode_one_ne_nil c)

theorem encode_all_map_snoc (cur : List Nat) (c : Nat) :
    encode_all ((cur ++ [c]).map to_lower_basic) =
      encode_all (cur.map to_lower_basic) ++ utf8_encode_one (to_lower_basic c) := by
  rw [List.map_append, encode_all_append]
  simp [encode_all]

theorem flush_token_out (s : TokState) (do_stem : Bool) (cur : List Nat)
    (htok : s.tok = encode_all (cur.map to_lower_basic)) :
    (flush_token s do_stem).out =
        s.out ++ ([cur].filter (fun r => !r.isEmpty)).map (reference_token do_stem) ∧
      (flush_token s do_stem).tok = [] := by
  unfold flush_token
  cases cur with
  | nil =>
    have h0 : s.tok.length = 0 := by rw [htok]; rfl
    rw [if_pos h0]
    exact ⟨by simp, List.length_eq_zero.1 h0⟩
  | cons c cs =>
    have hne : s.tok ≠ [] := by
      rw [htok]; intro h
      exact absurd ((encode_all_eq_nil_iff _).1 h) (by simp)
    have h0 : ¬ s.tok.length = 0 := fun h => hne (List.length_eq_zero.1 h)
    rw [if_neg h0]
    refine ⟨?_, rfl⟩
    have href : reference_token do_stem (c :: cs) =
        if do_stem = true then s.tok.take (stem_ru_utf8 s.tok) else s.tok := by
      rw [htok]; rfl
    simp only [List.filter_cons, List.isEmpty_cons, Bool.not_false, if_true,
      List.filter_nil, List.map_cons, List.map_nil, href, write_token]
    cases do_stem with
    | false =>
      simp only [Bool.false_eq_true, if_false, if_neg h0, List.take_length]
    | true =>
      have hL : stem_ru_utf8 s.tok ≠ 0 := by
        rcases stem_ru_utf8_trimmed s.tok with h | ⟨h, _, _⟩
        · omega
        · unfold MIN_STEM_BYTES at h; omega
      simp only [if_true, if_neg hL]

theorem modifyHead_nil_append (l : List (List Nat)) :
    List.modifyHead (fun r => [] ++ r) l = l := by
  cases l <;> simp [List.modifyHead]

/-- The output after the final flush, in terms of the runs of the remaining input. -/
theorem flush_foldl_out (do_stem : Bool) :
    ∀ (cps cur : List Nat) (s : TokState), s.tok = encode_all (cur.map to_lower_basic) →
      (flush_token (cps.foldl (cp_step do_stem) s) do_stem).out =
        s.out ++ (((cps.splitOnP (fun c => !is_token_char c)).modifyHead
          (fun r => cur ++ r)).filter (fun r => !r.isEmpty)).map (reference_token do_stem) := by
  intro cps
  induction cps with
  | nil =>
    intro cur s htok
    simp only [List.foldl_nil, List.splitOnP_nil, List.modifyHead, List.append_nil]
    exact (flush_token_out s do_stem cur htok).1
  | cons c cs ih =>
    intro cur s htok
    rw [List.foldl_cons, List.splitOnP_cons]
    by_cases htc : is_token_char c = true
    · have hstep : cp_step do_stem s c =
          { s with tok := s.tok ++ utf8_encode_one (to_lower_basic c),
                   tok_chars := s.tok_chars + 1 } := by
        simp only [cp_step, if_pos htc]
      have hp : ¬ ((!is_token_char c) = true) := by simp [htc]
      rw [if_neg hp, List.modifyHead_modifyHead]
      have := ih (cur ++ [c]) (cp_step do_stem s c) (by
        rw [hstep]
        show s.tok ++ _ = _
        rw [encode_all_map_snoc, htok])
      rw [this]
      have hout : (cp_step do_stem s c).out = s.out := by rw [hstep]
      have hfun : ((fun r => cur ++ r) ∘ List.cons c) = (fun r => (cur ++ [c]) ++ r) := by
        funext r; simp
      rw [hfun, hout]
    · have hstep : cp_step do_stem s c = flush_token s do_stem := by
        simp only [cp_step, if_neg htc]
      have hp : (!is_token_char c) = true := by simpa using htc
      rw [hstep, if_pos hp]
      obtain ⟨hout, htok1⟩ := flush_token_out s do_stem cur htok
      have := ih [] (flush_token s do_stem) (by rw [htok1]; rfl)
      rw [this, hout, modifyHead_nil_append]
      simp only [List.modifyHead, List.append_nil, List.filter_cons, List.filter_nil,
        List.append_assoc]
      cases cur <;> simp

/-- The tokenizer on a buffer that decodes to `cps` emits the reference tokens. -/
theorem tokens_emitted_of_decode_all (buf : List Byte) (do_stem : Bool) (cps : List Nat)
    (fuel : Nat) (h : decode_all fuel buf = some cps) :
    tokens_emitted buf do_stem = some (reference_tokens cps do_stem) := by
  have hloop := tokenize_loop_of_decode_all buf do_stem fuel buf.length 0
    { out := [], tok := [], tok_chars := 0,
      st := { bytes_in := buf.length, tokens_out := 0, token_chars_sum := 0 } } cps
    (by rw [List.drop_zero]; exact h) (by omega)
  unfold tokens_emitted tokenize_file_to_stream_ex
  rw [hloop]
  simp only [Option.map_some', Option.some.injEq]
  rw [flush_foldl_out do_stem cps [] _ rfl, modifyHead_nil_append]
  rfl

/-- Induction principle for the tokenizer loop: a property of the state kept by a flush
and by the addition of a lower-cased tokenic codepoint holds when the loop ends, and the
loop does end within the given fuel. -/
theorem tokenize_loop_induct (buf : List Byte) (do_stem : Bool) (I : TokState → Prop)
    (hflush : ∀ s, I s → I (flush_token s do_stem))
    (hstep : ∀ s cp, I s → is_token_char cp = true →
      I { s with tok := s.tok ++ utf8_encode_one (to_lower_basic cp),
                 tok_chars := s.tok_chars + 1 }) :
    ∀ fuel i s, i ≤ buf.length → buf.length ≤ i + fuel → I s →
      ∃ s1, tokenize_loop buf do_stem fuel i s = some s1 ∧ I s1 := by
  intro fuel
  induction fuel with
  | zero =>
    intro i s hi hf hinv
    have hlt : ¬ i < buf.length := by omega
    exact ⟨s, by simp [tokenize_loop, hlt], hinv⟩
  | succ fuel ih =>
    intro i s hi hf hinv
    by_cases hlt : i < buf.length
    · cases hdec : utf8_decode_one (buf.drop i) with
      | none =>
        simp only [tokenize_loop, if_pos hlt, hdec]
        exact ih (i + 1) _ hlt (by omega) (hflush s hinv)
      | some r =>
        obtain ⟨cp, used⟩ := r
        obtain ⟨hu1, _, hu2, _⟩ := decode_bounds _ _ _ hdec
        rw [List.length_drop] at hu2
        simp only [tokenize_loop, if_pos hlt, hdec]
        rw [if_neg (by omega)]
        by_cases htc : is_token_char cp = true
        · rw [if_pos htc]
          exact ih (i + used) _ (by omega) (by omega) (hstep s cp hinv htc)
        · rw [if_neg htc]
          exact ih (i + used) _ (by omega) (by omega) (hflush s hinv)
    · exact ⟨s, by simp [tokenize_loop, hlt], hinv⟩

theorem to_lower_basic_idem (cp : Nat) : to_lower_basic (to_lower_basic cp) = to_lower_basic cp := by
  simp only [to_lower_basic_eq]
  split_ifs <;> omega

theorem lower_token_bytes_nil : IsLowerTokenBytes [] := ⟨[], by simp, rfl⟩

/-- Without stemming every written token is the non-empty encoding of lower-case
tokenic codepoints. -/
theorem tokenize_lower_inv (buf : List Byte) :
    ∃ s, tokenize_file_to_stream_ex buf false = some s ∧
      ∀ t ∈ s.out, t ≠ [] ∧ IsLowerTokenBytes t := by
  have hflush : ∀ s : TokState,
      (IsLowerTokenBytes s.tok ∧ ∀ t ∈ s.out, t ≠ [] ∧ IsLowerTokenBytes t) →
      (IsLowerTokenBytes (flush_token s false).tok ∧
        ∀ t ∈ (flush_token s false).out, t ≠ [] ∧ IsLowerTokenBytes t) := by
    intro s ⟨htok, hout⟩
    unfold flush_token
    by_cases h0 : s.tok.length = 0
    · rw [if_pos h0]; exact ⟨htok, hout⟩
    · rw [if_neg h0]
      refine ⟨lower_token_bytes_nil, ?_⟩
      simp only [Bool.false_eq_true, if_false, write_token, if_neg h0, List.take_length]
      intro t ht
      rcases List.mem_append.1 ht with ht | ht
      · exact hout t ht
      · rw [List.mem_singleton.1 ht]
        exact ⟨fun h => h0 (by rw [h]; rfl), htok⟩
  obtain ⟨s1, hs1, hinv⟩ := tokenize_loop_induct buf false
    (fun s => IsLowerTokenBytes s.tok ∧ ∀ t ∈ s.out, t ≠ [] ∧ IsLowerTokenBytes t)
    hflush
    (by
      intro s cp ⟨htok, hout⟩ htc
      refine ⟨?_, hout⟩
      obtain ⟨cps, hcps, hs⟩ := htok
      refine ⟨cps ++ [to_lower_basic cp], ?_, ?_⟩
      · intro c hc
        rcases List.mem_append.1 hc with hc | hc
        · exact hcps c hc
        · rw [List.mem_singleton.1 hc]
          exact ⟨to_lower_basic_tokenic cp htc, to_lower_basic_idem cp⟩
      · show s.tok ++ _ = _
        rw [encode_all_append, hs]; simp [encode_all])
    buf.length 0
    { out := [], tok := [], tok_chars := 0,
      st := { bytes_in := buf.length, tokens_out := 0, token_chars_sum := 0 } }
    (Nat.zero_le _) (by omega) ⟨lower_token_bytes_nil, by simp⟩
  refine ⟨flush_token s1 false, ?_, (hflush s1 hinv).2⟩
  unfold tokenize_file_to_stream_ex
  rw [hs1]; rfl

/-- The tokens are the encodings of a list of runs. -/
theorem runs_of_lower_tokens (ts : List (List Byte))
    (h : ∀ t ∈ ts, t ≠ [] ∧ IsLowerTokenBytes t) :
    ∃ rs : List (List Nat), ts = rs.map encode_all ∧
      ∀ r ∈ rs, r ≠ [] ∧ ∀ cp ∈ r, is_token_char cp = true ∧ to_lower_basic cp = cp := by
  induction ts with
  | nil => exact ⟨[], rfl, by simp⟩
  | cons t ts ih =>
    obtain ⟨rs, hrs, hall⟩ := ih (fun u hu => h u (List.mem_cons_of_mem _ hu))
    obtain ⟨hne, cps, hcps, ht⟩ := h t (List.mem_cons_self _ _)
    refine ⟨cps :: rs, by rw [List.map_cons, ← hrs, ht], ?_⟩
    intro r hr
    rcases List.mem_cons.1 hr with rfl | hr
    · refine ⟨?_, hcps⟩
      intro hnil; apply hne; rw [ht, hnil]; rfl
    · exact hall r hr

theorem token_file_bytes_eq_encode (rs : List (List Nat)) :
    token_file_bytes (rs.map encode_all) = encode_all (file_codepoints rs) := by
  induction rs with
  | nil => rfl
  | cons r rs ih =>
    have h10 : utf8_encode_one 0x0A = [0x0A] := by decide
    simp only [List.map_cons, token_file_bytes, file_codepoints, ih]
    have : r ++ 0x0A :: file_codepoints rs = r ++ ([0x0A] ++ file_codepoints rs) := rfl
    rw [this, encode_all_append, encode_all_append]
    simp only [encode_all, h10, List.append_nil, List.singleton_append]

theorem tokenic_runs_file_codepoints (rs : List (List Nat))
    (h : ∀ r ∈ rs, r ≠ [] ∧ ∀ cp ∈ r, is_token_char cp = true ∧ to_lower_basic cp = cp) :
    tokenic_runs (file_codepoints rs) = rs := by
  induction rs with
  | nil => simp [tokenic_runs, file_codepoints, List.splitOnP_nil]
  | cons r rs ih =>
    have ih := ih (fun u hu => h u (List.mem_cons_of_mem _ hu))
    obtain ⟨hne, hr⟩ := h r (List.mem_cons_self _ _)
    unfold tokenic_runs at ih ⊢
    simp only [file_codepoints]
    rw [List.splitOnP_first _ r (by intro x hx; simp [(hr x hx).1]) 0x0A (by decide)]
    rw [List.filter_cons, ih]
    cases r with
    | nil => exact absurd rfl hne
    | cons a tl => simp

theorem map_reference_token_false (rs : List (List Nat))
    (h : ∀ r ∈ rs, r ≠ [] ∧ ∀ cp ∈ r, is_token_char cp = true ∧ to_lower_basic cp = cp) :
    rs.map (reference_token false) = rs.map encode_all := by
  apply List.map_congr_left
  intro r hr
  have : r.map to_lower_basic = r := by
    conv_rhs => rw [← List.map_id r]
    apply List.map_congr_left
    intro cp hcp
    exact ((h r hr).2 cp hcp).2
  simp only [reference_token, this, Bool.false_eq_true, if_false]

theorem retokenize_tokens (ts : List (List Byte))
    (h : ∀ t ∈ ts, t ≠ [] ∧ IsLowerTokenBytes t) :
    tokens_emitted (token_file_bytes ts) false = some ts := by
  obtain ⟨rs, rfl, hrs⟩ := runs_of_lower_tokens ts h
  rw [token_file_bytes_eq_encode]
  have hdec := decode_all_encode_all (file_codepoints rs) (by
    intro cp hcp
    have : cp = 0x0A ∨ is_token_char cp = true := by
      clear h
      induction rs with
      | nil => simp [file_codepoints] at hcp
      | cons r rs ih =>
        simp only [file_codepoints, List.mem_append, List.mem_cons] at hcp
        rcases hcp with hcp | hcp | hcp
        · exact Or.inr ((hrs r (List.mem_cons_self _ _)).2 cp hcp).1
        · exact Or.inl hcp
        · exact ih (fun u hu => hrs u (List.mem_cons_of_mem _ hu)) hcp
    rcases this with rfl | htc
    · decide
    · have := (is_token_char_iff cp).1 htc
      omega) _ (le_refl _)
  rw [tokens_emitted_of_decode_all _ false _ _ hdec]
  unfold reference_tokens
  rw [tokenic_runs_file_codepoints rs hrs, map_reference_token_false rs hrs]

theorem read_term_loop_of_decode_all (q : List Byte) :
    ∀ (fuel1 fuel2 pos : Nat) (tok : List Byte) (any : Bool) (cps : List Nat),
      decode_all fuel1 (q.drop pos) = some cps → (∀ cp ∈ cps, is_token_char cp = true) →
      q.length ≤ pos + fuel2 → pos ≤ q.length →
      read_term_loop q fuel2 pos tok any =
        some (q.length, tok ++ encode_all (cps.map to_lower_basic), any || !cps.isEmpty) := by
  intro fuel1
  induction fuel1 with
  | zero =>
    intro fuel2 pos tok any cps h _ hf hpq
    cases hd : q.drop pos with
    | nil =>
      rw [hd] at h
      simp only [decode_all, Option.some.injEq] at h
      subst h
      have hlen : ¬ pos < q.length := by
        have := congrArg List.length hd
        simp only [List.length_drop, List.length_nil] at this
        omega
      have hpos : pos = q.length := by omega
      cases fuel2 <;> simp [read_term_loop, hlen, encode_all, hpos]
    | cons b rest => rw [hd] at h; simp [decode_all] at h
  | succ fuel1 ih =>
    intro fuel2 pos tok any cps h htok hf hpq
    cases hd : q.drop pos with
    | nil =>
      rw [hd] at h
      simp only [decode_all, Option.some.injEq] at h
      subst h
      have hlen : ¬ pos < q.length := by
        have := congrArg List.length hd
        simp only [List.length_drop, List.length_nil] at this
        omega
      have hpos : pos = q.length := by omega
      cases fuel2 <;> simp [read_term_loop, hlen, encode_all, hpos]
    | cons b rest =>
      have hlen : pos < q.length := by
        have := congrArg List.length hd
        simp only [List.length_drop, List.length_cons] at this
        omega
      rw [hd] at h
      simp only [decode_all] at h
      cases hdec : utf8_decode_one (b :: rest) with
      | none => simp [hdec] at h
      | some r =>
        obtain ⟨cp, used⟩ := r
        simp only [hdec] at h
        by_cases hu : used = 0
        · simp [hu] at h
        · rw [if_neg hu] at h
          cases hrest : decode_all fuel1 (List.drop used (b :: rest)) with
          | none => simp [hrest] at h
          | some cps1 =>
            simp only [hrest, Option.map_some', Option.some.injEq] at h
            subst h
            cases fuel2 with
            | zero => omega
            | succ fuel2 =>
              have hdrop : List.drop used (b :: rest) = q.drop (pos + used) := by
                rw [← hd, List.drop_drop]
              rw [hdrop] at hrest
              have htc : is_token_char cp = true := htok cp (List.mem_cons_self _ _)
              have hrec := ih fuel2 (pos + used) (tok ++ utf8_encode_one (to_lower_basic cp))
                true cps1 hrest (fun c hc => htok c (List.mem_cons_of_mem _ hc)) (by omega)
                (by
                  have := (decode_bounds _ _ _ hdec).2.2.1
                  have h2 := congrArg List.length hd
                  simp only [List.length_drop] at h2
                  omega)
              simp only [read_term_loop, if_pos hlen, hd, hdec, if_neg hu, htc,
                not_true_eq_false, if_false, hrec]
              simp [encode_all, List.append_assoc]

theorem tokenic_runs_single (cps : List Nat) (hne : cps ≠ [])
    (h : ∀ cp ∈ cps, is_token_char cp = true) : tokenic_runs cps = [cps] := by
  unfold tokenic_runs
  rw [List.splitOnP_eq_single _ cps (by intro x hx; simp [h x hx])]
  cases cps with
  | nil => exact absurd rfl hne
  | cons a tl => simp

/-! Claims C11 to C13 and C15. -/

/-- C11: for every input that is valid UTF-8, that is, that decodes completely to a
codepoint sequence `cps`, the tokens emitted without stemming are the reference
tokens: the maximal runs of tokenic codepoints of `cps`, in order, each lower-cased
codepoint by codepoint and re-encoded; with stemming each of those tokens is truncated
to the length `stem_ru_utf8` returns for it. -/
theorem tokenize_matches_reference (buf : List Byte) (cps : List Nat)
    (h : decode_all buf.length buf = some cps) :
    tokens_emitted buf false =
        some ((tokenic_runs cps).map (fun r => encode_all (r.map to_lower_basic))) ∧
      tokens_emitted buf true =
        some (((tokenic_runs cps).map (fun r => encode_all (r.map to_lower_basic))).map
          (fun t => t.take (stem_ru_utf8 t))) := by
  refine ⟨?_, ?_⟩
  · rw [tokens_emitted_of_decode_all buf false cps _ h]
    rfl
  · rw [tokens_emitted_of_decode_all buf true cps _ h, List.map_map]
    rfl

/-- Witness of C11 at the input `Кошка`, which decodes to five codepoints. -/
theorem tokenize_matches_reference_witness :
    decode_all word_Koshka.length word_Koshka = some [0x41A, 0x43E, 0x448, 0x43A, 0x430] ∧
      (tokens_emitted word_Koshka false =
          some ((tokenic_runs [0x41A, 0x43E, 0x448, 0x43A, 0x430]).map
            (fun r => encode_all (r.map to_lower_basic))) ∧
        tokens_emitted word_Koshka true =
          some (((tokenic_runs [0x41A, 0x43E, 0x448, 0x43A, 0x430]).map
            (fun r => encode_all (r.map to_lower_basic))).map
              (fun t => t.take (stem_ru_utf8 t)))) :=
  ⟨by decide, tokenize_matches_reference word_Koshka _ (by decide)⟩

/-- C12: for every input document, with stemming disabled, the tokenizer returns a
token sequence, and running it again on the token file made of those tokens (each
followed by a newline) returns exactly the same token sequence. -/
theorem tokenize_twice (buf : List Byte) :
    ∃ ts, tokens_emitted buf false = some ts ∧
      tokens_emitted (token_file_bytes ts) false = some ts := by
  obtain ⟨s, hs, hinv⟩ := tokenize_lower_inv buf
  refine ⟨s.out, ?_, retokenize_tokens s.out hinv⟩
  unfold tokens_emitted
  rw [hs]; rfl

/-- C13: for every non-empty valid UTF-8 run `w` of tokenic codepoints, `read_term`
started at offset 0 succeeds, consumes all of `w`, and its term bytes are the single
token that the tokenizer with stemming emits for the document `w`. -/
theorem read_term_matches_tokenizer (w : List Byte) (cps : List Nat)
    (hdec : decode_all w.length w = some cps) (hne : cps ≠ [])
    (htok : ∀ cp ∈ cps, is_token_char cp = true) :
    ∃ t, read_term w 0 = some (some (t, w.length)) ∧ tokens_emitted w true = some [t] := by
  have hloop := read_term_loop_of_decode_all w w.length w.length 0 [] false cps
    (by rw [List.drop_zero]; exact hdec) htok (by omega) (Nat.zero_le _)
  have hany : (false || !cps.isEmpty) = true := by
    cases cps with
    | nil => exact absurd rfl hne
    | cons a tl => rfl
  refine ⟨reference_token true cps, ?_, ?_⟩
  · unfold read_term
    rw [hloop, hany]
    simp only [List.nil_append, not_true_eq_false, if_false]
    rfl
  · rw [tokens_emitted_of_decode_all w true cps _ hdec]
    unfold reference_tokens
    rw [tokenic_runs_single cps hne htok]
    rfl

/-- Witness of C13 at the query word `Кошка`. -/
theorem read_term_matches_tokenizer_witness :
    decode_all word_Koshka.length word_Koshka = some [0x41A, 0x43E, 0x448, 0x43A, 0x430] ∧
      ([0x41A, 0x43E, 0x448, 0x43A, 0x430] : List Nat) ≠ [] ∧
      (∀ cp ∈ ([0x41A, 0x43E, 0x448, 0x43A, 0x430] : List Nat), is_token_char cp = true) ∧
      ∃ t, read_term word_Koshka 0 = some (some (t, word_Koshka.length)) ∧
        tokens_emitted word_Koshka true = some [t] :=
  ⟨by decide, by decide, by decide,
    read_term_matches_tokenizer word_Koshka [0x41A, 0x43E, 0x448, 0x43A, 0x430]
      (by decide) (by decide) (by decide)⟩

/-- C15, the code at the empty byte string: the indexer's `fnv1a64` starts from
1469598103934665603, not from the FNV offset basis 14695981039346656037, and so it
differs from the standard FNV-1a hash already on the empty string (and on `a`). -/
theorem fnv1a64_not_standard :
    fnv1a64 [] = 1469598103934665603 ∧ fnv1a64_standard [] = 14695981039346656037 ∧
      fnv1a64 [] ≠ fnv1a64_standard [] ∧ fnv1a64 [0x61] ≠ fnv1a64_standard [0x61] := by
  decide

/-! Linear probing. -/

theorem land_mask_eq_mod (x k : Nat) : x &&& (2 ^ k - 1) = x % 2 ^ k :=
  Nat.and_pow_two_sub_one_eq_mod x k

theorem add_mod_succ (cap pos i : Nat) :
    ((pos + 1) % cap + i) % cap = (pos + (i + 1)) % cap := by
  rw [Nat.mod_add_mod]; congr 1; omega

/-- From any start slot the first slot that is not occupied lies fewer than `cap` steps
ahead, provided some slot is not occupied. -/
theorem exists_first_free (cap : Nat) (occ : Nat → Prop) (start : Nat) (hcap : 0 < cap)
    (hfree : ∃ q, q < cap ∧ ¬ occ q) :
    ∃ j, j < cap ∧ ¬ occ ((start + j) % cap) ∧ ∀ i, i < j → occ ((start + i) % cap) := by
  classical
  obtain ⟨q, hq, hnq⟩ := hfree
  have hs : start % cap < cap := Nat.mod_lt _ hcap
  have hd : ¬ occ ((start + (q + cap - start % cap) % cap) % cap) := by
    have : (start + (q + cap - start % cap) % cap) % cap = q := by
      rw [Nat.add_mod, Nat.mod_mod, ← Nat.add_mod, ← Nat.mod_add_mod]
      have h2 : start % cap + (q + cap - start % cap) = q + cap := by omega
      rw [h2, Nat.add_mod_right, Nat.mod_eq_of_lt hq]
    rw [this]; exact hnq
  have hex : ∃ j, ¬ occ ((start + j) % cap) := ⟨_, hd⟩
  refine ⟨Nat.find hex, ?_, Nat.find_spec hex, ?_⟩
  · exact lt_of_le_of_lt (Nat.find_min' hex hd) (Nat.mod_lt _ hcap)
  · intro i hi
    exact not_not.1 (Nat.find_min hex hi)

theorem usedAt_or_free (tab : List TermEntry) (p : Nat) (hp : p < tab.length) :
    UsedAt tab p ∨ ∃ e, tab[p]? = some e ∧ e.used = false := by
  have h := List.getElem?_eq_getElem hp
  cases hu : (tab[p]).used with
  | true => exact Or.inl ⟨_, h, hu⟩
  | false => exact Or.inr ⟨_, h, hu⟩

theorem not_usedAt_iff (tab : List TermEntry) (p : Nat) (hp : p < tab.length) :
    ¬ UsedAt tab p ↔ ∃ e, tab[p]? = some e ∧ e.used = false := by
  constructor
  · intro h
    rcases usedAt_or_free tab p hp with h1 | h1
    · exact absurd h1 h
    · exact h1
  · rintro ⟨e, he, hu⟩ ⟨e1, he1, hu1⟩
    rw [he] at he1
    cases he1
    rw [hu] at hu1
    cases hu1

/-- The free-slot search stops at the first slot not in use. -/
theorem probe_free_spec (tab : List TermEntry) (mask : Nat)
    (hmask : ∀ x, x &&& mask = x % tab.length) :
    ∀ (j pos fuel : Nat), pos < tab.length → j < fuel →
      ¬ UsedAt tab ((pos + j) % tab.length) →
      (∀ i, i < j → UsedAt tab ((pos + i) % tab.length)) →
      probe_free tab mask fuel pos = some ((pos + j) % tab.length) := by
  intro j
  induction j with
  | zero =>
    intro pos fuel hpos hf hfree _
    cases fuel with
    | zero => omega
    | succ fuel =>
      simp only [Nat.add_zero, Nat.mod_eq_of_lt hpos] at hfree ⊢
      obtain ⟨e, he, hu⟩ := (not_usedAt_iff tab pos hpos).1 hfree
      simp [probe_free, he, hu]
  | succ j ih =>
    intro pos fuel hpos hf hfree hused
    cases fuel with
    | zero => omega
    | succ fuel =>
      have h0 := hused 0 (Nat.succ_pos _)
      rw [Nat.add_zero, Nat.mod_eq_of_lt hpos] at h0
      obtain ⟨e, he, hu⟩ := h0
      have hlen : 0 < tab.length := by omega
      have hrec := ih ((pos + 1) % tab.length) fuel (Nat.mod_lt _ hlen) (by omega)
        (by rw [add_mod_succ]; exact hfree)
        (by intro i hi; rw [add_mod_succ]; exact hused (i + 1) (by omega))
      rw [add_mod_succ] at hrec
      simp [probe_free, he, hu, hmask, hrec]

/-- Writing an entry in use into a free slot adds it to the entries in use. -/
theorem filter_used_set (ne : TermEntry) (hne : ne.used = true) :
    ∀ (tab : List TermEntry) (p : Nat) (e : TermEntry), tab[p]? = some e → e.used = false →
      ((tab.set p ne).filter (fun e => e.used)).Perm (ne :: tab.filter (fun e => e.used)) := by
  intro tab
  induction tab with
  | nil => intro p e h; simp at h
  | cons a tl ih =>
    intro p e h hu
    cases p with
    | zero =>
      simp only [List.getElem?_cons_zero, Option.some.injEq] at h
      subst h
      simp [List.set, List.filter_cons, hne, hu]
    | succ p =>
      simp only [List.getElem?_cons_succ] at h
      have := ih p e h hu
      simp only [List.set, List.filter_cons]
      cases a.used with
      | true =>
        simp only [if_true]
        exact (List.Perm.cons a this).trans (List.Perm.swap ne a _)
      | false => simpa using this

theorem usedAt_set (tab : List TermEntry) (p q : Nat) (ne : TermEntry) (hne : ne.used = true)
    (h : UsedAt tab q) : UsedAt (tab.set p ne) q := by
  obtain ⟨e, he, hu⟩ := h
  by_cases hpq : p = q
  · subst hpq
    have hp : p < tab.length := by
      rcases Nat.lt_or_ge p tab.length with h | h
      · exact h
      · rw [List.getElem?_eq_none h] at he; cases he
    exact ⟨ne, by rw [List.getElem?_set_self hp], hne⟩
  · exact ⟨e, by rw [List.getElem?_set_ne hpq]; exact he, hu⟩

/-- Writing an entry into the first free slot on its probe path keeps every entry
reachable. -/
theorem pathOK_set (tab : List TermEntry) (ne : TermEntry) (hne : ne.used = true) (j : Nat)
    (hj : j < tab.length)
    (hused : ∀ i, i < j → UsedAt tab ((ne.hash % tab.length + i) % tab.length))
    (h : PathOK tab) :
    PathOK (tab.set ((ne.hash % tab.length + j) % tab.length) ne) := by
  intro p e he hu
  rw [List.length_set]
  by_cases hp : (ne.hash % tab.length + j) % tab.length = p
  · have hplt : p < tab.length := by rw [← hp]; exact Nat.mod_lt _ (by omega)
    rw [hp, List.getElem?_set_self hplt] at he
    cases he
    exact ⟨j, hj, hp.symm, fun i hi => usedAt_set _ _ _ _ hne (hused i hi)⟩
  · rw [List.getElem?_set_ne hp] at he
    obtain ⟨j1, hj1, hp1, hu1⟩ := h p e he hu
    exact ⟨j1, hj1, hp1, fun i hi => usedAt_set _ _ _ _ hne (hu1 i hi)⟩

theorem exists_free_of_count (tab : List TermEntry)
    (h : (tab.filter (fun e => e.used)).length < tab.length) :
    ∃ q, q < tab.length ∧ ¬ UsedAt tab q := by
  by_contra hcon
  push_neg at hcon
  have hall : ∀ e ∈ tab, (fun e : TermEntry => e.used) e = true := by
    intro e he
    obtain ⟨q, hq, hqe⟩ := List.mem_iff_getElem.1 he
    obtain ⟨e1, he1, hu1⟩ := hcon q hq
    rw [List.getElem?_eq_getElem hq] at he1
    cases he1
    rw [← hqe]; exact hu1
  rw [List.filter_eq_self.2 hall] at h
  omega

/-! Rehashing. -/

theorem pathOK_replicate (n : Nat) : PathOK (List.replicate n TermEntry.zero) := by
  intro p e he hu
  have : e = TermEntry.zero := by
    have hmem : e ∈ List.replicate n TermEntry.zero := List.mem_iff_getElem?.2 ⟨p, he⟩
    exact (List.mem_replicate.1 hmem).2
  rw [this] at hu
  cases hu

theorem filter_used_replicate (n : Nat) :
    (List.replicate n TermEntry.zero).filter (fun e => e.used) = [] := by
  rw [List.filter_eq_nil_iff]
  intro e he
  rw [(List.mem_replicate.1 he).2]
  decide

theorem dict_rehash_loop_spec (mask ncap : Nat) (hmask : ∀ x, x &&& mask = x % ncap) :
    ∀ (rest nt : List TermEntry) (size : Nat) (done : List TermEntry),
      nt.length = ncap → PathOK nt → (nt.filter (fun e => e.used)).Perm done →
      size = done.length → done.length + (rest.filter (fun e => e.used)).length < ncap →
      ∃ nt1, dict_rehash_loop mask rest (nt, size) =
          some (nt1, done.length + (rest.filter (fun e => e.used)).length) ∧
        nt1.length = ncap ∧ PathOK nt1 ∧
        (nt1.filter (fun e => e.used)).Perm (rest.filter (fun e => e.used) ++ done) := by
  intro rest
  induction rest with
  | nil =>
    intro nt size done hlen hpath hperm hsize _
    exact ⟨nt, by simp [dict_rehash_loop, hsize], hlen, hpath, by simpa using hperm⟩
  | cons e rest ih =>
    intro nt size done hlen hpath hperm hsize hcount
    by_cases hu : e.used = true
    · simp only [List.filter_cons, hu, if_true, List.length_cons] at hcount ⊢
      subst hlen
      have hcnt : (nt.filter (fun e => e.used)).length < nt.length := by
        rw [hperm.length_eq]; omega
      have hpos : 0 < nt.length := by omega
      obtain ⟨j, hj, hfree, hused⟩ := exists_first_free nt.length (UsedAt nt)
        (e.hash % nt.length) hpos (exists_free_of_count nt hcnt)
      have hprobe := probe_free_spec nt mask hmask j
        (e.hash % nt.length) nt.length (Nat.mod_lt _ hpos) hj hfree hused
      obtain ⟨e0, he0, hu0⟩ := (not_usedAt_iff nt _ (Nat.mod_lt _ hpos)).1 hfree
      have hperm1 := (filter_used_set e hu nt _ e0 he0 hu0).trans (List.Perm.cons e hperm)
      have hlen1 : (nt.set ((e.hash % nt.length + j) % nt.length) e).length = nt.length :=
        List.length_set _ _ _
      obtain ⟨nt1, h1, h2, h3, h4⟩ := ih (nt.set ((e.hash % nt.length + j) % nt.length) e)
        (size + 1) (e :: done) hlen1
        (pathOK_set nt e hu j hj hused hpath) hperm1 (by simp [hsize])
        (by simp only [List.length_cons]; omega)
      have hsum : done.length + ((List.filter (fun e => e.used) rest).length + 1) =
          (e :: done).length + (List.filter (fun e => e.used) rest).length := by
        simp only [List.length_cons]; omega
      have hmid : (List.filter (fun e => e.used) rest ++ e :: done).Perm
          (e :: List.filter (fun e => e.used) rest ++ done) := by
        simp only [List.cons_append]
        exact List.perm_middle
      refine ⟨nt1, ?_, h2, h3, h4.trans hmid⟩
      simp only [dict_rehash_loop, hu, not_true_eq_false, if_false, hmask, hprobe, hsum]
      exact h1
    · have hu1 : e.used = false := by simpa using hu
      simp only [List.filter_cons, hu1, Bool.false_eq_true, if_false] at hcount ⊢
      obtain ⟨nt1, h1, h2, h3, h4⟩ := ih nt size done hlen hpath hperm hsize hcount
      refine ⟨nt1, ?_, h2, h3, h4⟩
      simp only [dict_rehash_loop, hu1, Bool.false_eq_true, not_false_eq_true, if_true]
      exact h1

theorem entOK_of_mem_perm {pool : List Byte} {terms : List (List Byte)}
    {tab tab1 : List TermEntry}
    (hperm : (tab1.filter (fun e => e.used)).Perm (tab.filter (fun e => e.used)))
    (h : ∀ e ∈ tab, e.used = true → EntOK pool terms e) :
    ∀ e ∈ tab1, e.used = true → EntOK pool terms e := by
  intro e he hu
  have h1 : e ∈ tab1.filter (fun e => e.used) := List.mem_filter.2 ⟨he, hu⟩
  have h2 := (hperm.mem_iff).1 h1
  exact h e (List.mem_filter.1 h2).1 hu

/-- Rehashing to twice the capacity keeps the dictionary and its entries. -/
theorem dict_rehash_spec (d : TermDict) (terms : List (List Byte)) (h : DictInv d terms) :
    ∃ d1, dict_rehash d (d.cap * 2) = some d1 ∧ DictInv d1 terms ∧ d1.cap = d.cap * 2 ∧
      d1.size = d.size ∧ d1.pool = d.pool ∧
      (d1.tab.filter (fun e => e.used)).Perm (d.tab.filter (fun e => e.used)) := by
  obtain ⟨⟨k, hk⟩, hlen, hsize, hload, hnodup, hpath, hperm, hent⟩ := h
  have hcnt : (d.tab.filter (fun e => e.used)).length = d.size := by
    have := hperm.length_eq
    simpa using this
  have hmask : ∀ x, x &&& (d.cap * 2 - 1) = x % (d.cap * 2) := by
    intro x
    have := land_mask_eq_mod x (k + 1)
    rw [pow_succ, ← hk] at this
    exact this
  have htake : d.tab.take d.cap = d.tab := by rw [← hlen, List.take_length]
  obtain ⟨nt1, h1, h2, h3, h4⟩ := dict_rehash_loop_spec (d.cap * 2 - 1) (d.cap * 2) hmask
    d.tab (List.replicate (d.cap * 2) TermEntry.zero) 0 [] (by simp) (pathOK_replicate _)
    (by rw [filter_used_replicate]) rfl (by simp only [List.length_nil]; omega)
  simp only [List.length_nil, Nat.zero_add, List.append_nil] at h1 h4
  refine ⟨{ d with tab := nt1, cap := d.cap * 2, size := d.size }, ?_, ?_, rfl, rfl, rfl, h4⟩
  · unfold dict_rehash
    rw [htake, h1, hcnt]
  · refine ⟨⟨k + 1, by rw [pow_succ, ← hk]⟩, h2, hsize, by show d.size * 10 < d.cap * 2 * 7; omega,
      hnodup, h3, ?_, entOK_of_mem_perm h4 hent⟩
    exact (h4.map _).trans hperm

/-! Lookup and insertion. -/

theorem term_equals_iff (d : TermDict) (e : TermEntry) (s : List Byte)
    (hb : e.off + e.len ≤ d.pool.length) :
    term_equals d e s = true ↔ term_bytes d.pool e = s := by
  unfold term_equals term_bytes
  by_cases hl : e.len = s.length
  · rw [if_neg (by simpa using hl), hl]
    exact beq_iff_eq
  · rw [if_pos hl]
    constructor
    · intro h; cases h
    · intro h
      exfalso; apply hl
      have := congrArg List.length h
      rw [List.length_take, List.length_drop] at this
      omega

theorem dict_probe_found (d : TermDict) (s : List Byte) (h mask id : Nat)
    (hmask : ∀ x, x &&& mask = x % d.tab.length)
    (hcons : ∀ e ∈ d.tab, e.used = true → e.hash = h ∧ term_equals d e s = true →
      e.term_id = id) :
    ∀ (j pos fuel : Nat), pos < d.tab.length → j < fuel →
      (∃ e, d.tab[(pos + j) % d.tab.length]? = some e ∧ e.used = true ∧ e.hash = h ∧
        term_equals d e s = true) →
      (∀ i, i < j → UsedAt d.tab ((pos + i) % d.tab.length)) →
      dict_probe d s h mask fuel pos = some (ProbeResult.found id) := by
  intro j
  induction j with
  | zero =>
    intro pos fuel hpos hf ⟨e, he, hu, hh, heq⟩ _
    cases fuel with
    | zero => omega
    | succ fuel =>
      simp only [Nat.add_zero, Nat.mod_eq_of_lt hpos] at he
      have hid := hcons e (List.getElem?_mem he) hu ⟨hh, heq⟩
      simp [dict_probe, he, hu, hh, heq, hid]
  | succ j ih =>
    intro pos fuel hpos hf htarget hused
    cases fuel with
    | zero => omega
    | succ fuel =>
      have h0 := hused 0 (Nat.succ_pos _)
      simp only [Nat.add_zero, Nat.mod_eq_of_lt hpos] at h0
      obtain ⟨e0, he0, hu0⟩ := h0
      have hlen : 0 < d.tab.length := by omega
      by_cases hm : e0.hash = h ∧ term_equals d e0 s = true
      · have hid := hcons e0 (List.getElem?_mem he0) hu0 hm
        simp [dict_probe, he0, hu0, hm, hid]
      · have hrec := ih ((pos + 1) % d.tab.length) fuel (Nat.mod_lt _ hlen) (by omega)
          (by rw [add_mod_succ]; exact htarget)
          (by intro i hi; rw [add_mod_succ]; exact hused (i + 1) (by omega))
        simp only [dict_probe, he0, hu0, if_true, hm, if_false, hmask]
        exact hrec

theorem dict_probe_free (d : TermDict) (s : List Byte) (h mask : Nat)
    (hmask : ∀ x, x &&& mask = x % d.tab.length)
    (hno : ∀ e ∈ d.tab, e.used = true → ¬ (e.hash = h ∧ term_equals d e s = true)) :
    ∀ (j pos fuel : Nat), pos < d.tab.length → j < fuel →
      ¬ UsedAt d.tab ((pos + j) % d.tab.length) →
      (∀ i, i < j → UsedAt d.tab ((pos + i) % d.tab.length)) →
      dict_probe d s h mask fuel pos = some (ProbeResult.free ((pos + j) % d.tab.length)) := by
  intro j
  induction j with
  | zero =>
    intro pos fuel hpos hf hfree _
    cases fuel with
    | zero => omega
    | succ fuel =>
      simp only [Nat.add_zero, Nat.mod_eq_of_lt hpos] at hfree ⊢
      obtain ⟨e, he, hu⟩ := (not_usedAt_iff d.tab pos hpos).1 hfree
      simp [dict_probe, he, hu]
  | succ j ih =>
    intro pos fuel hpos hf hfree hused
    cases fuel with
    | zero => omega
    | succ fuel =>
      have h0 := hused 0 (Nat.succ_pos _)
      simp only [Nat.add_zero, Nat.mod_eq_of_lt hpos] at h0
      obtain ⟨e0, he0, hu0⟩ := h0
      have hlen : 0 < d.tab.length := by omega
      have hm := hno e0 (List.getElem?_mem he0) hu0
      have hrec := ih ((pos + 1) % d.tab.length) fuel (Nat.mod_lt _ hlen) (by omega)
        (by rw [add_mod_succ]; exact hfree)
        (by intro i hi; rw [add_mod_succ]; exact hused (i + 1) (by omega))
      rw [add_mod_succ] at hrec
      simp only [dict_probe, he0, hu0, if_true, hm, if_false, hmask]
      exact hrec

theorem term_bytes_append (pool s : List Byte) (e : TermEntry)
    (hb : e.off + e.len ≤ pool.length) : term_bytes (pool ++ s) e = term_bytes pool e := by
  unfold term_bytes
  rw [List.drop_append_of_le_length (by omega), List.take_append_of_le_length]
  rw [List.length_drop]; omega

theorem entOK_append {pool : List Byte} {terms : List (List Byte)} {e : TermEntry}
    (s : List Byte) (h : EntOK pool terms e) : EntOK (pool ++ s) (terms ++ [s]) e := by
  obtain ⟨hb, ht, hh⟩ := h
  have hlt : e.term_id < terms.length := by
    rcases Nat.lt_or_ge e.term_id terms.length with h | h
    · exact h
    · rw [List.getElem?_eq_none h] at ht; cases ht
  refine ⟨by rw [List.length_append]; omega, ?_, ?_⟩
  · rw [term_bytes_append pool s e hb, List.getElem?_append_left hlt]; exact ht
  · rw [term_bytes_append pool s e hb]; exact hh

theorem nodup_getElem?_inj {α : Type} {l : List α} (h : l.Nodup) {i j : Nat} {a : α}
    (hi : l[i]? = some a) (hj : l[j]? = some a) : i = j := by
  have hil : i < l.length := by
    rcases Nat.lt_or_ge i l.length with h | h
    · exact h
    · rw [List.getElem?_eq_none h] at hi; cases hi
  have hjl : j < l.length := by
    rcases Nat.lt_or_ge j l.length with h | h
    · exact h
    · rw [List.getElem?_eq_none h] at hj; cases hj
  rw [List.getElem?_eq_getElem hil] at hi
  rw [List.getElem?_eq_getElem hjl] at hj
  have hij : l[i] = l[j] := by rw [Option.some.inj hi, Option.some.inj hj]
  exact (@List.Nodup.getElem_inj_iff _ l h i hil j hjl).1 hij

/-- The entry `dict_get_or_add` writes for a new term. -/
theorem new_entry_ok (d : TermDict) (terms : List (List Byte)) (s : List Byte)
    (hsize : d.size = terms.length) :
    EntOK (d.pool ++ s) (terms ++ [s])
      { hash := fnv1a64 s, off := d.pool.length, len := s.length, term_id := d.size,
        used := true, chain := [], df := 0 } := by
  have hb : term_bytes (d.pool ++ s)
      { hash := fnv1a64 s, off := d.pool.length, len := s.length, term_id := d.size,
        used := true, chain := [], df := 0 } = s := by
    unfold term_bytes
    simp
  refine ⟨by simp, ?_, ?_⟩
  · rw [hb]
    show (terms ++ [s])[d.size]? = some s
    rw [hsize]
    simp
  · rw [hb]

/-- The first step of `dict_get_or_add`: after the load-factor check there is room for
one more entry. -/
theorem dict_grow_spec (d : TermDict) (terms : List (List Byte)) (h : DictInv d terms) :
    ∃ d0, (if (d.size + 1) * 10 ≥ d.cap * 7 then dict_rehash d (d.cap * 2) else some d) = some d0 ∧
      DictInv d0 terms ∧ (d0.size + 1) * 10 < d0.cap * 7 ∧ d0.size = d.size ∧
      d0.pool = d.pool ∧
      (d0.tab.filter (fun e => e.used)).Perm (d.tab.filter (fun e => e.used)) := by
  by_cases hc : (d.size + 1) * 10 ≥ d.cap * 7
  · rw [if_pos hc]
    obtain ⟨d1, h1, h2, h3, h4, h5, h6⟩ := dict_rehash_spec d terms h
    refine ⟨d1, h1, h2, ?_, h4, h5, h6⟩
    obtain ⟨⟨k, hk⟩, _, _, hload, _⟩ := h
    have hcap : 0 < d.cap := by rw [hk]; exact Nat.two_pow_pos k
    rw [h3, h4]
    rcases Nat.eq_zero_or_pos d.size with hz | hz <;> omega
  · rw [if_neg hc]
    exact ⟨d, rfl, h, by omega, rfl, rfl, List.Perm.refl _⟩

/-- Specification of `dict_get_or_add` against the list of terms held. -/
theorem dict_get_or_add_spec (d : TermDict) (terms : List (List Byte)) (s : List Byte)
    (h : DictInv d terms) :
    ∃ d1 id, dict_get_or_add d s = some (d1, id) ∧
      ((s ∈ terms ∧ terms[id]? = some s ∧ DictInv d1 terms ∧ d1.size = d.size ∧
          d1.pool = d.pool ∧
          (d1.tab.filter (fun e => e.used)).Perm (d.tab.filter (fun e => e.used))) ∨
        (s ∉ terms ∧ id = d.size ∧ DictInv d1 (terms ++ [s]) ∧ d1.size = d.size + 1 ∧
          d1.pool = d.pool ++ s ∧
          (d1.tab.filter (fun e => e.used)).Perm
            (new_entry d s :: d.tab.filter (fun e => e.used)))) := by
  obtain ⟨d0, hgrow, hinv0, hroom, hsz0, hpool0, hperm0⟩ := dict_grow_spec d terms h
  obtain ⟨⟨k, hk⟩, hlen, hsize, hload, hnodup, hpath, hperm, hent⟩ := hinv0
  have hmask : ∀ x, x &&& (d0.cap - 1) = x % d0.tab.length := by
    intro x; rw [hlen, hk]; exact land_mask_eq_mod x k
  have hpos : 0 < d0.tab.length := by rw [hlen, hk]; exact Nat.two_pow_pos k
  have hhome : fnv1a64 s % d0.tab.length < d0.tab.length := Nat.mod_lt _ hpos
  by_cases hs : s ∈ terms
  · obtain ⟨id, hid⟩ := List.mem_iff_getElem?.1 hs
    have hidlt : id < d0.size := by
      rw [hsize]
      rcases Nat.lt_or_ge id terms.length with h | h
      · exact h
      · rw [List.getElem?_eq_none h] at hid; cases hid
    have hmem : id ∈ (d0.tab.filter (fun e => e.used)).map (fun e => e.term_id) :=
      (hperm.mem_iff).2 (List.mem_range.2 hidlt)
    obtain ⟨e, hef, heid⟩ := List.mem_map.1 hmem
    obtain ⟨hetab, heu⟩ := List.mem_filter.1 hef
    obtain ⟨p, hp⟩ := List.mem_iff_getElem?.1 hetab
    have heok := hent e hetab heu
    have hbytes : term_bytes d0.pool e = s := by
      have := heok.2.1
      rw [heid, hid] at this
      exact (Option.some.inj this).symm
    obtain ⟨j, hj, hpj, hused⟩ := hpath p e hp heu
    have hhash : e.hash = fnv1a64 s := by rw [heok.2.2, hbytes]
    have hcons : ∀ e1 ∈ d0.tab, e1.used = true →
        e1.hash = fnv1a64 s ∧ term_equals d0 e1 s = true → e1.term_id = id := by
      intro e1 he1 hu1 hm
      have hok1 := hent e1 he1 hu1
      have hb1 := (term_equals_iff d0 e1 s hok1.1).1 hm.2
      have := hok1.2.1
      rw [hb1] at this
      exact nodup_getElem?_inj hnodup this hid
    have hprobe := dict_probe_found d0 s (fnv1a64 s) (d0.cap - 1) id hmask hcons j
      (fnv1a64 s % d0.tab.length) d0.cap hhome (by rw [← hlen]; exact hj)
      ⟨e, by rw [← hhash, ← hpj]; exact hp, heu, hhash,
        (term_equals_iff d0 e s heok.1).2 hbytes⟩
      (by intro i hi; rw [← hhash]; exact hused i hi)
    refine ⟨d0, id, ?_, Or.inl ⟨hs, hid, ⟨⟨k, hk⟩, hlen, hsize, hload, hnodup, hpath, hperm,
      hent⟩, hsz0, hpool0, hperm0⟩⟩
    unfold dict_get_or_add
    rw [hgrow]
    simp only [hmask, hprobe]
  · have hno : ∀ e ∈ d0.tab, e.used = true →
        ¬ (e.hash = fnv1a64 s ∧ term_equals d0 e s = true) := by
      intro e he hu hm
      have hok := hent e he hu
      have hb := (term_equals_iff d0 e s hok.1).1 hm.2
      have := hok.2.1
      rw [hb] at this
      exact hs (List.getElem?_mem this)
    have hcnt : (d0.tab.filter (fun e => e.used)).length < d0.tab.length := by
      have := hperm.length_eq
      simp only [List.length_map, List.length_range] at this
      rw [this, hlen]; omega
    obtain ⟨j, hj, hfree, hused⟩ := exists_first_free d0.tab.length (UsedAt d0.tab)
      (fnv1a64 s % d0.tab.length) hpos (exists_free_of_count d0.tab hcnt)
    have hprobe := dict_probe_free d0 s (fnv1a64 s) (d0.cap - 1) hmask hno j
      (fnv1a64 s % d0.tab.length) d0.cap hhome (by rw [← hlen]; exact hj) hfree hused
    obtain ⟨e0, he0, hu0⟩ := (not_usedAt_iff d0.tab _ (Nat.mod_lt _ hpos)).1 hfree
    have hne : (new_entry d0 s).used = true := rfl
    have hset := filter_used_set (new_entry d0 s) hne d0.tab _ e0 he0 hu0
    have hnew : new_entry d0 s = new_entry d s := by
      unfold new_entry; rw [hsz0, hpool0]
    refine ⟨TermDict.mk
        (d0.tab.set ((fnv1a64 s % d0.tab.length + j) % d0.tab.length) (new_entry d0 s))
        d0.cap (d0.size + 1) (d0.pool ++ s), d0.size, ?_,
      Or.inr ⟨hs, hsz0, ?_, by show d0.size + 1 = d.size + 1; rw [hsz0],
        by show d0.pool ++ s = d.pool ++ s; rw [hpool0], ?_⟩⟩
    · unfold dict_get_or_add
      rw [hgrow]
      simp only [hmask, hprobe]
      rfl
    · refine ⟨⟨k, hk⟩, by show (d0.tab.set _ _).length = d0.cap; rw [List.length_set]; exact hlen,
        by show d0.size + 1 = (terms ++ [s]).length; rw [List.length_append, hsize]; rfl,
        by show (d0.size + 1) * 10 < d0.cap * 7; exact hroom, ?_, ?_, ?_, ?_⟩
      · rw [List.nodup_append]
        refine ⟨hnodup, List.nodup_singleton s, ?_⟩
        intro a ha hb
        rw [List.mem_singleton] at hb
        subst hb; exact hs ha
      · exact pathOK_set d0.tab (new_entry d0 s) hne j hj hused hpath
      · show ((d0.tab.set _ _).filter _ |>.map _).Perm (List.range (d0.size + 1))
        rw [List.range_succ]
        refine ((hset.map _).trans ?_)
        simp only [List.map_cons]
        refine (List.Perm.cons _ hperm).trans ?_
        exact (List.perm_append_singleton _ _).symm
      · intro e he hu
        show EntOK (d0.pool ++ s) (terms ++ [s]) e
        rcases List.mem_or_eq_of_mem_set he with he | he
        · exact entOK_append s (hent e he hu)
        · rw [he]; exact new_entry_ok d0 terms s hsize
    · show ((d0.tab.set _ _).filter _).Perm _
      rw [← hnew]
      exact hset.trans (List.Perm.cons _ hperm0)

/-! Sequences of dictionary calls. -/

theorem dictInv_init (k : Nat) : DictInv (dict_init (2 ^ k)) [] := by
  refine ⟨⟨k, rfl⟩, by simp [dict_init], rfl, ?_, List.nodup_nil, pathOK_replicate _, ?_, ?_⟩
  · show 0 * 10 < 2 ^ k * 7
    have := Nat.two_pow_pos k
    omega
  · show ((List.replicate (2 ^ k) TermEntry.zero).filter _ |>.map _).Perm (List.range 0)
    rw [filter_used_replicate]
    exact List.Perm.refl _
  · intro e he hu
    have : e = TermEntry.zero := (List.mem_replicate.1 he).2
    rw [this] at hu
    cases hu

theorem distinct_terms_extends :
    ∀ (calls seen : List (List Byte)), ∃ more, distinct_terms seen calls = seen ++ more := by
  intro calls
  induction calls with
  | nil => intro seen; exact ⟨[], by simp [distinct_terms]⟩
  | cons s rest ih =>
    intro seen
    unfold distinct_terms
    by_cases hs : s ∈ seen
    · rw [if_pos hs]; exact ih seen
    · rw [if_neg hs]
      obtain ⟨more, hm⟩ := ih (seen ++ [s])
      exact ⟨s :: more, by rw [hm]; simp⟩

theorem mem_distinct_terms :
    ∀ (calls seen : List (List Byte)) (s : List Byte),
      s ∈ distinct_terms seen calls ↔ s ∈ seen ∨ s ∈ calls := by
  intro calls
  induction calls with
  | nil => intro seen s; simp [distinct_terms]
  | cons c rest ih =>
    intro seen s
    unfold distinct_terms
    by_cases hc : c ∈ seen
    · rw [if_pos hc, ih]
      constructor
      · rintro (h | h)
        · exact Or.inl h
        · exact Or.inr (List.mem_cons_of_mem _ h)
      · rintro (h | h)
        · exact Or.inl h
        · rcases List.mem_cons.1 h with rfl | h
          · exact Or.inl hc
          · exact Or.inr h
    · rw [if_neg hc, ih]
      simp only [List.mem_append, List.mem_singleton, List.mem_cons]
      tauto

theorem getElem?_append_some {α : Type} (l more : List α) (i : Nat) (a : α)
    (h : l[i]? = some a) : (l ++ more)[i]? = some a := by
  have hlt : i < l.length := by
    rcases Nat.lt_or_ge i l.length with h1 | h1
    · exact h1
    · rw [List.getElem?_eq_none h1] at h; cases h
  rw [List.getElem?_append_left hlt]; exact h

/-- A run of `dict_get_or_add` calls returns, for each call, the position of its term
among the distinct terms in order of first occurrence. -/
theorem dict_add_all_spec :
    ∀ (calls : List (List Byte)) (d : TermDict) (terms : List (List Byte)), DictInv d terms →
      ∃ d1 ids, dict_add_all d calls = some (d1, ids) ∧
        DictInv d1 (distinct_terms terms calls) ∧
        List.Forall₂ (fun s id => (distinct_terms terms calls)[id]? = some s) calls ids := by
  intro calls
  induction calls with
  | nil =>
    intro d terms h
    exact ⟨d, [], rfl, h, List.Forall₂.nil⟩
  | cons s rest ih =>
    intro d terms h
    obtain ⟨d1, id, hcall, hcase⟩ := dict_get_or_add_spec d terms s h
    rcases hcase with ⟨hs, hid, hinv1, _, _, _⟩ | ⟨hs, hid, hinv1, _, _, _⟩
    · obtain ⟨d2, ids, hrest, hinv2, hids⟩ := ih d1 terms hinv1
      obtain ⟨more, hmore⟩ := distinct_terms_extends rest terms
      refine ⟨d2, id :: ids, ?_, ?_, ?_⟩
      · simp only [dict_add_all, hcall, hrest]
      · simp only [distinct_terms, if_pos hs]; exact hinv2
      · simp only [distinct_terms, if_pos hs]
        refine List.Forall₂.cons ?_ hids
        rw [hmore]
        exact getElem?_append_some _ _ _ _ hid
    · obtain ⟨d2, ids, hrest, hinv2, hids⟩ := ih d1 (terms ++ [s]) hinv1
      obtain ⟨more, hmore⟩ := distinct_terms_extends rest (terms ++ [s])
      refine ⟨d2, id :: ids, ?_, ?_, ?_⟩
      · simp only [dict_add_all, hcall, hrest]
      · simp only [distinct_terms, if_neg hs]; exact hinv2
      · simp only [distinct_terms, if_neg hs]
        refine List.Forall₂.cons ?_ hids
        rw [hmore]
        apply getElem?_append_some
        rw [hid, h.2.2.1]
        simp

theorem forall₂_getElem? {α β : Type} {R : α → β → Prop} :
    ∀ {l1 : List α} {l2 : List β}, List.Forall₂ R l1 l2 →
      ∀ (i : Nat) (a : α), l1[i]? = some a → ∃ b, l2[i]? = some b ∧ R a b := by
  intro l1 l2 h
  induction h with
  | nil => intro i a h; simp at h
  | cons hab _ ih =>
    intro i a h
    cases i with
    | zero =>
      simp only [List.getElem?_cons_zero, Option.some.injEq] at h
      subst h
      exact ⟨_, List.getElem?_cons_zero, hab⟩
    | succ i =>
      simp only [List.getElem?_cons_succ] at h ⊢
      exact ih i a h

theorem forall₂_getElem?_right {α β : Type} {R : α → β → Prop} :
    ∀ {l1 : List α} {l2 : List β}, List.Forall₂ R l1 l2 →
      ∀ (i : Nat) (b : β), l2[i]? = some b → ∃ a, l1[i]? = some a ∧ R a b := by
  intro l1 l2 h
  induction h with
  | nil => intro i a h; simp at h
  | cons hab _ ih =>
    intro i b h
    cases i with
    | zero =>
      simp only [List.getElem?_cons_zero, Option.some.injEq] at h
      subst h
      exact ⟨_, List.getElem?_cons_zero, hab⟩
    | succ i =>
      simp only [List.getElem?_cons_succ] at h ⊢
      exact ih i b h

/-! Claim C14. -/

theorem not_dsOcc_iff (tab : List Nat) (p : Nat) (hp : p < tab.length) :
    ¬ DsOcc tab p ↔ tab[p]? = some DOCSET_EMPTY := by
  have h := List.getElem?_eq_getElem hp
  constructor
  · intro hn
    by_cases hv : tab[p] = DOCSET_EMPTY
    · rw [h, hv]
    · exact absurd ⟨tab[p], h, hv⟩ hn
  · rintro he ⟨v, hv, hne⟩
    rw [he] at hv
    exact hne (Option.some.inj hv).symm

theorem docset_probe_free_spec (tab : List Nat) (mask : Nat)
    (hmask : ∀ x, x &&& mask = x % tab.length) :
    ∀ (j pos fuel : Nat), pos < tab.length → j < fuel →
      ¬ DsOcc tab ((pos + j) % tab.length) →
      (∀ i, i < j → DsOcc tab ((pos + i) % tab.length)) →
      docset_probe_free tab mask fuel pos = some ((pos + j) % tab.length) := by
  intro j
  induction j with
  | zero =>
    intro pos fuel hpos hf hfree _
    cases fuel with
    | zero => omega
    | succ fuel =>
      simp only [Nat.add_zero, Nat.mod_eq_of_lt hpos] at hfree ⊢
      have he := (not_dsOcc_iff tab pos hpos).1 hfree
      simp [docset_probe_free, he]
  | succ j ih =>
    intro pos fuel hpos hf hfree hused
    cases fuel with
    | zero => omega
    | succ fuel =>
      have h0 := hused 0 (Nat.succ_pos _)
      simp only [Nat.add_zero, Nat.mod_eq_of_lt hpos] at h0
      obtain ⟨v, hv, hne⟩ := h0
      have hlen : 0 < tab.length := by omega
      have hrec := ih ((pos + 1) % tab.length) fuel (Nat.mod_lt _ hlen) (by omega)
        (by rw [add_mod_succ]; exact hfree)
        (by intro i hi; rw [add_mod_succ]; exact hused (i + 1) (by omega))
      rw [add_mod_succ] at hrec
      simp [docset_probe_free, hv, hne, hmask, hrec]

theorem ds_filter_set (v : Nat) (hv : v ≠ DOCSET_EMPTY) :
    ∀ (tab : List Nat) (p : Nat), tab[p]? = some DOCSET_EMPTY →
      ((tab.set p v).filter (fun v => decide (v ≠ DOCSET_EMPTY))).Perm
        (v :: tab.filter (fun v => decide (v ≠ DOCSET_EMPTY))) := by
  intro tab
  induction tab with
  | nil => intro p h; simp at h
  | cons a tl ih =>
    intro p h
    cases p with
    | zero =>
      simp only [List.getElem?_cons_zero, Option.some.injEq] at h
      subst h
      simp [List.set, List.filter_cons, hv]
    | succ p =>
      simp only [List.getElem?_cons_succ] at h
      have := ih p h
      simp only [List.set, List.filter_cons]
      by_cases ha : a ≠ DOCSET_EMPTY
      · have ha1 : decide (a ≠ DOCSET_EMPTY) = true := by simpa using ha
        simp only [ha1, if_true]
        exact (List.Perm.cons a this).trans (List.Perm.swap v a _)
      · have ha1 : decide (a ≠ DOCSET_EMPTY) = false := by simpa using ha
        simp only [ha1, Bool.false_eq_true, if_false]
        exact this

theorem dsOcc_set (tab : List Nat) (p q v : Nat) (hv : v ≠ DOCSET_EMPTY)
    (h : DsOcc tab q) : DsOcc (tab.set p v) q := by
  obtain ⟨w, hw, hne⟩ := h
  by_cases hpq : p = q
  · subst hpq
    have hp : p < tab.length := by
      rcases Nat.lt_or_ge p tab.length with h | h
      · exact h
      · rw [List.getElem?_eq_none h] at hw; cases hw
    exact ⟨v, by rw [List.getElem?_set_self hp], hv⟩
  · exact ⟨w, by rw [List.getElem?_set_ne hpq]; exact hw, hne⟩

theorem dsPathOK_set (tab : List Nat) (v : Nat) (hv : v ≠ DOCSET_EMPTY) (j : Nat)
    (hj : j < tab.length)
    (hused : ∀ i, i < j → DsOcc tab ((mix32 v % tab.length + i) % tab.length))
    (h : DsPathOK tab) :
    DsPathOK (tab.set ((mix32 v % tab.length + j) % tab.length) v) := by
  intro p w hw hne
  rw [List.length_set]
  by_cases hp : (mix32 v % tab.length + j) % tab.length = p
  · have hplt : p < tab.length := by rw [← hp]; exact Nat.mod_lt _ (by omega)
    rw [hp, List.getElem?_set_self hplt] at hw
    cases hw
    exact ⟨j, hj, hp.symm, fun i hi => dsOcc_set _ _ _ _ hv (hused i hi)⟩
  · rw [List.getElem?_set_ne hp] at hw
    obtain ⟨j1, hj1, hp1, hu1⟩ := h p w hw hne
    exact ⟨j1, hj1, hp1, fun i hi => dsOcc_set _ _ _ _ hv (hu1 i hi)⟩

theorem ds_exists_free_of_count (tab : List Nat)
    (h : (tab.filter (fun v => decide (v ≠ DOCSET_EMPTY))).length < tab.length) :
    ∃ q, q < tab.length ∧ ¬ DsOcc tab q := by
  by_contra hcon
  push_neg at hcon
  have hall : ∀ v ∈ tab, (fun v => decide (v ≠ DOCSET_EMPTY)) v = true := by
    intro v hv
    obtain ⟨q, hq, hqe⟩ := List.mem_iff_getElem.1 hv
    obtain ⟨w, hw, hne⟩ := hcon q hq
    rw [List.getElem?_eq_getElem hq] at hw
    cases hw
    rw [← hqe]; simpa using hne
  rw [List.filter_eq_self.2 hall] at h
  omega

theorem dsPathOK_replicate (n : Nat) : DsPathOK (List.replicate n DOCSET_EMPTY) := by
  intro p v hv hne
  have hmem : v ∈ List.replicate n DOCSET_EMPTY := List.getElem?_mem hv
  exact absurd (List.mem_replicate.1 hmem).2 hne

theorem ds_filter_replicate (n : Nat) :
    (List.replicate n DOCSET_EMPTY).filter (fun v => decide (v ≠ DOCSET_EMPTY)) = [] := by
  rw [List.filter_eq_nil_iff]
  intro v hv
  rw [(List.mem_replicate.1 hv).2]
  simp

theorem docset_rehash_loop_spec (mask ncap : Nat) (hmask : ∀ x, x &&& mask = x % ncap) :
    ∀ (rest nt done : List Nat),
      nt.length = ncap → DsPathOK nt →
      (nt.filter (fun v => decide (v ≠ DOCSET_EMPTY))).Perm done →
      done.length + (rest.filter (fun v => decide (v ≠ DOCSET_EMPTY))).length < ncap →
      ∃ nt1, docset_rehash_loop mask rest nt = some nt1 ∧
        nt1.length = ncap ∧ DsPathOK nt1 ∧
        (nt1.filter (fun v => decide (v ≠ DOCSET_EMPTY))).Perm
          (rest.filter (fun v => decide (v ≠ DOCSET_EMPTY)) ++ done) := by
  intro rest
  induction rest with
  | nil =>
    intro nt done hlen hpath hperm _
    exact ⟨nt, by simp [docset_rehash_loop], hlen, hpath, by simpa using hperm⟩
  | cons v rest ih =>
    intro nt done hlen hpath hperm hcount
    by_cases hv : v = DOCSET_EMPTY
    · have hd : decide (v ≠ DOCSET_EMPTY) = false := by simp [hv]
      simp only [List.filter_cons, hd, Bool.false_eq_true, if_false] at hcount ⊢
      obtain ⟨nt1, h1, h2, h3, h4⟩ := ih nt done hlen hpath hperm hcount
      refine ⟨nt1, ?_, h2, h3, h4⟩
      simp only [docset_rehash_loop, hv, if_true]
      exact h1
    · have hd : decide (v ≠ DOCSET_EMPTY) = true := by simp [hv]
      simp only [List.filter_cons, hd, if_true, List.length_cons] at hcount ⊢
      subst hlen
      have hcnt : (nt.filter (fun v => decide (v ≠ DOCSET_EMPTY))).length < nt.length := by
        rw [hperm.length_eq]; omega
      have hpos : 0 < nt.length := by omega
      obtain ⟨j, hj, hfree, hused⟩ := exists_first_free nt.length (DsOcc nt)
        (mix32 v % nt.length) hpos (ds_exists_free_of_count nt hcnt)
      have hprobe := docset_probe_free_spec nt mask hmask j
        (mix32 v % nt.length) nt.length (Nat.mod_lt _ hpos) hj hfree hused
      have he0 := (not_dsOcc_iff nt _ (Nat.mod_lt _ hpos)).1 hfree
      have hperm1 := (ds_filter_set v hv nt _ he0).trans (List.Perm.cons v hperm)
      have hlen1 : (nt.set ((mix32 v % nt.length + j) % nt.length) v).length = nt.length :=
        List.length_set _ _ _
      obtain ⟨nt1, h1, h2, h3, h4⟩ := ih (nt.set ((mix32 v % nt.length + j) % nt.length) v)
        (v :: done) hlen1 (dsPathOK_set nt v hv j hj hused hpath) hperm1
        (by simp only [List.length_cons]; omega)
      have hmid : (List.filter (fun v => decide (v ≠ DOCSET_EMPTY)) rest ++ v :: done).Perm
          (v :: List.filter (fun v => decide (v ≠ DOCSET_EMPTY)) rest ++ done) := by
        simp only [List.cons_append]
        exact List.perm_middle
      refine ⟨nt1, ?_, h2, h3, h4.trans hmid⟩
      simp only [docset_rehash_loop, hv, if_false, hmask, hprobe]
      exact h1

theorem docset_cap_loop_spec (m : Nat) :
    ∀ (a fuel : Nat), a ≤ m → m ≤ a + fuel →
      docset_cap_loop fuel (2 ^ a) (2 ^ m) = some (2 ^ m) := by
  intro a fuel
  induction fuel generalizing a with
  | zero =>
    intro ha hf
    have : a = m := by omega
    subst this
    simp [docset_cap_loop]
  | succ fuel ih =>
    intro ha hf
    by_cases hlt : a < m
    · have h2 : 2 ^ a < 2 ^ m := Nat.pow_lt_pow_right (by decide) hlt
      simp only [docset_cap_loop, if_pos h2, Nat.shiftLeft_eq, pow_one]
      rw [← pow_succ]
      exact ih (a + 1) hlt (by omega)
    · have : a = m := by omega
      subst this
      simp [docset_cap_loop]

theorem docset_cap_loop_pow (m : Nat) : docset_cap_loop (2 ^ m) 1 (2 ^ m) = some (2 ^ m) := by
  have := docset_cap_loop_spec m 0 (2 ^ m) (Nat.zero_le _)
    (by have := Nat.lt_two_pow m; omega)
  simpa using this

theorem docset_rehash_spec (s : DocSet) (elems : List Nat) (h : DsInv s elems) :
    ∃ s1, docset_rehash s (s.cap * 2) = some s1 ∧ DsInv s1 elems ∧ s1.cap = s.cap * 2 ∧
      s1.size = s.size := by
  obtain ⟨⟨k, hk⟩, hlen, hsize, hload, hnodup, hne, hpath, hperm⟩ := h
  have hcnt : (s.tab.filter (fun v => decide (v ≠ DOCSET_EMPTY))).length = s.size := by
    rw [hperm.length_eq, hsize]
  have hcap2 : s.cap * 2 = 2 ^ (k + 1) := by rw [pow_succ, ← hk]
  have hmask : ∀ x, x &&& (s.cap * 2 - 1) = x % (s.cap * 2) := by
    intro x
    rw [hcap2]
    exact land_mask_eq_mod x (k + 1)
  have htake : s.tab.take s.cap = s.tab := by rw [← hlen, List.take_length]
  obtain ⟨nt1, h1, h2, h3, h4⟩ := docset_rehash_loop_spec (s.cap * 2 - 1) (s.cap * 2) hmask
    s.tab (List.replicate (s.cap * 2) DOCSET_EMPTY) [] (by simp) (dsPathOK_replicate _)
    (by rw [ds_filter_replicate]) (by simp only [List.length_nil]; omega)
  simp only [List.append_nil] at h4
  refine ⟨{ s with tab := nt1, cap := s.cap * 2 }, ?_, ?_, rfl, rfl⟩
  · unfold docset_rehash
    have hloop : docset_cap_loop (s.cap * 2) 1 (s.cap * 2) = some (s.cap * 2) := by
      rw [hcap2]; exact docset_cap_loop_pow (k + 1)
    rw [hloop]
    simp only [htake, h1]
  · exact ⟨⟨k + 1, hcap2⟩, h2, hsize, by show s.size * 10 < s.cap * 2 * 7; omega, hnodup, hne,
      h3, h4.trans hperm⟩

theorem docset_probe_found (tab : List Nat) (x mask : Nat)
    (hmask : ∀ y, y &&& mask = y % tab.length) (hx : x ≠ DOCSET_EMPTY) :
    ∀ (j pos fuel : Nat), pos < tab.length → j < fuel →
      tab[(pos + j) % tab.length]? = some x →
      (∀ i, i < j → DsOcc tab ((pos + i) % tab.length)) →
      docset_probe tab x mask fuel pos = some (ProbeResult.found x) := by
  intro j
  induction j with
  | zero =>
    intro pos fuel hpos hf he _
    cases fuel with
    | zero => omega
    | succ fuel =>
      simp only [Nat.add_zero, Nat.mod_eq_of_lt hpos] at he
      simp [docset_probe, he, hx]
  | succ j ih =>
    intro pos fuel hpos hf htarget hused
    cases fuel with
    | zero => omega
    | succ fuel =>
      have h0 := hused 0 (Nat.succ_pos _)
      simp only [Nat.add_zero, Nat.mod_eq_of_lt hpos] at h0
      obtain ⟨v, hv, hne⟩ := h0
      have hlen : 0 < tab.length := by omega
      by_cases hm : v = x
      · simp [docset_probe, hv, hm, hx]
      · have hrec := ih ((pos + 1) % tab.length) fuel (Nat.mod_lt _ hlen) (by omega)
          (by rw [add_mod_succ]; exact htarget)
          (by intro i hi; rw [add_mod_succ]; exact hused (i + 1) (by omega))
        simp only [docset_probe, hv, hne, if_false, hm, hmask]
        exact hrec

theorem docset_probe_spec_free (tab : List Nat) (x mask : Nat)
    (hmask : ∀ y, y &&& mask = y % tab.length) (hno : x ∉ tab) :
    ∀ (j pos fuel : Nat), pos < tab.length → j < fuel →
      ¬ DsOcc tab ((pos + j) % tab.length) →
      (∀ i, i < j → DsOcc tab ((pos + i) % tab.length)) →
      docset_probe tab x mask fuel pos = some (ProbeResult.free ((pos + j) % tab.length)) := by
  intro j
  induction j with
  | zero =>
    intro pos fuel hpos hf hfree _
    cases fuel with
    | zero => omega
    | succ fuel =>
      simp only [Nat.add_zero, Nat.mod_eq_of_lt hpos] at hfree ⊢
      have he := (not_dsOcc_iff tab pos hpos).1 hfree
      simp [docset_probe, he]
  | succ j ih =>
    intro pos fuel hpos hf hfree hused
    cases fuel with
    | zero => omega
    | succ fuel =>
      have h0 := hused 0 (Nat.succ_pos _)
      simp only [Nat.add_zero, Nat.mod_eq_of_lt hpos] at h0
      obtain ⟨v, hv, hne⟩ := h0
      have hlen : 0 < tab.length := by omega
      have hm : ¬ v = x := by
        intro hvx
        rw [hvx] at hv
        exact hno (List.getElem?_mem hv)
      have hrec := ih ((pos + 1) % tab.length) fuel (Nat.mod_lt _ hlen) (by omega)
        (by rw [add_mod_succ]; exact hfree)
        (by intro i hi; rw [add_mod_succ]; exact hused (i + 1) (by omega))
      rw [add_mod_succ] at hrec
      simp only [docset_probe, hv, hne, if_false, hm, hmask]
      exact hrec

/-- Specification of `docset_add` against the list of term ids held. -/
theorem docset_add_spec (s : DocSet) (elems : List Nat) (x : Nat) (hx : x ≠ DOCSET_EMPTY)
    (h : DsInv s elems) :
    ∃ s1 b, docset_add s x = some (s1, b) ∧
      ((x ∈ elems ∧ DsInv s1 elems) ∨ (x ∉ elems ∧ DsInv s1 (elems ++ [x]))) := by
  have hgrow : ∃ s0, (if (s.size + 1) * 10 ≥ s.cap * 7 then docset_rehash s (s.cap * 2)
      else some s) = some s0 ∧ DsInv s0 elems ∧ (s0.size + 1) * 10 < s0.cap * 7 := by
    by_cases hc : (s.size + 1) * 10 ≥ s.cap * 7
    · rw [if_pos hc]
      obtain ⟨s1, h1, h2, h3, h4⟩ := docset_rehash_spec s elems h
      refine ⟨s1, h1, h2, ?_⟩
      obtain ⟨⟨k, hk⟩, _, _, hload, _⟩ := h
      have hcap : 0 < s.cap := by rw [hk]; exact Nat.two_pow_pos k
      rw [h3, h4]
      rcases Nat.eq_zero_or_pos s.size with hz | hz <;> omega
    · rw [if_neg hc]
      exact ⟨s, rfl, h, by omega⟩
  obtain ⟨s0, hg, hinv0, hroom⟩ := hgrow
  obtain ⟨⟨k, hk⟩, hlen, hsize, hload, hnodup, hne, hpath, hperm⟩ := hinv0
  have hmask : ∀ y, y &&& (s0.cap - 1) = y % s0.tab.length := by
    intro y; rw [hlen, hk]; exact land_mask_eq_mod y k
  have hpos : 0 < s0.tab.length := by rw [hlen, hk]; exact Nat.two_pow_pos k
  have hhome : mix32 x % s0.tab.length < s0.tab.length := Nat.mod_lt _ hpos
  have hmemtab : ∀ y, y ∈ elems ↔ (y ∈ s0.tab ∧ y ≠ DOCSET_EMPTY) := by
    intro y
    rw [← hperm.mem_iff, List.mem_filter]
    simp
  by_cases hxe : x ∈ elems
  · obtain ⟨p, hp⟩ := List.mem_iff_getElem?.1 ((hmemtab x).1 hxe).1
    obtain ⟨j, hj, hpj, hused⟩ := hpath p x hp hx
    have hprobe := docset_probe_found s0.tab x (s0.cap - 1) hmask hx j
      (mix32 x % s0.tab.length) s0.cap hhome (by rw [← hlen]; exact hj)
      (by rw [← hpj]; exact hp) hused
    refine ⟨s0, false, ?_, Or.inl ⟨hxe, ⟨k, hk⟩, hlen, hsize, hload, hnodup, hne, hpath, hperm⟩⟩
    unfold docset_add
    rw [hg]
    simp only [hmask, hprobe]
  · have hno : x ∉ s0.tab := fun hin => hxe ((hmemtab x).2 ⟨hin, hx⟩)
    have hcnt : (s0.tab.filter (fun v => decide (v ≠ DOCSET_EMPTY))).length < s0.tab.length := by
      rw [hperm.length_eq, ← hsize, hlen]; omega
    obtain ⟨j, hj, hfree, hused⟩ := exists_first_free s0.tab.length (DsOcc s0.tab)
      (mix32 x % s0.tab.length) hpos (ds_exists_free_of_count s0.tab hcnt)
    have hprobe := docset_probe_spec_free s0.tab x (s0.cap - 1) hmask hno j
      (mix32 x % s0.tab.length) s0.cap hhome (by rw [← hlen]; exact hj) hfree hused
    have he0 := (not_dsOcc_iff s0.tab _ (Nat.mod_lt _ hpos)).1 hfree
    have hset := ds_filter_set x hx s0.tab _ he0
    refine ⟨DocSet.mk (s0.tab.set ((mix32 x % s0.tab.length + j) % s0.tab.length) x) s0.cap
      (s0.size + 1), true, ?_, Or.inr ⟨hxe, ⟨k, hk⟩, ?_, ?_, hroom, ?_, ?_, ?_, ?_⟩⟩
    · unfold docset_add
      rw [hg]
      simp only [hmask, hprobe]
    · show (s0.tab.set _ _).length = s0.cap
      rw [List.length_set]; exact hlen
    · show s0.size + 1 = (elems ++ [x]).length
      rw [List.length_append, hsize]; rfl
    · rw [List.nodup_append]
      refine ⟨hnodup, List.nodup_singleton x, ?_⟩
      intro a ha hb
      rw [List.mem_singleton] at hb
      subst hb; exact hxe ha
    · intro y hy
      rcases List.mem_append.1 hy with hy | hy
      · exact hne y hy
      · rw [List.mem_singleton.1 hy]; exact hx
    · exact dsPathOK_set s0.tab x hx j hj hused hpath
    · show ((s0.tab.set _ _).filter _).Perm (elems ++ [x])
      exact (hset.trans (List.Perm.cons x hperm)).trans (List.perm_append_singleton _ _).symm

theorem docset_init_spec (m : Nat) :
    ∃ s, docset_init (2 ^ m) = some s ∧ DsInv s [] ∧ s.tab.length = s.cap := by
  refine ⟨{ tab := List.replicate (2 ^ m) DOCSET_EMPTY, cap := 2 ^ m, size := 0 }, ?_, ?_, ?_⟩
  · unfold docset_init
    rw [docset_cap_loop_pow]
  · refine ⟨⟨m, rfl⟩, by simp, rfl, ?_, List.nodup_nil, by simp, dsPathOK_replicate _, ?_⟩
    · show 0 * 10 < 2 ^ m * 7
      have := Nat.two_pow_pos m
      omega
    · show ((List.replicate (2 ^ m) DOCSET_EMPTY).filter _).Perm []
      rw [ds_filter_replicate]
  · simp

/-! Reference postings and posting chains. -/

theorem chain_docs_append (a b : List (List Nat)) :
    chain_docs (a ++ b) = chain_docs a ++ chain_docs b := by
  induction a with
  | nil => rfl
  | cons x xs ih =>
    show x ++ chain_docs (xs ++ b) = (x ++ chain_docs xs) ++ chain_docs b
    rw [ih, List.append_assoc]

theorem postings_append_static (e : TermEntry) (g : Nat) :
    (postings_append e g).hash = e.hash ∧ (postings_append e g).off = e.off ∧
      (postings_append e g).len = e.len ∧ (postings_append e g).term_id = e.term_id ∧
      (postings_append e g).used = e.used ∧ (postings_append e g).df = e.df + 1 := by
  unfold postings_append
  split
  · exact ⟨rfl, rfl, rfl, rfl, rfl, rfl⟩
  · split <;> exact ⟨rfl, rfl, rfl, rfl, rfl, rfl⟩

theorem postings_append_docs (e : TermEntry) (g : Nat) :
    chain_docs (postings_append e g).chain = chain_docs e.chain ++ [g] := by
  unfold postings_append
  split
  · rename_i h
    have : e.chain = [] := List.getLast?_eq_none_iff.1 h
    simp [this, chain_docs]
  · rename_i b h
    have hsplit : e.chain = e.chain.dropLast ++ [b] := by
      have := List.dropLast_append_getLast? b h
      exact this.symm
    split
    · show chain_docs (e.chain ++ [[g]]) = _
      rw [chain_docs_append]; simp [chain_docs]
    · show chain_docs (e.chain.dropLast ++ [b ++ [g]]) = _
      conv_rhs => rw [hsplit]
      rw [chain_docs_append, chain_docs_append]
      simp [chain_docs]

theorem ref_postings_append (t : List Byte) :
    ∀ (done : List (List (List Byte))) (g : Nat) (doc : List (List Byte)),
      ref_postings t g (done ++ [doc]) =
        ref_postings t g done ++ (if t ∈ doc then [g + done.length] else []) := by
  intro done
  induction done with
  | nil => intro g doc; simp [ref_postings]
  | cons d rest ih =>
    intro g doc
    show (if t ∈ d then g :: ref_postings t (g + 1) (rest ++ [doc])
        else ref_postings t (g + 1) (rest ++ [doc])) =
      (if t ∈ d then g :: ref_postings t (g + 1) rest else ref_postings t (g + 1) rest) ++
        (if t ∈ doc then [g + (rest.length + 1)] else [])
    have : g + 1 + rest.length = g + (rest.length + 1) := by omega
    rw [ih, this]
    split <;> simp

theorem ref_postings_eq_nil (t : List Byte) :
    ∀ (done : List (List (List Byte))) (g : Nat), (∀ doc ∈ done, t ∉ doc) →
      ref_postings t g done = [] := by
  intro done
  induction done with
  | nil => intro g _; rfl
  | cons d rest ih =>
    intro g h
    simp only [ref_postings, if_neg (h d (List.mem_cons_self _ _))]
    exact ih (g + 1) (fun doc hd => h doc (List.mem_cons_of_mem _ hd))

theorem mem_ref_postings (t : List Byte) :
    ∀ (done : List (List (List Byte))) (g x : Nat),
      x ∈ ref_postings t g done ↔ ∃ i doc, done[i]? = some doc ∧ t ∈ doc ∧ x = g + i := by
  intro done
  induction done with
  | nil => intro g x; simp [ref_postings]
  | cons d rest ih =>
    intro g x
    have hrest : x ∈ ref_postings t (g + 1) rest ↔
        ∃ i doc, (d :: rest)[i + 1]? = some doc ∧ t ∈ doc ∧ x = g + (i + 1) := by
      rw [ih]
      constructor
      · rintro ⟨i, doc, h1, h2, h3⟩
        exact ⟨i, doc, by simpa using h1, h2, by omega⟩
      · rintro ⟨i, doc, h1, h2, h3⟩
        exact ⟨i, doc, by simpa using h1, h2, by omega⟩
    constructor
    · intro hx
      by_cases ht : t ∈ d
      · simp only [ref_postings, if_pos ht, List.mem_cons] at hx
        rcases hx with rfl | hx
        · exact ⟨0, d, List.getElem?_cons_zero, ht, rfl⟩
        · obtain ⟨i, doc, h1, h2, h3⟩ := hrest.1 hx
          exact ⟨i + 1, doc, h1, h2, h3⟩
      · simp only [ref_postings, if_neg ht] at hx
        obtain ⟨i, doc, h1, h2, h3⟩ := hrest.1 hx
        exact ⟨i + 1, doc, h1, h2, h3⟩
    · rintro ⟨i, doc, h1, h2, h3⟩
      cases i with
      | zero =>
        simp only [List.getElem?_cons_zero, Option.some.injEq] at h1
        subst h1
        simp only [ref_postings, if_pos h2, List.mem_cons]
        left; omega
      | succ i =>
        have := hrest.2 ⟨i, doc, h1, h2, h3⟩
        simp only [ref_postings]
        split
        · exact List.mem_cons_of_mem _ this
        · exact this

theorem scan_token_lines_total (buf : List Byte) :
    ∀ (fuel pos start : Nat) (acc : List (List Byte)), buf.length + 1 ≤ pos + fuel →
      ∃ r, scan_token_lines buf fuel pos start acc = some r := by
  intro fuel
  induction fuel with
  | zero =>
    intro pos start acc h
    exact ⟨acc, by simp only [scan_token_lines]; rw [if_neg (by omega)]⟩
  | succ fuel ih =>
    intro pos start acc h
    simp only [scan_token_lines]
    by_cases hp : pos ≤ buf.length
    · rw [if_pos hp]
      split
      · exact ih _ _ _ (by omega)
      · exact ih _ _ _ (by omega)
    · rw [if_neg hp]; exact ⟨acc, rfl⟩

theorem scan_eq_doc_token_lines (buf : List Byte) :
    scan_token_lines buf (buf.length + 1) 0 0 [] = some (doc_token_lines buf) := by
  obtain ⟨r, hr⟩ := scan_token_lines_total buf (buf.length + 1) 0 0 [] (by omega)
  unfold doc_token_lines
  rw [hr]; rfl

/-! The dictionary and document-set calls for the terms of one document. -/

theorem postOK_append {pool : List Byte} {done : List (List (List Byte))} {e : TermEntry}
    (s : List Byte) (hb : e.off + e.len ≤ pool.length) (h : PostOK pool done e) :
    PostOK (pool ++ s) done e := by
  unfold PostOK at h ⊢
  rw [term_bytes_append pool s e hb]
  exact h

theorem postOK_new_entry (d : TermDict) (s : List Byte) (done : List (List (List Byte)))
    (h : ∀ doc ∈ done, s ∉ doc) : PostOK (d.pool ++ s) done (new_entry d s) := by
  have hb : term_bytes (d.pool ++ s) (new_entry d s) = s := by
    unfold term_bytes new_entry
    simp
  unfold PostOK
  rw [hb, ref_postings_eq_nil s done 1 h]
  exact ⟨rfl, rfl⟩

theorem length_le_distinct_terms (calls seen : List (List Byte)) :
    seen.length ≤ (distinct_terms seen calls).length := by
  obtain ⟨more, h⟩ := distinct_terms_extends calls seen
  rw [h, List.length_append]; omega

theorem add_terms_spec (done : List (List (List Byte))) :
    ∀ (ts : List (List Byte)) (d : TermDict) (terms : List (List Byte)) (ds : DocSet)
      (elems : List Nat),
      DictInv d terms → DsInv ds elems →
      (distinct_terms terms ts).length < DOCSET_EMPTY →
      (∀ doc ∈ done, ∀ t ∈ doc, t ∈ terms) →
      (∀ e ∈ d.tab, e.used = true → PostOK d.pool done e) →
      ∃ d1 ds1 elems1, add_terms d ds ts = some (d1, ds1) ∧
        DictInv d1 (distinct_terms terms ts) ∧ DsInv ds1 elems1 ∧
        (∀ e ∈ d1.tab, e.used = true → PostOK d1.pool done e) ∧
        (∀ id, id ∈ elems1 ↔
          id ∈ elems ∨ ∃ s ∈ ts, (distinct_terms terms ts)[id]? = some s) := by
  intro ts
  induction ts with
  | nil =>
    intro d terms ds elems hd hds _ _ hpost
    exact ⟨d, ds, elems, rfl, hd, hds, hpost, by simp⟩
  | cons s rest ih =>
    intro d terms ds elems hd hds hlt hsup hpost
    obtain ⟨d1, id, hcall, hcase⟩ := dict_get_or_add_spec d terms s hd
    -- the term list after this call, and the facts about it
    have key : ∃ terms1, DictInv d1 terms1 ∧ terms1[id]? = some s ∧
        distinct_terms terms (s :: rest) = distinct_terms terms1 rest ∧
        (∀ doc ∈ done, ∀ t ∈ doc, t ∈ terms1) ∧
        (∀ e ∈ d1.tab, e.used = true → PostOK d1.pool done e) := by
      rcases hcase with ⟨hs, hid, hinv1, _, hpool, hperm⟩ | ⟨hs, hid, hinv1, _, hpool, hperm⟩
      · refine ⟨terms, hinv1, hid, by simp only [distinct_terms, if_pos hs], hsup, ?_⟩
        intro e he hu
        have h1 : e ∈ d1.tab.filter (fun e => e.used) := List.mem_filter.2 ⟨he, hu⟩
        have h2 := (List.mem_filter.1 ((hperm.mem_iff).1 h1)).1
        rw [hpool]
        exact hpost e h2 hu
      · refine ⟨terms ++ [s], hinv1, ?_, by simp only [distinct_terms, if_neg hs], ?_, ?_⟩
        · rw [hid, hd.2.2.1]; simp
        · intro doc hdoc t ht
          exact List.mem_append_left _ (hsup doc hdoc t ht)
        · intro e he hu
          have h1 : e ∈ d1.tab.filter (fun e => e.used) := List.mem_filter.2 ⟨he, hu⟩
          rw [hpool]
          rcases List.mem_cons.1 ((hperm.mem_iff).1 h1) with h2 | h2
          · rw [h2]
            apply postOK_new_entry
            intro doc hdoc hin
            exact hs (hsup doc hdoc s hin)
          · have h3 := (List.mem_filter.1 h2).1
            exact postOK_append s (hd.2.2.2.2.2.2.2 e h3 hu).1 (hpost e h3 hu)
    obtain ⟨terms1, hinv1, hid1, hdist, hsup1, hpost1⟩ := key
    obtain ⟨more, hmore⟩ := distinct_terms_extends rest terms1
    have hidT : (distinct_terms terms1 rest)[id]? = some s := by
      rw [hmore]; exact getElem?_append_some _ _ _ _ hid1
    have hidne : id ≠ DOCSET_EMPTY := by
      have hlt1 : id < (distinct_terms terms1 rest).length := by
        rcases Nat.lt_or_ge id (distinct_terms terms1 rest).length with h | h
        · exact h
        · rw [List.getElem?_eq_none h] at hidT; cases hidT
      rw [hdist] at hlt
      omega
    obtain ⟨ds1, b, hadd, hdcase⟩ := docset_add_spec ds elems id hidne hds
    have key2 : ∃ elems0, DsInv ds1 elems0 ∧ ∀ x, x ∈ elems0 ↔ x ∈ elems ∨ x = id := by
      rcases hdcase with ⟨hin, hinv⟩ | ⟨_, hinv⟩
      · refine ⟨elems, hinv, ?_⟩
        intro x
        constructor
        · exact Or.inl
        · rintro (h | h)
          · exact h
          · rw [h]; exact hin
      · exact ⟨elems ++ [id], hinv, by intro x; simp⟩
    obtain ⟨elems0, hds1, hmem0⟩ := key2
    obtain ⟨d2, ds2, elems1, hrun, hinv2, hds2, hpost2, hmem2⟩ :=
      ih d1 terms1 ds1 elems0 hinv1 hds1 (by rw [← hdist]; exact hlt) hsup1 hpost1
    have hnodup : (distinct_terms terms1 rest).Nodup := hinv2.2.2.2.2.1
    refine ⟨d2, ds2, elems1, ?_, by rw [hdist]; exact hinv2, hds2, hpost2, ?_⟩
    · simp only [add_terms, hcall, hadd]
      exact hrun
    · intro x
      rw [hdist, hmem2, hmem0]
      constructor
      · rintro ((h | h) | ⟨s1, hs1, h⟩)
        · exact Or.inl h
        · exact Or.inr ⟨s, List.mem_cons_self _ _, by rw [h]; exact hidT⟩
        · exact Or.inr ⟨s1, List.mem_cons_of_mem _ hs1, h⟩
      · rintro (h | ⟨s1, hs1, h⟩)
        · exact Or.inl (Or.inl h)
        · rcases List.mem_cons.1 hs1 with rfl | hs1
          · exact Or.inl (Or.inr (nodup_getElem?_inj hnodup h hidT))
          · exact Or.inr ⟨s1, hs1, h⟩

/-! The table of entries by term id. -/

theorem build_entries_by_id_loop_spec (tab : List TermEntry) (size : Nat)
    (hid : ∀ e ∈ tab, e.used = true → e.term_id < size) :
    ∀ (rest pre : List TermEntry) (by_id : List (Option Nat)),
      tab = pre ++ rest → by_id.length = size →
      (∀ (t slot : Nat), by_id[t]? = some (some slot) →
        ∃ e, tab[slot]? = some e ∧ e.used = true ∧ e.term_id = t) →
      (∀ (p : Nat) (e : TermEntry), p < pre.length → tab[p]? = some e → e.used = true →
        ∃ slot, by_id[e.term_id]? = some (some slot)) →
      ∃ by_id1, build_entries_by_id_loop rest pre.length by_id = some by_id1 ∧
        by_id1.length = size ∧
        (∀ (t slot : Nat), by_id1[t]? = some (some slot) →
          ∃ e, tab[slot]? = some e ∧ e.used = true ∧ e.term_id = t) ∧
        (∀ (p : Nat) (e : TermEntry), tab[p]? = some e → e.used = true →
          ∃ slot, by_id1[e.term_id]? = some (some slot)) := by
  intro rest
  induction rest with
  | nil =>
    intro pre by_id htab hlen hval hcov
    refine ⟨by_id, rfl, hlen, hval, ?_⟩
    intro p e hp hu
    have hplt : p < pre.length := by
      rw [List.append_nil] at htab
      rw [← htab]
      rcases Nat.lt_or_ge p tab.length with h | h
      · exact h
      · rw [List.getElem?_eq_none h] at hp; cases hp
    exact hcov p e hplt hp hu
  | cons a rest ih =>
    intro pre by_id htab hlen hval hcov
    have htab1 : tab = (pre ++ [a]) ++ rest := by rw [htab]; simp
    have hlen1 : (pre ++ [a]).length = pre.length + 1 := by simp
    have ha : tab[pre.length]? = some a := by
      rw [htab, List.getElem?_append_right (le_refl _)]
      simp
    by_cases hu : a.used = true
    · have hlt : a.term_id < by_id.length := by
        rw [hlen]
        exact hid a (by rw [htab]; simp) hu
      have := ih (pre ++ [a]) (by_id.set a.term_id (some pre.length)) htab1
        (by rw [List.length_set]; exact hlen)
        (by
          intro t slot h
          by_cases ht : a.term_id = t
          · subst ht
            rw [List.getElem?_set_self hlt] at h
            cases h
            exact ⟨a, ha, hu, rfl⟩
          · rw [List.getElem?_set_ne ht] at h
            exact hval t slot h)
        (by
          intro p e hp he heu
          rw [hlen1] at hp
          by_cases hte : a.term_id = e.term_id
          · rw [← hte, List.getElem?_set_self hlt]
            exact ⟨_, rfl⟩
          · rw [List.getElem?_set_ne hte]
            rcases Nat.lt_or_ge p pre.length with h | h
            · exact hcov p e h he heu
            · have : p = pre.length := by omega
              subst this
              rw [ha] at he
              cases he
              exact absurd rfl hte)
      rw [hlen1] at this
      simp only [build_entries_by_id_loop, hu, if_true, hlt]
      exact this
    · have := ih (pre ++ [a]) by_id htab1 hlen hval
        (by
          intro p e hp he heu
          rw [hlen1] at hp
          rcases Nat.lt_or_ge p pre.length with h | h
          · exact hcov p e h he heu
          · have : p = pre.length := by omega
            subst this
            rw [ha] at he
            cases he
            exact absurd heu hu)
      rw [hlen1] at this
      simp only [build_entries_by_id_loop, hu, Bool.false_eq_true, if_false]
      exact this

theorem build_entries_by_id_spec (d : TermDict) (terms : List (List Byte))
    (h : DictInv d terms) :
    ∃ by_id, build_entries_by_id d = some by_id ∧
      (∀ (t slot : Nat), by_id[t]? = some (some slot) →
        ∃ e, d.tab[slot]? = some e ∧ e.used = true ∧ e.term_id = t) ∧
      (∀ (p : Nat) (e : TermEntry), d.tab[p]? = some e → e.used = true →
        ∃ slot, by_id[e.term_id]? = some (some slot)) := by
  obtain ⟨_, hlen, _, _, _, _, hperm, _⟩ := h
  have hid : ∀ e ∈ d.tab, e.used = true → e.term_id < d.size := by
    intro e he hu
    have h1 : e.term_id ∈ (d.tab.filter (fun e => e.used)).map (fun e => e.term_id) :=
      List.mem_map.2 ⟨e, List.mem_filter.2 ⟨he, hu⟩, rfl⟩
    exact List.mem_range.1 ((hperm.mem_iff).1 h1)
  have htake : d.tab.take d.cap = d.tab := by rw [← hlen, List.take_length]
  obtain ⟨by_id1, h1, _, h3, h4⟩ := build_entries_by_id_loop_spec d.tab d.size hid d.tab []
    (List.replicate d.size none) rfl (by simp)
    (by
      intro t slot h
      have hmem := List.getElem?_mem h
      have := (List.mem_replicate.1 hmem).2
      cases this)
    (by intro p e hp; simp at hp)
  refine ⟨by_id1, ?_, h3, h4⟩
  unfold build_entries_by_id
  rw [htake]
  exact h1

/-- Two slots in use with the same term id are the same slot. -/
theorem used_slot_unique :
    ∀ (tab : List TermEntry),
      ((tab.filter (fun e => e.used)).map (fun e => e.term_id)).Nodup →
      ∀ (p q : Nat) (e1 e2 : TermEntry), tab[p]? = some e1 → tab[q]? = some e2 →
        e1.used = true → e2.used = true → e1.term_id = e2.term_id → p = q := by
  intro tab
  induction tab with
  | nil => intro _ p q e1 e2 h; simp at h
  | cons a tl ih =>
    intro hnd p q e1 e2 h1 h2 hu1 hu2 hid
    have hnd_tl : ((tl.filter (fun e => e.used)).map (fun e => e.term_id)).Nodup := by
      simp only [List.filter_cons] at hnd
      split at hnd
      · exact (List.nodup_cons.1 hnd).2
      · exact hnd
    have hnot : ∀ (e : TermEntry), a.used = true → e ∈ tl → e.used = true →
        e.term_id ≠ a.term_id := by
      intro e hau he heu heq
      simp only [List.filter_cons, hau, if_true, List.map_cons] at hnd
      apply (List.nodup_cons.1 hnd).1
      rw [← heq]
      exact List.mem_map.2 ⟨e, List.mem_filter.2 ⟨he, heu⟩, rfl⟩
    cases p with
    | zero =>
      cases q with
      | zero => rfl
      | succ q =>
        simp only [List.getElem?_cons_zero, Option.some.injEq] at h1
        simp only [List.getElem?_cons_succ] at h2
        subst h1
        exact absurd hid.symm (hnot e2 hu1 (List.getElem?_mem h2) hu2)
    | succ p =>
      cases q with
      | zero =>
        simp only [List.getElem?_cons_zero, Option.some.injEq] at h2
        simp only [List.getElem?_cons_succ] at h1
        subst h2
        exact absurd hid (hnot e1 hu2 (List.getElem?_mem h1) hu1)
      | succ q =>
        simp only [List.getElem?_cons_succ] at h1 h2
        rw [ih hnd_tl p q e1 e2 h1 h2 hu1 hu2 hid]

/-! The posting loop of one document. -/

theorem bump_static (ids : List Nat) (g : Nat) (e : TermEntry) :
    (bump ids g e).hash = e.hash ∧ (bump ids g e).off = e.off ∧
      (bump ids g e).len = e.len ∧ (bump ids g e).term_id = e.term_id ∧
      (bump ids g e).used = e.used := by
  unfold bump
  split
  · have := postings_append_static e g
    exact ⟨this.1, this.2.1, this.2.2.1, this.2.2.2.1, this.2.2.2.2.1⟩
  · exact ⟨rfl, rfl, rfl, rfl, rfl⟩

theorem used_ids_pointwise :
    ∀ (l1 l2 : List TermEntry), l1.length = l2.length →
      (∀ (p : Nat) (e : TermEntry), l1[p]? = some e →
        ∃ e1, l2[p]? = some e1 ∧ e1.used = e.used ∧ e1.term_id = e.term_id) →
      (l2.filter (fun e => e.used)).map (fun e => e.term_id) =
        (l1.filter (fun e => e.used)).map (fun e => e.term_id) := by
  intro l1
  induction l1 with
  | nil =>
    intro l2 hlen _
    have : l2 = [] := List.length_eq_zero.1 hlen.symm
    rw [this]
  | cons a tl ih =>
    intro l2 hlen h
    cases l2 with
    | nil => simp at hlen
    | cons b tl2 =>
      obtain ⟨e1, he1, hu, hid⟩ := h 0 a List.getElem?_cons_zero
      simp only [List.getElem?_cons_zero, Option.some.injEq] at he1
      subst he1
      have hrec := ih tl2 (by simpa using hlen) (by
        intro p e hp
        have := h (p + 1) e (by simpa using hp)
        simpa using this)
      simp only [List.filter_cons, hu]
      split
      · simp only [List.map_cons, hid, hrec]
      · exact hrec

theorem append_postings_spec (by_id : List (Option Nat)) (g : Nat) :
    ∀ (vals : List Nat) (tab : List TermEntry),
      (vals.filter (fun v => decide (v ≠ DOCSET_EMPTY))).Nodup →
      ((tab.filter (fun e => e.used)).map (fun e => e.term_id)).Nodup →
      (∀ (t slot : Nat), by_id[t]? = some (some slot) →
        ∃ e, tab[slot]? = some e ∧ e.used = true ∧ e.term_id = t) →
      (∀ tid ∈ vals, tid ≠ DOCSET_EMPTY → ∃ slot, by_id[tid]? = some (some slot)) →
      ∃ tab1, append_postings by_id g tab vals = some tab1 ∧ tab1.length = tab.length ∧
        ∀ (p : Nat) (e : TermEntry), tab[p]? = some e →
          tab1[p]? = some (bump (vals.filter (fun v => decide (v ≠ DOCSET_EMPTY))) g e) := by
  intro vals
  induction vals with
  | nil =>
    intro tab _ _ _ _
    refine ⟨tab, rfl, rfl, ?_⟩
    intro p e hp
    rw [hp]
    simp [bump]
  | cons tid rest ih =>
    intro tab hnd hnodup hval hcov
    by_cases ht : tid = DOCSET_EMPTY
    · have hd : decide (tid ≠ DOCSET_EMPTY) = false := by simp [ht]
      simp only [List.filter_cons, hd, Bool.false_eq_true, if_false] at hnd ⊢
      obtain ⟨tab1, h1, h2, h3⟩ := ih tab hnd hnodup hval
        (fun x hx => hcov x (List.mem_cons_of_mem _ hx))
      refine ⟨tab1, ?_, h2, h3⟩
      simp only [append_postings, ht, if_true]
      exact h1
    · have hd : decide (tid ≠ DOCSET_EMPTY) = true := by simp [ht]
      simp only [List.filter_cons, hd, if_true] at hnd ⊢
      obtain ⟨hnotin, hnd_rest⟩ := List.nodup_cons.1 hnd
      obtain ⟨slot, hslot⟩ := hcov tid (List.mem_cons_self _ _) ht
      obtain ⟨e0, he0, hu0, hid0⟩ := hval tid slot hslot
      have hslt : slot < tab.length := by
        rcases Nat.lt_or_ge slot tab.length with h | h
        · exact h
        · rw [List.getElem?_eq_none h] at he0; cases he0
      have hst := postings_append_static e0 g
      have hpt : ∀ (p : Nat) (e : TermEntry), tab[p]? = some e →
          ∃ e1, (tab.set slot (postings_append e0 g))[p]? = some e1 ∧ e1.used = e.used ∧
            e1.term_id = e.term_id := by
        intro p e hp
        by_cases hps : slot = p
        · subst hps
          rw [he0] at hp; cases hp
          exact ⟨_, List.getElem?_set_self hslt, hst.2.2.2.2.1, hst.2.2.2.1⟩
        · exact ⟨e, by rw [List.getElem?_set_ne hps]; exact hp, rfl, rfl⟩
      have hnodup1 := used_ids_pointwise tab (tab.set slot (postings_append e0 g))
        (List.length_set _ _ _).symm hpt
      obtain ⟨tab1, h1, h2, h3⟩ := ih (tab.set slot (postings_append e0 g)) hnd_rest
        (by rw [hnodup1]; exact hnodup)
        (by
          intro t s1 hts
          obtain ⟨e, he, hu, hid⟩ := hval t s1 hts
          obtain ⟨e1, he1, hu1, hid1⟩ := hpt s1 e he
          exact ⟨e1, he1, by rw [hu1]; exact hu, by rw [hid1]; exact hid⟩)
        (fun x hx => hcov x (List.mem_cons_of_mem _ hx))
      refine ⟨tab1, ?_, by rw [h2, List.length_set], ?_⟩
      · simp only [append_postings, ht, if_false, hslot, he0]
        exact h1
      · intro p e hp
        by_cases hps : slot = p
        · subst hps
          rw [he0] at hp; cases hp
          rw [h3 slot _ (List.getElem?_set_self hslt)]
          congr 1
          have hb1 : bump (List.filter (fun v => decide (v ≠ DOCSET_EMPTY)) rest) g
              (postings_append e0 g) = postings_append e0 g := by
            unfold bump
            rw [if_neg]
            rw [hst.2.2.2.1, hid0]
            exact fun h => hnotin h.2
          have hb2 : bump (tid :: List.filter (fun v => decide (v ≠ DOCSET_EMPTY)) rest) g e0 =
              postings_append e0 g := by
            unfold bump
            rw [if_pos ⟨hu0, by rw [hid0]; exact List.mem_cons_self _ _⟩]
          rw [hb1, hb2]
        · rw [h3 p e (by rw [List.getElem?_set_ne hps]; exact hp)]
          congr 1
          unfold bump
          by_cases hc : e.used = true ∧ e.term_id ∈ List.filter (fun v => decide (v ≠ DOCSET_EMPTY)) rest
          · rw [if_pos hc, if_pos ⟨hc.1, List.mem_cons_of_mem _ hc.2⟩]
          · rw [if_neg hc, if_neg]
            rintro ⟨hu, hmem⟩
            rcases List.mem_cons.1 hmem with h | h
            · exact hps (used_slot_unique tab hnodup slot p e0 e he0 hp hu0 hu
                (by rw [hid0, h]))
            · exact hc ⟨hu, h⟩

/-- Updating posting data in place keeps the dictionary invariant. -/
theorem dictInv_bump (d : TermDict) (terms : List (List Byte)) (h : DictInv d terms)
    (ids : List Nat) (g : Nat) (tab1 : List TermEntry) (hlen1 : tab1.length = d.tab.length)
    (hpt : ∀ (p : Nat) (e : TermEntry), d.tab[p]? = some e → tab1[p]? = some (bump ids g e)) :
    DictInv { d with tab := tab1 } terms := by
  obtain ⟨hk, hlen, hsize, hload, hnodup, hpath, hperm, hent⟩ := h
  have hback : ∀ (p : Nat) (e1 : TermEntry), tab1[p]? = some e1 →
      ∃ e, d.tab[p]? = some e ∧ e1 = bump ids g e := by
    intro p e1 hp
    have hplt : p < d.tab.length := by
      rw [← hlen1]
      rcases Nat.lt_or_ge p tab1.length with h | h
      · exact h
      · rw [List.getElem?_eq_none h] at hp; cases hp
    have he := List.getElem?_eq_getElem hplt
    have := hpt p _ he
    rw [hp] at this
    exact ⟨_, he, Option.some.inj this⟩
  have hused : ∀ q, UsedAt d.tab q → UsedAt tab1 q := by
    rintro q ⟨e, he, hu⟩
    exact ⟨bump ids g e, hpt q e he, by rw [(bump_static ids g e).2.2.2.2]; exact hu⟩
  refine ⟨hk, by show tab1.length = d.cap; rw [hlen1]; exact hlen, hsize, hload, hnodup, ?_,
    ?_, ?_⟩
  · intro p e1 hp hu
    obtain ⟨e, he, rfl⟩ := hback p e1 hp
    have hst := bump_static ids g e
    rw [hst.2.2.2.2] at hu
    obtain ⟨j, hj, hpj, hpathj⟩ := hpath p e he hu
    show ∃ j, j < tab1.length ∧ _
    rw [hlen1, hst.1]
    exact ⟨j, hj, hpj, fun i hi => hused _ (hpathj i hi)⟩
  · show ((tab1.filter _).map _).Perm _
    rw [used_ids_pointwise d.tab tab1 hlen1.symm (by
      intro p e he
      have hst := bump_static ids g e
      exact ⟨_, hpt p e he, hst.2.2.2.2, hst.2.2.2.1⟩)]
    exact hperm
  · intro e1 he1 hu
    show EntOK d.pool terms e1
    obtain ⟨p, hp⟩ := List.mem_iff_getElem?.1 he1
    obtain ⟨e, he, rfl⟩ := hback p e1 hp
    have hst := bump_static ids g e
    rw [hst.2.2.2.2] at hu
    have hok := hent e (List.getElem?_mem he) hu
    unfold EntOK term_bytes at hok ⊢
    rw [hst.1, hst.2.1, hst.2.2.1, hst.2.2.2.1]
    exact hok

/-! The indexing of documents. -/

theorem distinct_terms_nodup :
    ∀ (calls seen : List (List Byte)), seen.Nodup → (distinct_terms seen calls).Nodup := by
  intro calls
  induction calls with
  | nil => intro seen h; exact h
  | cons s rest ih =>
    intro seen h
    unfold distinct_terms
    by_cases hs : s ∈ seen
    · rw [if_pos hs]; exact ih seen h
    · rw [if_neg hs]
      apply ih
      rw [List.nodup_append]
      refine ⟨h, List.nodup_singleton s, ?_⟩
      intro a ha hb
      rw [List.mem_singleton] at hb
      subst hb; exact hs ha

theorem index_document_spec (st : IndexState) (terms : List (List Byte))
    (done : List (List (List Byte))) (buf : List Byte) (doc : DocRec)
    (hinv : IndexInv st terms done)
    (hlt : (distinct_terms terms (doc_token_lines buf)).length < DOCSET_EMPTY) :
    ∃ st1, index_document st buf doc = some st1 ∧
      IndexInv st1 (distinct_terms terms (doc_token_lines buf))
        (done ++ [doc_token_lines buf]) := by
  obtain ⟨hdict, hdocs, hterms, hpost⟩ := hinv
  obtain ⟨ds, hds, hdsinv, _⟩ := docset_init_spec 12
  have hds4096 : docset_init 4096 = some ds := hds
  obtain ⟨d1, ds1, elems1, hadd, hd1, hds1, hpost1, hmem1⟩ :=
    add_terms_spec done (doc_token_lines buf) st.dict terms ds [] hdict hdsinv hlt
      (fun dc hdc t ht => (hterms t).2 ⟨dc, hdc, ht⟩) hpost
  obtain ⟨by_id, hby, hval, hcov⟩ := build_entries_by_id_spec d1 _ hd1
  have hd1' := hd1
  obtain ⟨_, hlen1, hsize1, _, hnodupT, _, hperm1, hent1⟩ := hd1'
  obtain ⟨_, hdslen, _, _, hnodupE, _, _, hpermE⟩ := hds1
  have htake : ds1.tab.take ds1.cap = ds1.tab := by rw [← hdslen, List.take_length]
  have hidsnodup : (ds1.tab.filter (fun v => decide (v ≠ DOCSET_EMPTY))).Nodup :=
    (hpermE.nodup_iff).2 hnodupE
  have hidnodup : ((d1.tab.filter (fun e => e.used)).map (fun e => e.term_id)).Nodup :=
    (hperm1.nodup_iff).2 (List.nodup_range _)
  have hmemids : ∀ id, id ∈ ds1.tab.filter (fun v => decide (v ≠ DOCSET_EMPTY)) ↔
      ∃ s ∈ doc_token_lines buf,
        (distinct_terms terms (doc_token_lines buf))[id]? = some s := by
    intro id
    rw [hpermE.mem_iff, hmem1]
    simp
  obtain ⟨tab1, happ, hlen_tab1, hpt⟩ := append_postings_spec by_id (st.docs.length + 1)
    ds1.tab d1.tab hidsnodup hidnodup hval (by
      intro tid htid hne
      have hin : tid ∈ ds1.tab.filter (fun v => decide (v ≠ DOCSET_EMPTY)) :=
        List.mem_filter.2 ⟨htid, by simpa using hne⟩
      obtain ⟨s, _, hs⟩ := (hmemids tid).1 hin
      have hlt1 : tid < d1.size := by
        rw [hsize1]
        rcases Nat.lt_or_ge tid (distinct_terms terms (doc_token_lines buf)).length with h | h
        · exact h
        · rw [List.getElem?_eq_none h] at hs; cases hs
      have h2 : tid ∈ (d1.tab.filter (fun e => e.used)).map (fun e => e.term_id) :=
        (hperm1.mem_iff).2 (List.mem_range.2 hlt1)
      obtain ⟨e, hef, heid⟩ := List.mem_map.1 h2
      obtain ⟨he, hu⟩ := List.mem_filter.1 hef
      obtain ⟨p, hp⟩ := List.mem_iff_getElem?.1 he
      obtain ⟨slot, hslot⟩ := hcov p e hp hu
      rw [heid] at hslot
      exact ⟨slot, hslot⟩)
  refine ⟨{ dict := { d1 with tab := tab1 }, docs := st.docs ++ [doc] }, ?_, ?_, ?_, ?_, ?_⟩
  · unfold index_document
    rw [hds4096]
    simp only [scan_eq_doc_token_lines, hadd, hby, htake, happ]
  · exact dictInv_bump d1 _ hd1 _ _ tab1 hlen_tab1 hpt
  · show (st.docs ++ [doc]).length = (done ++ [doc_token_lines buf]).length
    rw [List.length_append, List.length_append, hdocs]; rfl
  · intro t
    rw [mem_distinct_terms, hterms]
    constructor
    · rintro (⟨dc, hdc, ht⟩ | ht)
      · exact ⟨dc, List.mem_append_left _ hdc, ht⟩
      · exact ⟨_, List.mem_append_right _ (List.mem_singleton_self _), ht⟩
    · rintro ⟨dc, hdc, ht⟩
      rcases List.mem_append.1 hdc with hdc | hdc
      · exact Or.inl ⟨dc, hdc, ht⟩
      · rw [List.mem_singleton.1 hdc] at ht
        exact Or.inr ht
  · intro e1 he1 hu1
    show PostOK d1.pool (done ++ [doc_token_lines buf]) e1
    obtain ⟨p, hp⟩ := List.mem_iff_getElem?.1 he1
    have hp' : tab1[p]? = some e1 := hp
    have hplt : p < d1.tab.length := by
      rw [← hlen_tab1]
      rcases Nat.lt_or_ge p tab1.length with h | h
      · exact h
      · rw [List.getElem?_eq_none h] at hp'; cases hp'
    have he := List.getElem?_eq_getElem hplt
    have hb := hpt p _ he
    rw [hp'] at hb
    have heq := Option.some.inj hb
    have hst := bump_static (ds1.tab.filter (fun v => decide (v ≠ DOCSET_EMPTY)))
      (st.docs.length + 1) d1.tab[p]
    have hu : (d1.tab[p]).used = true := by rw [← hst.2.2.2.2, ← heq]; exact hu1
    have hmemtab : d1.tab[p] ∈ d1.tab := List.getElem_mem hplt
    obtain ⟨hchain, hdf⟩ := hpost1 _ hmemtab hu
    have hentp := hent1 _ hmemtab hu
    have htb : term_bytes d1.pool e1 = term_bytes d1.pool d1.tab[p] := by
      unfold term_bytes
      rw [heq, hst.2.1, hst.2.2.1]
    unfold PostOK
    rw [htb, ref_postings_append, ← hchain, hdocs.symm]
    have hiff : (d1.tab[p]).term_id ∈ ds1.tab.filter (fun v => decide (v ≠ DOCSET_EMPTY)) ↔
        term_bytes d1.pool d1.tab[p] ∈ doc_token_lines buf := by
      rw [hmemids]
      constructor
      · rintro ⟨s, hs, hget⟩
        rw [hentp.2.1] at hget
        rw [Option.some.inj hget]; exact hs
      · intro hin
        exact ⟨_, hin, hentp.2.1⟩
    by_cases hin : (d1.tab[p]).term_id ∈ ds1.tab.filter (fun v => decide (v ≠ DOCSET_EMPTY))
    · have hbump : e1 = postings_append d1.tab[p] (st.docs.length + 1) := by
        rw [heq]; unfold bump; rw [if_pos ⟨hu, hin⟩]
      rw [if_pos (hiff.1 hin), hbump, postings_append_docs,
        (postings_append_static _ _).2.2.2.2.2, hdf]
      refine ⟨by rw [Nat.add_comm 1], by simp⟩
    · have hbump : e1 = d1.tab[p] := by
        rw [heq]; unfold bump; rw [if_neg (fun h => hin h.2)]
      rw [if_neg (fun h => hin (hiff.2 h)), hbump, List.append_nil]
      exact ⟨rfl, hdf⟩

theorem index_documents_spec :
    ∀ (rest : List (List Byte × DocRec)) (st : IndexState) (terms : List (List Byte))
      (done : List (List (List Byte))),
      IndexInv st terms done →
      (∀ ts : List (List Byte), ts.Nodup →
        (∀ t ∈ ts, ∃ doc ∈ done ++ rest.map (fun d => doc_token_lines d.1), t ∈ doc) →
        ts.length < DOCSET_EMPTY) →
      ∃ st1 terms1, index_documents st rest = some st1 ∧
        IndexInv st1 terms1 (done ++ rest.map (fun d => doc_token_lines d.1)) := by
  intro rest
  induction rest with
  | nil =>
    intro st terms done h _
    exact ⟨st, terms, rfl, by simpa using h⟩
  | cons d rest ih =>
    intro st terms done h hb
    obtain ⟨buf, doc⟩ := d
    have hlt : (distinct_terms terms (doc_token_lines buf)).length < DOCSET_EMPTY := by
      apply hb _ (distinct_terms_nodup _ _ h.1.2.2.2.2.1)
      intro t ht
      rcases (mem_distinct_terms _ _ t).1 ht with h1 | h1
      · obtain ⟨dc, hdc, hin⟩ := (h.2.2.1 t).1 h1
        exact ⟨dc, List.mem_append_left _ hdc, hin⟩
      · exact ⟨doc_token_lines buf, List.mem_append_right _ (by simp), h1⟩
    obtain ⟨st1, hstep, hinv1⟩ := index_document_spec st terms done buf doc h hlt
    have hassoc : (done ++ [doc_token_lines buf]) ++
        rest.map (fun d => doc_token_lines d.1) =
        done ++ ((buf, doc) :: rest).map (fun d => doc_token_lines d.1) := by simp
    obtain ⟨st2, terms2, hrun, hinv2⟩ := ih st1 _ (done ++ [doc_token_lines buf]) hinv1
      (by rw [hassoc]; exact hb)
    refine ⟨st2, terms2, ?_, by rw [← hassoc]; exact hinv2⟩
    simp only [index_documents, hstep]
    exact hrun

theorem indexInv_init (k : Nat) : IndexInv { dict := dict_init (2 ^ k), docs := [] } [] [] := by
  refine ⟨dictInv_init k, rfl, by simp, ?_⟩
  intro e he hu
  have : e = TermEntry.zero := (List.mem_replicate.1 he).2
  rw [this] at hu
  cases hu

theorem nodup_length_le_of_subset {α : Type} (ts l : List α) (hnd : ts.Nodup)
    (hsub : ∀ t ∈ ts, t ∈ l) : ts.length ≤ l.length :=
  (List.Nodup.subperm hnd hsub).length_le

theorem getI_some_bounds {a : List Nat} {t : Int} {x : Nat} (h : getI a t = some x) :
    0 ≤ t ∧ t < a.length := by
  unfold getI at h
  by_cases ht : t < 0
  · rw [if_pos ht] at h; cases h
  · rw [if_neg ht] at h
    have := (List.getElem?_eq_some_iff.1 h).1
    omega

theorem getI_of_bounds (a : List Nat) (t : Int) (h0 : 0 ≤ t) (h1 : t < a.length) :
    ∃ x, getI a t = some x := by
  unfold getI
  rw [if_neg (by omega)]
  have : t.toNat < a.length := by omega
  exact ⟨a[t.toNat], List.getElem?_eq_getElem this⟩

theorem getI_mem {a : List Nat} {t : Int} {x : Nat} (h : getI a t = some x) : x ∈ a := by
  unfold getI at h
  by_cases ht : t < 0
  · rw [if_pos ht] at h; cases h
  · rw [if_neg ht] at h
    exact List.getElem?_mem h

theorem getI_set_self (a : List Nat) (i : Int) (y : Nat) (h0 : 0 ≤ i) (h1 : i < a.length) :
    getI (a.set i.toNat y) i = some y := by
  unfold getI
  rw [if_neg (by omega)]
  have : i.toNat < a.length := by omega
  rw [List.getElem?_set_self this]

theorem getI_set_ne (a : List Nat) (i t : Int) (y : Nat) (h0 : 0 ≤ i) (hne : t ≠ i) :
    getI (a.set i.toNat y) t = getI a t := by
  unfold getI
  by_cases ht : t < 0
  · rw [if_pos ht, if_pos ht]
  · rw [if_neg ht, if_neg ht]
    rw [List.getElem?_set_ne (by omega)]

theorem getI_eq_of_length_perm {a b : List Nat} (h : b.Perm a) {t : Int} {x : Nat}
    (hx : getI b t = some x) : x ∈ a :=
  h.mem_iff.1 (getI_mem hx)

/-! The exchange of two elements is a permutation. -/

theorem cons_set_perm : ∀ (l : List Nat) (k x y : Nat), l[k]? = some y →
    (y :: l.set k x).Perm (x :: l)
  | [], k, x, y, h => by simp at h
  | z :: l, 0, x, y, h => by
    simp only [List.getElem?_cons_zero, Option.some.injEq] at h
    subst h
    simpa using List.Perm.swap x z l
  | z :: l, k + 1, x, y, h => by
    simp only [List.getElem?_cons_succ] at h
    have ih := cons_set_perm l k x y h
    simp only [List.set_cons_succ]
    exact (List.Perm.swap z y _).trans ((ih.cons z).trans (List.Perm.swap x z l))

theorem swap_perm_lt : ∀ (a : List Nat) (i j x y : Nat), i < j → a[i]? = some x →
    a[j]? = some y → ((a.set i y).set j x).Perm a
  | [], i, j, x, y, _, hx, _ => by simp at hx
  | z :: l, 0, j + 1, x, y, _, hx, hy => by
    simp only [List.getElem?_cons_zero, Option.some.injEq] at hx
    simp only [List.getElem?_cons_succ] at hy
    subst hx
    simp only [List.set_cons_zero, List.set_cons_succ]
    exact cons_set_perm l j z y hy
  | z :: l, i + 1, j + 1, x, y, hij, hx, hy => by
    simp only [List.getElem?_cons_succ] at hx hy
    simp only [List.set_cons_succ]
    exact (swap_perm_lt l i j x y (by omega) hx hy).cons z

theorem set_of_getElem? (a : List Nat) (i x : Nat) (hx : a[i]? = some x) :
    a.set i x = a := by
  apply List.ext_getElem?
  intro n
  by_cases hn : i = n
  · subst hn
    rw [List.getElem?_set_self (List.getElem?_eq_some_iff.1 hx).1, hx]
  · rw [List.getElem?_set_ne hn]

theorem swap_perm (a : List Nat) (i j x y : Nat) (hx : a[i]? = some x) (hy : a[j]? = some y) :
    ((a.set i y).set j x).Perm a := by
  rcases Nat.lt_trichotomy i j with h | h | h
  · exact swap_perm_lt a i j x y h hx hy
  · subst h
    rw [hx] at hy
    cases hy
    rw [List.set_set, set_of_getElem? a i x hx]
  · rw [List.set_comm y x a (Nat.ne_of_gt h)]
    exact swap_perm_lt a j i y x h hy hx

/-! The frame of a sort. -/

theorem qsFrame_refl (a : List Nat) (l r : Int) : QsFrame a a l r :=
  ⟨rfl, List.Perm.refl _, fun _ _ => rfl, fun t _ h1 h2 h => ⟨t, h1, h2, h⟩⟩

theorem qsFrame_mono {a b : List Nat} {l r l1 r1 : Int} (h : QsFrame a b l1 r1)
    (hl : l ≤ l1) (hr : r1 ≤ r) : QsFrame a b l r := by
  obtain ⟨h1, h2, h3, h4⟩ := h
  refine ⟨h1, h2, fun t ht => h3 t (by omega), ?_⟩
  intro t x ht1 ht2 hx
  by_cases hin : l1 ≤ t ∧ t ≤ r1
  · obtain ⟨s, hs1, hs2, hs⟩ := h4 t x hin.1 hin.2 hx
    exact ⟨s, by omega, by omega, hs⟩
  · rw [h3 t (by omega)] at hx
    exact ⟨t, ht1, ht2, hx⟩

theorem qsFrame_trans {a b c : List Nat} {l r : Int} (h : QsFrame a b l r)
    (h2 : QsFrame b c l r) : QsFrame a c l r := by
  obtain ⟨a1, a2, a3, a4⟩ := h
  obtain ⟨b1, b2, b3, b4⟩ := h2
  refine ⟨b1.trans a1, b2.trans a2, fun t ht => (b3 t ht).trans (a3 t ht), ?_⟩
  intro t x ht1 ht2 hx
  obtain ⟨s, hs1, hs2, hs⟩ := b4 t x ht1 ht2 hx
  exact a4 s x hs1 hs2 hs

theorem qsFrame_swap (a : List Nat) (l r i j : Int) (x y : Nat) (hli : l ≤ i) (hir : i ≤ r)
    (hlj : l ≤ j) (hjr : j ≤ r) (hx : getI a i = some x) (hy : getI a j = some y) :
    QsFrame a ((a.set i.toNat y).set j.toNat x) l r := by
  have bi := getI_some_bounds hx
  have bj := getI_some_bounds hy
  have hx1 : a[i.toNat]? = some x := by
    unfold getI at hx; rw [if_neg (by omega)] at hx; exact hx
  have hy1 : a[j.toNat]? = some y := by
    unfold getI at hy; rw [if_neg (by omega)] at hy; exact hy
  refine ⟨by simp, swap_perm a _ _ x y hx1 hy1, ?_, ?_⟩
  · intro t ht
    rw [getI_set_ne _ _ _ _ bj.1 (by omega), getI_set_ne _ _ _ _ bi.1 (by omega)]
  · intro t z ht1 ht2 hz
    by_cases htj : t = j
    · subst htj
      rw [getI_set_self _ _ _ bj.1 (by simpa using bj.2)] at hz
      cases hz
      exact ⟨i, hli, hir, hx⟩
    · rw [getI_set_ne _ _ _ _ bj.1 htj] at hz
      by_cases hti : t = i
      · subst hti
        rw [getI_set_self _ _ _ bi.1 bi.2] at hz
        cases hz
        exact ⟨j, hlj, hjr, hy⟩
      · rw [getI_set_ne _ _ _ _ bi.1 hti] at hz
        exact ⟨t, ht1, ht2, hz⟩

/-! The two inner scans of `term_qsort`. -/

theorem qs_scan_up_spec (d : TermDict) (by_id : List (Option Nat)) (K : Nat → List Byte)
    (T : Nat) (pivot : TermEntry) (P : List Byte) (hc : CmpOK d by_id K T pivot P)
    (ids : List Nat) (hT : ∀ x ∈ ids, x < T) :
    ∀ (fuel : Nat) (i k : Int) (xk : Nat), 0 ≤ i → i ≤ k → getI ids k = some xk →
      ¬ K xk < P → (k - i).toNat < fuel →
      ∃ i1, qs_scan_up d by_id pivot ids fuel i = some i1 ∧ i ≤ i1 ∧ i1 ≤ k ∧
        (∀ (t : Int) (x : Nat), i ≤ t → t < i1 → getI ids t = some x → K x < P) ∧
        ∃ x, getI ids i1 = some x ∧ P ≤ K x := by
  intro fuel
  induction fuel with
  | zero => intro i k xk _ _ _ _ hf; omega
  | succ f ih =>
    intro i k xk h0 hik hk hnk hf
    have bk := getI_some_bounds hk
    obtain ⟨x, hx⟩ := getI_of_bounds ids i h0 (by omega)
    obtain ⟨e, he, hlt, _⟩ := hc x (hT x (getI_mem hx))
    simp only [qs_scan_up, hx, he]
    by_cases hneg : term_cmp d e pivot < 0
    · rw [if_pos hneg]
      have hxP : K x < P := hlt.1 hneg
      have hne : i ≠ k := by
        intro h
        subst h
        rw [hx] at hk
        cases hk
        exact hnk hxP
      obtain ⟨i1, h1, h2, h3, h4, h5⟩ := ih (i + 1) k xk (by omega) (by omega) hk hnk (by omega)
      refine ⟨i1, h1, by omega, h3, ?_, h5⟩
      intro t y ht1 ht2 hy
      by_cases hti : t = i
      · subst hti
        rw [hx] at hy
        cases hy
        exact hxP
      · exact h4 t y (by omega) ht2 hy
    · rw [if_neg hneg]
      refine ⟨i, rfl, le_refl _, hik, ?_, x, hx, ?_⟩
      · intro t y ht1 ht2 _
        omega
      · exact not_lt.1 (fun h => hneg (hlt.2 h))

theorem qs_scan_down_spec (d : TermDict) (by_id : List (Option Nat)) (K : Nat → List Byte)
    (T : Nat) (pivot : TermEntry) (P : List Byte) (hc : CmpOK d by_id K T pivot P)
    (ids : List Nat) (hT : ∀ x ∈ ids, x < T) :
    ∀ (fuel : Nat) (j k : Int) (xk : Nat), k ≤ j → j < ids.length → getI ids k = some xk →
      ¬ P < K xk → (j - k).toNat < fuel →
      ∃ j1, qs_scan_down d by_id pivot ids fuel j = some j1 ∧ k ≤ j1 ∧ j1 ≤ j ∧
        (∀ (t : Int) (x : Nat), j1 < t → t ≤ j → getI ids t = some x → P < K x) ∧
        ∃ x, getI ids j1 = some x ∧ K x ≤ P := by
  intro fuel
  induction fuel with
  | zero => intro j k xk _ _ _ _ hf; omega
  | succ f ih =>
    intro j k xk hkj hj hk hnk hf
    have bk := getI_some_bounds hk
    obtain ⟨x, hx⟩ := getI_of_bounds ids j (by omega) hj
    obtain ⟨e, he, _, hgt⟩ := hc x (hT x (getI_mem hx))
    simp only [qs_scan_down, hx, he]
    by_cases hpos : term_cmp d e pivot > 0
    · rw [if_pos hpos]
      have hxP : P < K x := hgt.1 hpos
      have hne : j ≠ k := by
        intro h
        subst h
        rw [hx] at hk
        cases hk
        exact hnk hxP
      obtain ⟨j1, h1, h2, h3, h4, h5⟩ := ih (j - 1) k xk (by omega) (by omega) hk hnk (by omega)
      refine ⟨j1, h1, h2, by omega, ?_, h5⟩
      intro t y ht1 ht2 hy
      by_cases htj : t = j
      · subst htj
        rw [hx] at hy
        cases hy
        exact hxP
      · exact h4 t y ht1 (by omega) hy
    · rw [if_neg hpos]
      refine ⟨j, rfl, hkj, le_refl _, ?_, x, hx, ?_⟩
      · intro t y ht1 ht2 _
        omega
      · exact not_lt.1 (fun h => hpos (hgt.2 h))

theorem qs_partition_exit (d : TermDict) (by_id : List (Option Nat)) (pivot : TermEntry)
    (fuel : Nat) (ids : List Nat) (i j : Int) (h : ¬ i ≤ j) :
    qs_partition d by_id pivot fuel ids i j = some (ids, i, j) := by
  cases fuel with
  | zero => simp only [qs_partition]; rw [if_neg h]
  | succ f => simp only [qs_partition]; rw [if_neg h]

/-! The partition loop of `term_qsort`. -/

theorem qs_partition_spec (d : TermDict) (by_id : List (Option Nat)) (K : Nat → List Byte)
    (T : Nat) (pivot : TermEntry) (P : List Byte) (hc : CmpOK d by_id K T pivot P)
    (l r : Int) (h0 : 0 ≤ l) (hlr : l < r) :
    ∀ (fuel : Nat) (ids : List Nat) (i j : Int), (∀ x ∈ ids, x < T) →
      PartInv K P l r ids i j → (j - i + 1).toNat ≤ fuel →
      ∃ ids1 i1 j1, qs_partition d by_id pivot fuel ids i j = some (ids1, i1, j1) ∧
        QsFrame ids ids1 l r ∧ PartOut K P l r ids1 i1 j1 := by
  intro fuel
  induction fuel with
  | zero =>
    intro ids i j _ hinv hf
    obtain ⟨a1, a2, a3, a4, a5, alow, ahigh, acase⟩ := hinv
    have hij : ¬ i ≤ j := by omega
    refine ⟨ids, i, j, qs_partition_exit d by_id pivot 0 ids i j hij, qsFrame_refl _ _ _, ?_⟩
    rcases acase with ⟨c1, c2, _⟩ | ⟨c1, c2, _⟩
    · omega
    · exact ⟨by omega, c1, c2, a3, a4, alow, ahigh⟩
  | succ f ih =>
    intro ids i j hT hinv hf
    obtain ⟨a1, a2, a3, a4, a5, alow, ahigh, acase⟩ := hinv
    have hf2 : j - i + 1 ≤ ((f + 1 : Nat) : Int) := Int.toNat_le.1 hf
    clear hf
    by_cases hij : i ≤ j
    · -- the elements that stop the two scans
      have hsent : (∃ (t : Int) (x : Nat), i ≤ t ∧ t ≤ r ∧ getI ids t = some x ∧ P ≤ K x) ∧
          (∃ (t : Int) (x : Nat), l ≤ t ∧ t ≤ j ∧ getI ids t = some x ∧ K x ≤ P) := by
        rcases acase with ⟨c1, c2, m, x, hm1, hm2, hx, hk⟩ | ⟨_, _, c3⟩
        · exact ⟨⟨m, x, by omega, hm2, hx, le_of_eq hk.symm⟩, ⟨m, x, hm1, by omega, hx, le_of_eq hk⟩⟩
        · exact c3 hij
      obtain ⟨⟨ku, xu, hu1, hu2, hu3, hu4⟩, ⟨kd, xd, hd1, hd2, hd3, hd4⟩⟩ := hsent
      have bu := getI_some_bounds hu3
      obtain ⟨i1, hscan1, hi1, hi2, hi3, x1, hx1, hx1P⟩ :=
        qs_scan_up_spec d by_id K T pivot P hc ids hT (ids.length + 1) i ku xu (by omega) hu1 hu3
          (not_lt.2 hu4) (by omega)
      obtain ⟨j1, hscan2, hj1, hj2, hj3, y1, hy1, hy1P⟩ :=
        qs_scan_down_spec d by_id K T pivot P hc ids hT (ids.length + 1) j kd xd hd2 (by omega)
          hd3 (not_lt.2 hd4) (by omega)
      simp only [qs_partition]
      rw [if_pos hij]
      simp only [hscan1, hscan2]
      have bi1 := getI_some_bounds hx1
      have bj1 := getI_some_bounds hy1
      by_cases hsw : i1 ≤ j1
      · rw [if_pos hsw]
        simp only [hx1, hy1]
        have hfr := qsFrame_swap ids l r i1 j1 x1 y1 (by omega) (by omega) (by omega) (by omega)
          hx1 hy1
        have hT1 : ∀ x ∈ (ids.set i1.toNat y1).set j1.toNat x1, x < T := fun x hx =>
          hT x (hfr.2.1.mem_iff.1 hx)
        have hgi : getI ((ids.set i1.toNat y1).set j1.toNat x1) j1 = some x1 :=
          getI_set_self _ _ _ bj1.1 (by simpa using bj1.2)
        have hgo : ∀ t : Int, t ≠ i1 → t ≠ j1 →
            getI ((ids.set i1.toNat y1).set j1.toNat x1) t = getI ids t := by
          intro t ht1 ht2
          rw [getI_set_ne _ _ _ _ bj1.1 ht2, getI_set_ne _ _ _ _ bi1.1 ht1]
        have hgj : i1 ≠ j1 → getI ((ids.set i1.toNat y1).set j1.toNat x1) i1 = some y1 := by
          intro hne
          rw [getI_set_ne _ _ _ _ bj1.1 hne, getI_set_self _ _ _ bi1.1 bi1.2]
        have heq : i1 = j1 → x1 = y1 := by
          intro h
          rw [h] at hx1
          rw [hx1] at hy1
          exact Option.some.inj hy1
        have hinv1 : PartInv K P l r ((ids.set i1.toNat y1).set j1.toNat x1) (i1 + 1) (j1 - 1) := by
          refine ⟨by omega, by omega, by omega, by omega, by simpa using a5, ?_, ?_, ?_⟩
          · intro t x ht1 ht2 hx
            by_cases htj : t = j1
            · rw [htj, hgi] at hx
              cases hx
              have : i1 = j1 := by omega
              rw [heq this]
              exact hy1P
            · by_cases hti : t = i1
              · rw [hti, hgj (by omega)] at hx
                cases hx
                exact hy1P
              · rw [hgo t hti htj] at hx
                by_cases hlow : t < i
                · exact alow t x ht1 hlow hx
                · exact le_of_lt (hi3 t x (by omega) (by omega) hx)
          · intro t x ht1 ht2 hx
            by_cases htj : t = j1
            · rw [htj, hgi] at hx
              cases hx
              exact hx1P
            · by_cases hti : t = i1
              · rw [hti, hgj (by omega)] at hx
                cases hx
                have : i1 = j1 := by omega
                exact absurd this (by omega)
              · rw [hgo t hti htj] at hx
                by_cases hhigh : j < t
                · exact ahigh t x hhigh ht2 hx
                · exact le_of_lt (hj3 t x (by omega) (by omega) hx)
          · right
            refine ⟨by omega, by omega, ?_⟩
            intro h
            exact ⟨⟨j1, x1, by omega, by omega, hgi, hx1P⟩,
              ⟨i1, y1, by omega, by omega, hgj (by omega), hy1P⟩⟩
        obtain ⟨ids1, i2, j2, hrun, hfr2, hout⟩ := ih _ (i1 + 1) (j1 - 1) hT1 hinv1
          (Int.toNat_le.2 (by push_cast at hf2; omega))
        exact ⟨ids1, i2, j2, hrun, qsFrame_trans hfr hfr2, hout⟩
      · rw [if_neg hsw]
        rw [qs_partition_exit d by_id pivot f ids i1 j1 hsw]
        refine ⟨ids, i1, j1, rfl, qsFrame_refl _ _ _, ?_⟩
        rcases acase with ⟨c1, c2, m, x, hm1, hm2, hx, hk⟩ | ⟨c1, c2, _⟩
        · -- both scans stop at the pivot at the latest
          exfalso
          have e1 := qs_scan_up_spec d by_id K T pivot P hc ids hT (ids.length + 1) i m x
            (by omega) (by omega) hx (by rw [hk]; exact lt_irrefl _)
            (by have := getI_some_bounds hx; omega)
          have e2 := qs_scan_down_spec d by_id K T pivot P hc ids hT (ids.length + 1) j m x
            (by omega) (by omega) hx (by rw [hk]; exact lt_irrefl _)
            (by have := getI_some_bounds hx; omega)
          obtain ⟨i1a, h1, _, h3, _⟩ := e1
          obtain ⟨j1a, h4, h5, _⟩ := e2
          rw [hscan1] at h1
          rw [hscan2] at h4
          cases h1
          cases h4
          omega
        · refine ⟨by omega, by omega, by omega, by omega, by omega, ?_, ?_⟩
          · intro t x ht1 ht2 hx
            by_cases hlow : t < i
            · exact alow t x ht1 hlow hx
            · exact le_of_lt (hi3 t x (by omega) ht2 hx)
          · intro t x ht1 ht2 hx
            by_cases hhigh : j < t
            · exact ahigh t x hhigh ht2 hx
            · exact le_of_lt (hj3 t x ht1 (by omega) hx)
    · refine ⟨ids, i, j, qs_partition_exit d by_id pivot (f + 1) ids i j hij,
        qsFrame_refl _ _ _, ?_⟩
      rcases acase with ⟨c1, c2, _⟩ | ⟨c1, c2, _⟩
      · omega
      · exact ⟨by omega, c1, c2, a3, a4, alow, ahigh⟩

/-! Function `term_qsort`. -/

theorem term_qsort_trivial (d : TermDict) (by_id : List (Option Nat)) (fuel : Nat)
    (ids : List Nat) (l r : Int) (h : ¬ l < r) : term_qsort d by_id fuel ids l r = some ids := by
  cases fuel with
  | zero => simp only [term_qsort]; rw [if_neg h]
  | succ f => simp only [term_qsort]; rw [if_neg h]

theorem term_qsort_guard (d : TermDict) (by_id : List (Option Nat)) (fuel : Nat)
    (ids : List Nat) (l r : Int) :
    (if l < r then term_qsort d by_id fuel ids l r else some ids) =
      term_qsort d by_id fuel ids l r := by
  by_cases h : l < r
  · rw [if_pos h]
  · rw [if_neg h, term_qsort_trivial d by_id fuel ids l r h]

theorem sortedOn_of_parts (K : Nat → List Byte) (P : List Byte) (l r i j : Int)
    (ids : List Nat)
    (hlow : ∀ (t : Int) (x : Nat), l ≤ t → t < i → getI ids t = some x → K x ≤ P)
    (hhigh : ∀ (t : Int) (x : Nat), j < t → t ≤ r → getI ids t = some x → P ≤ K x)
    (hl : SortedOn K ids l j) (hr : SortedOn K ids i r) : SortedOn K ids l r := by
  intro s t x y hs hst ht hx hy
  by_cases h1 : t ≤ j
  · exact hl s t x y hs hst h1 hx hy
  · by_cases h2 : i ≤ s
    · exact hr s t x y h2 hst ht hx hy
    · exact le_trans (hlow s x hs (by omega) hx) (hhigh t y (by omega) ht hy)

theorem sortedOn_frame (K : Nat → List Byte) (a b : List Nat) (l r l1 r1 : Int)
    (h : SortedOn K a l r) (hf : QsFrame a b l1 r1) (hd : r < l1 ∨ r1 < l) :
    SortedOn K b l r := by
  intro s t x y hs hst ht hx hy
  rw [hf.2.2.1 s (by omega)] at hx
  rw [hf.2.2.1 t (by omega)] at hy
  exact h s t x y hs hst ht hx hy

theorem low_frame (K : Nat → List Byte) (P : List Byte) (l i lo hi : Int) (a b : List Nat)
    (hlow : ∀ (t : Int) (x : Nat), l ≤ t → t < i → getI a t = some x → K x ≤ P)
    (hf : QsFrame a b lo hi) (hin : (l ≤ lo ∧ hi < i) ∨ i ≤ lo) :
    ∀ (t : Int) (x : Nat), l ≤ t → t < i → getI b t = some x → K x ≤ P := by
  intro t x ht1 ht2 hx
  by_cases hr : lo ≤ t ∧ t ≤ hi
  · obtain ⟨s, hs1, hs2, hs⟩ := hf.2.2.2 t x hr.1 hr.2 hx
    exact hlow s x (by omega) (by omega) hs
  · rw [hf.2.2.1 t (by omega)] at hx
    exact hlow t x ht1 ht2 hx

theorem high_frame (K : Nat → List Byte) (P : List Byte) (j r lo hi : Int) (a b : List Nat)
    (hhigh : ∀ (t : Int) (x : Nat), j < t → t ≤ r → getI a t = some x → P ≤ K x)
    (hf : QsFrame a b lo hi) (hin : (j < lo ∧ hi ≤ r) ∨ hi ≤ j) :
    ∀ (t : Int) (x : Nat), j < t → t ≤ r → getI b t = some x → P ≤ K x := by
  intro t x ht1 ht2 hx
  by_cases hr : lo ≤ t ∧ t ≤ hi
  · obtain ⟨s, hs1, hs2, hs⟩ := hf.2.2.2 t x hr.1 hr.2 hx
    exact hhigh s x (by omega) (by omega) hs
  · rw [hf.2.2.1 t (by omega)] at hx
    exact hhigh t x ht1 ht2 hx

theorem term_qsort_spec (d : TermDict) (by_id : List (Option Nat)) (K : Nat → List Byte)
    (T : Nat)
    (hcmp : ∀ p, p < T → ∃ ep, entry_by_id d by_id p = some ep ∧ CmpOK d by_id K T ep (K p)) :
    ∀ (fuel : Nat) (ids : List Nat) (l r : Int), (∀ x ∈ ids, x < T) → 0 ≤ l →
      r < ids.length → r - l ≤ fuel →
      ∃ ids1, term_qsort d by_id fuel ids l r = some ids1 ∧ QsFrame ids ids1 l r ∧
        SortedOn K ids1 l r := by
  intro fuel
  induction fuel with
  | zero =>
    intro ids l r _ _ _ hf
    refine ⟨ids, term_qsort_trivial d by_id 0 ids l r (by omega), qsFrame_refl _ _ _, ?_⟩
    intro s t x y hs hst ht _ _
    omega
  | succ f ih =>
    intro ids l r hT h0 hr hf
    by_cases hlr : l < r
    · have hm : Int.tdiv (l + r) 2 = (l + r) / 2 := by
        rw [Int.tdiv_eq_ediv] <;> omega
      obtain ⟨pid, hpid⟩ := getI_of_bounds ids ((l + r) / 2) (by omega) (by omega)
      obtain ⟨pivot, hpiv, hc⟩ := hcmp pid (hT pid (getI_mem hpid))
      have hinv : PartInv K (K pid) l r ids l r := by
        refine ⟨le_refl _, le_refl _, by omega, by omega, hr, ?_, ?_, ?_⟩
        · intro t x h1 h2 _; omega
        · intro t x h1 h2 _; omega
        · left
          exact ⟨rfl, rfl, (l + r) / 2, pid, by omega, by omega, hpid, rfl⟩
      obtain ⟨ids1, i, j, hpart, hfr1, hout⟩ :=
        qs_partition_spec d by_id K T pivot (K pid) hc l r h0 hlr ids.length ids l r hT hinv
          (Int.toNat_le.2 (by omega))
      obtain ⟨o1, o2, o3, o4, o5, olow, ohigh⟩ := hout
      have hT1 : ∀ x ∈ ids1, x < T := fun x hx => hT x (hfr1.2.1.mem_iff.1 hx)
      have hlen1 : ids1.length = ids.length := hfr1.1
      simp only [term_qsort]
      rw [if_pos hlr, hm]
      simp only [hpid, hpiv, hpart, term_qsort_guard]
      by_cases hside : j - l < r - i
      · rw [if_pos hside]
        obtain ⟨ids2, hrun2, hfr2, hs2⟩ := ih ids1 l j hT1 h0 (by omega) (by omega)
        have hT2 : ∀ x ∈ ids2, x < T := fun x hx => hT1 x (hfr2.2.1.mem_iff.1 hx)
        have hlen2 : ids2.length = ids1.length := hfr2.1
        obtain ⟨ids3, hrun3, hfr3, hs3⟩ := ih ids2 i r hT2 (by omega) (by omega) (by omega)
        simp only [hrun2, hrun3]
        refine ⟨ids3, rfl, ?_, ?_⟩
        · exact qsFrame_trans hfr1 (qsFrame_trans (qsFrame_mono hfr2 (le_refl _) (by omega))
            (qsFrame_mono hfr3 (by omega) (le_refl _)))
        · apply sortedOn_of_parts K (K pid) l r i j ids3
          · exact low_frame K (K pid) l i i r ids2 ids3
              (low_frame K (K pid) l i l j ids1 ids2 olow hfr2 (Or.inl ⟨le_refl _, o1⟩))
              hfr3 (Or.inr (le_refl _))
          · exact high_frame K (K pid) j r i r ids2 ids3
              (high_frame K (K pid) j r l j ids1 ids2 ohigh hfr2 (Or.inr (le_refl _)))
              hfr3 (Or.inl ⟨o1, le_refl _⟩)
          · exact sortedOn_frame K ids2 ids3 l j i r hs2 hfr3 (Or.inl o1)
          · exact hs3
      · rw [if_neg hside]
        obtain ⟨ids2, hrun2, hfr2, hs2⟩ := ih ids1 i r hT1 (by omega) (by omega) (by omega)
        have hT2 : ∀ x ∈ ids2, x < T := fun x hx => hT1 x (hfr2.2.1.mem_iff.1 hx)
        have hlen2 : ids2.length = ids1.length := hfr2.1
        obtain ⟨ids3, hrun3, hfr3, hs3⟩ := ih ids2 l j hT2 h0 (by omega) (by omega)
        simp only [hrun2, hrun3]
        refine ⟨ids3, rfl, ?_, ?_⟩
        · exact qsFrame_trans hfr1 (qsFrame_trans (qsFrame_mono hfr2 (by omega) (le_refl _))
            (qsFrame_mono hfr3 (le_refl _) (by omega)))
        · apply sortedOn_of_parts K (K pid) l r i j ids3
          · exact low_frame K (K pid) l i l j ids2 ids3
              (low_frame K (K pid) l i i r ids1 ids2 olow hfr2 (Or.inr (le_refl _)))
              hfr3 (Or.inl ⟨le_refl _, o1⟩)
          · exact high_frame K (K pid) j r l j ids2 ids3
              (high_frame K (K pid) j r i r ids1 ids2 ohigh hfr2 (Or.inl ⟨o1, le_refl _⟩))
              hfr3 (Or.inr (le_refl _))
          · exact hs3
          · exact sortedOn_frame K ids2 ids3 i r l j hs2 hfr3 (Or.inr o1)
    · refine ⟨ids, term_qsort_trivial d by_id (f + 1) ids l r hlr, qsFrame_refl _ _ _, ?_⟩
      intro s t x y hs hst ht _ _
      omega

/-! Function `term_cmp` and the lexicographic order of byte strings. -/

theorem lex_cons_iff (a b : Byte) (s t : List Byte) :
    a :: s < b :: t ↔ a < b ∨ (a = b ∧ s < t) := by
  constructor
  · intro h
    cases h with
    | cons h1 => exact Or.inr ⟨rfl, h1⟩
    | rel h1 => exact Or.inl h1
  · rintro (h | ⟨rfl, h⟩)
    · exact List.Lex.rel h
    · exact List.Lex.cons h

theorem lex_not_lt_nil (s : List Byte) : ¬ s < [] := by
  intro h
  cases h

/-- The comparison of `term_cmp` on two byte strings. -/
theorem term_cmp_bytes_spec : ∀ (s t : List Byte),
    let m := if s.length < t.length then s.length else t.length
    let c := memcmp (s.take m) (t.take m)
    let v : Int := if c ≠ 0 then c else if s.length < t.length then -1
      else if s.length > t.length then 1 else 0
    (v < 0 ↔ s < t) ∧ (v > 0 ↔ t < s)
  | [], [] => by
    simp only [List.length_nil, lt_self_iff_false, if_false, List.take_nil, memcmp, ne_eq,
      not_true_eq_false, gt_iff_lt]
    exact ⟨trivial, trivial⟩
  | [], b :: t => by
    simp only [List.length_nil, List.length_cons, Nat.zero_lt_succ, if_true, List.take_nil,
      List.take_zero, memcmp, ne_eq, not_true_eq_false, if_false, gt_iff_lt]
    exact ⟨⟨fun _ => List.nil_lt_cons b t, fun _ => by decide⟩,
      ⟨fun h => absurd h (by decide), fun h => absurd h (lex_not_lt_nil _)⟩⟩
  | a :: s, [] => by
    simp only [List.length_nil, List.length_cons, Nat.not_lt_zero, if_false, List.take_nil,
      List.take_zero, memcmp, ne_eq, not_true_eq_false, gt_iff_lt, Nat.zero_lt_succ, if_true]
    exact ⟨⟨fun h => absurd h (by decide), fun h => absurd h (lex_not_lt_nil _)⟩,
      ⟨fun _ => List.nil_lt_cons a s, fun _ => by decide⟩⟩
  | a :: s, b :: t => by
    have ih := term_cmp_bytes_spec s t
    have hm : (if (a :: s).length < (b :: t).length then (a :: s).length else (b :: t).length) =
        (if s.length < t.length then s.length else t.length) + 1 := by
      simp only [List.length_cons]
      split <;> split <;> omega
    simp only [hm, List.take_succ_cons, memcmp]
    simp only [List.length_cons, Nat.add_lt_add_iff_right, gt_iff_lt] at ih ⊢
    by_cases hab : a = b
    · subst hab
      rw [if_pos rfl]
      rw [lex_cons_iff, lex_cons_iff]
      simp only [lt_self_iff_false, false_or, true_and]
      exact ih
    · rw [if_neg hab]
      have hne : (a.val : Int) - (b.val : Int) ≠ 0 := by
        intro h
        apply hab
        apply Fin.ext
        omega
      rw [if_pos hne, lex_cons_iff, lex_cons_iff]
      have hba : ¬ b = a := fun h => hab h.symm
      simp only [hab, hba, false_and, or_false]
      constructor
      · constructor
        · intro h; exact Fin.lt_def.2 (by omega)
        · intro h; have := Fin.lt_def.1 h; omega
      · constructor
        · intro h; exact Fin.lt_def.2 (by omega)
        · intro h; have := Fin.lt_def.1 h; omega

theorem term_cmp_spec (d : TermDict) (a b : TermEntry) (ha : a.off + a.len ≤ d.pool.length)
    (hb : b.off + b.len ≤ d.pool.length) :
    (term_cmp d a b < 0 ↔ term_bytes d.pool a < term_bytes d.pool b) ∧
    (term_cmp d a b > 0 ↔ term_bytes d.pool b < term_bytes d.pool a) := by
  have hla : (term_bytes d.pool a).length = a.len := by
    simp only [term_bytes, List.length_take, List.length_drop]; omega
  have hlb : (term_bytes d.pool b).length = b.len := by
    simp only [term_bytes, List.length_take, List.length_drop]; omega
  have h := term_cmp_bytes_spec (term_bytes d.pool a) (term_bytes d.pool b)
  simp only [hla, hlb] at h
  have e1 : (term_bytes d.pool a).take (if a.len < b.len then a.len else b.len) =
      (d.pool.drop a.off).take (if a.len < b.len then a.len else b.len) := by
    simp only [term_bytes, List.take_take]
    congr 1
    split <;> omega
  have e2 : (term_bytes d.pool b).take (if a.len < b.len then a.len else b.len) =
      (d.pool.drop b.off).take (if a.len < b.len then a.len else b.len) := by
    simp only [term_bytes, List.take_take]
    congr 1
    split <;> omega
  rw [e1, e2] at h
  exact h

/-! The sorted ids of a dictionary. -/

theorem entry_by_id_spec (d : TermDict) (terms : List (List Byte)) (h : DictInv d terms)
    (by_id : List (Option Nat)) (hby : build_entries_by_id d = some by_id) :
    ∀ t, t < terms.length → ∃ e, entry_by_id d by_id t = some e ∧ e ∈ d.tab ∧
      e.used = true ∧ e.term_id = t ∧ EntOK d.pool terms e := by
  intro t ht
  obtain ⟨by1, hby1, hA, hB⟩ := build_entries_by_id_spec d terms h
  rw [hby] at hby1
  cases hby1
  obtain ⟨_, _, hsize, _, _, _, hperm, hent⟩ := h
  have h1 : t ∈ (d.tab.filter (fun e => e.used)).map (fun e => e.term_id) :=
    (hperm.mem_iff).2 (List.mem_range.2 (by omega))
  obtain ⟨e0, he0f, he0id⟩ := List.mem_map.1 h1
  obtain ⟨he0, hu0⟩ := List.mem_filter.1 he0f
  obtain ⟨p, hp⟩ := List.mem_iff_getElem?.1 he0
  obtain ⟨slot, hslot⟩ := hB p e0 hp hu0
  rw [he0id] at hslot
  obtain ⟨e, he, hu, hid⟩ := hA t slot hslot
  refine ⟨e, ?_, List.getElem?_mem he, hu, hid, hent e (List.getElem?_mem he) hu⟩
  simp only [entry_by_id, hslot]
  exact he

theorem cmpOK_of_dictInv (d : TermDict) (terms : List (List Byte)) (h : DictInv d terms)
    (by_id : List (Option Nat)) (hby : build_entries_by_id d = some by_id) :
    ∀ p, p < terms.length → ∃ ep, entry_by_id d by_id p = some ep ∧
      CmpOK d by_id (fun id => terms.getD id []) terms.length ep (terms.getD p []) := by
  intro p hp
  obtain ⟨ep, hep, _, _, _, hokp⟩ := entry_by_id_spec d terms h by_id hby p hp
  refine ⟨ep, hep, ?_⟩
  intro x hx
  obtain ⟨ex, hex, _, _, hidx, hokx⟩ := entry_by_id_spec d terms h by_id hby x hx
  refine ⟨ex, hex, ?_⟩
  have hkx : terms.getD x [] = term_bytes d.pool ex := by
    have := hokx.2.1
    rw [hidx] at this
    rw [List.getD_eq_getElem?_getD, this]; rfl
  have hkp : terms.getD p [] = term_bytes d.pool ep := by
    obtain ⟨e2, he2, _, _, hid2, hok2⟩ := entry_by_id_spec d terms h by_id hby p hp
    rw [hep] at he2
    cases he2
    have := hok2.2.1
    rw [hid2] at this
    rw [List.getD_eq_getElem?_getD, this]; rfl
  show (term_cmp d ex ep < 0 ↔ terms.getD x [] < terms.getD p []) ∧
    (term_cmp d ex ep > 0 ↔ terms.getD p [] < terms.getD x [])
  rw [hkx, hkp]
  exact term_cmp_spec d ex ep hokx.1 hokp.1

theorem sorted_term_ids_spec (d : TermDict) (terms : List (List Byte)) (h : DictInv d terms)
    (by_id : List (Option Nat)) (hby : build_entries_by_id d = some by_id) :
    ∃ ids, sorted_term_ids d by_id = some ids ∧ ids.Perm (List.range terms.length) ∧
      List.Pairwise (fun a b => terms.getD a [] < terms.getD b []) ids := by
  have hsize : d.size = terms.length := h.2.2.1
  have hnd : terms.Nodup := h.2.2.2.2.1
  obtain ⟨ids, hrun, hfr, hsorted⟩ :=
    term_qsort_spec d by_id (fun id => terms.getD id []) terms.length
      (cmpOK_of_dictInv d terms h by_id hby) d.size (List.range d.size) 0 ((d.size : Int) - 1)
      (by intro x hx; rw [hsize] at hx; exact List.mem_range.1 hx) (le_refl _)
      (by simp) (by omega)
  have hperm : ids.Perm (List.range terms.length) := by
    rw [← hsize]; exact hfr.2.1
  refine ⟨ids, hrun, hperm, ?_⟩
  have hndi : ids.Nodup := (hperm.nodup_iff).2 (List.nodup_range _)
  have hlen : ids.length = d.size := by rw [hfr.1, List.length_range]
  rw [List.pairwise_iff_getElem]
  intro i j hi hj hij
  have hgi : getI ids (i : Int) = some ids[i] := by
    unfold getI
    rw [if_neg (by omega)]
    simp only [Int.toNat_ofNat]
    exact List.getElem?_eq_getElem hi
  have hgj : getI ids (j : Int) = some ids[j] := by
    unfold getI
    rw [if_neg (by omega)]
    simp only [Int.toNat_ofNat]
    exact List.getElem?_eq_getElem hj
  have hle := hsorted (i : Int) (j : Int) ids[i] ids[j] (by omega) (by omega) (by omega) hgi hgj
  have hne : terms.getD ids[i] [] ≠ terms.getD ids[j] [] := by
    intro heq
    have hi1 : ids[i] < terms.length :=
      List.mem_range.1 (hperm.mem_iff.1 (List.getElem_mem hi))
    have hj1 : ids[j] < terms.length :=
      List.mem_range.1 (hperm.mem_iff.1 (List.getElem_mem hj))
    have e1 : terms[ids[i]]? = some (terms.getD ids[i] []) := by
      rw [List.getD_eq_getElem?_getD, List.getElem?_eq_getElem hi1]; rfl
    have e2 : terms[ids[j]]? = some (terms.getD ids[i] []) := by
      rw [heq, List.getD_eq_getElem?_getD, List.getElem?_eq_getElem hj1]; rfl
    have hidx : ids[i] = ids[j] := nodup_getElem?_inj hnd e1 e2
    have := (@List.Nodup.getElem_inj_iff _ ids hndi i hi j hj).1 hidx
    omega
  exact lt_of_le_of_ne hle hne

/-! The emission: entries in sorted order and the dictionary section. -/

theorem entries_in_order_spec (d : TermDict) (terms : List (List Byte)) (h : DictInv d terms)
    (by_id : List (Option Nat)) (hby : build_entries_by_id d = some by_id) :
    ∀ ids : List Nat, (∀ x ∈ ids, x < terms.length) →
      ∃ entries, entries_in_order d by_id ids = some entries ∧
        List.Forall₂ (fun id e => e ∈ d.tab ∧ e.used = true ∧ e.term_id = id ∧
          EntOK d.pool terms e) ids entries := by
  intro ids
  induction ids with
  | nil => intro _; exact ⟨[], rfl, List.Forall₂.nil⟩
  | cons id rest ih =>
    intro hlt
    obtain ⟨e, he, hmem, hu, hid, hok⟩ :=
      entry_by_id_spec d terms h by_id hby id (hlt id (List.mem_cons_self _ _))
    obtain ⟨es, hes, hall⟩ := ih (fun x hx => hlt x (List.mem_cons_of_mem _ hx))
    refine ⟨e :: es, ?_, List.Forall₂.cons ⟨hmem, hu, hid, hok⟩ hall⟩
    simp only [entries_in_order, he, hes]

theorem forall₂_exists_left {α β : Type} {R : α → β → Prop} :
    ∀ (l : List α) (m : List β), List.Forall₂ R l m → ∀ eb ∈ m, ∃ b ∈ l, R b eb := by
  intro l m h
  induction h with
  | nil => intro eb heb; cases heb
  | cons hcd _ ih =>
    intro eb heb
    rcases List.mem_cons.1 heb with h1 | h1
    · subst h1; exact ⟨_, List.mem_cons_self _ _, hcd⟩
    · obtain ⟨b, hb, hbR⟩ := ih eb h1
      exact ⟨b, List.mem_cons_of_mem _ hb, hbR⟩

theorem pairwise_of_forall₂ {α β : Type} {R : α → β → Prop} {S : α → α → Prop}
    {S1 : β → β → Prop} (hRS : ∀ a b ea eb, R a ea → R b eb → S a b → S1 ea eb) :
    ∀ (l : List α) (m : List β), List.Forall₂ R l m → l.Pairwise S → m.Pairwise S1 := by
  intro l m h
  induction h with
  | nil => intro _; exact List.Pairwise.nil
  | cons hab hrest ih =>
    intro hp
    rw [List.pairwise_cons] at hp ⊢
    refine ⟨?_, ih hp.2⟩
    intro eb heb
    obtain ⟨b, hb, hbR⟩ := forall₂_exists_left _ _ hrest eb heb
    exact hRS _ _ _ _ hab hbR (hp.1 b hb)

theorem postings_off_loop_length : ∀ (es : List TermEntry) (cur : Nat),
    (postings_off_loop es cur).1.length = es.length
  | [], _ => rfl
  | e :: es, cur => by
    simp only [postings_off_loop, List.length_cons, postings_off_loop_length es]

theorem emit_index_spec (st : IndexState) (terms : List (List Byte))
    (h : DictInv st.dict terms) (title_pool : List Byte) :
    ∃ ids entries, ids.Perm (List.range terms.length) ∧
      List.Pairwise (fun a b => terms.getD a [] < terms.getD b []) ids ∧
      List.Forall₂ (fun id e => e ∈ st.dict.tab ∧ e.used = true ∧ e.term_id = id ∧
          EntOK st.dict.pool terms e) ids entries ∧
      emit_index st title_pool = some
        { term_ids := ids, entries := entries,
          postings_off := (postings_off_loop entries 0).1,
          postings_bytes := (postings_off_loop entries 0).2,
          dict := dict_section st.dict.pool entries (postings_off_loop entries 0).1,
          postings := postings_section entries,
          docs := docs_section title_pool st.docs } := by
  obtain ⟨by_id, hby, _, _⟩ := build_entries_by_id_spec st.dict terms h
  obtain ⟨ids, hids, hperm, hpw⟩ := sorted_term_ids_spec st.dict terms h by_id hby
  obtain ⟨entries, hent, hall⟩ := entries_in_order_spec st.dict terms h by_id hby ids
    (fun x hx => List.mem_range.1 (hperm.mem_iff.1 hx))
  refine ⟨ids, entries, hperm, hpw, hall, ?_⟩
  simp only [emit_index, hby, hids, hent]

theorem dictInv_dict_three : DictInv dict_three (distinct_terms [] [[0x63], [0x61, 0x62], [0x61]]) := by
  obtain ⟨d1, ids, h1, h2, _⟩ :=
    dict_add_all_spec [[0x63], [0x61, 0x62], [0x61]] (dict_init (2 ^ 4)) [] (dictInv_init 4)
  unfold dict_three
  rw [h1]
  exact h2

/-! Claim C17. -/

theorem le_bytes_length : ∀ (n v : Nat), (le_bytes n v).length = n
  | 0, _ => rfl
  | n + 1, v => by simp only [le_bytes, List.length_cons, le_bytes_length n]

theorem wr_u32_length (v : Nat) : (wr_u32 v).length = 4 := le_bytes_length 4 _

theorem wr_u64_length (v : Nat) : (wr_u64 v).length = 8 := le_bytes_length 8 _

theorem flatten_wr_u32_length : ∀ b : List Nat, ((b.map wr_u32).flatten).length = 4 * b.length
  | [] => rfl
  | x :: b => by
    simp only [List.map_cons, List.flatten_cons, List.length_append, wr_u32_length,
      flatten_wr_u32_length b, List.length_cons]
    omega

theorem chain_bytes_length : ∀ c : List (List Nat),
    (chain_bytes c).length = 4 * (chain_docs c).length
  | [] => rfl
  | b :: c => by
    simp only [chain_bytes, chain_docs, List.length_append, flatten_wr_u32_length,
      chain_bytes_length c]
    omega

theorem postings_section_length : ∀ es : List TermEntry,
    (∀ e ∈ es, e.df = (chain_docs e.chain).length) →
    (postings_section es).length = 4 * (es.map (fun e => e.df)).sum
  | [], _ => rfl
  | e :: es, h => by
    simp only [postings_section, List.length_append, chain_bytes_length, List.map_cons,
      List.sum_cons, postings_section_length es (fun x hx => h x (List.mem_cons_of_mem _ hx)),
      ← h e (List.mem_cons_self _ _)]
    omega

theorem postings_off_loop_total : ∀ (es : List TermEntry) (cur : Nat),
    (postings_off_loop es cur).2 = cur + 4 * (es.map (fun e => e.df)).sum
  | [], _ => rfl
  | e :: es, cur => by
    simp only [postings_off_loop, postings_off_loop_total es, List.map_cons, List.sum_cons]
    omega

theorem postings_off_loop_get : ∀ (es : List TermEntry) (cur i o : Nat),
    (postings_off_loop es cur).1[i]? = some o →
    o = cur + 4 * ((es.take i).map (fun e => e.df)).sum
  | [], _, i, o, h => by simp [postings_off_loop] at h
  | e :: es, cur, 0, o, h => by
    simp only [postings_off_loop, List.getElem?_cons_zero, Option.some.injEq] at h
    simp [← h]
  | e :: es, cur, i + 1, o, h => by
    simp only [postings_off_loop, List.getElem?_cons_succ] at h
    have := postings_off_loop_get es _ i o h
    simp only [List.take_succ_cons, List.map_cons, List.sum_cons]
    omega

/-! The build from an empty dictionary. -/

theorem index_build_spec (k : Nat) (docs : List (List Byte × DocRec))
    (hcount : ∀ ts : List (List Byte), ts.Nodup →
      (∀ t ∈ ts, ∃ d ∈ docs, t ∈ doc_token_lines d.1) → ts.length < 0xFFFFFFFF) :
    ∃ st terms, index_documents { dict := dict_init (2 ^ k), docs := [] } docs = some st ∧
      IndexInv st terms (docs.map (fun d => doc_token_lines d.1)) := by
  obtain ⟨st, terms, hrun, hinv⟩ := index_documents_spec docs
    { dict := dict_init (2 ^ k), docs := [] } [] [] (indexInv_init k) (by
      intro ts hnd hts
      apply hcount ts hnd
      intro t ht
      obtain ⟨dc, hdc, hin⟩ := hts t ht
      simp only [List.nil_append, List.mem_map] at hdc
      obtain ⟨d, hd, rfl⟩ := hdc
      exact ⟨d, hd, hin⟩)
  simp only [List.nil_append] at hinv
  exact ⟨st, terms, hrun, hinv⟩

theorem index_documents_docs : ∀ (docs : List (List Byte × DocRec)) (st st1 : IndexState),
    index_documents st docs = some st1 → st1.docs = st.docs ++ docs.map Prod.snd := by
  intro docs
  induction docs with
  | nil =>
    intro st st1 h
    simp only [index_documents, Option.some.injEq] at h
    simp [h]
  | cons d rest ih =>
    intro st st1 h
    obtain ⟨buf, doc⟩ := d
    simp only [index_documents] at h
    cases hs : index_document st buf doc with
    | none => rw [hs] at h; cases h
    | some st2 =>
      rw [hs] at h
      simp only at h
      have h2 := ih st2 st1 h
      have h3 : st2.docs = st.docs ++ [doc] := by
        unfold index_document at hs
        split at hs
        · cases hs
        · split at hs
          · cases hs
          · split at hs
            · cases hs
            · split at hs
              · cases hs
              · split at hs
                · cases hs
                · cases hs; rfl
      rw [h2, h3]
      simp

theorem at_append_iff (buf : List Byte) (p : Nat) (s t : List Byte) :
    At buf p (s ++ t) ↔ At buf p s ∧ At buf (p + s.length) t := by
  unfold At
  constructor
  · rintro ⟨r, hr⟩
    refine ⟨⟨t ++ r, by rw [← hr, List.append_assoc]⟩, r, ?_⟩
    rw [← List.drop_drop, ← hr, List.append_assoc, List.drop_left]
  · rintro ⟨⟨r1, h1⟩, ⟨r2, h2⟩⟩
    refine ⟨r2, ?_⟩
    rw [← List.drop_drop, ← h1, List.drop_left] at h2
    rw [List.append_assoc, h2, h1]

theorem at_nil (buf : List Byte) (p : Nat) : At buf p [] := List.nil_prefix

theorem at_length {buf : List Byte} {p : Nat} {s : List Byte} (h : At buf p s) (hs : s ≠ []) :
    p + s.length ≤ buf.length := by
  have := h.length_le
  rw [List.length_drop] at this
  have hpos : 0 < s.length := List.length_pos.2 hs
  omega

theorem at_length_le {buf : List Byte} {p : Nat} {s : List Byte} (h : At buf p s)
    (hp : p ≤ buf.length) : p + s.length ≤ buf.length := by
  have := h.length_le
  rw [List.length_drop] at this
  omega

theorem at_getElem? {buf : List Byte} {p : Nat} {s : List Byte} (h : At buf p s) (i : Nat)
    (hi : i < s.length) : buf[p + i]? = s[i]? := by
  obtain ⟨r, hr⟩ := h
  have : (buf.drop p)[i]? = s[i]? := by
    rw [← hr, List.getElem?_append_left hi]
  rw [← this, List.getElem?_drop]

theorem at_take {buf : List Byte} {p : Nat} {s : List Byte} (h : At buf p s) :
    (buf.drop p).take s.length = s := by
  obtain ⟨r, hr⟩ := h
  rw [← hr, List.take_left]

theorem at_shift (pre buf : List Byte) (p : Nat) (s : List Byte) (h : At buf p s) :
    At (pre ++ buf) (pre.length + p) s := by
  unfold At at h ⊢
  rw [← List.drop_drop, List.drop_left]
  exact h

theorem at_zero (s t : List Byte) : At (s ++ t) 0 s := by
  unfold At
  rw [List.drop_zero]
  exact List.prefix_append s t

theorem at_mid (pre s post : List Byte) : At (pre ++ s ++ post) pre.length s := by
  have := at_shift pre (s ++ post) 0 s (at_zero s post)
  rw [List.append_assoc]
  simpa using this

/-! Reading back what `wr_u32` and `wr_u64` write. -/

theorem le_bytes_getElem? : ∀ (n v j : Nat), j < n →
    ∃ h : v / 256 ^ j % 256 < 256, (le_bytes n v)[j]? = some ⟨v / 256 ^ j % 256, h⟩
  | 0, _, _, h => by omega
  | n + 1, v, 0, _ => by
    refine ⟨Nat.mod_lt _ (by decide), ?_⟩
    simp [le_bytes]
  | n + 1, v, j + 1, h => by
    obtain ⟨h1, h2⟩ := le_bytes_getElem? n (v / 256) j (by omega)
    have e : v / 256 / 256 ^ j = v / 256 ^ (j + 1) := by
      rw [Nat.div_div_eq_div_mul, Nat.pow_succ, Nat.mul_comm]
    refine ⟨Nat.mod_lt _ (by decide), ?_⟩
    simp only [le_bytes, List.getElem?_cons_succ, h2]
    simp only [e]

theorem le_decode_u32 (w : Nat) (hw : w < 2 ^ 32) :
    w / 256 ^ 0 % 256 ||| (w / 256 ^ 1 % 256) <<< 8 ||| (w / 256 ^ 2 % 256) <<< 16 |||
      (w / 256 ^ 3 % 256) <<< 24 = w := by
  have h0 : w / 256 ^ 0 % 256 < 2 ^ 8 := Nat.mod_lt _ (by decide)
  have e1 : w / 256 ^ 0 % 256 ||| (w / 256 ^ 1 % 256) <<< 8 =
      w / 256 ^ 1 % 256 * 2 ^ 8 + w / 256 ^ 0 % 256 := by
    rw [Nat.lor_comm, shl_lor _ _ _ h0]
  have h1 : w / 256 ^ 1 % 256 * 2 ^ 8 + w / 256 ^ 0 % 256 < 2 ^ 16 := by
    have : w / 256 ^ 1 % 256 < 256 := Nat.mod_lt _ (by decide)
    norm_num at h0 ⊢
    omega
  have e2 : (w / 256 ^ 1 % 256 * 2 ^ 8 + w / 256 ^ 0 % 256) ||| (w / 256 ^ 2 % 256) <<< 16 =
      w / 256 ^ 2 % 256 * 2 ^ 16 + (w / 256 ^ 1 % 256 * 2 ^ 8 + w / 256 ^ 0 % 256) := by
    rw [Nat.lor_comm, shl_lor _ _ _ h1]
  have h2 : w / 256 ^ 2 % 256 * 2 ^ 16 + (w / 256 ^ 1 % 256 * 2 ^ 8 + w / 256 ^ 0 % 256) <
      2 ^ 24 := by
    have : w / 256 ^ 2 % 256 < 256 := Nat.mod_lt _ (by decide)
    norm_num at h1 ⊢
    omega
  rw [e1, e2, Nat.lor_comm, shl_lor _ _ _ h2]
  norm_num at hw ⊢
  omega

theorem rd_u32_at (buf : List Byte) (p v : Nat) (h : At buf p (wr_u32 v)) :
    rd_u32 buf p = some (v % 2 ^ 32) := by
  have hl : (wr_u32 v).length = 4 := wr_u32_length v
  have g0 := at_getElem? h 0 (by omega)
  have g1 := at_getElem? h 1 (by omega)
  have g2 := at_getElem? h 2 (by omega)
  have g3 := at_getElem? h 3 (by omega)
  obtain ⟨_, e0⟩ := le_bytes_getElem? 4 (v % 2 ^ 32) 0 (by omega)
  obtain ⟨_, e1⟩ := le_bytes_getElem? 4 (v % 2 ^ 32) 1 (by omega)
  obtain ⟨_, e2⟩ := le_bytes_getElem? 4 (v % 2 ^ 32) 2 (by omega)
  obtain ⟨_, e3⟩ := le_bytes_getElem? 4 (v % 2 ^ 32) 3 (by omega)
  unfold wr_u32 at g0 g1 g2 g3
  rw [e0] at g0
  rw [e1] at g1
  rw [e2] at g2
  rw [e3] at g3
  rw [Nat.add_zero] at g0
  simp only [rd_u32, g0, g1, g2, g3]
  congr 1
  have hw : v % 2 ^ 32 < 2 ^ 32 := Nat.mod_lt _ (by decide)
  generalize v % 2 ^ 32 = w at hw ⊢
  exact le_decode_u32 w hw

theorem rd_u64_loop_spec (buf : List Byte) (p w : Nat) :
    ∀ (i v : Nat), i ≤ 8 → v * 256 ^ i < 2 ^ 64 →
      (∀ j, j < i → ∃ h : w / 256 ^ j % 256 < 256, buf[p + j]? = some ⟨w / 256 ^ j % 256, h⟩) →
      rd_u64_loop buf p i v = some (v * 256 ^ i + w % 256 ^ i) := by
  intro i
  induction i with
  | zero =>
    intro v _ _ _
    simp [rd_u64_loop, Nat.mod_one]
  | succ i ih =>
    intro v hi hv hb
    obtain ⟨hlt, hbyte⟩ := hb i (Nat.lt_succ_self i)
    simp only [rd_u64_loop, hbyte]
    have hpow : 256 ^ (i + 1) = 256 ^ i * 256 := Nat.pow_succ 256 i
    have hpos : 0 < 256 ^ i := Nat.pos_pow_of_pos i (by decide)
    have hv8 : v * 2 ^ 8 < 2 ^ 64 := by
      have : v * 256 ≤ v * 256 ^ (i + 1) := by
        rw [hpow]
        calc v * 256 = v * (1 * 256) := by ring
          _ ≤ v * (256 ^ i * 256) := Nat.mul_le_mul_left _ (Nat.mul_le_mul_right _ hpos)
      norm_num at this ⊢
      omega
    have e1 : ((v <<< 8) % 2 ^ 64) ||| (w / 256 ^ i % 256) = v * 256 + w / 256 ^ i % 256 := by
      have hs : (v <<< 8) % 2 ^ 64 = v <<< 8 := by
        rw [Nat.shiftLeft_eq]; exact Nat.mod_eq_of_lt hv8
      rw [hs, shl_lor v _ 8 (by norm_num; exact hlt)]
      norm_num
    have hnext : (v * 256 + w / 256 ^ i % 256) * 256 ^ i < 2 ^ 64 := by
      have h1 : (v * 256 + w / 256 ^ i % 256) * 256 ^ i < (v * 256 + 256) * 256 ^ i :=
        Nat.mul_lt_mul_of_pos_right (by omega) hpos
      have h2 : (v * 256 + 256) * 256 ^ i = v * 256 ^ (i + 1) + 256 ^ (i + 1) := by
        rw [hpow]; ring
      have h3 : v * 256 ^ (i + 1) + 256 ^ (i + 1) ≤ 2 ^ 64 := by
        have hd : 256 ^ (i + 1) ∣ 2 ^ 64 := by
          have : (256 : Nat) = 2 ^ 8 := by norm_num
          rw [this, ← Nat.pow_mul]
          exact Nat.pow_dvd_pow 2 (by omega)
        obtain ⟨c, hc⟩ := hd
        rw [hc] at hv ⊢
        have hpp : 0 < 256 ^ (i + 1) := Nat.pos_pow_of_pos _ (by decide)
        have hvc : v < c := by
          rw [Nat.mul_comm] at hv
          exact Nat.lt_of_mul_lt_mul_left hv
        calc v * 256 ^ (i + 1) + 256 ^ (i + 1) = 256 ^ (i + 1) * (v + 1) := by ring
          _ ≤ 256 ^ (i + 1) * c := Nat.mul_le_mul_left _ hvc
      omega
    show rd_u64_loop buf p i (((v <<< 8) % 2 ^ 64) ||| (w / 256 ^ i % 256)) = _
    rw [e1, ih _ (by omega) hnext (fun j hj => hb j (by omega))]
    congr 1
    rw [Nat.mod_pow_succ, hpow]
    ring

theorem rd_u64_at (buf : List Byte) (p v : Nat) (h : At buf p (wr_u64 v)) :
    rd_u64 buf p = some (v % 2 ^ 64) := by
  have hl : (wr_u64 v).length = 8 := wr_u64_length v
  have hb : ∀ j, j < 8 → ∃ h : v % 2 ^ 64 / 256 ^ j % 256 < 256,
      buf[p + j]? = some ⟨v % 2 ^ 64 / 256 ^ j % 256, h⟩ := by
    intro j hj
    obtain ⟨h1, h2⟩ := le_bytes_getElem? 8 (v % 2 ^ 64) j hj
    refine ⟨h1, ?_⟩
    rw [at_getElem? h j (by omega)]
    exact h2
  have := rd_u64_loop_spec buf p (v % 2 ^ 64) 8 0 (le_refl _) (by norm_num) hb
  unfold rd_u64
  rw [this]
  congr 1
  have e : (256 : Nat) ^ 8 = 2 ^ 64 := by norm_num
  rw [e, Nat.mod_mod]
  simp

/-! Lengths of the sections. -/

theorem dict_record_length (pool : List Byte) (e : TermEntry) (o : Nat)
    (h : e.off + e.len ≤ pool.length) : (dict_record pool e o).length = 4 + e.len + 8 + 4 + 4 := by
  simp only [dict_record, List.length_append, wr_u32_length, wr_u64_length, List.length_take,
    List.length_drop]
  omega

theorem dict_section_length (pool : List Byte) : ∀ (es : List TermEntry) (os : List Nat),
    es.length = os.length → (∀ e ∈ es, e.off + e.len ≤ pool.length) →
    (dict_section pool es os).length = (es.map (fun e => 4 + e.len + 8 + 4 + 4)).sum
  | [], [], _, _ => rfl
  | [], _ :: _, h, _ => by simp at h
  | _ :: _, [], h, _ => by simp at h
  | e :: es, o :: os, h, hok => by
    simp only [dict_section, List.length_append, List.map_cons, List.sum_cons,
      dict_record_length pool e o (hok e (List.mem_cons_self _ _)),
      dict_section_length pool es os (by simpa using h)
        (fun x hx => hok x (List.mem_cons_of_mem _ hx))]

theorem sum_le_of_forall_le : ∀ (l : List Nat) (b : Nat), (∀ x ∈ l, x ≤ b) → l.sum ≤ l.length * b
  | [], _, _ => by simp
  | x :: l, b, h => by
    have h1 := h x (List.mem_cons_self _ _)
    have h2 := sum_le_of_forall_le l b (fun y hy => h y (List.mem_cons_of_mem _ hy))
    simp only [List.sum_cons, List.length_cons]
    rw [Nat.add_mul]
    omega

theorem doc_off_loop_length : ∀ (docs : List DocRec) (rel : Nat),
    (doc_off_loop docs rel).length = docs.length
  | [], _ => rfl
  | r :: docs, rel => by simp only [doc_off_loop, List.length_cons, doc_off_loop_length docs]

theorem flatten_wr_u64_length : ∀ l : List Nat, ((l.map wr_u64).flatten).length = 8 * l.length
  | [] => rfl
  | x :: l => by
    simp only [List.map_cons, List.flatten_cons, List.length_append, wr_u64_length,
      flatten_wr_u64_length l, List.length_cons]
    omega

theorem doc_record_length (tp : List Byte) (id : Nat) (r : DocRec)
    (h : r.title_off + r.title_len ≤ tp.length) :
    (doc_record tp id r).length = 16 + r.title_len := by
  simp only [doc_record, List.length_append, wr_u32_length, List.length_take, List.length_drop]
  omega

theorem doc_records_length (tp : List Byte) : ∀ (docs : List DocRec) (id : Nat),
    (∀ r ∈ docs, r.title_off + r.title_len ≤ tp.length) →
    (doc_records tp docs id).length = (docs.map (fun r => 16 + r.title_len)).sum
  | [], _, _ => rfl
  | r :: docs, id, h => by
    simp only [doc_records, List.length_append, List.map_cons, List.sum_cons,
      doc_record_length tp id r (h r (List.mem_cons_self _ _)),
      doc_records_length tp docs (id + 1) (fun x hx => h x (List.mem_cons_of_mem _ hx))]

theorem docs_section_length (tp : List Byte) (docs : List DocRec)
    (h : ∀ r ∈ docs, r.title_off + r.title_len ≤ tp.length) :
    (docs_section tp docs).length =
      8 + 8 * docs.length + (docs.map (fun r => 16 + r.title_len)).sum := by
  simp only [docs_section, List.length_append, wr_u64_length, flatten_wr_u64_length,
    doc_off_loop_length, doc_records_length tp docs 1 h]

theorem index_header_length (a b c d e f g h : Nat) :
    (index_header a b c d e f g h).length = 128 := by
  simp only [index_header, List.length_append, wr_u32_length, wr_u64_length, List.length_cons,
    List.length_nil]

theorem ref_postings_length_le (t : List Byte) : ∀ (g : Nat) (done : List (List (List Byte))),
    (ref_postings t g done).length ≤ done.length
  | _, [] => by simp [ref_postings]
  | g, doc :: rest => by
    have := ref_postings_length_le t (g + 1) rest
    simp only [ref_postings]
    split <;> simp only [List.length_cons] <;> omega

/-! The index built from a corpus whose sizes fit. -/

theorem forall₂_length {α β : Type} {R : α → β → Prop} :
    ∀ (l : List α) (m : List β), List.Forall₂ R l m → l.length = m.length := by
  intro l m h
  induction h with
  | nil => rfl
  | cons _ _ ih => simp only [List.length_cons, ih]

/-- The facts about a built index that the proofs on the reader use. -/
theorem built_index_facts (k N L : Nat) (docs : List (List Byte × DocRec))
    (title_pool : List Byte) (h : SizesFit N L docs title_pool) :
    ∃ st terms ids entries,
      index_documents { dict := dict_init (2 ^ k), docs := [] } docs = some st ∧
      IndexInv st terms (docs.map (fun d => doc_token_lines d.1)) ∧
      st.docs = docs.map Prod.snd ∧
      ids.Perm (List.range terms.length) ∧
      List.Pairwise (fun a b => terms.getD a [] < terms.getD b []) ids ∧
      List.Forall₂ (fun id e => e ∈ st.dict.tab ∧ e.used = true ∧ e.term_id = id ∧
          EntOK st.dict.pool terms e) ids entries ∧
      emit_index st title_pool = some
        { term_ids := ids, entries := entries,
          postings_off := (postings_off_loop entries 0).1,
          postings_bytes := (postings_off_loop entries 0).2,
          dict := dict_section st.dict.pool entries (postings_off_loop entries 0).1,
          postings := postings_section entries,
          docs := docs_section title_pool st.docs } ∧
      entries.length ≤ N ∧
      (∀ e ∈ entries, e.len ≤ L ∧ e.off + e.len ≤ st.dict.pool.length ∧
        e.df = (chain_docs e.chain).length ∧ e.df ≤ docs.length ∧
        chain_docs e.chain =
          ref_postings (term_bytes st.dict.pool e) 1 (docs.map (fun d => doc_token_lines d.1))) := by
  obtain ⟨hcount, hN, hL, hL32, hD, hrec, hsize⟩ := h
  obtain ⟨st, terms, hrun, hinv⟩ := index_build_spec k docs (fun ts hnd hts =>
    Nat.lt_of_le_of_lt (hcount ts hnd hts) hN)
  have hdocs : st.docs = docs.map Prod.snd := by
    have := index_documents_docs docs _ st hrun
    simpa using this
  obtain ⟨ids, entries, hperm, hpw, hall, hemit⟩ := emit_index_spec st terms hinv.1 title_pool
  refine ⟨st, terms, ids, entries, hrun, hinv, hdocs, hperm, hpw, hall, hemit, ?_, ?_⟩
  · have h1 : entries.length = terms.length := by
      rw [← forall₂_length _ _ hall, hperm.length_eq, List.length_range]
    rw [h1]
    apply hcount terms hinv.1.2.2.2.2.1
    intro t ht
    obtain ⟨dc, hdc, hin⟩ := (hinv.2.2.1 t).1 ht
    obtain ⟨d, hd, rfl⟩ := List.mem_map.1 hdc
    exact ⟨d, hd, hin⟩
  · intro e he
    obtain ⟨id, _, hR⟩ := forall₂_exists_left _ _ hall e he
    obtain ⟨hmem, hu, hid, hok⟩ := hR
    obtain ⟨hchain, hdf⟩ := hinv.2.2.2 e hmem hu
    have hlen : (term_bytes st.dict.pool e).length = e.len := by
      simp only [term_bytes, List.length_take, List.length_drop]
      have := hok.1
      omega
    have hterm : term_bytes st.dict.pool e ∈ terms := List.getElem?_mem hok.2.1
    refine ⟨?_, hok.1, hdf, ?_, hchain⟩
    · obtain ⟨dc, hdc, hin⟩ := (hinv.2.2.1 _).1 hterm
      obtain ⟨d, hd, rfl⟩ := List.mem_map.1 hdc
      rw [← hlen]
      exact hL d hd _ hin
    · rw [hdf, hchain]
      have := ref_postings_length_le (term_bytes st.dict.pool e) 1
        (docs.map (fun d => doc_token_lines d.1))
      simpa using this

theorem sum_map_le {α : Type} (f : α → Nat) (b : Nat) : ∀ l : List α, (∀ x ∈ l, f x ≤ b) →
    (l.map f).sum ≤ l.length * b
  | [], _ => by simp
  | x :: l, h => by
    have h1 := h x (List.mem_cons_self _ _)
    have h2 := sum_map_le f b l (fun y hy => h y (List.mem_cons_of_mem _ hy))
    simp only [List.map_cons, List.sum_cons, List.length_cons]
    rw [Nat.add_mul]
    omega

theorem built_index_sizes (N L : Nat) (docs : List (List Byte × DocRec))
    (title_pool pool : List Byte) (h : SizesFit N L docs title_pool)
    (entries : List TermEntry) (hN : entries.length ≤ N)
    (hent : ∀ e ∈ entries, e.len ≤ L ∧ e.off + e.len ≤ pool.length ∧
        e.df = (chain_docs e.chain).length ∧ e.df ≤ docs.length) :
    (dict_section pool entries (postings_off_loop entries 0).1).length ≤ N * (20 + L) ∧
    (postings_section entries).length = (postings_off_loop entries 0).2 ∧
    (postings_section entries).length ≤ 4 * (N * docs.length) ∧
    (docs_section title_pool (docs.map Prod.snd)).length =
      8 + 8 * docs.length + (docs.map (fun d => 16 + d.2.title_len)).sum ∧
    128 + (dict_section pool entries (postings_off_loop entries 0).1).length +
      (postings_section entries).length +
      (docs_section title_pool (docs.map Prod.snd)).length < 2 ^ 64 := by
  obtain ⟨_, _, _, _, _, hrec, hsize⟩ := h
  have h1 : (dict_section pool entries (postings_off_loop entries 0).1).length ≤ N * (20 + L) := by
    rw [dict_section_length pool entries _ (postings_off_loop_length _ _).symm
      (fun e he => (hent e he).2.1)]
    calc (entries.map (fun e => 4 + e.len + 8 + 4 + 4)).sum
        ≤ entries.length * (20 + L) :=
          sum_map_le _ _ entries (fun e he => by have := (hent e he).1; omega)
      _ ≤ N * (20 + L) := Nat.mul_le_mul_right _ hN
  have h2 : (postings_section entries).length = 4 * (entries.map (fun e => e.df)).sum :=
    postings_section_length entries (fun e he => (hent e he).2.2.1)
  have h3 : (entries.map (fun e => e.df)).sum ≤ N * docs.length :=
    calc (entries.map (fun e => e.df)).sum ≤ entries.length * docs.length :=
          sum_map_le _ _ entries (fun e he => (hent e he).2.2.2)
      _ ≤ N * docs.length := Nat.mul_le_mul_right _ hN
  have h4 : (docs_section title_pool (docs.map Prod.snd)).length =
      8 + 8 * docs.length + (docs.map (fun d => 16 + d.2.title_len)).sum := by
    rw [docs_section_length title_pool _ (by
      intro r hr
      obtain ⟨d, hd, rfl⟩ := List.mem_map.1 hr
      exact (hrec d hd).2.2.2)]
    simp only [List.length_map, List.map_map]
    rfl
  have h5 := postings_off_loop_total entries 0
  refine ⟨h1, by omega, by omega, h4, ?_⟩
  rw [h4]
  omega

/-! Function `load_index` on a written file. -/

theorem header_fields (a b c d e f g h : Nat) (rest : List Byte) :
    (index_header a b c d e f g h ++ rest).take 8 =
      [0x4D, 0x41, 0x49, 0x49, 0x52, 0x49, 0x44, 0x58] ∧
    At (index_header a b c d e f g h ++ rest) 8 (wr_u32 2) ∧
    At (index_header a b c d e f g h ++ rest) 12 (wr_u32 3) ∧
    At (index_header a b c d e f g h ++ rest) 16 (wr_u64 a) ∧
    At (index_header a b c d e f g h ++ rest) 24 (wr_u64 b) ∧
    At (index_header a b c d e f g h ++ rest) 32 (wr_u64 c) ∧
    At (index_header a b c d e f g h ++ rest) 40 (wr_u64 d) ∧
    At (index_header a b c d e f g h ++ rest) 48 (wr_u64 e) ∧
    At (index_header a b c d e f g h ++ rest) 56 (wr_u64 f) ∧
    At (index_header a b c d e f g h ++ rest) 64 (wr_u64 g) ∧
    At (index_header a b c d e f g h ++ rest) 72 (wr_u64 h) := by
  have h0 := at_zero (index_header a b c d e f g h) rest
  generalize index_header a b c d e f g h ++ rest = buf at h0 ⊢
  simp only [index_header, at_append_iff, List.length_append, wr_u32_length, wr_u64_length,
    List.length_cons, List.length_nil, Nat.zero_add] at h0
  obtain ⟨⟨⟨⟨⟨⟨⟨⟨⟨⟨⟨hm, h1⟩, h2⟩, h3⟩, h4⟩, h5⟩, h6⟩, h7⟩, h8⟩, h9⟩, h10⟩, _⟩ := h0
  refine ⟨?_, h1, h2, h3, h4, h5, h6, h7, h8, h9, h10⟩
  have := at_take hm
  simpa using this

theorem dict_record_at (buf pool : List Byte) (off : Nat) (e : TermEntry) (o : Nat)
    (hok : e.off + e.len ≤ pool.length) (h : At buf off (dict_record pool e o)) :
    At buf off (wr_u32 e.len) ∧ At buf (off + 4) (term_bytes pool e) ∧
    At buf (off + 4 + e.len) (wr_u64 o) ∧ At buf (off + 4 + e.len + 8) (wr_u32 e.df) := by
  have hl : ((pool.drop e.off).take e.len).length = e.len := by
    simp only [List.length_take, List.length_drop]; omega
  simp only [dict_record, at_append_iff, List.length_append, wr_u32_length, wr_u64_length,
    hl] at h
  obtain ⟨⟨⟨⟨h1, h2⟩, h3⟩, h4⟩, _⟩ := h
  have e3 : off + 4 + e.len = off + (4 + e.len) := by omega
  have e4 : off + 4 + e.len + 8 = off + (4 + e.len + 8) := by omega
  refine ⟨h1, h2, ?_, ?_⟩
  · rw [e3]; exact h3
  · rw [e4]; exact h4

theorem load_dict_offs_spec (buf pool : List Byte) (dict_end : Nat) (hbuf : buf.length < 2 ^ 64)
    (hde : dict_end ≤ buf.length) :
    ∀ (es : List TermEntry) (os : List Nat) (off : Nat), es.length = os.length →
      (∀ e ∈ es, e.len < 2 ^ 32 ∧ e.off + e.len ≤ pool.length) →
      At buf off (dict_section pool es os) →
      off + (dict_section pool es os).length ≤ dict_end →
      load_dict_offs buf dict_end es.length off = some (record_offsets off es)
  | [], _, _, _, _, _, _ => rfl
  | _ :: _, [], _, h, _, _, _ => by simp at h
  | e :: es, o :: os, off, hlen, hent, hat, hend => by
    obtain ⟨he32, hok⟩ := hent e (List.mem_cons_self _ _)
    have hrl := dict_record_length pool e o hok
    simp only [dict_section, at_append_iff, hrl] at hat
    simp only [dict_section, List.length_append, hrl] at hend
    obtain ⟨hrec, hrest⟩ := hat
    obtain ⟨h1, _, _, _⟩ := dict_record_at buf pool off e o hok hrec
    have hrd := rd_u32_at buf off e.len h1
    rw [Nat.mod_eq_of_lt he32] at hrd
    have ih := load_dict_offs_spec buf pool dict_end hbuf hde es os
      (off + (4 + e.len + 8 + 4 + 4)) (by simpa using hlen)
      (fun x hx => hent x (List.mem_cons_of_mem _ hx)) hrest (by omega)
    have m1 : (off + 4) % 2 ^ 64 = off + 4 := Nat.mod_eq_of_lt (by omega)
    have m2 : (off + 4 + e.len + 8 + 4 + 4) % 2 ^ 64 = off + (4 + e.len + 8 + 4 + 4) := by
      rw [Nat.mod_eq_of_lt (by omega)]; omega
    simp only [List.length_cons, load_dict_offs, m1, hrd, m2]
    rw [if_neg (by omega), if_neg (by omega), ih]
    rfl

theorem length_le_sum_records : ∀ es : List TermEntry,
    es.length ≤ (es.map (fun e => 4 + e.len + 8 + 4 + 4)).sum
  | [] => by simp
  | e :: es => by
    have := length_le_sum_records es
    simp only [List.length_cons, List.map_cons, List.sum_cons]
    omega

theorem load_index_spec (dc tc : Nat) (pool : List Byte) (entries : List TermEntry)
    (offs : List Nat) (postings docsec : List Byte) (hlen : entries.length = offs.length)
    (htc : tc = entries.length)
    (hent : ∀ e ∈ entries, e.len < 2 ^ 32 ∧ e.off + e.len ≤ pool.length)
    (hdocs8 : 8 ≤ docsec.length) (hdc : dc < 2 ^ 64)
    (hsize : 128 + (dict_section pool entries offs).length + postings.length + docsec.length <
      2 ^ 64) :
    load_index (index_header dc tc 128 (dict_section pool entries offs).length
        (128 + (dict_section pool entries offs).length) postings.length
        (128 + (dict_section pool entries offs).length + postings.length) docsec.length ++
        dict_section pool entries offs ++ postings ++ docsec) =
      some { base := index_header dc tc 128 (dict_section pool entries offs).length
               (128 + (dict_section pool entries offs).length) postings.length
               (128 + (dict_section pool entries offs).length + postings.length)
               docsec.length ++ dict_section pool entries offs ++ postings ++ docsec,
             bytes := 128 + (dict_section pool entries offs).length + postings.length +
               docsec.length,
             version := 2, flags := 3, docs_count := dc, terms_count := tc,
             dict_offset := 128, dict_bytes := (dict_section pool entries offs).length,
             postings_offset := 128 + (dict_section pool entries offs).length,
             postings_bytes := postings.length,
             docs_offset := 128 + (dict_section pool entries offs).length + postings.length,
             docs_bytes := docsec.length,
             dict_term_off := record_offsets 128 entries,
             docs_ptr := 128 + (dict_section pool entries offs).length + postings.length,
             docs_offs_ptr :=
               128 + (dict_section pool entries offs).length + postings.length + 8,
             docs_records_ptr :=
               128 + (dict_section pool entries offs).length + postings.length + 8 + 8 * dc } := by
  generalize hdict : dict_section pool entries offs = dict at hsize ⊢
  have hH := index_header_length dc tc 128 dict.length (128 + dict.length) postings.length
    (128 + dict.length + postings.length) docsec.length
  have hfields := header_fields dc tc 128 dict.length (128 + dict.length) postings.length
    (128 + dict.length + postings.length) docsec.length (dict ++ postings ++ docsec)
  have hassoc : index_header dc tc 128 dict.length (128 + dict.length) postings.length
      (128 + dict.length + postings.length) docsec.length ++ (dict ++ postings ++ docsec) =
      index_header dc tc 128 dict.length (128 + dict.length) postings.length
      (128 + dict.length + postings.length) docsec.length ++ dict ++ postings ++ docsec := by
    simp only [List.append_assoc]
  rw [hassoc] at hfields
  have hdat : At (index_header dc tc 128 dict.length (128 + dict.length) postings.length
      (128 + dict.length + postings.length) docsec.length ++ dict ++ postings ++ docsec) 128
      dict := by
    have := at_mid (index_header dc tc 128 dict.length (128 + dict.length) postings.length
      (128 + dict.length + postings.length) docsec.length) dict (postings ++ docsec)
    rw [hH] at this
    simpa only [List.append_assoc] using this
  generalize hbuf : index_header dc tc 128 dict.length (128 + dict.length) postings.length
      (128 + dict.length + postings.length) docsec.length ++ dict ++ postings ++ docsec = buf
      at hfields hdat ⊢
  have hbl : buf.length = 128 + dict.length + postings.length + docsec.length := by
    rw [← hbuf]
    simp only [List.length_append, hH]
  obtain ⟨hm, f1, f2, f3, f4, f5, f6, f7, f8, f9, f10⟩ := hfields
  have r1 := rd_u32_at buf 8 2 f1
  have r2 := rd_u32_at buf 12 3 f2
  have r3 := rd_u64_at buf 16 dc f3
  have r4 := rd_u64_at buf 24 tc f4
  have r5 := rd_u64_at buf 32 128 f5
  have r6 := rd_u64_at buf 40 _ f6
  have r7 := rd_u64_at buf 48 _ f7
  have r8 := rd_u64_at buf 56 _ f8
  have r9 := rd_u64_at buf 64 _ f9
  have r10 := rd_u64_at buf 72 _ f10
  have htc64 : tc < 2 ^ 64 := by
    have : (dict_section pool entries offs).length =
        (entries.map (fun e => 4 + e.len + 8 + 4 + 4)).sum :=
      dict_section_length pool entries offs hlen (fun e he => (hent e he).2)
    have h2 := length_le_sum_records entries
    rw [hdict] at this
    omega
  rw [Nat.mod_eq_of_lt (by norm_num)] at r1 r2
  rw [Nat.mod_eq_of_lt hdc] at r3
  rw [Nat.mod_eq_of_lt htc64] at r4
  rw [Nat.mod_eq_of_lt (by norm_num)] at r5
  rw [Nat.mod_eq_of_lt (by omega)] at r6 r7 r8 r9 r10
  have hoffs := load_dict_offs_spec buf pool (128 + dict.length) (by omega) (by omega)
    entries offs 128 hlen hent (by rw [hdict]; exact hdat) (by rw [hdict])
  unfold load_index
  rw [if_neg (by omega), if_neg (by rw [hm]; simp)]
  simp only [r1, r2, r3, r4, r5, r6, r7, r8, r9, r10]
  rw [Nat.mod_eq_of_lt (by omega), Nat.mod_eq_of_lt (by omega), Nat.mod_eq_of_lt (by omega)]
  rw [if_neg (by omega), if_neg (by omega), if_neg (by omega)]
  rw [htc, hoffs]
  simp only
  rw [if_neg (by omega), hbl]

/-! The docs section. -/

theorem built_file_loaded (k N L : Nat) (docs : List (List Byte × DocRec))
    (title_pool : List Byte) (h : SizesFit N L docs title_pool) :
    ∃ st terms ids entries file iv,
      index_documents { dict := dict_init (2 ^ k), docs := [] } docs = some st ∧
      IndexInv st terms (docs.map (fun d => doc_token_lines d.1)) ∧
      ids.Perm (List.range terms.length) ∧
      List.Pairwise (fun a b => terms.getD a [] < terms.getD b []) ids ∧
      List.Forall₂ (fun id e => e ∈ st.dict.tab ∧ e.used = true ∧ e.term_id = id ∧
          EntOK st.dict.pool terms e) ids entries ∧
      (∀ e ∈ entries, e.len ≤ L ∧ e.off + e.len ≤ st.dict.pool.length ∧
        e.df = (chain_docs e.chain).length ∧ e.df ≤ docs.length ∧
        chain_docs e.chain =
          ref_postings (term_bytes st.dict.pool e) 1 (docs.map (fun d => doc_token_lines d.1))) ∧
      build_index k docs title_pool = some file ∧
      load_index file = some iv ∧
      iv.base = file ∧ iv.bytes = file.length ∧ iv.version = 2 ∧ iv.flags = 3 ∧
      iv.docs_count = docs.length ∧ iv.terms_count = st.dict.size ∧
      st.dict.size = entries.length ∧
      iv.dict_term_off = record_offsets 128 entries ∧
      At file 128 (dict_section st.dict.pool entries (postings_off_loop entries 0).1) ∧
      At file iv.postings_offset (postings_section entries) ∧
      At file iv.docs_offset (docs_section title_pool (docs.map Prod.snd)) ∧
      iv.docs_bytes = (docs_section title_pool (docs.map Prod.snd)).length ∧
      iv.docs_offs_ptr = iv.docs_offset + 8 ∧
      iv.docs_records_ptr = iv.docs_offset + 8 + 8 * docs.length ∧
      iv.postings_offset + (postings_section entries).length = iv.docs_offset ∧
      file.length = iv.docs_offset + iv.docs_bytes ∧
      file.length < 2 ^ 64 := by
  obtain ⟨st, terms, ids, entries, hrun, hinv, hdocs, hperm, hpw, hall, hemit, hN, hent⟩ :=
    built_index_facts k N L docs title_pool h
  obtain ⟨s1, s2, s3, s4, s5⟩ := built_index_sizes N L docs title_pool st.dict.pool h entries hN
    (fun e he => ⟨(hent e he).1, (hent e he).2.1, (hent e he).2.2.1, (hent e he).2.2.2.1⟩)
  have hL32 : L < 2 ^ 32 := h.2.2.2.1
  have hD : docs.length < 2 ^ 32 := h.2.2.2.2.1
  have hsize : st.dict.size = entries.length := by
    rw [hinv.1.2.2.1, ← forall₂_length _ _ hall, hperm.length_eq, List.length_range]
  have hbuild : build_index k docs title_pool = some
      (index_header docs.length entries.length 128
        (dict_section st.dict.pool entries (postings_off_loop entries 0).1).length
        (128 + (dict_section st.dict.pool entries (postings_off_loop entries 0).1).length)
        (postings_section entries).length
        (128 + (dict_section st.dict.pool entries (postings_off_loop entries 0).1).length +
          (postings_section entries).length)
        (docs_section title_pool (docs.map Prod.snd)).length ++
        dict_section st.dict.pool entries (postings_off_loop entries 0).1 ++
        postings_section entries ++ docs_section title_pool (docs.map Prod.snd)) := by
    simp only [build_index, hrun, hemit, index_file, Emitted.dict_bytes,
      Emitted.postings_offset, Emitted.docs_offset, Emitted.docs_bytes, hdocs, hsize,
      List.length_map, s2]
  have hload := load_index_spec docs.length entries.length st.dict.pool entries
    (postings_off_loop entries 0).1 (postings_section entries)
    (docs_section title_pool (docs.map Prod.snd)) (postings_off_loop_length _ _).symm rfl
    (fun e he => ⟨Nat.lt_of_le_of_lt (hent e he).1 hL32, (hent e he).2.1⟩)
    (by rw [s4]; omega) (by omega) s5
  have hH := index_header_length docs.length entries.length 128
    (dict_section st.dict.pool entries (postings_off_loop entries 0).1).length
    (128 + (dict_section st.dict.pool entries (postings_off_loop entries 0).1).length)
    (postings_section entries).length
    (128 + (dict_section st.dict.pool entries (postings_off_loop entries 0).1).length +
      (postings_section entries).length)
    (docs_section title_pool (docs.map Prod.snd)).length
  refine ⟨st, terms, ids, entries, _, _, hrun, hinv, hperm, hpw, hall, hent, hbuild, hload,
    rfl, ?_, rfl, rfl, rfl, hsize.symm ▸ rfl, hsize, rfl, ?_, ?_, ?_, rfl, rfl, rfl, rfl, ?_, ?_⟩
  · simp only [List.length_append, hH]
  · have := at_mid (index_header docs.length entries.length 128
      (dict_section st.dict.pool entries (postings_off_loop entries 0).1).length
      (128 + (dict_section st.dict.pool entries (postings_off_loop entries 0).1).length)
      (postings_section entries).length
      (128 + (dict_section st.dict.pool entries (postings_off_loop entries 0).1).length +
        (postings_section entries).length)
      (docs_section title_pool (docs.map Prod.snd)).length)
      (dict_section st.dict.pool entries (postings_off_loop entries 0).1)
      (postings_section entries ++ docs_section title_pool (docs.map Prod.snd))
    rw [hH] at this
    simpa only [List.append_assoc] using this
  · have := at_mid (index_header docs.length entries.length 128
      (dict_section st.dict.pool entries (postings_off_loop entries 0).1).length
      (128 + (dict_section st.dict.pool entries (postings_off_loop entries 0).1).length)
      (postings_section entries).length
      (128 + (dict_section st.dict.pool entries (postings_off_loop entries 0).1).length +
        (postings_section entries).length)
      (docs_section title_pool (docs.map Prod.snd)).length ++
      dict_section st.dict.pool entries (postings_off_loop entries 0).1)
      (postings_section entries) (docs_section title_pool (docs.map Prod.snd))
    rw [List.length_append, hH] at this
    exact this
  · have := at_mid (index_header docs.length entries.length 128
      (dict_section st.dict.pool entries (postings_off_loop entries 0).1).length
      (128 + (dict_section st.dict.pool entries (postings_off_loop entries 0).1).length)
      (postings_section entries).length
      (128 + (dict_section st.dict.pool entries (postings_off_loop entries 0).1).length +
        (postings_section entries).length)
      (docs_section title_pool (docs.map Prod.snd)).length ++
      dict_section st.dict.pool entries (postings_off_loop entries 0).1 ++
      postings_section entries) (docs_section title_pool (docs.map Prod.snd)) []
    rw [List.length_append, List.length_append, hH, List.append_nil] at this
    exact this
  · simp only [List.length_append, hH]
  · simp only [List.length_append, hH]
    omega

theorem term_cmp_bytes_iff (s t : List Byte) :
    (term_cmp_bytes s t < 0 ↔ s < t) ∧ (term_cmp_bytes s t > 0 ↔ t < s) ∧
    (term_cmp_bytes s t = 0 ↔ s = t) := by
  have h := term_cmp_bytes_spec s t
  have h1 : (term_cmp_bytes s t < 0 ↔ s < t) := h.1
  have h2 : (term_cmp_bytes s t > 0 ↔ t < s) := h.2
  refine ⟨h1, h2, ?_⟩
  constructor
  · intro h0
    rcases lt_trichotomy s t with hlt | heq | hgt
    · have := h1.2 hlt; omega
    · exact heq
    · have := h2.2 hgt; omega
  · intro heq
    subst heq
    have n1 : ¬ term_cmp_bytes s s < 0 := fun hh => lt_irrefl _ (h1.1 hh)
    have n2 : ¬ term_cmp_bytes s s > 0 := fun hh => lt_irrefl _ (h2.1 hh)
    omega

theorem dict_section_record_at (buf pool : List Byte) : ∀ (es : List TermEntry) (os : List Nat)
    (off0 i : Nat) (e : TermEntry) (o : Nat), es.length = os.length →
    (∀ e ∈ es, e.off + e.len ≤ pool.length) → At buf off0 (dict_section pool es os) →
    es[i]? = some e → os[i]? = some o →
    ∃ x, (record_offsets off0 es)[i]? = some x ∧ At buf x (dict_record pool e o)
  | [], _, _, _, _, _, _, _, _, h, _ => by simp at h
  | _ :: _, [], _, _, _, _, h, _, _, _, _ => by simp at h
  | e0 :: es, o0 :: os, off0, 0, e, o, _, _, hat, he, ho => by
    simp only [List.getElem?_cons_zero, Option.some.injEq] at he ho
    subst he
    subst ho
    simp only [dict_section, at_append_iff] at hat
    exact ⟨off0, by simp [record_offsets], hat.1⟩
  | e0 :: es, o0 :: os, off0, i + 1, e, o, hlen, hok, hat, he, ho => by
    simp only [List.getElem?_cons_succ] at he ho
    have hl := dict_record_length pool e0 o0 (hok e0 (List.mem_cons_self _ _))
    simp only [dict_section, at_append_iff, hl] at hat
    obtain ⟨x, hx, hr⟩ := dict_section_record_at buf pool es os _ i e o (by simpa using hlen)
      (fun y hy => hok y (List.mem_cons_of_mem _ hy)) hat.2 he ho
    exact ⟨x, by simpa [record_offsets] using hx, hr⟩

theorem dict_find_loop_spec (iv : IndexView) (pool : List Byte) (entries : List TermEntry)
    (offs : List Nat) (hlen : entries.length = offs.length)
    (hok : ∀ e ∈ entries, e.len < 2 ^ 32 ∧ e.df < 2 ^ 32 ∧ e.off + e.len ≤ pool.length)
    (hoffs : ∀ o ∈ offs, o < 2 ^ 64)
    (hat : At iv.base 128 (dict_section pool entries offs))
    (htoff : iv.dict_term_off = record_offsets 128 entries)
    (hsorted : List.Pairwise (fun a b => term_bytes pool a < term_bytes pool b) entries)
    (idx : Nat) (e : TermEntry) (o : Nat) (he : entries[idx]? = some e)
    (ho : offs[idx]? = some o) :
    ∀ (fuel : Nat) (lo hi : Int), 0 ≤ lo → hi < entries.length → lo ≤ idx → (idx : Int) ≤ hi →
      hi - lo + 1 ≤ fuel →
      dict_find_loop iv (term_bytes pool e) fuel lo hi = some (some (o, e.df)) := by
  have hidx : idx < entries.length := by
    rcases Nat.lt_or_ge idx entries.length with h | h
    · exact h
    · rw [List.getElem?_eq_none h] at he; cases he
  intro fuel
  induction fuel with
  | zero => intro lo hi _ _ _ _ hf; omega
  | succ f ih =>
    intro lo hi hlo hhi h1 h2 hf
    have hm : Int.tdiv (lo + hi) 2 = (lo + hi) / 2 := by
      rw [Int.tdiv_eq_ediv] <;> omega
    have hmid0 : 0 ≤ (lo + hi) / 2 := by omega
    have hmidn : ((lo + hi) / 2).toNat < entries.length := by omega
    have hem : entries[((lo + hi) / 2).toNat]? = some entries[((lo + hi) / 2).toNat] :=
      List.getElem?_eq_getElem hmidn
    have hmido : ((lo + hi) / 2).toNat < offs.length := by omega
    have hom : offs[((lo + hi) / 2).toNat]? = some offs[((lo + hi) / 2).toNat] :=
      List.getElem?_eq_getElem hmido
    generalize entries[((lo + hi) / 2).toNat] = em at hem
    generalize offs[((lo + hi) / 2).toNat] = om at hom
    obtain ⟨x, hx, hrec⟩ := dict_section_record_at iv.base pool entries offs 128 _ em om hlen
      (fun y hy => (hok y hy).2.2) hat hem hom
    obtain ⟨b1, b2, b3⟩ := hok em (List.getElem?_mem hem)
    obtain ⟨r1, r2, r3, r4⟩ := dict_record_at iv.base pool x em om b3 hrec
    have q1 := rd_u32_at iv.base x em.len r1
    rw [Nat.mod_eq_of_lt b1] at q1
    have htl : (term_bytes pool em).length = em.len := by
      simp only [term_bytes, List.length_take, List.length_drop]; omega
    have hbytes : (iv.base.drop (x + 4)).take em.len = term_bytes pool em := by
      have := at_take r2
      rw [htl] at this
      exact this
    have hin : x + 4 + em.len ≤ iv.base.length := by
      have := at_length_le r2 (by
        have := at_length r1 (by
          intro hnil
          have := wr_u32_length em.len
          rw [hnil] at this
          cases this)
        rw [wr_u32_length] at this
        omega)
      rw [htl] at this
      exact this
    have hget : getI iv.dict_term_off ((lo + hi) / 2) = some x := by
      unfold getI
      rw [if_neg (by omega), htoff]
      exact hx
    simp only [dict_find_loop]
    rw [if_pos (by omega), hm]
    simp only [hget, q1]
    rw [if_pos hin, hbytes]
    obtain ⟨c1, c2, c3⟩ := term_cmp_bytes_iff (term_bytes pool e) (term_bytes pool em)
    have hpw := List.pairwise_iff_getElem.1 hsorted
    have hei : entries[idx] = e := by
      have := List.getElem?_eq_getElem hidx
      rw [he] at this
      exact (Option.some.inj this).symm
    have hemi : entries[((lo + hi) / 2).toNat] = em := by
      have := List.getElem?_eq_getElem hmidn
      rw [hem] at this
      exact (Option.some.inj this).symm
    by_cases hc0 : term_cmp_bytes (term_bytes pool e) (term_bytes pool em) = 0
    · rw [if_pos hc0]
      have heq := c3.1 hc0
      have hsame : idx = ((lo + hi) / 2).toNat := by
        rcases Nat.lt_trichotomy idx ((lo + hi) / 2).toNat with hlt | heq2 | hgt
        · have := hpw idx _ hidx hmidn hlt
          rw [hei, hemi, heq] at this
          exact absurd this (lt_irrefl _)
        · exact heq2
        · have := hpw _ idx hmidn hidx hgt
          rw [hei, hemi, heq] at this
          exact absurd this (lt_irrefl _)
      rw [← hsame, he] at hem
      rw [← hsame, ho] at hom
      cases hem
      cases hom
      have q2 := rd_u64_at iv.base _ o r3
      rw [Nat.mod_eq_of_lt (hoffs o (List.getElem?_mem ho))] at q2
      have q3 := rd_u32_at iv.base _ e.df r4
      rw [Nat.mod_eq_of_lt b2] at q3
      simp only [q2, q3]
    · rw [if_neg hc0]
      by_cases hneg : term_cmp_bytes (term_bytes pool e) (term_bytes pool em) < 0
      · rw [if_pos hneg]
        have hlt := c1.1 hneg
        have hord : idx < ((lo + hi) / 2).toNat := by
          rcases Nat.lt_trichotomy idx ((lo + hi) / 2).toNat with h | h | h
          · exact h
          · exfalso
            have : e = em := by
              rw [← hei, ← hemi]
              congr 1
            rw [this] at hlt
            exact lt_irrefl _ hlt
          · exfalso
            have := hpw _ idx hmidn hidx h
            rw [hei, hemi] at this
            exact lt_asymm this hlt
        exact ih lo ((lo + hi) / 2 - 1) hlo (by omega) h1 (by omega) (by omega)
      · rw [if_neg hneg]
        have hpos : term_cmp_bytes (term_bytes pool e) (term_bytes pool em) > 0 := by omega
        have hgt := c2.1 hpos
        have hord : ((lo + hi) / 2).toNat < idx := by
          rcases Nat.lt_trichotomy idx ((lo + hi) / 2).toNat with h | h | h
          · exfalso
            have := hpw idx _ hidx hmidn h
            rw [hei, hemi] at this
            exact lt_asymm this hgt
          · exfalso
            have : e = em := by
              rw [← hei, ← hemi]
              congr 1
            rw [this] at hgt
            exact lt_irrefl _ hgt
          · exact h
        exact ih ((lo + hi) / 2 + 1) hi (by omega) hhi (by omega) h2 (by omega)

/-! Function `load_postings` on a written file. -/

theorem chain_bytes_eq : ∀ c : List (List Nat),
    chain_bytes c = ((chain_docs c).map wr_u32).flatten
  | [] => rfl
  | b :: c => by
    simp only [chain_bytes, chain_docs, List.map_append, List.flatten_append, chain_bytes_eq c]

theorem postings_section_at (buf : List Byte) : ∀ (es : List TermEntry) (q i : Nat)
    (e : TermEntry), (∀ e ∈ es, e.df = (chain_docs e.chain).length) →
    At buf q (postings_section es) → es[i]? = some e →
    At buf (q + 4 * ((es.take i).map (fun e => e.df)).sum) (chain_bytes e.chain)
  | [], _, _, _, _, _, h => by simp at h
  | e0 :: es, q, 0, e, _, hat, he => by
    simp only [List.getElem?_cons_zero, Option.some.injEq] at he
    subst he
    simp only [postings_section, at_append_iff] at hat
    simpa using hat.1
  | e0 :: es, q, i + 1, e, hdf, hat, he => by
    simp only [List.getElem?_cons_succ] at he
    simp only [postings_section, at_append_iff, chain_bytes_length] at hat
    have := postings_section_at buf es _ i e (fun y hy => hdf y (List.mem_cons_of_mem _ hy))
      hat.2 he
    have h0 := hdf e0 (List.mem_cons_self _ _)
    simp only [List.take_succ_cons, List.map_cons, List.sum_cons]
    have e1 : q + 4 * (e0.df + ((es.take i).map (fun e => e.df)).sum) =
        q + 4 * (chain_docs e0.chain).length + 4 * ((es.take i).map (fun e => e.df)).sum := by
      rw [h0]; omega
    rw [e1]
    exact this

theorem load_postings_loop_spec (buf : List Byte) (p : Nat) : ∀ (l : List Nat) (i : Nat),
    At buf (p + 4 * i) ((l.map wr_u32).flatten) → (∀ x ∈ l, x < 2 ^ 32) →
    load_postings_loop buf p l.length i = some l
  | [], _, _, _ => rfl
  | x :: l, i, hat, hlt => by
    simp only [List.map_cons, List.flatten_cons, at_append_iff, wr_u32_length] at hat
    have q := rd_u32_at buf _ x hat.1
    rw [Nat.mod_eq_of_lt (hlt x (List.mem_cons_self _ _))] at q
    have e1 : p + 4 * i + 4 = p + 4 * (i + 1) := by omega
    rw [e1] at hat
    have ih := load_postings_loop_spec buf p l (i + 1) hat.2
      (fun y hy => hlt y (List.mem_cons_of_mem _ hy))
    simp only [List.length_cons, load_postings_loop, q, ih]

theorem load_postings_spec (iv : IndexView) (entries : List TermEntry)
    (hdf : ∀ e ∈ entries, e.df = (chain_docs e.chain).length)
    (hids : ∀ e ∈ entries, ∀ g ∈ chain_docs e.chain, g < 2 ^ 32)
    (hat : At iv.base iv.postings_offset (postings_section entries))
    (hpo : iv.postings_offset + (postings_section entries).length ≤ iv.base.length)
    (hbytes : iv.bytes = iv.base.length) (hlen : iv.base.length < 2 ^ 64)
    (idx : Nat) (e : TermEntry) (he : entries[idx]? = some e) :
    load_postings iv (4 * ((entries.take idx).map (fun e => e.df)).sum) e.df =
      some (some (chain_docs e.chain)) := by
  have hmem : e ∈ entries := List.getElem?_mem he
  have hrec := postings_section_at iv.base entries iv.postings_offset idx e hdf hat he
  have hend := at_length_le hrec (by
    have h1 : ((entries.take idx).map (fun e => e.df)).sum ≤ (entries.map (fun e => e.df)).sum := by
      have hsplit : entries = entries.take idx ++ entries.drop idx := (List.take_append_drop _ _).symm
      conv_rhs => rw [hsplit]
      rw [List.map_append, List.sum_append]
      omega
    have h2 := postings_section_length entries hdf
    omega)
  rw [chain_bytes_length] at hend
  rw [chain_bytes_eq] at hrec
  have hloop := load_postings_loop_spec iv.base
    (iv.postings_offset + 4 * ((entries.take idx).map (fun e => e.df)).sum)
    (chain_docs e.chain) 0 (by simpa using hrec) (hids e hmem)
  have hd := hdf e hmem
  unfold load_postings
  simp only
  rw [Nat.mod_eq_of_lt (by omega), Nat.mod_eq_of_lt (by omega)]
  rw [if_neg (by omega), hd, hloop]

/-! The round trip through the index file. -/

theorem entry_in_sorted (st : IndexState) (terms : List (List Byte))
    (hinv : DictInv st.dict terms) (ids : List Nat) (entries : List TermEntry)
    (hperm : ids.Perm (List.range terms.length))
    (hall : List.Forall₂ (fun id e => e ∈ st.dict.tab ∧ e.used = true ∧ e.term_id = id ∧
        EntOK st.dict.pool terms e) ids entries)
    (e : TermEntry) (he : e ∈ st.dict.tab) (hu : e.used = true) :
    ∃ idx : Nat, entries[idx]? = some e := by
  obtain ⟨_, _, hsize, _, _, _, hp, _⟩ := hinv
  have h1 : e.term_id ∈ (st.dict.tab.filter (fun e => e.used)).map (fun e => e.term_id) :=
    List.mem_map.2 ⟨e, List.mem_filter.2 ⟨he, hu⟩, rfl⟩
  have h2 : e.term_id ∈ ids := by
    rw [hperm.mem_iff, ← hsize]
    exact hp.mem_iff.1 h1
  obtain ⟨idx, hidx⟩ := List.mem_iff_getElem?.1 h2
  obtain ⟨e1, he1, hm1, hu1, hid1, _⟩ := forall₂_getElem? hall idx _ hidx
  have hnd : ((st.dict.tab.filter (fun e => e.used)).map (fun e => e.term_id)).Nodup :=
    (hp.nodup_iff).2 (List.nodup_range _)
  obtain ⟨p, hp1⟩ := List.mem_iff_getElem?.1 he
  obtain ⟨q, hq1⟩ := List.mem_iff_getElem?.1 hm1
  have hpq := used_slot_unique st.dict.tab hnd p q e e1 hp1 hq1 hu hu1 hid1.symm
  rw [hpq, hq1] at hp1
  cases hp1
  exact ⟨idx, he1⟩

theorem entry_of_term (st : IndexState) (terms : List (List Byte))
    (hinv : DictInv st.dict terms) (t : List Byte) (ht : t ∈ terms) :
    ∃ e ∈ st.dict.tab, e.used = true ∧ term_bytes st.dict.pool e = t := by
  obtain ⟨id, hid⟩ := List.mem_iff_getElem?.1 ht
  obtain ⟨_, _, hsize, _, _, _, hperm, hent⟩ := hinv
  have hlt : id < st.dict.size := by
    rw [hsize]
    rcases Nat.lt_or_ge id terms.length with h | h
    · exact h
    · rw [List.getElem?_eq_none h] at hid; cases hid
  have h2 : id ∈ (st.dict.tab.filter (fun e => e.used)).map (fun e => e.term_id) :=
    (hperm.mem_iff).2 (List.mem_range.2 hlt)
  obtain ⟨e, hef, heid⟩ := List.mem_map.1 h2
  obtain ⟨he, hu⟩ := List.mem_filter.1 hef
  refine ⟨e, he, hu, ?_⟩
  have := (hent e he hu).2.1
  rw [heid, hid] at this
  exact (Option.some.inj this).symm

theorem built_lookup (k N L : Nat) (docs : List (List Byte × DocRec))
    (title_pool : List Byte) (h : SizesFit N L docs title_pool) :
    ∃ st terms file iv,
      index_documents { dict := dict_init (2 ^ k), docs := [] } docs = some st ∧
      IndexInv st terms (docs.map (fun d => doc_token_lines d.1)) ∧
      build_index k docs title_pool = some file ∧ load_index file = some iv ∧
      iv.version = 2 ∧ iv.docs_count = docs.length ∧ iv.terms_count = st.dict.size ∧
      ∀ e ∈ st.dict.tab, e.used = true →
        ∃ off, dict_find iv (term_bytes st.dict.pool e) = some (some (off, e.df)) ∧
          load_postings iv off e.df = some (some (chain_docs e.chain)) := by
  obtain ⟨st, terms, ids, entries, file, iv, hrun, hinv, hperm, hpw, hall, hent, hbuild, hload,
    hbase, hbytes, hver, _, hdc, htc, hsize, htoff, hdict, hpost, _, _, _, _, hpo, hfl, hf64⟩ :=
    built_file_loaded k N L docs title_pool h
  have hL32 : L < 2 ^ 32 := h.2.2.2.1
  have hD : docs.length < 2 ^ 32 := h.2.2.2.2.1
  refine ⟨st, terms, file, iv, hrun, hinv, hbuild, hload, hver, hdc, htc, ?_⟩
  have hdf : ∀ e ∈ entries, e.df = (chain_docs e.chain).length := fun e he => (hent e he).2.2.1
  have hplen := postings_section_length entries hdf
  have hsorted : List.Pairwise (fun a b => term_bytes st.dict.pool a < term_bytes st.dict.pool b)
      entries := by
    refine pairwise_of_forall₂ ?_ ids entries hall hpw
    intro a b ea eb ha hb hab
    have ka : terms.getD a [] = term_bytes st.dict.pool ea := by
      have := ha.2.2.2.2.1
      rw [ha.2.2.1] at this
      rw [List.getD_eq_getElem?_getD, this]; rfl
    have kb : terms.getD b [] = term_bytes st.dict.pool eb := by
      have := hb.2.2.2.2.1
      rw [hb.2.2.1] at this
      rw [List.getD_eq_getElem?_getD, this]; rfl
    rw [ka, kb] at hab
    exact hab
  have hsum : ∀ idx : Nat, ((entries.take idx).map (fun e => e.df)).sum ≤
      (entries.map (fun e => e.df)).sum := by
    intro idx
    have hsplit : entries = entries.take idx ++ entries.drop idx :=
      (List.take_append_drop _ _).symm
    conv_rhs => rw [hsplit]
    rw [List.map_append, List.sum_append]
    omega
  intro e he hu
  obtain ⟨idx, hidx⟩ := entry_in_sorted st terms hinv.1 ids entries hperm hall e he hu
  have hilt : idx < entries.length := by
    rcases Nat.lt_or_ge idx entries.length with h1 | h1
    · exact h1
    · rw [List.getElem?_eq_none h1] at hidx; cases hidx
  have hol : idx < (postings_off_loop entries 0).1.length := by
    rw [postings_off_loop_length]; exact hilt
  have ho : (postings_off_loop entries 0).1[idx]? = some (postings_off_loop entries 0).1[idx] :=
    List.getElem?_eq_getElem hol
  generalize (postings_off_loop entries 0).1[idx] = o at ho
  have hov := postings_off_loop_get entries 0 idx o ho
  rw [Nat.zero_add] at hov
  refine ⟨o, ?_, ?_⟩
  · unfold dict_find
    rw [htc, hsize]
    apply dict_find_loop_spec iv st.dict.pool entries (postings_off_loop entries 0).1
      (postings_off_loop_length _ _).symm
      (fun x hx => ⟨Nat.lt_of_le_of_lt (hent x hx).1 hL32,
        Nat.lt_of_le_of_lt (hent x hx).2.2.2.1 hD, (hent x hx).2.1⟩)
      ?_ (by rw [hbase]; exact hdict) htoff hsorted idx e o hidx ho
      (entries.length + 1) 0 ((entries.length : Int) - 1) (le_refl _) (by omega) (by omega)
      (by omega) (by omega)
    intro o1 ho1
    obtain ⟨i1, hi1⟩ := List.mem_iff_getElem?.1 ho1
    have := postings_off_loop_get entries 0 i1 o1 hi1
    have := hsum i1
    omega
  · rw [hov]
    apply load_postings_spec iv entries hdf ?_ (by rw [hbase]; exact hpost)
      (by rw [hbase]; omega) (by rw [hbytes, hbase]) (by rw [hbase]; exact hf64) idx e hidx
    intro e1 he1 g hg
    rw [(hent e1 he1).2.2.2.2, mem_ref_postings] at hg
    obtain ⟨i, doc, hi, _, hgi⟩ := hg
    have hil : i < (docs.map (fun d => doc_token_lines d.1)).length := by
      rcases Nat.lt_or_ge i (docs.map (fun d => doc_token_lines d.1)).length with h1 | h1
      · exact h1
      · rw [List.getElem?_eq_none h1] at hi; cases hi
    rw [List.length_map] at hil
    omega

/-! The round trip in terms of the scan. -/

theorem drop_of_getElem? {α : Type} (A : List α) (i : Nat) (a : α) (h : A[i]? = some a) :
    A.drop i = a :: A.drop (i + 1) := by
  obtain ⟨hi, ha⟩ := List.getElem?_eq_some_iff.1 h
  rw [← ha]
  exact List.drop_eq_getElem_cons hi

theorem asc_drop (A : List Nat) (i : Nat) (h : A.Pairwise (fun a b => a < b)) :
    (A.drop i).Pairwise (fun a b => a < b) :=
  h.sublist (List.drop_sublist i A)

theorem asc_drop_head (A : List Nat) (i a : Nat) (h : A.Pairwise (fun a b => a < b))
    (ha : A[i]? = some a) : ∀ y ∈ A.drop (i + 1), a < y := by
  have := asc_drop A i h
  rw [drop_of_getElem? A i a ha, List.pairwise_cons] at this
  exact this.1

theorem asc_ext (l1 l2 : List Nat) (h1 : l1.Pairwise (fun a b => a < b))
    (h2 : l2.Pairwise (fun a b => a < b)) (h : ∀ x, x ∈ l1 ↔ x ∈ l2) : l1 = l2 := by
  have n1 : l1.Nodup := h1.imp (fun hab => Nat.ne_of_lt hab)
  have n2 : l2.Nodup := h2.imp (fun hab => Nat.ne_of_lt hab)
  exact List.eq_of_perm_of_sorted ((List.perm_ext_iff_of_nodup n1 n2).2 h) h1 h2

theorem getElem?_of_lt {α : Type} (A : List α) (i : Nat) (h : i < A.length) :
    ∃ a, A[i]? = some a := ⟨A[i], List.getElem?_eq_getElem h⟩

theorem copy_rest_spec (A : List Nat) : ∀ (fuel i : Nat) (out : List Nat),
    A.length - i ≤ fuel → copy_rest A fuel i out = some (out ++ A.drop i) := by
  intro fuel
  induction fuel with
  | zero =>
    intro i out h
    simp only [copy_rest]
    rw [if_neg (by omega), List.drop_eq_nil_of_le (by omega), List.append_nil]
  | succ f ih =>
    intro i out h
    simp only [copy_rest]
    by_cases hi : i < A.length
    · obtain ⟨a, ha⟩ := getElem?_of_lt A i hi
      rw [if_pos hi]
      simp only [ha]
      rw [ih (i + 1) _ (by omega), drop_of_getElem? A i a ha]
      simp
    · rw [if_neg hi, List.drop_eq_nil_of_le (by omega), List.append_nil]

/-! Function `op_and_out`. -/

theorem op_and_loop_spec (A B : List Nat) (hA : A.Pairwise (fun a b => a < b))
    (hB : B.Pairwise (fun a b => a < b)) :
    ∀ (fuel i j : Nat) (out : List Nat), (A.length - i) + (B.length - j) ≤ fuel →
      ∃ R, op_and_loop A B fuel i j out = some (out ++ R) ∧ R.Pairwise (fun a b => a < b) ∧
        ∀ x, x ∈ R ↔ x ∈ A.drop i ∧ x ∈ B.drop j := by
  intro fuel
  induction fuel with
  | zero =>
    intro i j out h
    refine ⟨[], ?_, List.Pairwise.nil, ?_⟩
    · simp only [op_and_loop]
      rw [if_neg (by omega), List.append_nil]
    · intro x
      rw [List.drop_eq_nil_of_le (by omega : A.length ≤ i)]
      simp
  | succ f ih =>
    intro i j out h
    by_cases hc : i < A.length ∧ j < B.length
    · obtain ⟨a, ha⟩ := getElem?_of_lt A i hc.1
      obtain ⟨b, hb⟩ := getElem?_of_lt B j hc.2
      have hAd := drop_of_getElem? A i a ha
      have hBd := drop_of_getElem? B j b hb
      have hAh := asc_drop_head A i a hA ha
      have hBh := asc_drop_head B j b hB hb
      simp only [op_and_loop]
      rw [if_pos hc]
      simp only [ha, hb]
      by_cases hab : a = b
      · subst hab
        rw [if_pos rfl]
        obtain ⟨R, hrun, hasc, hmem⟩ := ih (i + 1) (j + 1) (out ++ [a]) (by omega)
        refine ⟨a :: R, by rw [hrun]; simp, ?_, ?_⟩
        · rw [List.pairwise_cons]
          exact ⟨fun y hy => hAh y ((hmem y).1 hy).1, hasc⟩
        · intro x
          rw [hAd, hBd, List.mem_cons, List.mem_cons, List.mem_cons, hmem]
          constructor
          · rintro (h1 | h1)
            · exact ⟨Or.inl h1, Or.inl h1⟩
            · exact ⟨Or.inr h1.1, Or.inr h1.2⟩
          · rintro ⟨h1 | h1, h2 | h2⟩
            · exact Or.inl h1
            · exact Or.inl h1
            · exact Or.inl h2
            · exact Or.inr ⟨h1, h2⟩
      · rw [if_neg hab]
        by_cases hlt : a < b
        · rw [if_pos hlt]
          obtain ⟨R, hrun, hasc, hmem⟩ := ih (i + 1) j out (by omega)
          refine ⟨R, hrun, hasc, ?_⟩
          intro x
          rw [hmem, hAd, hBd, List.mem_cons, List.mem_cons]
          constructor
          · rintro ⟨h1, h2⟩
            exact ⟨Or.inr h1, h2⟩
          · rintro ⟨h1 | h1, h2⟩
            · exfalso
              rcases h2 with h2 | h2
              · omega
              · have := hBh x h2; omega
            · exact ⟨h1, h2⟩
        · rw [if_neg hlt]
          obtain ⟨R, hrun, hasc, hmem⟩ := ih i (j + 1) out (by omega)
          refine ⟨R, hrun, hasc, ?_⟩
          intro x
          rw [hmem, hAd, hBd, List.mem_cons, List.mem_cons]
          constructor
          · rintro ⟨h1, h2⟩
            exact ⟨h1, Or.inr h2⟩
          · rintro ⟨h1, h2 | h2⟩
            · exfalso
              rcases h1 with h1 | h1
              · omega
              · have := hAh x h1; omega
            · exact ⟨h1, h2⟩
    · refine ⟨[], ?_, List.Pairwise.nil, ?_⟩
      · simp only [op_and_loop]
        rw [if_neg hc, List.append_nil]
      · intro x
        by_cases hi : i < A.length
        · rw [List.drop_eq_nil_of_le (by omega : B.length ≤ j)]
          simp
        · rw [List.drop_eq_nil_of_le (by omega : A.length ≤ i)]
          simp

theorem op_and_out_spec (A B : List Nat) (hA : A.Pairwise (fun a b => a < b))
    (hB : B.Pairwise (fun a b => a < b)) :
    ∃ R, op_and_out A B = some R ∧ R.Pairwise (fun a b => a < b) ∧
      ∀ x, x ∈ R ↔ x ∈ A ∧ x ∈ B := by
  obtain ⟨R, h1, h2, h3⟩ := op_and_loop_spec A B hA hB (A.length + B.length) 0 0 [] (by omega)
  exact ⟨R, by simpa [op_and_out] using h1, h2, by simpa using h3⟩

/-! Function `op_or_out`. -/

theorem op_or_loop_spec (A B : List Nat) (hA : A.Pairwise (fun a b => a < b))
    (hB : B.Pairwise (fun a b => a < b)) :
    ∀ (fuel i j : Nat) (out : List Nat), (A.length - i) + (B.length - j) ≤ fuel →
      ∃ R, (match op_or_loop A B fuel i j out with
          | none => none
          | some (i1, j1, out1) =>
            match copy_rest A A.length i1 out1 with
            | none => none
            | some out2 => copy_rest B B.length j1 out2) = some (out ++ R) ∧
        R.Pairwise (fun a b => a < b) ∧ ∀ x, x ∈ R ↔ x ∈ A.drop i ∨ x ∈ B.drop j := by
  have hexit : ∀ (i j : Nat) (out : List Nat), ¬ (i < A.length ∧ j < B.length) →
      ∃ R, (match copy_rest A A.length i out with
          | none => none
          | some out2 => copy_rest B B.length j out2) = some (out ++ R) ∧
        R.Pairwise (fun a b => a < b) ∧ ∀ x, x ∈ R ↔ x ∈ A.drop i ∨ x ∈ B.drop j := by
    intro i j out hc
    rw [copy_rest_spec A A.length i out (by omega)]
    simp only
    rw [copy_rest_spec B B.length j _ (by omega), List.append_assoc]
    refine ⟨A.drop i ++ B.drop j, rfl, ?_, fun x => List.mem_append⟩
    by_cases hi : i < A.length
    · rw [List.drop_eq_nil_of_le (by omega : B.length ≤ j), List.append_nil]
      exact asc_drop A i hA
    · rw [List.drop_eq_nil_of_le (by omega : A.length ≤ i), List.nil_append]
      exact asc_drop B j hB
  intro fuel
  induction fuel with
  | zero =>
    intro i j out h
    simp only [op_or_loop]
    rw [if_neg (by omega)]
    exact hexit i j out (by omega)
  | succ f ih =>
    intro i j out h
    by_cases hc : i < A.length ∧ j < B.length
    · obtain ⟨a, ha⟩ := getElem?_of_lt A i hc.1
      obtain ⟨b, hb⟩ := getElem?_of_lt B j hc.2
      have hAd := drop_of_getElem? A i a ha
      have hBd := drop_of_getElem? B j b hb
      have hAh := asc_drop_head A i a hA ha
      have hBh := asc_drop_head B j b hB hb
      simp only [op_or_loop]
      rw [if_pos hc]
      simp only [ha, hb]
      by_cases hab : a = b
      · subst hab
        rw [if_pos rfl]
        obtain ⟨R, hrun, hasc, hmem⟩ := ih (i + 1) (j + 1) (out ++ [a]) (by omega)
        refine ⟨a :: R, by rw [hrun]; simp, ?_, ?_⟩
        · rw [List.pairwise_cons]
          refine ⟨fun y hy => ?_, hasc⟩
          rcases (hmem y).1 hy with h1 | h1
          · exact hAh y h1
          · exact hBh y h1
        · intro x
          rw [hAd, hBd, List.mem_cons, List.mem_cons, List.mem_cons, hmem]
          constructor
          · rintro (h1 | h1 | h1)
            · exact Or.inl (Or.inl h1)
            · exact Or.inl (Or.inr h1)
            · exact Or.inr (Or.inr h1)
          · rintro ((h1 | h1) | (h1 | h1))
            · exact Or.inl h1
            · exact Or.inr (Or.inl h1)
            · exact Or.inl h1
            · exact Or.inr (Or.inr h1)
      · rw [if_neg hab]
        by_cases hlt : a < b
        · rw [if_pos hlt]
          obtain ⟨R, hrun, hasc, hmem⟩ := ih (i + 1) j (out ++ [a]) (by omega)
          refine ⟨a :: R, by rw [hrun]; simp, ?_, ?_⟩
          · rw [List.pairwise_cons]
            refine ⟨fun y hy => ?_, hasc⟩
            rcases (hmem y).1 hy with h1 | h1
            · exact hAh y h1
            · rw [hBd, List.mem_cons] at h1
              rcases h1 with h1 | h1
              · omega
              · have := hBh y h1; omega
          · intro x
            rw [hAd, List.mem_cons, List.mem_cons, hmem]
            constructor
            · rintro (h1 | h1 | h1)
              · exact Or.inl (Or.inl h1)
              · exact Or.inl (Or.inr h1)
              · exact Or.inr h1
            · rintro ((h1 | h1) | h1)
              · exact Or.inl h1
              · exact Or.inr (Or.inl h1)
              · exact Or.inr (Or.inr h1)
        · rw [if_neg hlt]
          obtain ⟨R, hrun, hasc, hmem⟩ := ih i (j + 1) (out ++ [b]) (by omega)
          refine ⟨b :: R, by rw [hrun]; simp, ?_, ?_⟩
          · rw [List.pairwise_cons]
            refine ⟨fun y hy => ?_, hasc⟩
            rcases (hmem y).1 hy with h1 | h1
            · rw [hAd, List.mem_cons] at h1
              rcases h1 with h1 | h1
              · omega
              · have := hAh y h1; omega
            · exact hBh y h1
          · intro x
            rw [hBd, List.mem_cons, List.mem_cons, hmem]
            constructor
            · rintro (h1 | h1 | h1)
              · exact Or.inr (Or.inl h1)
              · exact Or.inl h1
              · exact Or.inr (Or.inr h1)
            · rintro (h1 | h1 | h1)
              · exact Or.inr (Or.inl h1)
              · exact Or.inl h1
              · exact Or.inr (Or.inr h1)
    · simp only [op_or_loop]
      rw [if_neg hc]
      exact hexit i j out hc

theorem op_or_out_spec (A B : List Nat) (hA : A.Pairwise (fun a b => a < b))
    (hB : B.Pairwise (fun a b => a < b)) :
    ∃ R, op_or_out A B = some R ∧ R.Pairwise (fun a b => a < b) ∧
      ∀ x, x ∈ R ↔ x ∈ A ∨ x ∈ B := by
  obtain ⟨R, h1, h2, h3⟩ := op_or_loop_spec A B hA hB (A.length + B.length) 0 0 [] (by omega)
  exact ⟨R, by simpa [op_or_out] using h1, h2, by simpa using h3⟩

/-! Function `op_not_out`. -/

theorem op_not_loop_spec (ALL A : List Nat) (hALL : ALL.Pairwise (fun a b => a < b))
    (hA : A.Pairwise (fun a b => a < b)) :
    ∀ (fuel i j : Nat) (out : List Nat), (ALL.length - i) + (A.length - j) ≤ fuel →
      ∃ R, (match op_not_loop ALL A fuel i j out with
          | none => none
          | some (i1, out1) => copy_rest ALL ALL.length i1 out1) = some (out ++ R) ∧
        R.Pairwise (fun a b => a < b) ∧ ∀ x, x ∈ R ↔ x ∈ ALL.drop i ∧ x ∉ A.drop j := by
  have hexit : ∀ (i j : Nat) (out : List Nat), ¬ (i < ALL.length ∧ j < A.length) →
      ∃ R, copy_rest ALL ALL.length i out = some (out ++ R) ∧
        R.Pairwise (fun a b => a < b) ∧ ∀ x, x ∈ R ↔ x ∈ ALL.drop i ∧ x ∉ A.drop j := by
    intro i j out hc
    rw [copy_rest_spec ALL ALL.length i out (by omega)]
    refine ⟨ALL.drop i, rfl, asc_drop ALL i hALL, ?_⟩
    intro x
    by_cases hi : i < ALL.length
    · rw [List.drop_eq_nil_of_le (by omega : A.length ≤ j)]
      simp
    · rw [List.drop_eq_nil_of_le (by omega : ALL.length ≤ i)]
      simp
  intro fuel
  induction fuel with
  | zero =>
    intro i j out h
    simp only [op_not_loop]
    rw [if_neg (by omega)]
    exact hexit i j out (by omega)
  | succ f ih =>
    intro i j out h
    by_cases hc : i < ALL.length ∧ j < A.length
    · obtain ⟨a, ha⟩ := getElem?_of_lt ALL i hc.1
      obtain ⟨b, hb⟩ := getElem?_of_lt A j hc.2
      have hAd := drop_of_getElem? ALL i a ha
      have hBd := drop_of_getElem? A j b hb
      have hAh := asc_drop_head ALL i a hALL ha
      have hBh := asc_drop_head A j b hA hb
      simp only [op_not_loop]
      rw [if_pos hc]
      simp only [ha, hb]
      by_cases hab : a = b
      · subst hab
        rw [if_pos rfl]
        obtain ⟨R, hrun, hasc, hmem⟩ := ih (i + 1) (j + 1) out (by omega)
        refine ⟨R, hrun, hasc, ?_⟩
        intro x
        rw [hmem, hAd, hBd, List.mem_cons, List.mem_cons]
        constructor
        · rintro ⟨h1, h2⟩
          refine ⟨Or.inr h1, ?_⟩
          rintro (h3 | h3)
          · have := hAh x h1; omega
          · exact h2 h3
        · rintro ⟨h1 | h1, h2⟩
          · exact absurd (Or.inl h1) h2
          · exact ⟨h1, fun h3 => h2 (Or.inr h3)⟩
      · rw [if_neg hab]
        by_cases hlt : a < b
        · rw [if_pos hlt]
          obtain ⟨R, hrun, hasc, hmem⟩ := ih (i + 1) j (out ++ [a]) (by omega)
          refine ⟨a :: R, by rw [hrun]; simp, ?_, ?_⟩
          · rw [List.pairwise_cons]
            exact ⟨fun y hy => hAh y ((hmem y).1 hy).1, hasc⟩
          · intro x
            rw [hAd, List.mem_cons, List.mem_cons, hmem]
            constructor
            · rintro (h1 | h1)
              · refine ⟨Or.inl h1, ?_⟩
                rw [hBd, List.mem_cons]
                rintro (h3 | h3)
                · omega
                · have := hBh x h3; omega
              · exact ⟨Or.inr h1.1, h1.2⟩
            · rintro ⟨h1 | h1, h2⟩
              · exact Or.inl h1
              · exact Or.inr ⟨h1, h2⟩
        · rw [if_neg hlt]
          obtain ⟨R, hrun, hasc, hmem⟩ := ih i (j + 1) out (by omega)
          refine ⟨R, hrun, hasc, ?_⟩
          intro x
          rw [hmem, hBd, List.mem_cons]
          constructor
          · rintro ⟨h1, h2⟩
            refine ⟨h1, ?_⟩
            rintro (h3 | h3)
            · rw [hAd, List.mem_cons] at h1
              rcases h1 with h1 | h1
              · omega
              · have := hAh x h1; omega
            · exact h2 h3
          · rintro ⟨h1, h2⟩
            exact ⟨h1, fun h3 => h2 (Or.inr h3)⟩
    · simp only [op_not_loop]
      rw [if_neg hc]
      exact hexit i j out hc

theorem op_not_out_spec (ALL A : List Nat) (hALL : ALL.Pairwise (fun a b => a < b))
    (hA : A.Pairwise (fun a b => a < b)) :
    ∃ R, op_not_out ALL A = some R ∧ R.Pairwise (fun a b => a < b) ∧
      ∀ x, x ∈ R ↔ x ∈ ALL ∧ x ∉ A := by
  obtain ⟨R, h1, h2, h3⟩ := op_not_loop_spec ALL A hALL hA (ALL.length + A.length) 0 0 []
    (by omega)
  exact ⟨R, by simpa [op_not_out] using h1, h2, by simpa using h3⟩

theorem universe_list_asc (n : Nat) : (universe_list n).Pairwise (fun a b => a < b) := by
  unfold universe_list
  rw [List.pairwise_map]
  exact (List.pairwise_lt_range n).imp (fun h => by omega)

theorem mem_universe_list (n x : Nat) : x ∈ universe_list n ↔ 1 ≤ x ∧ x ≤ n := by
  unfold universe_list
  rw [List.mem_map]
  constructor
  · rintro ⟨i, hi, rfl⟩
    have := List.mem_range.1 hi
    omega
  · rintro ⟨h1, h2⟩
    exact ⟨x - 1, List.mem_range.2 (by omega), by omega⟩

/-! The set operations with their final `xrealloc`. -/

theorem xrealloc_nil : xrealloc [] = Outcome.oom := rfl

theorem xrealloc_ret (R : List Nat) (h : R ≠ []) : xrealloc R = Outcome.ret R := by
  unfold xrealloc
  rw [if_neg (fun h0 => h (List.length_eq_zero.1 h0))]

theorem xrealloc_eq_ret (R S : List Nat) (h : xrealloc R = Outcome.ret S) : S = R ∧ R ≠ [] := by
  unfold xrealloc at h
  by_cases h0 : R.length = 0
  · rw [if_pos h0] at h; cases h
  · rw [if_neg h0] at h
    cases h
    exact ⟨rfl, fun hn => h0 (by rw [hn]; rfl)⟩

/-- Function `op_and` on strictly ascending lists: the loop computes the strictly
ascending list `R` of the ids that are in both, and the result is `xrealloc` of it:
`R` when `R` is not empty, the end of the process when it is. -/
theorem op_and_outcome (A B : List Nat) (hA : A.Pairwise (fun a b => a < b))
    (hB : B.Pairwise (fun a b => a < b)) :
    ∃ R, op_and A B = some (xrealloc R) ∧ R.Pairwise (fun a b => a < b) ∧
      ∀ x, x ∈ R ↔ x ∈ A ∧ x ∈ B := by
  obtain ⟨R, h1, h2, h3⟩ := op_and_out_spec A B hA hB
  exact ⟨R, by unfold op_and; rw [h1]; rfl, h2, h3⟩

/-- Function `op_or` on strictly ascending lists: the loops compute the strictly
ascending list `R` of the ids that are in one of them, and the result is `xrealloc` of
it. -/
theorem op_or_outcome (A B : List Nat) (hA : A.Pairwise (fun a b => a < b))
    (hB : B.Pairwise (fun a b => a < b)) :
    ∃ R, op_or A B = some (xrealloc R) ∧ R.Pairwise (fun a b => a < b) ∧
      ∀ x, x ∈ R ↔ x ∈ A ∨ x ∈ B := by
  obtain ⟨R, h1, h2, h3⟩ := op_or_out_spec A B hA hB
  exact ⟨R, by unfold op_or; rw [h1]; rfl, h2, h3⟩

/-- Function `op_not` on strictly ascending lists: the loops compute the strictly
ascending list `R` of the ids of `ALL` that are not in `A`, and the result is `xrealloc`
of it. -/
theorem op_not_outcome (ALL A : List Nat) (hALL : ALL.Pairwise (fun a b => a < b))
    (hA : A.Pairwise (fun a b => a < b)) :
    ∃ R, op_not ALL A = some (xrealloc R) ∧ R.Pairwise (fun a b => a < b) ∧
      ∀ x, x ∈ R ↔ x ∈ ALL ∧ x ∉ A := by
  obtain ⟨R, h1, h2, h3⟩ := op_not_out_spec ALL A hALL hA
  exact ⟨R, by unfold op_not; rw [h1]; rfl, h2, h3⟩

/-- The laws of the query algebra as the code has them: for a strictly ascending list
`A` with ids in `[1 .. D]` and `U = [1 .. D]`, the loops compute `A` for `A && A` and
`A || A`, the complement `N` for `!A`, `A` for `!N`, the empty list for `A && N` and
`U` for `A || N`; each operation then returns that list when it is not empty and ends
the process when it is, so that `op_and(A, N)` always ends the process. -/
theorem query_algebra_outcome (D : Nat) (A : List Nat) (hA : A.Pairwise (fun a b => a < b))
    (hr : ∀ x ∈ A, 1 ≤ x ∧ x ≤ D) :
    op_and A A = some (xrealloc A) ∧ op_or A A = some (xrealloc A) ∧
    ∃ N, op_not (universe_list D) A = some (xrealloc N) ∧
      op_not (universe_list D) N = some (xrealloc A) ∧
      op_and A N = some Outcome.oom ∧ op_or A N = some (xrealloc (universe_list D)) := by
  have hU := universe_list_asc D
  obtain ⟨R1, a1, a2, a3⟩ := op_and_outcome A A hA hA
  obtain ⟨R2, b1, b2, b3⟩ := op_or_outcome A A hA hA
  obtain ⟨N, c1, c2, c3⟩ := op_not_outcome (universe_list D) A hU hA
  obtain ⟨R4, d1, d2, d3⟩ := op_not_outcome (universe_list D) N hU c2
  obtain ⟨R5, e1, e2, e3⟩ := op_and_outcome A N hA c2
  obtain ⟨R6, f1, f2, f3⟩ := op_or_outcome A N hA c2
  have h1 : R1 = A := asc_ext R1 A a2 hA (fun x => by rw [a3]; exact and_self_iff)
  have h2 : R2 = A := asc_ext R2 A b2 hA (fun x => by rw [b3]; exact or_self_iff)
  have h4 : R4 = A := asc_ext R4 A d2 hA (fun x => by
    rw [d3, c3, mem_universe_list]
    constructor
    · rintro ⟨h, hn⟩
      by_contra hx
      exact hn ⟨h, hx⟩
    · intro hx
      exact ⟨hr x hx, fun hn => hn.2 hx⟩)
  have h5 : R5 = [] := by
    apply List.eq_nil_iff_forall_not_mem.2
    intro x hx
    rw [e3, c3] at hx
    exact hx.2.2 hx.1
  have h6 : R6 = universe_list D := asc_ext R6 _ f2 hU (fun x => by
    rw [f3, c3, mem_universe_list]
    constructor
    · rintro (hx | hx)
      · exact hr x hx
      · exact hx.1
    · intro hx
      by_cases hxA : x ∈ A
      · exact Or.inl hxA
      · exact Or.inr ⟨hx, hxA⟩)
  rw [h1] at a1
  rw [h2] at b1
  rw [h4] at d1
  rw [h5, xrealloc_nil] at e1
  rw [h6] at f1
  exact ⟨a1, b1, N, c1, d1, e1, f1⟩

/-! Claims C26 to C29: inputs with an empty result, on which the process ends. -/

/-- C26: the lists `[1]` and `[2]` are strictly ascending and have no common id. The
loop of `op_and` leaves the empty array, and `op_and` does not return the empty list:
its final `xrealloc(out, 0)` ends the process in `die("OOM")`. On `[1, 3, 5, 7]` and
`[2, 3, 4, 7, 9]` it returns `[3, 7]`. -/
theorem op_and_empty_intersection_exits :
    ([1] : List Nat).Pairwise (fun a b => a < b) ∧ ([2] : List Nat).Pairwise (fun a b => a < b) ∧
    (∀ x : Nat, ¬ (x ∈ ([1] : List Nat) ∧ x ∈ ([2] : List Nat))) ∧
    op_and_out [1] [2] = some [] ∧ op_and [1] [2] = some Outcome.oom ∧
    op_and [1, 3, 5, 7] [2, 3, 4, 7, 9] = some (Outcome.ret [3, 7]) := by
  refine ⟨by decide, by decide, ?_, by decide, by decide, by decide⟩
  intro x hx
  simp only [List.mem_singleton] at hx
  omega

/-- C27: for the two empty lists, the lists of two terms that are not in the
dictionary, the loops of `op_or` leave the empty array, and `op_or` does not return
the empty list: its final `xrealloc(out, 0)` ends the process in `die("OOM")`. On
`[1, 3, 5, 7]` and `[2, 3, 4, 7, 9]` it returns `[1, 2, 3, 4, 5, 7, 9]`. -/
theorem op_or_empty_union_exits :
    op_or_out [] [] = some [] ∧ op_or [] [] = some Outcome.oom ∧
    op_or [1, 3, 5, 7] [2, 3, 4, 7, 9] = some (Outcome.ret [1, 2, 3, 4, 5, 7, 9]) := by
  decide

/-- C28: for `ALL = [1, 2]` and `A = [1, 2]` no id of `ALL` is outside `A`. The loops of
`op_not` leave the empty array, and `op_not` does not return the empty list: its final
`xrealloc(out, 0)` ends the process in `die("OOM")`; so it does for an index without
documents (`D = 0`). On `[1, 2, 4, 8]` and `[2, 3, 8]` it returns `[1, 4]`. -/
theorem op_not_empty_difference_exits :
    universe_list 2 = [1, 2] ∧
    op_not_out (universe_list 2) [1, 2] = some [] ∧
    op_not (universe_list 2) [1, 2] = some Outcome.oom ∧
    op_not (universe_list 0) [] = some Outcome.oom ∧
    op_not [1, 2, 4, 8] [2, 3, 8] = some (Outcome.ret [1, 4]) := by
  decide

/-- C29: for `A = [2, 3, 5]` and `D = 6`, `op_and(A, A)` and `op_or(A, A)` return `A`,
`op_not(U, A)` returns `N = [1, 4, 6]`, `op_not(U, N)` returns `A` and `op_or(A, N)`
returns `U`; but `op_and(A, N)`, whose result is empty, does not return: the process
ends in `die("OOM")`. For the empty list `A`, `op_and(A, A)` and `op_or(A, A)` end the
process as well. -/
theorem query_algebra_and_not_exits :
    universe_list 6 = [1, 2, 3, 4, 5, 6] ∧
    op_and [2, 3, 5] [2, 3, 5] = some (Outcome.ret [2, 3, 5]) ∧
    op_or [2, 3, 5] [2, 3, 5] = some (Outcome.ret [2, 3, 5]) ∧
    op_not (universe_list 6) [2, 3, 5] = some (Outcome.ret [1, 4, 6]) ∧
    op_not (universe_list 6) [1, 4, 6] = some (Outcome.ret [2, 3, 5]) ∧
    op_and_out [2, 3, 5] [1, 4, 6] = some [] ∧
    op_and [2, 3, 5] [1, 4, 6] = some Outcome.oom ∧
    op_or [2, 3, 5] [1, 4, 6] = some (Outcome.ret (universe_list 6)) ∧
    op_and [] [] = some Outcome.oom ∧ op_or [] [] = some Outcome.oom := by
  decide

/-! Function `to_rpn` on the token sequences of the grammar. -/

theorem pop_ops_not (S : List TokType) (out : List Tok) :
    pop_ops TokType.T_NOT S out = (S, out) := by
  cases S with
  | nil => rfl
  | cons top S =>
    simp only [pop_ops]
    by_cases h : is_op top = true
    · rw [if_pos h, if_neg]
      intro hc
      rcases hc with ⟨_, h2⟩ | ⟨h1, _⟩
      · cases top <;> simp [prec] at h2
      · exact h1 rfl
    · rw [if_neg h]

theorem pop_ops_left (o : TokType) (ho : right_assoc o = false) (S : List TokType)
    (hS : ∀ t, S.head? = some t → is_op t = true → prec t < prec o) :
    ∀ (P : List TokType) (out : List Tok), (∀ p ∈ P, is_op p = true ∧ prec o ≤ prec p) →
      pop_ops o (P ++ S) out = (S, out ++ P.map Tok.op) := by
  intro P
  induction P with
  | nil =>
    intro out _
    simp only [List.nil_append, List.map_nil, List.append_nil]
    cases S with
    | nil => rfl
    | cons top S =>
      simp only [pop_ops]
      by_cases h : is_op top = true
      · rw [if_pos h, if_neg]
        have := hS top rfl h
        rw [ho]
        intro hc
        rcases hc with ⟨h1, _⟩ | ⟨_, h2⟩
        · cases h1
        · omega
      · rw [if_neg h]
  | cons p P ih =>
    intro out hP
    obtain ⟨h1, h2⟩ := hP p (List.mem_cons_self _ _)
    rw [List.cons_append, pop_ops, if_pos h1, if_pos (Or.inr ⟨by rw [ho]; simp, h2⟩),
      ih _ (fun x hx => hP x (List.mem_cons_of_mem _ hx))]
    simp

theorem pop_to_lp_ops (S : List TokType) :
    ∀ (P : List TokType) (out : List Tok), (∀ p ∈ P, is_op p = true) →
      pop_to_lp (P ++ TokType.T_LP :: S) out = (TokType.T_LP :: S, out ++ P.map Tok.op) := by
  intro P
  induction P with
  | nil =>
    intro out _
    simp [pop_to_lp]
  | cons p P ih =>
    intro out hP
    have h1 := hP p (List.mem_cons_self _ _)
    have hne : p ≠ TokType.T_LP := by
      intro h
      rw [h] at h1
      cases h1
    rw [List.cons_append, pop_to_lp, if_pos hne, ih _ (fun x hx => hP x (List.mem_cons_of_mem _ hx))]
    simp

theorem pop_all_ops : ∀ (P : List TokType) (out : List Tok), (∀ p ∈ P, is_op p = true) →
    pop_all P out = out ++ P.map Tok.op := by
  intro P
  induction P with
  | nil => intro out _; simp [pop_all]
  | cons p P ih =>
    intro out hP
    have h1 := hP p (List.mem_cons_self _ _)
    have hne : p ≠ TokType.T_LP := by
      intro h
      rw [h] at h1
      cases h1
    simp only [pop_all]
    rw [if_pos hne, ih _ (fun x hx => hP x (List.mem_cons_of_mem _ hx))]
    simp

theorem to_rpn_loop_op (o : TokType) (ho : is_op o = true) (rest : List Tok)
    (S : List TokType) (out : List Tok) :
    to_rpn_loop (Tok.op o :: rest) S out =
      to_rpn_loop rest (o :: (pop_ops o S out).1) (pop_ops o S out).2 := by
  cases o <;> simp [is_op] at ho <;> simp [to_rpn_loop, Tok.op, is_op]

theorem to_rpn_loop_tree : ∀ {n : Nat} (e : PTree n) (rest : List Tok) (S : List TokType)
    (out : List Tok), TopOK n S →
    ∃ A P, to_rpn_loop (e.tokens ++ rest) S out = to_rpn_loop rest (P ++ S) (out ++ A) ∧
      A ++ P.map Tok.op = e.postorder ∧ ∀ p ∈ P, is_op p = true ∧ n ≤ prec p := by
  intro n e
  induction e with
  | term s =>
    intro rest S out _
    refine ⟨[{ t := TokType.T_TERM, s := s }], [], ?_, by simp [PTree.postorder], by simp⟩
    simp [PTree.tokens, to_rpn_loop]
  | paren e ih =>
    intro rest S out _
    obtain ⟨A, P, hrun, hpost, hP⟩ := ih (Tok.op TokType.T_RP :: rest) (TokType.T_LP :: S) out
      (Or.inr (by
        intro t ht hop
        simp only [List.head?_cons, Option.some.injEq] at ht
        rw [← ht] at hop
        cases hop))
    refine ⟨A ++ P.map Tok.op, [], ?_, by simpa [PTree.postorder] using hpost, by simp⟩
    have h1 : (PTree.paren e).tokens ++ rest =
        Tok.op TokType.T_LP :: (e.tokens ++ Tok.op TokType.T_RP :: rest) := by
      simp [PTree.tokens]
    rw [h1]
    have h2 : to_rpn_loop (Tok.op TokType.T_LP :: (e.tokens ++ Tok.op TokType.T_RP :: rest)) S out =
        to_rpn_loop (e.tokens ++ Tok.op TokType.T_RP :: rest) (TokType.T_LP :: S) out := by
      simp [to_rpn_loop, Tok.op]
    rw [h2, hrun]
    have h3 := pop_to_lp_ops S P (out ++ A) (fun p hp => (hP p hp).1)
    simp only [to_rpn_loop, Tok.op, h3]
    simp
  | not f ih =>
    intro rest S out _
    obtain ⟨A, P, hrun, hpost, hP⟩ := ih rest (TokType.T_NOT :: S) out (Or.inl rfl)
    refine ⟨A, P ++ [TokType.T_NOT], ?_, ?_, ?_⟩
    · have h1 : (PTree.not f).tokens ++ rest = Tok.op TokType.T_NOT :: (f.tokens ++ rest) := by
        simp [PTree.tokens]
      rw [h1, to_rpn_loop_op TokType.T_NOT rfl, pop_ops_not, hrun]
      simp
    · simp only [List.map_append, List.map_cons, List.map_nil, PTree.postorder]
      rw [← List.append_assoc, hpost]
    · intro p hp
      rcases List.mem_append.1 hp with h | h
      · exact hP p h
      · simp only [List.mem_singleton] at h
        subst h
        exact ⟨rfl, by decide⟩
  | ofF f ih =>
    intro rest S out _
    obtain ⟨A, P, hrun, hpost, hP⟩ := ih rest S out (Or.inl rfl)
    exact ⟨A, P, hrun, hpost, fun p hp => ⟨(hP p hp).1, by have := (hP p hp).2; omega⟩⟩
  | and t f iht ihf =>
    intro rest S out hS
    have hS2 : ∀ x, S.head? = some x → is_op x = true → prec x < 2 := by
      rcases hS with h | h
      · omega
      · exact h
    obtain ⟨A1, P1, hrun1, hpost1, hP1⟩ := iht (Tok.op TokType.T_AND :: (f.tokens ++ rest)) S out hS
    obtain ⟨A2, P2, hrun2, hpost2, hP2⟩ := ihf rest (TokType.T_AND :: S)
      (out ++ A1 ++ P1.map Tok.op) (Or.inl rfl)
    refine ⟨A1 ++ P1.map Tok.op ++ A2, P2 ++ [TokType.T_AND], ?_, ?_, ?_⟩
    · have h1 : (PTree.and t f).tokens ++ rest =
          t.tokens ++ Tok.op TokType.T_AND :: (f.tokens ++ rest) := by
        simp [PTree.tokens]
      rw [h1, hrun1, to_rpn_loop_op TokType.T_AND rfl,
        pop_ops_left TokType.T_AND rfl S hS2 P1 (out ++ A1) hP1]
      simp only
      rw [hrun2]
      simp
    · simp only [List.map_append, List.map_cons, List.map_nil, PTree.postorder]
      rw [← hpost1, ← hpost2]
      simp
    · intro p hp
      rcases List.mem_append.1 hp with h | h
      · exact ⟨(hP2 p h).1, by have := (hP2 p h).2; omega⟩
      · simp only [List.mem_singleton] at h
        subst h
        exact ⟨rfl, by decide⟩
  | ofT t ih =>
    intro rest S out hS
    have hS1 : ∀ x, S.head? = some x → is_op x = true → prec x < 1 := by
      rcases hS with h | h
      · omega
      · exact h
    obtain ⟨A, P, hrun, hpost, hP⟩ := ih rest S out
      (Or.inr (fun x hx hop => by have := hS1 x hx hop; omega))
    exact ⟨A, P, hrun, hpost, fun p hp => ⟨(hP p hp).1, by have := (hP p hp).2; omega⟩⟩
  | or e t ihe iht =>
    intro rest S out hS
    have hS1 : ∀ x, S.head? = some x → is_op x = true → prec x < 1 := by
      rcases hS with h | h
      · omega
      · exact h
    obtain ⟨A1, P1, hrun1, hpost1, hP1⟩ := ihe (Tok.op TokType.T_OR :: (t.tokens ++ rest)) S out hS
    obtain ⟨A2, P2, hrun2, hpost2, hP2⟩ := iht rest (TokType.T_OR :: S)
      (out ++ A1 ++ P1.map Tok.op) (Or.inr (by
        intro x hx _
        simp only [List.head?_cons, Option.some.injEq] at hx
        rw [← hx]
        decide))
    refine ⟨A1 ++ P1.map Tok.op ++ A2, P2 ++ [TokType.T_OR], ?_, ?_, ?_⟩
    · have h1 : (PTree.or e t).tokens ++ rest =
          e.tokens ++ Tok.op TokType.T_OR :: (t.tokens ++ rest) := by
        simp [PTree.tokens]
      rw [h1, hrun1, to_rpn_loop_op TokType.T_OR rfl,
        pop_ops_left TokType.T_OR rfl S hS1 P1 (out ++ A1) hP1]
      simp only
      rw [hrun2]
      simp
    · simp only [List.map_append, List.map_cons, List.map_nil, PTree.postorder]
      rw [← hpost1, ← hpost2]
      simp
    · intro p hp
      rcases List.mem_append.1 hp with h | h
      · exact ⟨(hP2 p h).1, by have := (hP2 p h).2; omega⟩
      · simp only [List.mem_singleton] at h
        subst h
        exact ⟨rfl, by decide⟩

/-! Claim C25. -/

/-- C25: for every parse tree of the grammar `E ::= E OR T | T`, `T ::= T AND F | F`,
`F ::= NOT F | TERM | ( E )`, `to_rpn` on the token sequence of the tree (closed by
`T_END`) outputs the post-order traversal of the tree: `a || b && c` gives
`a b c AND OR`, `a && b && c` gives `a b AND c AND`, and `!!a` gives `a NOT NOT`. -/
theorem to_rpn_postorder (e : PTree 1) :
    to_rpn (e.tokens ++ [Tok.op TokType.T_END]) = e.postorder ++ [Tok.op TokType.T_END] ∧
    to_rpn [{ t := TokType.T_TERM, s := [0x61] }, Tok.op TokType.T_OR,
        { t := TokType.T_TERM, s := [0x62] }, Tok.op TokType.T_AND,
        { t := TokType.T_TERM, s := [0x63] }, Tok.op TokType.T_END] =
      [{ t := TokType.T_TERM, s := [0x61] }, { t := TokType.T_TERM, s := [0x62] },
        { t := TokType.T_TERM, s := [0x63] }, Tok.op TokType.T_AND, Tok.op TokType.T_OR,
        Tok.op TokType.T_END] ∧
    to_rpn [{ t := TokType.T_TERM, s := [0x61] }, Tok.op TokType.T_AND,
        { t := TokType.T_TERM, s := [0x62] }, Tok.op TokType.T_AND,
        { t := TokType.T_TERM, s := [0x63] }, Tok.op TokType.T_END] =
      [{ t := TokType.T_TERM, s := [0x61] }, { t := TokType.T_TERM, s := [0x62] },
        Tok.op TokType.T_AND, { t := TokType.T_TERM, s := [0x63] }, Tok.op TokType.T_AND,
        Tok.op TokType.T_END] ∧
    to_rpn [Tok.op TokType.T_NOT, Tok.op TokType.T_NOT, { t := TokType.T_TERM, s := [0x61] },
        Tok.op TokType.T_END] =
      [{ t := TokType.T_TERM, s := [0x61] }, Tok.op TokType.T_NOT, Tok.op TokType.T_NOT,
        Tok.op TokType.T_END] := by
  refine ⟨?_, by decide, by decide, by decide⟩
  obtain ⟨A, P, hrun, hpost, hP⟩ := to_rpn_loop_tree e [Tok.op TokType.T_END] [] []
    (Or.inr (fun t ht _ => by cases ht))
  have hend : to_rpn_loop [Tok.op TokType.T_END] (P ++ []) ([] ++ A) = (P, A) := by
    simp [to_rpn_loop, Tok.op]
  unfold to_rpn
  rw [hrun, hend]
  simp only
  rw [pop_all_ops P A (fun p hp => (hP p hp).1), hpost]

/-! Claims C21, C23 and C24: inputs on which the code departs from the claim. -/

set_option maxRecDepth 100000 in
theorem wrapped_file_loads :
    (load_index wrapped_file).map (fun iv => (iv.dict_offset, iv.dict_bytes)) =
      some (2 ^ 64 - 1, 1) := by
  decide

set_option maxRecDepth 100000 in
theorem wrapped_file_length : wrapped_file.length = 136 := by
  decide

/-- C21: the file `wrapped_file` has 136 bytes and declares `dict_offset = 2 ^ 64 - 1`
and `dict_bytes = 1`; `load_index` accepts it, although `dict_offset + dict_bytes`, as
an unbounded integer, is beyond the end of the file: the sum of the check wraps
around to 0 in `uint64_t`. -/
theorem load_index_accepts_wrapped_section :
    wrapped_file.length = 136 ∧
    ∃ iv, load_index wrapped_file = some iv ∧ iv.dict_offset = 2 ^ 64 - 1 ∧
      iv.dict_bytes = 1 ∧ ¬ (iv.dict_offset + iv.dict_bytes ≤ wrapped_file.length) := by
  have h := wrapped_file_loads
  have hl := wrapped_file_length
  refine ⟨hl, ?_⟩
  cases hiv : load_index wrapped_file with
  | none => rw [hiv] at h; cases h
  | some iv =>
    rw [hiv] at h
    simp only [Option.map_some', Option.some.injEq, Prod.mk.injEq] at h
    refine ⟨iv, rfl, h.1, h.2, ?_⟩
    rw [h.1, h.2, hl]
    decide

/-- C23: on the query `cat #`, `tokenize_query` gives `TERM cat`, `T_AND`, `T_END`: it
inserts a `T_AND` after a term that no `TERM`, `(` or `!` follows, because the implicit
`T_AND` is pushed before `read_term` is known to succeed. -/
theorem tokenize_query_and_before_lone_byte :
    tokenize_query query_cat_hash =
      some [tok_cat, Tok.op TokType.T_AND, Tok.op TokType.T_END] := by
  decide

/-- C24: the query `cat # dog` lexes to `TERM cat`, `T_AND`, `T_AND`, `TERM dog`,
`T_END`, while `cat dog` lexes to `TERM cat`, `T_AND`, `TERM dog`, `T_END`; the byte
`#` is no whitespace, no operator and starts no tokenic codepoint. After `to_rpn` the
first of the two is `cat AND dog AND`, a malformed postfix sequence. -/
theorem tokenize_query_lone_byte_not_ignored :
    query_cat_hash_dog = [0x63, 0x61, 0x74] ++ [0x20] ++ [0x23] ++ [0x20] ++ [0x64, 0x6F, 0x67] ∧
    query_cat_dog = [0x63, 0x61, 0x74] ++ [0x20] ++ [0x64, 0x6F, 0x67] ∧
    is_space 0x23 = false ∧ is_token_char 0x23 = false ∧
    tokenize_query query_cat_hash_dog =
      some [tok_cat, Tok.op TokType.T_AND, Tok.op TokType.T_AND, tok_dog,
        Tok.op TokType.T_END] ∧
    tokenize_query query_cat_dog =
      some [tok_cat, Tok.op TokType.T_AND, tok_dog, Tok.op TokType.T_END] ∧
    tokenize_query query_cat_hash_dog ≠ tokenize_query query_cat_dog ∧
    to_rpn [tok_cat, Tok.op TokType.T_AND, Tok.op TokType.T_AND, tok_dog,
        Tok.op TokType.T_END] =
      [tok_cat, Tok.op TokType.T_AND, tok_dog, Tok.op TokType.T_AND,
        Tok.op TokType.T_END] := by
  decide

/-! The loops of the set operations end on all lists. -/

theorem op_and_out_total (A B : List Nat) : ∃ R, op_and_out A B = some R := by
  have h : ∀ (fuel i j : Nat) (out : List Nat), (A.length - i) + (B.length - j) ≤ fuel →
      ∃ R, op_and_loop A B fuel i j out = some R := by
    intro fuel
    induction fuel with
    | zero =>
      intro i j out h
      simp only [op_and_loop]
      rw [if_neg (by omega)]
      exact ⟨out, rfl⟩
    | succ f ih =>
      intro i j out h
      simp only [op_and_loop]
      by_cases hc : i < A.length ∧ j < B.length
      · obtain ⟨a, ha⟩ := getElem?_of_lt A i hc.1
        obtain ⟨b, hb⟩ := getElem?_of_lt B j hc.2
        rw [if_pos hc]
        simp only [ha, hb]
        by_cases hab : a = b
        · rw [if_pos hab]; exact ih _ _ _ (by omega)
        · rw [if_neg hab]
          by_cases hlt : a < b
          · rw [if_pos hlt]; exact ih _ _ _ (by omega)
          · rw [if_neg hlt]; exact ih _ _ _ (by omega)
      · rw [if_neg hc]
        exact ⟨out, rfl⟩
  exact h _ 0 0 [] (by omega)

theorem op_or_out_total (A B : List Nat) : ∃ R, op_or_out A B = some R := by
  have h : ∀ (fuel i j : Nat) (out : List Nat), (A.length - i) + (B.length - j) ≤ fuel →
      ∃ r, op_or_loop A B fuel i j out = some r := by
    intro fuel
    induction fuel with
    | zero =>
      intro i j out h
      simp only [op_or_loop]
      rw [if_neg (by omega)]
      exact ⟨_, rfl⟩
    | succ f ih =>
      intro i j out h
      simp only [op_or_loop]
      by_cases hc : i < A.length ∧ j < B.length
      · obtain ⟨a, ha⟩ := getElem?_of_lt A i hc.1
        obtain ⟨b, hb⟩ := getElem?_of_lt B j hc.2
        rw [if_pos hc]
        simp only [ha, hb]
        by_cases hab : a = b
        · rw [if_pos hab]; exact ih _ _ _ (by omega)
        · rw [if_neg hab]
          by_cases hlt : a < b
          · rw [if_pos hlt]; exact ih _ _ _ (by omega)
          · rw [if_neg hlt]; exact ih _ _ _ (by omega)
      · rw [if_neg hc]
        exact ⟨_, rfl⟩
  obtain ⟨⟨i, j, out⟩, hr⟩ := h (A.length + B.length) 0 0 [] (by omega)
  unfold op_or_out
  rw [hr]
  simp only
  rw [copy_rest_spec A A.length i out (by omega)]
  simp only
  rw [copy_rest_spec B B.length j _ (by omega)]
  exact ⟨_, rfl⟩

theorem op_not_out_total (ALL A : List Nat) : ∃ R, op_not_out ALL A = some R := by
  have h : ∀ (fuel i j : Nat) (out : List Nat), (ALL.length - i) + (A.length - j) ≤ fuel →
      ∃ r, op_not_loop ALL A fuel i j out = some r := by
    intro fuel
    induction fuel with
    | zero =>
      intro i j out h
      simp only [op_not_loop]
      rw [if_neg (by omega)]
      exact ⟨_, rfl⟩
    | succ f ih =>
      intro i j out h
      simp only [op_not_loop]
      by_cases hc : i < ALL.length ∧ j < A.length
      · obtain ⟨a, ha⟩ := getElem?_of_lt ALL i hc.1
        obtain ⟨b, hb⟩ := getElem?_of_lt A j hc.2
        rw [if_pos hc]
        simp only [ha, hb]
        by_cases hab : a = b
        · rw [if_pos hab]; exact ih _ _ _ (by omega)
        · rw [if_neg hab]
          by_cases hlt : a < b
          · rw [if_pos hlt]; exact ih _ _ _ (by omega)
          · rw [if_neg hlt]; exact ih _ _ _ (by omega)
      · rw [if_neg hc]
        exact ⟨_, rfl⟩
  obtain ⟨⟨i, out⟩, hr⟩ := h (ALL.length + A.length) 0 0 [] (by omega)
  unfold op_not_out
  rw [hr]
  simp only
  rw [copy_rest_spec ALL ALL.length i out (by omega)]
  exact ⟨_, rfl⟩

theorem op_and_total (A B : List Nat) : ∃ o, op_and A B = some o := by
  obtain ⟨R, hR⟩ := op_and_out_total A B
  exact ⟨xrealloc R, by unfold op_and; rw [hR]; rfl⟩

theorem op_or_total (A B : List Nat) : ∃ o, op_or A B = some o := by
  obtain ⟨R, hR⟩ := op_or_out_total A B
  exact ⟨xrealloc R, by unfold op_or; rw [hR]; rfl⟩

theorem op_not_total (ALL A : List Nat) : ∃ o, op_not ALL A = some o := by
  obtain ⟨R, hR⟩ := op_not_out_total ALL A
  exact ⟨xrealloc R, by unfold op_not; rw [hR]; rfl⟩

/-! Function `eval_rpn`. -/

/-- The loop of `eval_rpn` when the lookups of its terms return: it ends, either by
the end of the process in a set operation or by a return; and when it returns for a
malformed sequence, it returns the empty list. -/
theorem eval_rpn_loop_spec (iv : IndexView) (ALL : List Nat) :
    ∀ (rpn : List Tok) (st : List (List Nat)),
      (∀ tk ∈ rpn, tk.t = TokType.T_TERM → (list_from_term iv tk.s).isSome = true) →
      ∃ o, eval_rpn_loop iv ALL rpn st = some o ∧
        (o = Outcome.oom ∨ ∃ r, o = Outcome.ret r ∧
          (stack_height rpn st.length ≠ some 1 → r = [])) := by
  have hfin : ∀ (st : List (List Nat)), st.length ≠ 1 → eval_rpn_finish st = [] := by
    intro st h
    match st, h with
    | [], _ => rfl
    | [x], h => exact absurd rfl h
    | _ :: _ :: _, _ => rfl
  intro rpn
  induction rpn with
  | nil =>
    intro st _
    refine ⟨_, rfl, Or.inr ⟨eval_rpn_finish st, rfl, ?_⟩⟩
    intro h
    simp only [stack_height] at h
    exact hfin st (fun h1 => h (by rw [h1]))
  | cons tk rest ih =>
    intro st hlk
    have hrest : ∀ tk1 ∈ rest, tk1.t = TokType.T_TERM →
        (list_from_term iv tk1.s).isSome = true :=
      fun tk1 h1 => hlk tk1 (List.mem_cons_of_mem _ h1)
    simp only [eval_rpn_loop, stack_height]
    by_cases h1 : tk.t = TokType.T_END
    · rw [if_pos h1, if_pos h1]
      refine ⟨_, rfl, Or.inr ⟨eval_rpn_finish st, rfl, ?_⟩⟩
      intro h
      exact hfin st (fun h1 => h (by rw [h1]))
    · rw [if_neg h1, if_neg h1]
      by_cases h2 : tk.t = TokType.T_TERM
      · rw [if_pos h2, if_pos h2]
        have := hlk tk (List.mem_cons_self _ _) h2
        cases hl : list_from_term iv tk.s with
        | none => rw [hl] at this; cases this
        | some l =>
          simp only
          exact ih (l :: st) hrest
      · rw [if_neg h2, if_neg h2]
        by_cases h3 : tk.t = TokType.T_NOT
        · rw [if_pos h3, if_pos h3]
          cases st with
          | nil => exact ⟨_, rfl, Or.inr ⟨[], rfl, fun _ => rfl⟩⟩
          | cons A st1 =>
            obtain ⟨o, ho⟩ := op_not_total ALL A
            cases o with
            | oom =>
              simp only [ho]
              exact ⟨_, rfl, Or.inl rfl⟩
            | ret R =>
              simp only [ho, List.length_cons]
              rw [if_neg (by omega)]
              exact ih (R :: st1) hrest
        · rw [if_neg h3, if_neg h3]
          by_cases h4 : tk.t = TokType.T_AND ∨ tk.t = TokType.T_OR
          · rw [if_pos h4, if_pos h4]
            match st with
            | [] => exact ⟨_, rfl, Or.inr ⟨[], rfl, fun _ => rfl⟩⟩
            | [x] => exact ⟨_, rfl, Or.inr ⟨[], rfl, fun _ => rfl⟩⟩
            | B :: A :: st1 =>
              have hop : ∃ o, (if tk.t = TokType.T_AND then op_and A B else op_or A B) =
                  some o := by
                by_cases h5 : tk.t = TokType.T_AND
                · rw [if_pos h5]; exact op_and_total A B
                · rw [if_neg h5]; exact op_or_total A B
              obtain ⟨o, ho⟩ := hop
              cases o with
              | oom =>
                simp only [ho]
                exact ⟨_, rfl, Or.inl rfl⟩
              | ret R =>
                simp only [ho, List.length_cons]
                rw [if_neg (by omega)]
                have := ih (R :: st1) hrest
                simpa using this
          · rw [if_neg h4, if_neg h4]
            exact ih st hrest

set_option maxRecDepth 100000 in
theorem two_term_malformed_runs :
    list_from_term two_term_view [0x61] = some [1] ∧
    list_from_term two_term_view [0x63] = some [] ∧
    stack_height [{ t := TokType.T_TERM, s := [0x61] }, { t := TokType.T_TERM, s := [0x63] },
        Tok.op TokType.T_AND, Tok.op TokType.T_AND, Tok.op TokType.T_END] 0 = none ∧
    eval_rpn two_term_view [{ t := TokType.T_TERM, s := [0x61] },
        { t := TokType.T_TERM, s := [0x63] }, Tok.op TokType.T_AND, Tok.op TokType.T_AND,
        Tok.op TokType.T_END] (universe_list 3) = some Outcome.oom ∧
    eval_rpn two_term_view [{ t := TokType.T_TERM, s := [0x61] }, Tok.op TokType.T_AND,
        { t := TokType.T_TERM, s := [0x63] }, Tok.op TokType.T_AND, Tok.op TokType.T_END]
      (universe_list 3) = some (Outcome.ret []) ∧
    eval_rpn two_term_view [{ t := TokType.T_TERM, s := [0x63] }, Tok.op TokType.T_END]
      (universe_list 3) = some (Outcome.ret []) := by
  decide

/-! Claim C30. -/

/-- C30: on the index `two_term_view`, whose dictionary has `a` and not `c`, the
postfix sequence `a c AND AND` is malformed (its second `AND` finds one list), and the
absent term `c` contributes the empty list; but `eval_rpn` does not return the empty
list for it: the first `AND` computes the empty intersection and `op_and` ends the
process in `die("OOM")`. The sequences `a AND c AND`, where the first `AND` finds one
list before any set operation runs, and `c` alone return the empty list, as do the
empty query and every sequence that starts with `NOT`. -/
theorem eval_rpn_malformed_exits :
    list_from_term two_term_view [0x63] = some [] ∧
    stack_height [{ t := TokType.T_TERM, s := [0x61] }, { t := TokType.T_TERM, s := [0x63] },
        Tok.op TokType.T_AND, Tok.op TokType.T_AND, Tok.op TokType.T_END] 0 = none ∧
    eval_rpn two_term_view [{ t := TokType.T_TERM, s := [0x61] },
        { t := TokType.T_TERM, s := [0x63] }, Tok.op TokType.T_AND, Tok.op TokType.T_AND,
        Tok.op TokType.T_END] (universe_list 3) = some Outcome.oom ∧
    eval_rpn two_term_view [{ t := TokType.T_TERM, s := [0x61] }, Tok.op TokType.T_AND,
        { t := TokType.T_TERM, s := [0x63] }, Tok.op TokType.T_AND, Tok.op TokType.T_END]
      (universe_list 3) = some (Outcome.ret []) ∧
    eval_rpn two_term_view [{ t := TokType.T_TERM, s := [0x63] }, Tok.op TokType.T_END]
      (universe_list 3) = some (Outcome.ret []) ∧
    (∀ (iv : IndexView) (ALL : List Nat),
      eval_rpn iv [Tok.op TokType.T_END] ALL = some (Outcome.ret []) ∧
      ∀ rest : List Tok,
        eval_rpn iv (Tok.op TokType.T_NOT :: rest) ALL = some (Outcome.ret [])) :=
  ⟨two_term_malformed_runs.2.1, two_term_malformed_runs.2.2.1, two_term_malformed_runs.2.2.2.1,
    two_term_malformed_runs.2.2.2.2.1, two_term_malformed_runs.2.2.2.2.2,
    fun _ _ => ⟨rfl, fun _ => rfl⟩⟩

/-! What a successful `load_index` implies. -/

theorem rd_u32_some (buf : List Byte) (p v : Nat) (h : rd_u32 buf p = some v) :
    p + 4 ≤ buf.length ∧ v < 2 ^ 32 := by
  unfold rd_u32 at h
  split at h
  · rename_i b0 b1 b2 b3 h0 h1 h2 h3
    have hl := (List.getElem?_eq_some_iff.1 h3).1
    refine ⟨by omega, ?_⟩
    simp only [Option.some.injEq] at h
    rw [← h]
    have s1 : b1.val <<< 8 < 2 ^ 32 := by
      rw [Nat.shiftLeft_eq]; have := b1.isLt; omega
    have s2 : b2.val <<< 16 < 2 ^ 32 := by
      rw [Nat.shiftLeft_eq]; have := b2.isLt; omega
    have s3 : b3.val <<< 24 < 2 ^ 32 := by
      rw [Nat.shiftLeft_eq]; have := b3.isLt; omega
    have s0 : b0.val < 2 ^ 32 := by have := b0.isLt; omega
    exact Nat.or_lt_two_pow (Nat.or_lt_two_pow (Nat.or_lt_two_pow s0 s1) s2) s3
  · cases h

theorem rd_u32_of_le (buf : List Byte) (p : Nat) (h : p + 4 ≤ buf.length) :
    ∃ v, rd_u32 buf p = some v := by
  obtain ⟨b0, h0⟩ := getElem?_of_lt buf p (by omega)
  obtain ⟨b1, h1⟩ := getElem?_of_lt buf (p + 1) (by omega)
  obtain ⟨b2, h2⟩ := getElem?_of_lt buf (p + 2) (by omega)
  obtain ⟨b3, h3⟩ := getElem?_of_lt buf (p + 3) (by omega)
  refine ⟨b0.val ||| (b1.val <<< 8) ||| (b2.val <<< 16) ||| (b3.val <<< 24), ?_⟩
  simp only [rd_u32, h0, h1, h2, h3]

theorem rd_u64_loop_of_le (buf : List Byte) (p : Nat) : ∀ (i v : Nat), p + i ≤ buf.length →
    ∃ r, rd_u64_loop buf p i v = some r := by
  intro i
  induction i with
  | zero => intro v _; exact ⟨v, rfl⟩
  | succ i ih =>
    intro v h
    obtain ⟨b, hb⟩ := getElem?_of_lt buf (p + i) (by omega)
    simp only [rd_u64_loop, hb]
    exact ih _ (by omega)

theorem rd_u64_of_le (buf : List Byte) (p : Nat) (h : p + 8 ≤ buf.length) :
    ∃ v, rd_u64 buf p = some v :=
  rd_u64_loop_of_le buf p 8 0 h

theorem load_index_some (buf : List Byte) (iv : IndexView) (h : load_index buf = some iv) :
    128 ≤ buf.length ∧ buf.take 8 = [0x4D, 0x41, 0x49, 0x49, 0x52, 0x49, 0x44, 0x58] ∧
    iv.base = buf ∧ iv.bytes = buf.length ∧
    (iv.dict_offset + iv.dict_bytes) % 2 ^ 64 ≤ buf.length ∧
    (iv.postings_offset + iv.postings_bytes) % 2 ^ 64 ≤ buf.length ∧
    (iv.docs_offset + iv.docs_bytes) % 2 ^ 64 ≤ buf.length ∧
    load_dict_offs buf ((iv.dict_offset + iv.dict_bytes) % 2 ^ 64) iv.terms_count
      iv.dict_offset = some iv.dict_term_off ∧
    8 ≤ iv.docs_bytes := by
  unfold load_index at h
  by_cases h1 : buf.length < 128
  · rw [if_pos h1] at h; cases h
  rw [if_neg h1] at h
  by_cases h2 : buf.take 8 ≠ [0x4D, 0x41, 0x49, 0x49, 0x52, 0x49, 0x44, 0x58]
  · rw [if_pos h2] at h; cases h
  rw [if_neg h2] at h
  split at h
  · rename_i version flags dc tc dof db pof pb cof cb _ _ _ _ _ _ _ _ _ _
    by_cases c1 : (dof + db) % 2 ^ 64 > buf.length
    · rw [if_pos c1] at h; cases h
    rw [if_neg c1] at h
    by_cases c2 : (pof + pb) % 2 ^ 64 > buf.length
    · rw [if_pos c2] at h; cases h
    rw [if_neg c2] at h
    by_cases c3 : (cof + cb) % 2 ^ 64 > buf.length
    · rw [if_pos c3] at h; cases h
    rw [if_neg c3] at h
    cases ho : load_dict_offs buf ((dof + db) % 2 ^ 64) tc dof with
    | none => rw [ho] at h; cases h
    | some offs =>
      rw [ho] at h
      simp only at h
      by_cases c4 : cb < 8
      · rw [if_pos c4] at h; cases h
      rw [if_neg c4] at h
      cases h
      exact ⟨by omega, not_not.1 h2, rfl, rfl, Nat.le_of_not_lt c1, Nat.le_of_not_lt c2,
        Nat.le_of_not_lt c3, ho, Nat.le_of_not_lt c4⟩
  · cases h

theorem load_dict_offs_some (buf : List Byte) (dict_end : Nat) (hlen : buf.length < 2 ^ 63) :
    ∀ (c off : Nat) (offs : List Nat), load_dict_offs buf dict_end c off = some offs →
      offs.length = c ∧ ∀ o ∈ offs, ∃ tl, rd_u32 buf o = some tl ∧ o + 4 + tl + 16 ≤ dict_end := by
  intro c
  induction c with
  | zero =>
    intro off offs h
    simp only [load_dict_offs, Option.some.injEq] at h
    subst h
    exact ⟨rfl, fun o ho => by cases ho⟩
  | succ c ih =>
    intro off offs h
    simp only [load_dict_offs] at h
    by_cases c1 : (off + 4) % 2 ^ 64 > buf.length
    · rw [if_pos c1] at h; cases h
    rw [if_neg c1] at h
    cases hrd : rd_u32 buf off with
    | none => rw [hrd] at h; cases h
    | some tl =>
      rw [hrd] at h
      simp only at h
      obtain ⟨b1, b2⟩ := rd_u32_some buf off tl hrd
      have hm : (off + 4 + tl + 8 + 4 + 4) % 2 ^ 64 = off + 4 + tl + 16 := by
        rw [Nat.mod_eq_of_lt (by omega)]
      rw [hm] at h
      by_cases c2 : off + 4 + tl + 16 > dict_end
      · rw [if_pos c2] at h; cases h
      rw [if_neg c2] at h
      cases hrest : load_dict_offs buf dict_end c (off + 4 + tl + 16) with
      | none => rw [hrest] at h; cases h
      | some rest =>
        rw [hrest] at h
        simp only [Option.some.injEq] at h
        subst h
        obtain ⟨i1, i2⟩ := ih _ _ hrest
        refine ⟨by simp [i1], ?_⟩
        intro o ho
        rcases List.mem_cons.1 ho with ho | ho
        · subst ho
          exact ⟨tl, hrd, by omega⟩
        · exact i2 o ho

/-! The dictionary entries of a loaded index and `dict_find`. -/

theorem dict_entry_at_some (iv : IndexView) (o : Nat) (e : List Byte × Nat × Nat)
    (h : dict_entry_at iv o = some e) :
    ∃ tl po df, rd_u32 iv.base o = some tl ∧ o + 4 + tl ≤ iv.base.length ∧
      rd_u64 iv.base (o + 4 + tl) = some po ∧ rd_u32 iv.base (o + 4 + tl + 8) = some df ∧
      e = ((iv.base.drop (o + 4)).take tl, po, df) := by
  unfold dict_entry_at at h
  cases h1 : rd_u32 iv.base o with
  | none => rw [h1] at h; cases h
  | some tl =>
    rw [h1] at h
    simp only at h
    by_cases h2 : o + 4 + tl ≤ iv.base.length
    · rw [if_pos h2] at h
      cases h3 : rd_u64 iv.base (o + 4 + tl) with
      | none => rw [h3] at h; cases h
      | some po =>
        cases h4 : rd_u32 iv.base (o + 4 + tl + 8) with
        | none => rw [h3, h4] at h; cases h
        | some df =>
          rw [h3, h4] at h
          simp only [Option.some.injEq] at h
          exact ⟨tl, po, df, rfl, h2, h3, h4, h.symm⟩
    · rw [if_neg h2] at h; cases h

theorem filterMap_forall₂ {α β : Type} (f : α → Option β) : ∀ l : List α,
    (∀ o ∈ l, ∃ e, f o = some e) → List.Forall₂ (fun o e => f o = some e) l (l.filterMap f) := by
  intro l
  induction l with
  | nil => intro _; exact List.Forall₂.nil
  | cons a l ih =>
    intro h
    obtain ⟨e, he⟩ := h a (List.mem_cons_self _ _)
    rw [List.filterMap_cons_some he]
    exact List.Forall₂.cons he (ih (fun o ho => h o (List.mem_cons_of_mem _ ho)))

theorem loaded_entries (buf : List Byte) (iv : IndexView) (h : load_index buf = some iv)
    (hlen : buf.length < 2 ^ 63) :
    iv.dict_term_off.length = iv.terms_count ∧
    List.Forall₂ (fun o e => dict_entry_at iv o = some e) iv.dict_term_off (dict_entries iv) := by
  obtain ⟨_, _, hbase, _, hde, _, _, hoffs, _⟩ := load_index_some buf iv h
  obtain ⟨h1, h2⟩ := load_dict_offs_some buf _ hlen _ _ _ hoffs
  refine ⟨h1, filterMap_forall₂ _ _ ?_⟩
  intro o ho
  obtain ⟨tl, hrd, hb⟩ := h2 o ho
  obtain ⟨po, hpo⟩ := rd_u64_of_le buf (o + 4 + tl) (by omega)
  obtain ⟨df, hdf⟩ := rd_u32_of_le buf (o + 4 + tl + 8) (by omega)
  refine ⟨((buf.drop (o + 4)).take tl, po, df), ?_⟩
  unfold dict_entry_at
  rw [hbase]
  simp only [hrd]
  rw [if_pos (by omega)]
  simp only [hpo, hdf]

theorem dict_find_loop_general (iv : IndexView) (t : List Byte)
    (hall : List.Forall₂ (fun o e => dict_entry_at iv o = some e) iv.dict_term_off
      (dict_entries iv))
    (hsorted : (dict_entries iv).Pairwise (fun a b => a.1 < b.1)) :
    ∀ (fuel : Nat) (lo hi : Int), 0 ≤ lo → hi < (dict_entries iv).length →
      hi - lo + 1 ≤ fuel →
      (∀ (i : Nat) (e : List Byte × Nat × Nat), (dict_entries iv)[i]? = some e → (i : Int) < lo →
        e.1 < t) →
      (∀ (i : Nat) (e : List Byte × Nat × Nat), (dict_entries iv)[i]? = some e → hi < (i : Int) →
        t < e.1) →
      (∃ e ∈ dict_entries iv, e.1 = t ∧ dict_find_loop iv t fuel lo hi = some (some e.2)) ∨
      ((∀ e ∈ dict_entries iv, e.1 ≠ t) ∧ dict_find_loop iv t fuel lo hi = some none) := by
  have hlenE : iv.dict_term_off.length = (dict_entries iv).length := forall₂_length _ _ hall
  have hpw := List.pairwise_iff_getElem.1 hsorted
  have hout : ∀ (lo hi : Int), ¬ lo ≤ hi →
      (∀ (i : Nat) (e : List Byte × Nat × Nat), (dict_entries iv)[i]? = some e → (i : Int) < lo →
        e.1 < t) →
      (∀ (i : Nat) (e : List Byte × Nat × Nat), (dict_entries iv)[i]? = some e → hi < (i : Int) →
        t < e.1) → ∀ e ∈ dict_entries iv, e.1 ≠ t := by
    intro lo hi hlh h1 h2 e he
    obtain ⟨i, hi1⟩ := List.mem_iff_getElem?.1 he
    by_cases hc : (i : Int) < lo
    · exact ne_of_lt (h1 i e hi1 hc)
    · exact ne_of_gt (h2 i e hi1 (by omega))
  intro fuel
  induction fuel with
  | zero =>
    intro lo hi _ _ hf h1 h2
    right
    refine ⟨hout lo hi (by omega) h1 h2, ?_⟩
    simp only [dict_find_loop]
    rw [if_neg (by omega)]
  | succ f ih =>
    intro lo hi hlo hhi hf h1 h2
    by_cases hlh : lo ≤ hi
    · have hm : Int.tdiv (lo + hi) 2 = (lo + hi) / 2 := by
        rw [Int.tdiv_eq_ediv] <;> omega
      have hmidn : ((lo + hi) / 2).toNat < (dict_entries iv).length := by omega
      have hmido : ((lo + hi) / 2).toNat < iv.dict_term_off.length := by omega
      have hem : (dict_entries iv)[((lo + hi) / 2).toNat]? =
          some (dict_entries iv)[((lo + hi) / 2).toNat] := List.getElem?_eq_getElem hmidn
      obtain ⟨o, ho, hat⟩ := forall₂_getElem?_right hall _ _ hem
      obtain ⟨tl, po, df, r1, r2, r3, r4, heq⟩ := dict_entry_at_some iv o _ hat
      have hget : getI iv.dict_term_off ((lo + hi) / 2) = some o := by
        unfold getI
        rw [if_neg (by omega)]
        exact ho
      simp only [dict_find_loop]
      rw [if_pos hlh, hm]
      simp only [hget, r1]
      rw [if_pos r2]
      have hterm : (dict_entries iv)[((lo + hi) / 2).toNat].1 = (iv.base.drop (o + 4)).take tl := by
        rw [heq]
      rw [← hterm]
      obtain ⟨c1, c2, c3⟩ := term_cmp_bytes_iff t (dict_entries iv)[((lo + hi) / 2).toNat].1
      by_cases hc0 : term_cmp_bytes t (dict_entries iv)[((lo + hi) / 2).toNat].1 = 0
      · rw [if_pos hc0]
        left
        refine ⟨_, List.getElem_mem hmidn, (c3.1 hc0).symm, ?_⟩
        simp only [r3, r4]
        rw [heq]
      · rw [if_neg hc0]
        by_cases hneg : term_cmp_bytes t (dict_entries iv)[((lo + hi) / 2).toNat].1 < 0
        · rw [if_pos hneg]
          have hlt := c1.1 hneg
          apply ih lo ((lo + hi) / 2 - 1) hlo (by omega) (by omega) h1
          intro i e hie hgt
          have hil : i < (dict_entries iv).length := by
            rcases Nat.lt_or_ge i (dict_entries iv).length with hh | hh
            · exact hh
            · rw [List.getElem?_eq_none hh] at hie; cases hie
          have hei : (dict_entries iv)[i] = e := by
            have := List.getElem?_eq_getElem hil
            rw [hie] at this
            exact (Option.some.inj this).symm
          rcases Nat.lt_or_ge ((lo + hi) / 2).toNat i with hh | hh
          · have := hpw _ i hmidn hil hh
            rw [hei] at this
            exact lt_trans hlt this
          · have hsame : i = ((lo + hi) / 2).toNat := by omega
            subst hsame
            rw [← hei]
            exact hlt
        · rw [if_neg hneg]
          have hpos : term_cmp_bytes t (dict_entries iv)[((lo + hi) / 2).toNat].1 > 0 := by omega
          have hgt := c2.1 hpos
          apply ih ((lo + hi) / 2 + 1) hi (by omega) hhi (by omega) ?_ h2
          intro i e hie hlt
          have hil : i < (dict_entries iv).length := by
            rcases Nat.lt_or_ge i (dict_entries iv).length with hh | hh
            · exact hh
            · rw [List.getElem?_eq_none hh] at hie; cases hie
          have hei : (dict_entries iv)[i] = e := by
            have := List.getElem?_eq_getElem hil
            rw [hie] at this
            exact (Option.some.inj this).symm
          rcases Nat.lt_or_ge i ((lo + hi) / 2).toNat with hh | hh
          · have := hpw i _ hil hmidn hh
            rw [hei] at this
            exact lt_trans this hgt
          · have hsame : i = ((lo + hi) / 2).toNat := by omega
            subst hsame
            rw [← hei]
            exact hgt
    · right
      refine ⟨hout lo hi hlh h1 h2, ?_⟩
      simp only [dict_find_loop]
      rw [if_neg hlh]

theorem pairwise_lt_unique {α : Type} (f : α → List Byte) (l : List α)
    (h : l.Pairwise (fun a b => f a < f b)) (a b : α) (ha : a ∈ l) (hb : b ∈ l)
    (hab : f a = f b) : a = b := by
  by_contra hne
  have hne2 : l.Pairwise (fun a b => f a ≠ f b) := h.imp (fun hlt => ne_of_lt hlt)
  exact List.Pairwise.forall (fun x y hxy => Ne.symm hxy) hne2 ha hb hne hab

set_option maxRecDepth 100000 in
theorem two_term_file_loads : load_index two_term_file = some two_term_view := by
  decide

set_option maxRecDepth 100000 in
theorem two_term_file_short : two_term_file.length < 2 ^ 63 := by
  decide

set_option maxRecDepth 100000 in
theorem two_term_view_sorted :
    (dict_entries two_term_view).Pairwise (fun a b => term_cmp_bytes a.1 b.1 < 0) := by
  decide

/-! Claim C22. -/

/-- C22: for an index that `load_index` has loaded from a file shorter than `2 ^ 63`
bytes and whose dictionary entries, read at the offsets `dict_term_off`, are strictly
ascending under `term_cmp_bytes`, and for every byte string `t`: `dict_find` returns
true with the `posting_offset` and `df` of the entry whose term bytes are `t` when
there is one, and false when there is none, so also when `terms_count` is 0. -/
theorem dict_find_correct (buf : List Byte) (iv : IndexView) (t : List Byte)
    (hload : load_index buf = some iv) (hlen : buf.length < 2 ^ 63)
    (hsorted : (dict_entries iv).Pairwise (fun a b => term_cmp_bytes a.1 b.1 < 0)) :
    (dict_entries iv).length = iv.terms_count ∧
    List.Forall₂ (fun o e => dict_entry_at iv o = some e) iv.dict_term_off (dict_entries iv) ∧
    (∀ po df, (t, po, df) ∈ dict_entries iv → dict_find iv t = some (some (po, df))) ∧
    ((∀ e ∈ dict_entries iv, e.1 ≠ t) → dict_find iv t = some none) ∧
    (iv.terms_count = 0 → dict_find iv t = some none) := by
  obtain ⟨hcount, hall⟩ := loaded_entries buf iv hload hlen
  have hlenE : (dict_entries iv).length = iv.terms_count := by
    rw [← forall₂_length _ _ hall, hcount]
  have hlex : (dict_entries iv).Pairwise (fun a b => a.1 < b.1) :=
    hsorted.imp (fun {a b} h => (term_cmp_bytes_iff a.1 b.1).1.1 h)
  have hrun := dict_find_loop_general iv t hall hlex (iv.terms_count + 1) 0
    ((iv.terms_count : Int) - 1) (le_refl _) (by omega) (by omega)
    (fun i e _ hi => by omega)
    (fun i e hie hi => by
      exfalso
      have hil : i < (dict_entries iv).length := by
        rcases Nat.lt_or_ge i (dict_entries iv).length with hh | hh
        · exact hh
        · rw [List.getElem?_eq_none hh] at hie; cases hie
      omega)
  have hnone : (∀ e ∈ dict_entries iv, e.1 ≠ t) → dict_find iv t = some none := by
    intro hno
    rcases hrun with ⟨e, he, het, _⟩ | ⟨_, hr⟩
    · exact absurd het (hno e he)
    · exact hr
  refine ⟨hlenE, hall, ?_, hnone, ?_⟩
  · intro po df hmem
    rcases hrun with ⟨e, he, het, hr⟩ | ⟨hno, _⟩
    · have : e = (t, po, df) :=
        pairwise_lt_unique (fun a => a.1) _ hlex e (t, po, df) he hmem het
      rw [this] at hr
      exact hr
    · exact absurd rfl (hno _ hmem)
  · intro h0
    apply hnone
    intro e he
    rw [← hlenE] at h0
    rw [List.length_eq_zero.1 h0] at he
    cases he

theorem dict_find_correct_witness :
    (dict_entries two_term_view).length = two_term_view.terms_count ∧
    List.Forall₂ (fun o e => dict_entry_at two_term_view o = some e)
      two_term_view.dict_term_off (dict_entries two_term_view) ∧
    (∀ po df, ([0x62], po, df) ∈ dict_entries two_term_view →
      dict_find two_term_view [0x62] = some (some (po, df))) ∧
    ((∀ e ∈ dict_entries two_term_view, e.1 ≠ [0x62]) →
      dict_find two_term_view [0x62] = some none) ∧
    (two_term_view.terms_count = 0 → dict_find two_term_view [0x62] = some none) :=
  dict_find_correct two_term_file two_term_view [0x62] two_term_file_loads two_term_file_short
    two_term_view_sorted

/-! The lexer on terms that are separated by blanks or by `&&`. -/

theorem utf8_decode_one_ascii (b : Byte) (rest : List Byte) (h : b.val < 0x80) :
    utf8_decode_one (b :: rest) = some (b.val, 1) := by
  simp only [utf8_decode_one]
  rw [if_pos h]

theorem drop_add_of_append {α : Type} (q : List α) (pos : Nat) (s t : List α)
    (h : q.drop pos = s ++ t) : q.drop (pos + s.length) = t := by
  rw [← List.drop_drop, h, List.drop_left]

theorem read_term_loop_prefix (q : List Byte) :
    ∀ (cps : List Nat) (fuel pos : Nat) (tok : List Byte) (any : Bool) (tail : List Byte),
      q.drop pos = encode_all cps ++ tail → (∀ cp ∈ cps, is_token_char cp = true) →
      (∀ b ∈ tail.head?, b.val < 0x80 ∧ is_token_char b.val = false) →
      q.length ≤ pos + fuel →
      read_term_loop q fuel pos tok any =
        some (pos + (encode_all cps).length, tok ++ encode_all (cps.map to_lower_basic),
          any || !cps.isEmpty) := by
  intro cps
  induction cps with
  | nil =>
    intro fuel pos tok any tail hq _ hstop hf
    simp only [encode_all, List.nil_append] at hq
    simp only [encode_all, List.length_nil, Nat.add_zero, List.map_nil, List.append_nil,
      List.isEmpty_nil, Bool.not_true, Bool.or_false]
    cases tail with
    | nil =>
      have hlen : ¬ pos < q.length := by
        have := congrArg List.length hq
        simp only [List.length_drop, List.length_nil] at this
        omega
      cases fuel with
      | zero => simp only [read_term_loop]; rw [if_neg hlen]
      | succ f => simp only [read_term_loop]; rw [if_neg hlen]
    | cons b rest =>
      have hlen : pos < q.length := by
        have := congrArg List.length hq
        simp only [List.length_drop, List.length_cons] at this
        omega
      obtain ⟨hb1, hb2⟩ := hstop b rfl
      cases fuel with
      | zero => omega
      | succ f =>
        simp only [read_term_loop]
        rw [if_pos hlen, hq, utf8_decode_one_ascii b rest hb1]
        simp only
        rw [if_neg (by decide), if_pos (by rw [hb2]; simp)]
  | cons cp cps ih =>
    intro fuel pos tok any tail hq htok hstop hf
    have hcp := htok cp (List.mem_cons_self _ _)
    have hvalid : cp ≤ 0x10FFFF := by
      rw [is_token_char_iff] at hcp
      omega
    have hq1 : q.drop pos = utf8_encode_one cp ++ (encode_all cps ++ tail) := by
      rw [hq]; simp only [encode_all, List.append_assoc]
    have hne := utf8_encode_one_ne_nil cp
    have hpos1 : 0 < (utf8_encode_one cp).length := List.length_pos.2 hne
    have hlen : pos < q.length := by
      have := congrArg List.length hq1
      simp only [List.length_drop, List.length_append] at this
      omega
    cases fuel with
    | zero => omega
    | succ f =>
      simp only [read_term_loop]
      rw [if_pos hlen, hq1, decode_encode_append cp hvalid]
      simp only
      rw [if_neg (by omega), if_neg (by rw [hcp]; simp)]
      rw [ih f (pos + (utf8_encode_one cp).length) _ true tail
        (drop_add_of_append q pos _ _ hq1)
        (fun c hc => htok c (List.mem_cons_of_mem _ hc)) hstop (by omega)]
      simp only [encode_all, List.length_append, List.map_cons, List.append_assoc,
        List.isEmpty_cons, Bool.not_false, Bool.or_true, Nat.add_assoc, Bool.true_or]

theorem read_term_at (q : List Byte) (i : Nat) (cps : List Nat) (tail : List Byte)
    (hq : q.drop i = encode_all cps ++ tail) (hne : cps ≠ [])
    (htok : ∀ cp ∈ cps, is_token_char cp = true)
    (hstop : ∀ b ∈ tail.head?, b.val < 0x80 ∧ is_token_char b.val = false) :
    read_term q i = some (some (reference_token true cps, i + (encode_all cps).length)) := by
  have hloop := read_term_loop_prefix q cps q.length i [] false tail hq htok hstop (by omega)
  have hany : (false || !cps.isEmpty) = true := by
    cases cps with
    | nil => exact absurd rfl hne
    | cons a tl => rfl
  unfold read_term
  rw [hloop, hany]
  simp only [List.nil_append, not_true_eq_false, if_false]
  rfl

/-- The first byte of a term is no blank and starts no operator. -/
theorem term_first_byte (cps : List Nat) (tail : List Byte) (hne : cps ≠ [])
    (htok : ∀ cp ∈ cps, is_token_char cp = true) :
    ∃ c rest, encode_all cps ++ tail = c :: rest ∧ is_space c = false ∧ c ≠ 0x28 ∧
      c ≠ 0x29 ∧ c ≠ 0x21 ∧ c.val ≠ 0x26 ∧ c.val ≠ 0x7C := by
  cases cps with
  | nil => exact absurd rfl hne
  | cons cp cps =>
    have hcp := htok cp (List.mem_cons_self _ _)
    rw [is_token_char_iff] at hcp
    have hspace : ∀ c : Byte, c.val ≠ 0x20 → c.val ≠ 0x09 → c.val ≠ 0x0D → c.val ≠ 0x0A →
        is_space c = false := by
      intro c h1 h2 h3 h4
      simp only [is_space, Bool.or_eq_false_iff, decide_eq_false_iff_not]
      exact ⟨⟨⟨fun h => h1 (by rw [h]; rfl), fun h => h2 (by rw [h]; rfl)⟩,
        fun h => h3 (by rw [h]; rfl)⟩, fun h => h4 (by rw [h]; rfl)⟩
    have hval : ∀ (c : Byte) (v : Nat), c.val ≠ v → v < 256 → c ≠ toByte v := by
      intro c v h1 h2 h3
      apply h1
      rw [h3, toByte_val]
      exact Nat.mod_eq_of_lt h2
    simp only [encode_all, utf8_encode_one_arith]
    by_cases h1 : cp ≤ 0x7F
    · rw [if_pos h1]
      refine ⟨toByte cp, encode_all cps ++ tail, by simp, ?_⟩
      have hv : (toByte cp).val = cp := by rw [toByte_val]; omega
      refine ⟨hspace _ (by omega) (by omega) (by omega) (by omega), ?_, ?_, ?_, by omega,
        by omega⟩
      · exact hval _ 0x28 (by omega) (by decide)
      · exact hval _ 0x29 (by omega) (by decide)
      · exact hval _ 0x21 (by omega) (by decide)
    · rw [if_neg h1, if_pos (by omega)]
      refine ⟨toByte (192 + cp / 64 % 32), toByte (128 + cp % 64) :: (encode_all cps ++ tail),
        by simp, ?_⟩
      have hv : (toByte (192 + cp / 64 % 32)).val = 192 + cp / 64 % 32 := by
        rw [toByte_val]; omega
      refine ⟨hspace _ (by omega) (by omega) (by omega) (by omega), ?_, ?_, ?_, by omega,
        by omega⟩
      · exact hval _ 0x28 (by omega) (by decide)
      · exact hval _ 0x29 (by omega) (by decide)
      · exact hval _ 0x21 (by omega) (by decide)

theorem getElem?_of_drop {α : Type} (q : List α) (i : Nat) (c : α) (rest : List α)
    (h : q.drop i = c :: rest) : q[i]? = some c ∧ i < q.length := by
  have hlen : i < q.length := by
    have := congrArg List.length h
    simp only [List.length_drop, List.length_cons] at this
    omega
  refine ⟨?_, hlen⟩
  have := List.drop_eq_getElem_cons hlen
  rw [this] at h
  rw [List.getElem?_eq_getElem hlen]
  exact congrArg some (List.cons.inj h).1

theorem tokenize_query_loop_term (q : List Byte) (f i : Nat) (prev : TokType) (out : List Tok)
    (cps : List Nat) (tail : List Byte) (hq : q.drop i = encode_all cps ++ tail)
    (hne : cps ≠ []) (htok : ∀ cp ∈ cps, is_token_char cp = true)
    (hstop : ∀ b ∈ tail.head?, b.val < 0x80 ∧ is_token_char b.val = false) :
    tokenize_query_loop q (f + 1) i prev out =
      tokenize_query_loop q f (i + (encode_all cps).length) TokType.T_TERM
        (push_implicit_and prev out ++
          [{ t := TokType.T_TERM, s := reference_token true cps }]) := by
  obtain ⟨c, rest, hc, h1, h2, h3, h4, h5, h6⟩ := term_first_byte cps tail hne htok
  rw [hc] at hq
  obtain ⟨hget, hlen⟩ := getElem?_of_drop q i c rest hq
  rw [← hc] at hq
  simp only [tokenize_query_loop]
  rw [if_pos hlen]
  simp only [hget]
  rw [if_neg (by rw [h1]; simp), if_neg h2, if_neg h3, if_neg h4,
    if_neg (fun h => h5 (by rw [h.1]; rfl)), if_neg (fun h => h6 (by rw [h.1]; rfl)),
    read_term_at q i cps tail hq hne htok hstop]

theorem tokenize_query_loop_space (q : List Byte) (f i : Nat) (prev : TokType)
    (out : List Tok) (h : q[i]? = some 0x20) :
    tokenize_query_loop q (f + 1) i prev out = tokenize_query_loop q f (i + 1) prev out := by
  have hlen := (List.getElem?_eq_some_iff.1 h).1
  simp only [tokenize_query_loop]
  rw [if_pos hlen]
  simp only [h]
  rw [if_pos (by decide)]

theorem tokenize_query_loop_and (q : List Byte) (f i : Nat) (prev : TokType)
    (out : List Tok) (h : q[i]? = some 0x26) (h1 : q[i + 1]? = some 0x26) :
    tokenize_query_loop q (f + 1) i prev out =
      tokenize_query_loop q f (i + 2) TokType.T_AND (out ++ [Tok.op TokType.T_AND]) := by
  have hlen := (List.getElem?_eq_some_iff.1 h).1
  have hlen1 := (List.getElem?_eq_some_iff.1 h1).1
  simp only [tokenize_query_loop]
  rw [if_pos hlen]
  simp only [h]
  rw [if_neg (by decide), if_neg (by decide), if_neg (by decide), if_neg (by decide),
    if_pos ⟨trivial, hlen1, h1⟩]

theorem tokenize_query_loop_end (q : List Byte) (f i : Nat) (prev : TokType) (out : List Tok)
    (h : q.length ≤ i) : tokenize_query_loop q f i prev out = some out := by
  cases f with
  | zero => simp only [tokenize_query_loop]; rw [if_neg (by omega)]
  | succ f => simp only [tokenize_query_loop]; rw [if_neg (by omega)]

/-- On two terms separated by one blank, and on the same two terms separated by
` && `, `tokenize_query` gives the same tokens: the first term, `T_AND`, the second
term, `T_END`. -/
theorem tokenize_query_two_terms (a b : List Nat) (ha : a ≠ []) (hb : b ≠ [])
    (hta : ∀ cp ∈ a, is_token_char cp = true) (htb : ∀ cp ∈ b, is_token_char cp = true) :
    tokenize_query (encode_all a ++ 0x20 :: encode_all b) =
      some [{ t := TokType.T_TERM, s := reference_token true a }, Tok.op TokType.T_AND,
        { t := TokType.T_TERM, s := reference_token true b }, Tok.op TokType.T_END] ∧
    tokenize_query (encode_all a ++ 0x20 :: 0x26 :: 0x26 :: 0x20 :: encode_all b) =
      some [{ t := TokType.T_TERM, s := reference_token true a }, Tok.op TokType.T_AND,
        { t := TokType.T_TERM, s := reference_token true b }, Tok.op TokType.T_END] := by
  have hla : 1 ≤ (encode_all a).length := by
    have := length_le_encode_all a
    have : 0 < a.length := List.length_pos.2 ha
    omega
  have hlb : 1 ≤ (encode_all b).length := by
    have := length_le_encode_all b
    have : 0 < b.length := List.length_pos.2 hb
    omega
  have hstop0 : ∀ (rest : List Byte) (x : Byte), x ∈ ((0x20 : Byte) :: rest).head? →
      x.val < 0x80 ∧ is_token_char x.val = false := by
    intro rest x hx
    simp only [List.head?_cons, Option.mem_def, Option.some.injEq] at hx
    subst hx
    exact ⟨by decide, by decide⟩
  have hstopnil : ∀ x : Byte, x ∈ ([] : List Byte).head? →
      x.val < 0x80 ∧ is_token_char x.val = false := by
    intro x hx
    cases hx
  constructor
  · generalize hq : encode_all a ++ 0x20 :: encode_all b = q
    have hlen : q.length = (encode_all a).length + 1 + (encode_all b).length := by
      rw [← hq]; simp only [List.length_append, List.length_cons]; omega
    obtain ⟨k, hk⟩ : ∃ k, q.length = k + 3 := ⟨q.length - 3, by omega⟩
    have d0 : q.drop 0 = encode_all a ++ 0x20 :: encode_all b := by rw [List.drop_zero, hq]
    have g1 : q[(encode_all a).length]? = some 0x20 := by
      rw [← hq, List.getElem?_append_right (le_refl _)]; simp
    have d2 : q.drop ((encode_all a).length + 1) = encode_all b ++ [] := by
      rw [← hq, ← List.drop_drop, List.drop_left]; simp
    unfold tokenize_query
    rw [hk, tokenize_query_loop_term q (k + 2) 0 _ _ a _ d0 ha hta (hstop0 _),
      Nat.zero_add, tokenize_query_loop_space q (k + 1) _ _ _ g1,
      tokenize_query_loop_term q k _ _ _ b [] d2 hb htb hstopnil,
      tokenize_query_loop_end q k _ _ _ (by omega)]
    rfl
  · generalize hq : encode_all a ++ 0x20 :: 0x26 :: 0x26 :: 0x20 :: encode_all b = q
    have hlen : q.length = (encode_all a).length + 4 + (encode_all b).length := by
      rw [← hq]; simp only [List.length_append, List.length_cons]; omega
    obtain ⟨k, hk⟩ : ∃ k, q.length = k + 5 := ⟨q.length - 5, by omega⟩
    have d0 : q.drop 0 = encode_all a ++ 0x20 :: 0x26 :: 0x26 :: 0x20 :: encode_all b := by
      rw [List.drop_zero, hq]
    have g1 : q[(encode_all a).length]? = some 0x20 := by
      rw [← hq, List.getElem?_append_right (le_refl _)]; simp
    have g2 : q[(encode_all a).length + 1]? = some 0x26 := by
      rw [← hq, List.getElem?_append_right (by omega)]; simp
    have g3 : q[(encode_all a).length + 1 + 1]? = some 0x26 := by
      rw [← hq, List.getElem?_append_right (by omega)]
      have : (encode_all a).length + 1 + 1 - (encode_all a).length = 2 := by omega
      rw [this]; simp
    have g4 : q[(encode_all a).length + 1 + 2]? = some 0x20 := by
      rw [← hq, List.getElem?_append_right (by omega)]
      have : (encode_all a).length + 1 + 2 - (encode_all a).length = 3 := by omega
      rw [this]; simp
    have d5 : q.drop ((encode_all a).length + 1 + 2 + 1) = encode_all b ++ [] := by
      have e : (encode_all a).length + 1 + 2 + 1 = (encode_all a).length + 4 := by omega
      rw [e, ← hq, ← List.drop_drop, List.drop_left]; simp
    unfold tokenize_query
    rw [hk, tokenize_query_loop_term q (k + 4) 0 _ _ a _ d0 ha hta (hstop0 _),
      Nat.zero_add, tokenize_query_loop_space q (k + 3) _ _ _ g1,
      tokenize_query_loop_and q (k + 2) _ _ _ g2 g3,
      tokenize_query_loop_space q (k + 1) _ _ _ g4,
      tokenize_query_loop_term q k _ _ _ b [] d5 hb htb hstopnil,
      tokenize_query_loop_end q k _ _ _ (by omega)]
    rfl

/-! The suffix pass of the stemmer against its reference definition. -/

theorem ends_with_false_of_skip (tok : List Byte) (n : Nat) (suf : List Byte)
    (h : suf.length = 0 ∨ suf.length > n) : ends_with tok n suf = false := by
  unfold ends_with
  simp only
  rw [if_pos h]

theorem stem_suffix_loop_reference (tok : List Byte) (n : Nat) (tbl : List (List Byte)) :
    stem_suffix_loop tok n tbl = suffix_pass_reference tok n tbl := by
  induction tbl with
  | nil => rfl
  | cons suf rest ih =>
    unfold stem_suffix_loop suffix_pass_reference first_matching_suffix
    simp only
    by_cases h1 : suf.length = 0 ∨ suf.length > n
    · rw [if_pos h1, List.find?_cons, ends_with_false_of_skip tok n suf h1, ih]
      rfl
    · rw [if_neg h1]
      by_cases h2 : ends_with tok n suf = true
      · rw [if_pos h2, List.find?_cons, h2]
      · rw [if_neg h2, List.find?_cons]
        rw [Bool.not_eq_true] at h2
        rw [h2, ih]
        rfl

/-! Claim C34. -/

/-- C34: the suffix pass of `stem_ru_utf8` is the reference pass: it looks at the first
entry of the table, in table order, that the buffer ends with after the reflexive
pass, removes it when at least 6 bytes remain, and otherwise leaves the length
unchanged without trying a later entry; when no entry matches the length is unchanged.
On a buffer that passes the three guards the result of `stem_ru_utf8` is the sign pass
applied to that length. For the word `стами` the first matching entry is `ами`, which
cannot be removed (4 bytes would remain); the later entry `и` matches too and could be
removed, but it is not tried, and the word is left unchanged. -/
theorem stem_first_suffix_only (tok : List Byte) (n : Nat) :
    stem_suffix_loop tok n suffixes = suffix_pass_reference tok n suffixes ∧
    (first_matching_suffix tok n suffixes = none → stem_suffix_loop tok n suffixes = n) ∧
    (∀ suf, first_matching_suffix tok n suffixes = some suf →
      suf ∈ suffixes ∧ ends_with tok n suf = true ∧
      (6 ≤ n - suf.length → stem_suffix_loop tok n suffixes = n - suf.length) ∧
      (n - suf.length < 6 → stem_suffix_loop tok n suffixes = n)) ∧
    (6 ≤ tok.length → has_digit_ascii tok = false → looks_cyrillic_utf8 tok = true →
      stem_ru_utf8 tok =
        stem_sign tok (suffix_pass_reference tok (stem_reflexive tok tok.length) suffixes)) ∧
    first_matching_suffix word_stami 10 suffixes = some [0xD0, 0xB0, 0xD0, 0xBC, 0xD0, 0xB8] ∧
    ends_with word_stami 10 [0xD0, 0xB8] = true ∧
    stem_suffix_loop word_stami 10 suffixes = 10 ∧
    stem_ru_utf8 word_stami = word_stami.length := by
  have href := stem_suffix_loop_reference tok n suffixes
  refine ⟨href, ?_, ?_, ?_, by decide, by decide, by decide, by decide⟩
  · intro h
    rw [href]
    unfold suffix_pass_reference
    rw [h]
  · intro suf h
    have hmem : suf ∈ suffixes := List.mem_of_find?_eq_some h
    have hends : ends_with tok n suf = true := by
      have := List.find?_some h
      exact this
    refine ⟨hmem, hends, ?_, ?_⟩
    · intro h6
      rw [href]
      unfold suffix_pass_reference
      rw [h]
      simp only
      rw [if_pos (by unfold MIN_STEM_BYTES; exact h6)]
    · intro h6
      rw [href]
      unfold suffix_pass_reference
      rw [h]
      simp only
      rw [if_neg (by unfold MIN_STEM_BYTES; omega)]
  · intro h6 hd hc
    unfold stem_ru_utf8
    simp only
    rw [if_neg (by unfold MIN_STEM_BYTES; omega), if_neg (by rw [hd]; simp),
      if_neg (by rw [hc]; simp), stem_suffix_loop_reference]

/-! Codepoint boundaries of an encoded sequence. -/

/-- The encoding of any codepoint is one first byte followed by continuation bytes. -/
theorem encode_shape (cp : Nat) :
    ∃ l cs, utf8_encode_one cp = l :: cs ∧ ∀ c ∈ cs, 0x80 ≤ c.val ∧ c.val < 0xC0 := by
  rw [utf8_encode_one_arith]
  by_cases h1 : cp ≤ 0x7F
  · rw [if_pos h1]; exact ⟨_, [], rfl, by simp⟩
  · rw [if_neg h1]
    by_cases h2 : cp ≤ 0x7FF
    · rw [if_pos h2]
      refine ⟨_, _, rfl, ?_⟩
      intro c hc
      simp only [List.mem_singleton] at hc
      subst hc
      rw [toByte_val]; omega
    · rw [if_neg h2]
      by_cases h3 : cp ≤ 0xFFFF
      · rw [if_pos h3]
        refine ⟨_, _, rfl, ?_⟩
        intro c hc
        simp only [List.mem_cons, List.mem_singleton, List.not_mem_nil, or_false] at hc
        rcases hc with hc | hc <;> subst hc <;> rw [toByte_val] <;> omega
      · rw [if_neg h3]
        refine ⟨_, _, rfl, ?_⟩
        intro c hc
        simp only [List.mem_cons, List.mem_singleton, List.not_mem_nil, or_false] at hc
        rcases hc with hc | hc | hc <;> subst hc <;> rw [toByte_val] <;> omega

/-- A prefix of an encoded sequence that ends in front of a byte that is no
continuation byte is the encoding of a prefix of the sequence. -/
theorem take_encode_all_of_boundary (cps : List Nat) :
    ∀ k b, ((encode_all cps).drop k).head? = some b → (b.val < 0x80 ∨ 0xC0 ≤ b.val) →
      ∃ j, (encode_all cps).take k = encode_all (cps.take j) := by
  induction cps with
  | nil => intro k b hb; simp [encode_all] at hb
  | cons x xs ih =>
    intro k b hb hlead
    obtain ⟨l, cs, hx, hcs⟩ := encode_shape x
    cases k with
    | zero => exact ⟨0, rfl⟩
    | succ k =>
      by_cases hk : k < cs.length
      · exfalso
        simp only [encode_all, hx, List.cons_append, List.drop_succ_cons] at hb
        rw [List.drop_append_of_le_length (Nat.le_of_lt hk)] at hb
        have hne : cs.drop k ≠ [] := by
          intro h0
          have := congrArg List.length h0
          simp only [List.length_drop, List.length_nil] at this
          omega
        obtain ⟨c, tl, hct⟩ := List.exists_cons_of_ne_nil hne
        rw [hct] at hb
        simp only [List.cons_append, List.head?_cons, Option.some.injEq] at hb
        subst hb
        have hmem : c ∈ cs := List.mem_of_mem_drop (by rw [hct]; exact List.mem_cons_self _ _)
        have := hcs c hmem
        omega
      · have hk1 : cs.length ≤ k := Nat.le_of_not_lt hk
        have hd : (encode_all (x :: xs)).drop (k + 1) = (encode_all xs).drop (k - cs.length) := by
          simp only [encode_all, hx, List.cons_append, List.drop_succ_cons]
          rw [List.drop_append_eq_append_drop, List.drop_of_length_le hk1, List.nil_append]
        rw [hd] at hb
        obtain ⟨j, hj⟩ := ih (k - cs.length) b hb hlead
        refine ⟨j + 1, ?_⟩
        simp only [List.take_succ_cons, encode_all, hx, List.cons_append]
        rw [List.take_append_eq_append_take, List.take_of_length_le hk1, hj]

/-! Claim C39. -/

/-- C39: `stem_ru_utf8` only truncates: the stemmed token is the prefix of the buffer of
the returned length, which is at most the length of the buffer; and when the buffer
decodes as the codepoints `cps`, the returned length falls on a codepoint boundary: the
stemmed token is the encoding of a prefix of `cps` and decodes as that prefix. -/
theorem stem_truncates_at_codepoint (tok : List Byte) (fuel : Nat) (cps : List Nat)
    (h : decode_all fuel tok = some cps) :
    stem tok = tok.take (stem_ru_utf8 tok) ∧ stem_ru_utf8 tok ≤ tok.length ∧
    stem tok <+: tok ∧
    ∃ j, j ≤ cps.length ∧ stem tok = encode_all (cps.take j) ∧
      decode_all (stem tok).length (stem tok) = some (cps.take j) := by
  obtain ⟨henc, hrange⟩ := encode_all_of_decode_all fuel tok cps h
  have hle : stem_ru_utf8 tok ≤ tok.length := by
    rcases stem_ru_utf8_trimmed tok with h1 | ⟨_, h2, _⟩
    · omega
    · omega
  refine ⟨rfl, hle, List.take_prefix _ _, ?_⟩
  have key : ∃ j, j ≤ cps.length ∧ stem tok = encode_all (cps.take j) := by
    rcases stem_ru_utf8_trimmed tok with h1 | ⟨_, _, b, hb, hlead⟩
    · refine ⟨cps.length, le_refl _, ?_⟩
      unfold stem
      rw [h1, List.take_length, List.take_length]
      exact henc
    · rw [henc] at hb
      obtain ⟨j, hj⟩ := take_encode_all_of_boundary cps _ b hb (Or.inr (by omega))
      refine ⟨min j cps.length, Nat.min_le_right _ _, ?_⟩
      unfold stem
      have : cps.take (min j cps.length) = cps.take j := by
        rw [List.take_eq_take]
        simp
      rw [this, ← hj, ← henc]
  obtain ⟨j, hj, hst⟩ := key
  refine ⟨j, hj, hst, ?_⟩
  rw [hst]
  exact decode_all_encode_all (cps.take j)
    (fun cp hcp => hrange cp (List.mem_of_mem_take hcp)) _ (length_le_encode_all _)

theorem stem_truncates_at_codepoint_witness :
    decode_all 5 word_armii = some [0x430, 0x440, 0x43C, 0x438, 0x438] ∧
    (stem word_armii = word_armii.take (stem_ru_utf8 word_armii) ∧
      stem_ru_utf8 word_armii ≤ word_armii.length ∧ stem word_armii <+: word_armii ∧
      ∃ j, j ≤ ([0x430, 0x440, 0x43C, 0x438, 0x438] : List Nat).length ∧
        stem word_armii = encode_all (([0x430, 0x440, 0x43C, 0x438, 0x438] : List Nat).take j) ∧
        decode_all (stem word_armii).length (stem word_armii) =
          some (([0x430, 0x440, 0x43C, 0x438, 0x438] : List Nat).take j)) :=
  ⟨by decide, stem_truncates_at_codepoint word_armii 5 [0x430, 0x440, 0x43C, 0x438, 0x438]
    (by decide)⟩

/-! The tokenizer on a buffer with a byte that starts no sequence. -/

/-- A byte in `0x80..0xBF` or `0xF8..0xFF` starts no sequence: the decoder fails. -/
theorem utf8_decode_one_bad_lead (b : Byte) (rest : List Byte)
    (hb : (0x80 ≤ b.val ∧ b.val ≤ 0xBF) ∨ 0xF8 ≤ b.val) :
    utf8_decode_one (b :: rest) = none := by
  rw [utf8_decode_one_arith]
  have := b.isLt
  rw [if_neg (by omega), if_neg (by omega), if_neg (by omega), if_neg (by omega)]

/-- The result of the loop does not depend on the fuel, once there is enough of it. -/
theorem tokenize_loop_fuel (buf : List Byte) (do_stem : Bool) :
    ∀ (fuel1 fuel2 i : Nat) (s : TokState), buf.length ≤ i + fuel1 → buf.length ≤ i + fuel2 →
      tokenize_loop buf do_stem fuel1 i s = tokenize_loop buf do_stem fuel2 i s := by
  intro fuel1
  induction fuel1 with
  | zero =>
    intro fuel2 i s h1 h2
    have hlen : ¬ i < buf.length := by omega
    cases fuel2 <;> simp only [tokenize_loop, if_neg hlen]
  | succ f1 ih =>
    intro fuel2 i s h1 h2
    by_cases hlen : i < buf.length
    · cases fuel2 with
      | zero => omega
      | succ f2 =>
        simp only [tokenize_loop]
        rw [if_pos hlen, if_pos hlen]
        cases hd : utf8_decode_one (buf.drop i) with
        | none => exact ih f2 (i + 1) _ (by omega) (by omega)
        | some r =>
          obtain ⟨cp, used⟩ := r
          simp only
          by_cases hu : used = 0
          · rw [if_pos hu, if_pos hu]
            exact ih f2 (i + 1) _ (by omega) (by omega)
          · rw [if_neg hu, if_neg hu]
            by_cases ht : is_token_char cp = true
            · rw [if_pos ht, if_pos ht]
              exact ih f2 (i + used) _ (by omega) (by omega)
            · rw [if_neg ht, if_neg ht]
              exact ih f2 (i + used) _ (by omega) (by omega)
    · cases fuel2 <;> simp only [tokenize_loop, if_neg hlen]

/-- The loop on a buffer from an offset behind a prefix is the loop on the rest of the
buffer. -/
theorem tokenize_loop_shift (pre suf : List Byte) (do_stem : Bool) :
    ∀ (fuel i : Nat) (s : TokState),
      tokenize_loop (pre ++ suf) do_stem fuel (pre.length + i) s =
        tokenize_loop suf do_stem fuel i s := by
  intro fuel
  induction fuel with
  | zero =>
    intro i s
    simp only [tokenize_loop, List.length_append]
    by_cases h : i < suf.length
    · rw [if_pos h, if_pos (by omega)]
    · rw [if_neg h, if_neg (by omega)]
  | succ f ih =>
    intro i s
    simp only [tokenize_loop, List.length_append, List.drop_append]
    by_cases h : i < suf.length
    · rw [if_pos h, if_pos (by omega)]
      cases hd : utf8_decode_one (suf.drop i) with
      | none =>
        simp only
        rw [Nat.add_assoc]; exact ih (i + 1) _
      | some r =>
        obtain ⟨cp, used⟩ := r
        simp only
        rw [Nat.add_assoc, Nat.add_assoc, ih (i + 1), ih (i + used), ih (i + used)]
    · rw [if_neg h, if_neg (by omega)]

/-- The loop over the encoding of valid codepoints that stands at offset `i`: one
iteration for each codepoint. -/
theorem tokenize_loop_prefix (buf : List Byte) (do_stem : Bool) :
    ∀ (cps : List Nat) (fuel i : Nat) (s : TokState) (rest : List Byte),
      (∀ cp ∈ cps, cp ≤ 0x10FFFF) → buf.drop i = encode_all cps ++ rest →
      tokenize_loop buf do_stem (fuel + cps.length) i s =
        tokenize_loop buf do_stem fuel (i + (encode_all cps).length)
          (cps.foldl (cp_step do_stem) s) := by
  intro cps
  induction cps with
  | nil => intro fuel i s rest _ _; rfl
  | cons c cs ih =>
    intro fuel i s rest hr hd
    have hc : c ≤ 0x10FFFF := hr c (List.mem_cons_self _ _)
    have hd1 : buf.drop i = utf8_encode_one c ++ (encode_all cs ++ rest) := by
      rw [hd, encode_all, List.append_assoc]
    have hlen : i < buf.length := by
      have := congrArg List.length hd1
      simp only [List.length_drop, List.length_append] at this
      have := List.length_pos.2 (utf8_encode_one_ne_nil c)
      omega
    have hdec := decode_encode_append c hc (encode_all cs ++ rest)
    rw [← hd1] at hdec
    have hu : (utf8_encode_one c).length ≠ 0 :=
      Nat.ne_of_gt (List.length_pos.2 (utf8_encode_one_ne_nil c))
    have hnext := drop_add_of_append buf i _ _ hd1
    have e1 : fuel + (c :: cs).length = (fuel + cs.length) + 1 := by
      simp only [List.length_cons]; omega
    have e2 : i + (encode_all (c :: cs)).length =
        i + (utf8_encode_one c).length + (encode_all cs).length := by
      simp only [encode_all, List.length_append]; omega
    rw [e1, e2, List.foldl_cons, ← ih fuel _ _ rest
      (fun cp hcp => hr cp (List.mem_cons_of_mem _ hcp)) hnext]
    simp only [tokenize_loop]
    rw [if_pos hlen, hdec]
    simp only
    rw [if_neg hu]
    unfold cp_step
    by_cases ht : is_token_char c = true
    · rw [if_pos ht, if_pos ht]
    · rw [if_neg ht, if_neg ht]

/-- A flush treats two states with the same token buffer alike, whatever was written
before. -/
theorem flush_token_frame (do_stem : Bool) (p : List (List Byte)) (s t : TokState)
    (hout : s.out = p ++ t.out) (htok : s.tok = t.tok) :
    (flush_token s do_stem).out = p ++ (flush_token t do_stem).out ∧
      (flush_token s do_stem).tok = (flush_token t do_stem).tok := by
  unfold flush_token
  by_cases h : t.tok.length = 0
  · rw [if_pos h, if_pos (by rw [htok]; exact h)]
    exact ⟨hout, htok⟩
  · rw [if_neg h, if_neg (by rw [htok]; exact h)]
    simp only [htok, hout]
    unfold write_token
    split_ifs
    · exact ⟨rfl, trivial⟩
    · exact ⟨by rw [List.append_assoc], trivial⟩
    · exact ⟨by rw [List.append_assoc], trivial⟩

theorem flush_token_tok (do_stem : Bool) (s : TokState) : (flush_token s do_stem).tok = [] := by
  unfold flush_token
  by_cases h : s.tok.length = 0
  · rw [if_pos h]; exact List.length_eq_zero.1 h
  · rw [if_neg h]

/-- The loop treats two states with the same token buffer alike: what it writes is
appended to what was written before. -/
theorem tokenize_loop_frame (buf : List Byte) (do_stem : Bool) (p : List (List Byte)) :
    ∀ (fuel i : Nat) (s t r : TokState), s.out = p ++ t.out → s.tok = t.tok →
      tokenize_loop buf do_stem fuel i t = some r →
      ∃ r1, tokenize_loop buf do_stem fuel i s = some r1 ∧ r1.out = p ++ r.out ∧
        r1.tok = r.tok := by
  intro fuel
  induction fuel with
  | zero =>
    intro i s t r hout htok h
    simp only [tokenize_loop] at h ⊢
    by_cases hl : i < buf.length
    · rw [if_pos hl] at h; cases h
    · rw [if_neg hl] at h ⊢
      simp only [Option.some.injEq] at h
      subst h
      exact ⟨s, rfl, hout, htok⟩
  | succ f ih =>
    intro i s t r hout htok h
    simp only [tokenize_loop] at h ⊢
    by_cases hl : i < buf.length
    · rw [if_pos hl] at h ⊢
      obtain ⟨hf1, hf2⟩ := flush_token_frame do_stem p s t hout htok
      cases hd : utf8_decode_one (buf.drop i) with
      | none =>
        rw [hd] at h
        exact ih (i + 1) _ _ r hf1 hf2 h
      | some v =>
        obtain ⟨cp, used⟩ := v
        rw [hd] at h
        simp only at h ⊢
        by_cases hu : used = 0
        · rw [if_pos hu] at h ⊢
          exact ih (i + 1) _ _ r hf1 hf2 h
        · rw [if_neg hu] at h ⊢
          by_cases ht : is_token_char cp = true
          · rw [if_pos ht] at h ⊢
            exact ih (i + used)
              { s with tok := s.tok ++ utf8_encode_one (to_lower_basic cp),
                       tok_chars := s.tok_chars + 1 }
              { t with tok := t.tok ++ utf8_encode_one (to_lower_basic cp),
                       tok_chars := t.tok_chars + 1 } r hout
              (by simp only [htok]) h
          · rw [if_neg ht] at h ⊢
            exact ih (i + used) _ _ r hf1 hf2 h
    · rw [if_neg hl] at h ⊢
      simp only [Option.some.injEq] at h
      subst h
      exact ⟨s, rfl, hout, htok⟩

/-! Claim C35. -/

/-- C35: let `x` decode without error, let `b` be a byte in `0x80..0xBF` or `0xF8..0xFF`
and `y` any byte string. The decoder fails at `b` whatever follows, and the tokens
emitted for `x ++ [b] ++ y` are the tokens emitted for `x` followed by the tokens emitted
for `y`: the byte ends the token in progress and the scan goes on at the first byte of
`y`. -/
theorem tokenize_bad_byte_recovery (x y : List Byte) (b : Byte) (cps : List Nat) (fuel : Nat)
    (do_stem : Bool) (hx : decode_all fuel x = some cps)
    (hb : (0x80 ≤ b.val ∧ b.val ≤ 0xBF) ∨ 0xF8 ≤ b.val) :
    utf8_decode_one (b :: y) = none ∧
    ∃ tx ty, tokens_emitted x do_stem = some tx ∧ tokens_emitted y do_stem = some ty ∧
      tokens_emitted (x ++ b :: y) do_stem = some (tx ++ ty) := by
  have hbad := utf8_decode_one_bad_lead b y hb
  refine ⟨hbad, ?_⟩
  obtain ⟨henc, hrange⟩ := encode_all_of_decode_all fuel x cps hx
  have htx := tokens_emitted_of_decode_all x do_stem cps fuel hx
  obtain ⟨sy, hsy, _⟩ := tokenize_inv y do_stem
  have hty : tokens_emitted y do_stem = some sy.out := by
    unfold tokens_emitted; rw [hsy]; rfl
  unfold tokenize_file_to_stream_ex at hsy
  cases hry : tokenize_loop y do_stem y.length 0
      { out := [], tok := [], tok_chars := 0,
        st := { bytes_in := y.length, tokens_out := 0, token_chars_sum := 0 } } with
  | none => rw [hry] at hsy; cases hsy
  | some ry =>
    rw [hry] at hsy
    simp only [Option.map_some', Option.some.injEq] at hsy
    refine ⟨_, _, htx, hty, ?_⟩
    generalize hbuf : x ++ b :: y = buf
    have hblen : buf.length = x.length + 1 + y.length := by
      rw [← hbuf]; simp only [List.length_append, List.length_cons]; omega
    have hn : cps.length ≤ x.length := by rw [henc]; exact length_le_encode_all cps
    obtain ⟨F, hF⟩ : ∃ F, buf.length = (F + 1) + cps.length := ⟨buf.length - cps.length - 1, by omega⟩
    have hd0 : buf.drop 0 = encode_all cps ++ b :: y := by rw [List.drop_zero, ← hbuf, ← henc]
    have hdx : buf.drop x.length = b :: y := by rw [← hbuf, List.drop_left]
    have hshift : ∀ s, tokenize_loop buf do_stem F (x.length + 1) s =
        tokenize_loop y do_stem F 0 s := by
      intro s
      have := tokenize_loop_shift (x ++ [b]) y do_stem F 0 s
      simp only [List.append_assoc, List.singleton_append, List.length_append,
        List.length_singleton, Nat.add_zero] at this
      rw [hbuf] at this
      exact this
    unfold tokens_emitted tokenize_file_to_stream_ex
    rw [hF, tokenize_loop_prefix buf do_stem cps (F + 1) 0 _ (b :: y) hrange hd0, Nat.zero_add,
      ← henc]
    simp only [tokenize_loop]
    rw [if_pos (by omega), hdx, hbad]
    simp only
    rw [hshift, tokenize_loop_fuel y do_stem F y.length 0 _ (by omega) (by omega)]
    generalize hs2 : flush_token (cps.foldl (cp_step do_stem)
        { out := [], tok := [], tok_chars := 0,
          st := { bytes_in := (F + 1) + cps.length, tokens_out := 0, token_chars_sum := 0 } })
        do_stem = s2
    have hs2out : s2.out = reference_tokens cps do_stem := by
      rw [← hs2, flush_foldl_out do_stem cps [] _ rfl, modifyHead_nil_append]
      rfl
    have hs2tok : s2.tok = [] := by rw [← hs2]; exact flush_token_tok do_stem _
    obtain ⟨r1, hr1, ho, ht⟩ := tokenize_loop_frame y do_stem s2.out y.length 0 s2
      { out := [], tok := [], tok_chars := 0,
        st := { bytes_in := y.length, tokens_out := 0, token_chars_sum := 0 } } ry
      (by simp) hs2tok hry
    rw [hr1]
    simp only [Option.map_some', Option.some.injEq]
    rw [(flush_token_frame do_stem _ r1 ry ho ht).1, hsy, hs2out]

theorem tokenize_bad_byte_recovery_witness :
    decode_all 3 [0xD0, 0xBA, 0xD0, 0xBE, 0xD1, 0x82] = some [0x43A, 0x43E, 0x442] ∧
    ((0x80 ≤ (0xFF : Byte).val ∧ (0xFF : Byte).val ≤ 0xBF) ∨ 0xF8 ≤ (0xFF : Byte).val) ∧
    (utf8_decode_one (0xFF :: [0xD0, 0xB8]) = none ∧
      ∃ tx ty, tokens_emitted [0xD0, 0xBA, 0xD0, 0xBE, 0xD1, 0x82] true = some tx ∧
        tokens_emitted [0xD0, 0xB8] true = some ty ∧
        tokens_emitted ([0xD0, 0xBA, 0xD0, 0xBE, 0xD1, 0x82] ++ 0xFF :: [0xD0, 0xB8]) true =
          some (tx ++ ty)) :=
  ⟨by decide, by decide,
    tokenize_bad_byte_recovery [0xD0, 0xBA, 0xD0, 0xBE, 0xD1, 0x82] [0xD0, 0xB8] 0xFF
      [0x43A, 0x43E, 0x442] 3 true (by decide) (by decide)⟩

/-! Function `to_rpn` on arbitrary token sequences. -/

theorem count_type_append (o : TokType) (a b : List Tok) :
    count_type o (a ++ b) = count_type o a + count_type o b := by
  unfold count_type
  rw [List.map_append, List.count_append]

theorem count_type_map_op (o : TokType) (P : List TokType) :
    count_type o (P.map Tok.op) = P.count o := by
  unfold count_type
  rw [List.map_map]
  have : ((fun tk : Tok => tk.t) ∘ Tok.op) = id := by
    funext t; rfl
  rw [this, List.map_id]

theorem term_tokens_append (a b : List Tok) :
    term_tokens (a ++ b) = term_tokens a ++ term_tokens b := by
  unfold term_tokens
  rw [List.filter_append]

theorem term_tokens_map_op (P : List TokType) (h : ∀ p ∈ P, p ≠ TokType.T_TERM) :
    term_tokens (P.map Tok.op) = [] := by
  unfold term_tokens
  rw [List.filter_eq_nil_iff]
  intro tk htk
  obtain ⟨p, hp, rfl⟩ := List.mem_map.1 htk
  simpa [Tok.op] using h p hp

theorem tokens_before_end_cons (tk : Tok) (rest : List Tok) :
    tokens_before_end (tk :: rest) =
      if tk.t = TokType.T_END then [] else tk :: tokens_before_end rest := by
  unfold tokens_before_end
  rw [List.takeWhile_cons]
  by_cases h : tk.t = TokType.T_END
  · simp [h]
  · simp [h]

theorem pop_to_lp_spec : ∀ (ops : List TokType) (out : List Tok),
    ∃ P R, ops = P ++ R ∧ pop_to_lp ops out = (R, out ++ P.map Tok.op) ∧
      (∀ p ∈ P, p ≠ TokType.T_LP) ∧ (R = [] ∨ ∃ R1, R = TokType.T_LP :: R1) := by
  intro ops
  induction ops with
  | nil => intro out; exact ⟨[], [], rfl, by simp [pop_to_lp], by simp, Or.inl rfl⟩
  | cons top ops ih =>
    intro out
    by_cases h : top = TokType.T_LP
    · refine ⟨[], top :: ops, rfl, ?_, by simp, Or.inr ⟨ops, by rw [h]⟩⟩
      simp [pop_to_lp, h]
    · obtain ⟨P, R, hP, hpop, hne, hR⟩ := ih (out ++ [Tok.op top])
      refine ⟨top :: P, R, by rw [hP]; rfl, ?_, ?_, hR⟩
      · rw [pop_to_lp, if_pos h, hpop]
        simp
      · intro p hp
        rcases List.mem_cons.1 hp with rfl | hp
        · exact h
        · exact hne p hp

theorem pop_ops_spec (t : TokType) : ∀ (ops : List TokType) (out : List Tok),
    ∃ P R, ops = P ++ R ∧ pop_ops t ops out = (R, out ++ P.map Tok.op) ∧
      ∀ p ∈ P, is_op p = true := by
  intro ops
  induction ops with
  | nil => intro out; exact ⟨[], [], rfl, by simp [pop_ops], by simp⟩
  | cons top ops ih =>
    intro out
    by_cases h : is_op top = true
    · by_cases h2 : (right_assoc t = true ∧ prec t < prec top) ∨
          (¬ right_assoc t = true ∧ prec t ≤ prec top)
      · obtain ⟨P, R, hP, hpop, hall⟩ := ih (out ++ [Tok.op top])
        refine ⟨top :: P, R, by rw [hP]; rfl, ?_, ?_⟩
        · rw [pop_ops, if_pos h, if_pos h2, hpop]
          simp
        · intro p hp
          rcases List.mem_cons.1 hp with rfl | hp
          · exact h
          · exact hall p hp
      · refine ⟨[], top :: ops, rfl, ?_, by simp⟩
        rw [pop_ops, if_pos h, if_neg h2]
        simp
    · refine ⟨[], top :: ops, rfl, ?_, by simp⟩
      rw [pop_ops, if_neg h]
      simp

theorem pop_all_spec : ∀ (ops : List TokType) (out : List Tok),
    pop_all ops out =
      out ++ (ops.filter (fun t => decide (t ≠ TokType.T_LP))).map Tok.op := by
  intro ops
  induction ops with
  | nil => intro out; simp [pop_all]
  | cons t ops ih =>
    intro out
    by_cases h : t = TokType.T_LP
    · rw [pop_all, if_neg (by simp [h]), ih]
      simp [h]
    · rw [pop_all, if_pos h, ih]
      simp [h]

theorem is_op_ne (t : TokType) (h : is_op t = true) :
    t ≠ TokType.T_LP ∧ t ≠ TokType.T_RP ∧ t ≠ TokType.T_TERM ∧ t ≠ TokType.T_END := by
  cases t <;> simp [is_op] at h ⊢

/-- The loop of `to_rpn` from a stack of operators and `(`: what it appends to the
output has no parenthesis, has the terms of the tokens read, and together with the
stack accounts for every operator. -/
theorem to_rpn_loop_inv : ∀ (ts : List Tok) (ops : List TokType) (out : List Tok),
    (∀ t ∈ ops, t = TokType.T_LP ∨ is_op t = true) →
    ∃ A, (to_rpn_loop ts ops out).2 = out ++ A ∧
      (∀ t ∈ (to_rpn_loop ts ops out).1, t = TokType.T_LP ∨ is_op t = true) ∧
      (∀ tk ∈ A, tk.t ≠ TokType.T_LP ∧ tk.t ≠ TokType.T_RP) ∧
      term_tokens A = term_tokens (tokens_before_end ts) ∧
      ∀ o, is_op o = true →
        count_type o A + (to_rpn_loop ts ops out).1.count o =
          ops.count o + count_type o (tokens_before_end ts) := by
  intro ts
  induction ts with
  | nil =>
    intro ops out hops
    refine ⟨[], by simp [to_rpn_loop], by simpa [to_rpn_loop] using hops, by simp, rfl, ?_⟩
    intro o _
    simp [to_rpn_loop, count_type, tokens_before_end]
  | cons tk rest ih =>
    intro ops out hops
    -- one step followed by the loop on the rest
    have step : ∀ (ops1 : List TokType) (A0 : List Tok),
        to_rpn_loop (tk :: rest) ops out = to_rpn_loop rest ops1 (out ++ A0) →
        (∀ t ∈ ops1, t = TokType.T_LP ∨ is_op t = true) →
        (∀ x ∈ A0, x.t ≠ TokType.T_LP ∧ x.t ≠ TokType.T_RP) →
        term_tokens A0 ++ term_tokens (tokens_before_end rest) =
          term_tokens (tokens_before_end (tk :: rest)) →
        (∀ o, is_op o = true → count_type o A0 + ops1.count o + count_type o
          (tokens_before_end rest) = ops.count o + count_type o (tokens_before_end (tk :: rest))) →
        ∃ A, (to_rpn_loop (tk :: rest) ops out).2 = out ++ A ∧
          (∀ t ∈ (to_rpn_loop (tk :: rest) ops out).1, t = TokType.T_LP ∨ is_op t = true) ∧
          (∀ x ∈ A, x.t ≠ TokType.T_LP ∧ x.t ≠ TokType.T_RP) ∧
          term_tokens A = term_tokens (tokens_before_end (tk :: rest)) ∧
          ∀ o, is_op o = true →
            count_type o A + (to_rpn_loop (tk :: rest) ops out).1.count o =
              ops.count o + count_type o (tokens_before_end (tk :: rest)) := by
      intro ops1 A0 heq h1 h2 h3 h4
      obtain ⟨A1, e1, e2, e3, e4, e5⟩ := ih ops1 (out ++ A0) h1
      rw [heq]
      refine ⟨A0 ++ A1, by rw [e1, List.append_assoc], e2, ?_, ?_, ?_⟩
      · intro x hx
        rcases List.mem_append.1 hx with hx | hx
        · exact h2 x hx
        · exact e3 x hx
      · rw [term_tokens_append, e4, h3]
      · intro o ho
        have a := e5 o ho
        have b := h4 o ho
        rw [count_type_append]
        omega
    have hcons := tokens_before_end_cons tk rest
    by_cases hE : tk.t = TokType.T_END
    · rw [if_pos hE] at hcons
      refine ⟨[], by simp [to_rpn_loop, hE], by simpa [to_rpn_loop, hE] using hops, by simp,
        by rw [hcons], ?_⟩
      intro o _
      rw [hcons]
      simp [to_rpn_loop, hE, count_type]
    · rw [if_neg hE] at hcons
      have hct : ∀ o, count_type o (tokens_before_end (tk :: rest)) =
          (if tk.t = o then 1 else 0) + count_type o (tokens_before_end rest) := by
        intro o
        rw [hcons]
        unfold count_type
        rw [List.map_cons, List.count_cons]
        by_cases h : tk.t = o
        · simp [h]; omega
        · simp [h]
      by_cases hT : tk.t = TokType.T_TERM
      · refine step ops [{ t := TokType.T_TERM, s := tk.s }] ?_ hops ?_ ?_ ?_
        · rw [to_rpn_loop, if_neg hE, if_pos hT]
        · intro x hx
          rw [List.mem_singleton.1 hx]
          simp
        · have : ({ t := TokType.T_TERM, s := tk.s } : Tok) = tk := by
            cases tk; simp only at hT; subst hT; rfl
          rw [hcons, this]
          simp [term_tokens, hT]
        · intro o ho
          rw [hct o]
          have : tk.t ≠ o := by
            rw [hT]; exact fun h => (is_op_ne o ho).2.2.1 h.symm
          rw [if_neg this]
          have : count_type o [({ t := TokType.T_TERM, s := tk.s } : Tok)] = 0 := by
            unfold count_type
            simp only [List.map_cons, List.map_nil]
            rw [List.count_singleton]
            rw [if_neg]
            simp only [beq_iff_eq]
            exact fun h => (is_op_ne o ho).2.2.1 h.symm
          omega
      · by_cases hL : tk.t = TokType.T_LP
        · refine step (TokType.T_LP :: ops) [] ?_ ?_ (by simp) ?_ ?_
          · rw [to_rpn_loop, if_neg hE, if_neg hT, if_pos hL, List.append_nil]
          · intro t ht
            rcases List.mem_cons.1 ht with rfl | ht
            · exact Or.inl rfl
            · exact hops t ht
          · rw [hcons]
            simp [term_tokens, hT]
          · intro o ho
            rw [hct o]
            have : tk.t ≠ o := by
              rw [hL]; exact fun h => (is_op_ne o ho).1 h.symm
            rw [if_neg this, List.count_cons_of_ne (is_op_ne o ho).1]
            simp [count_type]
        · by_cases hR : tk.t = TokType.T_RP
          · obtain ⟨P, R, hP, hpop, hne, hRR⟩ := pop_to_lp_spec ops out
            have hPop : ∀ p ∈ P, is_op p = true := by
              intro p hp
              rcases hops p (by rw [hP]; exact List.mem_append_left _ hp) with h | h
              · exact absurd h (hne p hp)
              · exact h
            have hA0 : ∀ x ∈ P.map Tok.op, x.t ≠ TokType.T_LP ∧ x.t ≠ TokType.T_RP := by
              intro x hx
              obtain ⟨p, hp, rfl⟩ := List.mem_map.1 hx
              exact ⟨(is_op_ne p (hPop p hp)).1, (is_op_ne p (hPop p hp)).2.1⟩
            have hterm : term_tokens (P.map Tok.op) ++ term_tokens (tokens_before_end rest) =
                term_tokens (tokens_before_end (tk :: rest)) := by
              rw [term_tokens_map_op P (fun p hp => (is_op_ne p (hPop p hp)).2.2.1), hcons]
              simp [term_tokens, hT]
            have hne_o : ∀ o, is_op o = true → tk.t ≠ o := by
              intro o ho
              rw [hR]; exact fun h => (is_op_ne o ho).2.1 h.symm
            rcases hRR with rfl | ⟨R1, rfl⟩
            · refine step [] (P.map Tok.op) ?_ (by simp) hA0 hterm ?_
              · rw [to_rpn_loop, if_neg hE, if_neg hT, if_neg hL, if_pos hR, hpop]
              · intro o ho
                rw [hct o, if_neg (hne_o o ho), count_type_map_op, hP, List.count_append]
                simp
            · refine step R1 (P.map Tok.op) ?_ ?_ hA0 hterm ?_
              · rw [to_rpn_loop, if_neg hE, if_neg hT, if_neg hL, if_pos hR, hpop]
                simp
              · intro t ht
                exact hops t (by rw [hP]; exact List.mem_append_right _ (List.mem_cons_of_mem _ ht))
              · intro o ho
                rw [hct o, if_neg (hne_o o ho), count_type_map_op, hP, List.count_append,
                  List.count_cons_of_ne (is_op_ne o ho).1]
                omega
          · by_cases hO : is_op tk.t = true
            · obtain ⟨P, R, hP, hpop, hall⟩ := pop_ops_spec tk.t ops out
              refine step (tk.t :: R) (P.map Tok.op) ?_ ?_ ?_ ?_ ?_
              · rw [to_rpn_loop, if_neg hE, if_neg hT, if_neg hL, if_neg hR, if_pos hO, hpop]
              · intro t ht
                rcases List.mem_cons.1 ht with rfl | ht
                · exact Or.inr hO
                · exact hops t (by rw [hP]; exact List.mem_append_right _ ht)
              · intro x hx
                obtain ⟨p, hp, rfl⟩ := List.mem_map.1 hx
                exact ⟨(is_op_ne p (hall p hp)).1, (is_op_ne p (hall p hp)).2.1⟩
              · rw [term_tokens_map_op P (fun p hp => (is_op_ne p (hall p hp)).2.2.1), hcons]
                simp [term_tokens, hT]
              · intro o ho
                rw [hct o, count_type_map_op, hP, List.count_append, List.count_cons]
                by_cases h : tk.t = o
                · simp [h]; omega
                · simp [h]
            · exfalso
              cases htk : tk.t <;> simp [htk, is_op] at hE hT hL hR hO

theorem tokens_before_end_body : ∀ (body tail : List Tok), (∀ tk ∈ body, tk.t ≠ TokType.T_END) →
    tokens_before_end (body ++ Tok.op TokType.T_END :: tail) = body ∧
      tokens_before_end body = body := by
  intro body
  induction body with
  | nil => intro tail _; exact ⟨by simp [tokens_before_end, Tok.op], rfl⟩
  | cons tk rest ih =>
    intro tail h
    have h1 := h tk (List.mem_cons_self _ _)
    obtain ⟨a, b⟩ := ih tail (fun x hx => h x (List.mem_cons_of_mem _ hx))
    rw [List.cons_append, tokens_before_end_cons, tokens_before_end_cons, if_neg h1, if_neg h1,
      a, b]
    exact ⟨rfl, rfl⟩

theorem push_implicit_and_no_end (prev : TokType) (out : List Tok)
    (h : ∀ tk ∈ out, tk.t ≠ TokType.T_END) :
    ∀ tk ∈ push_implicit_and prev out, tk.t ≠ TokType.T_END := by
  unfold push_implicit_and
  split_ifs
  · intro tk htk
    rcases List.mem_append.1 htk with h1 | h1
    · exact h tk h1
    · rw [List.mem_singleton.1 h1]; simp [Tok.op]
  · exact h

theorem snoc_no_end (out : List Tok) (t : Tok) (h : ∀ tk ∈ out, tk.t ≠ TokType.T_END)
    (ht : t.t ≠ TokType.T_END) : ∀ tk ∈ out ++ [t], tk.t ≠ TokType.T_END := by
  intro tk htk
  rcases List.mem_append.1 htk with h1 | h1
  · exact h tk h1
  · rw [List.mem_singleton.1 h1]; exact ht

/-- The loop of `tokenize_query` writes no `T_END`. -/
theorem tokenize_query_loop_no_end (q : List Byte) :
    ∀ (fuel i : Nat) (prev : TokType) (out r : List Tok),
      (∀ tk ∈ out, tk.t ≠ TokType.T_END) → tokenize_query_loop q fuel i prev out = some r →
      ∀ tk ∈ r, tk.t ≠ TokType.T_END := by
  intro fuel
  induction fuel with
  | zero =>
    intro i prev out r h hr
    simp only [tokenize_query_loop] at hr
    split_ifs at hr
    simp only [Option.some.injEq] at hr
    subst hr
    exact h
  | succ f ih =>
    intro i prev out r h hr
    simp only [tokenize_query_loop] at hr
    by_cases hl : i < q.length
    · rw [if_pos hl] at hr
      cases hq : q[i]? with
      | none => rw [hq] at hr; cases hr
      | some c =>
        rw [hq] at hr
        simp only at hr
        have hp := push_implicit_and_no_end prev out h
        split_ifs at hr
        · exact ih _ _ _ r h hr
        · exact ih _ _ _ r (snoc_no_end _ _ hp (by simp [Tok.op])) hr
        · exact ih _ _ _ r (snoc_no_end _ _ h (by simp [Tok.op])) hr
        · exact ih _ _ _ r (snoc_no_end _ _ hp (by simp [Tok.op])) hr
        · exact ih _ _ _ r (snoc_no_end _ _ h (by simp [Tok.op])) hr
        · exact ih _ _ _ r (snoc_no_end _ _ h (by simp [Tok.op])) hr
        · cases hrt : read_term q i with
          | none => rw [hrt] at hr; cases hr
          | some v =>
            rw [hrt] at hr
            cases v with
            | none => exact ih _ _ _ r hp hr
            | some w =>
              obtain ⟨s, pos⟩ := w
              exact ih _ _ _ r (snoc_no_end _ _ hp (by simp)) hr
    · rw [if_neg hl] at hr
      simp only [Option.some.injEq] at hr
      subst hr
      exact h

/-- The output of `tokenize_query` has one `T_END`, at its end. -/
theorem tokenize_query_body (q : List Byte) (toks : List Tok)
    (h : tokenize_query q = some toks) :
    ∃ body, toks = body ++ [Tok.op TokType.T_END] ∧ (∀ tk ∈ body, tk.t ≠ TokType.T_END) ∧
      tokens_before_end toks = body := by
  unfold tokenize_query at h
  cases hl : tokenize_query_loop q q.length 0 TokType.T_END [] with
  | none => rw [hl] at h; cases h
  | some out =>
    rw [hl] at h
    simp only [Option.some.injEq] at h
    have hne := tokenize_query_loop_no_end q q.length 0 TokType.T_END [] out (by simp) hl
    exact ⟨out, h.symm, hne, by rw [← h]; exact (tokens_before_end_body out [] hne).1⟩

/-! Claim C36. -/

/-- C36: for every token sequence, balanced or not, the output of `to_rpn` contains no
`(` and no `)`; its `TERM` tokens are the `TERM` tokens of the input, with the same
bytes and in the same order; and it contains `NOT`, `AND` and `OR` each as many times as
the input does. The input is the sequence up to its first `T_END`, where the loop of
`to_rpn` stops: for a sequence `body ++ [T_END]` with no `T_END` in `body`, such as every
output of `tokenize_query`, that is `body`. An example with unbalanced parentheses is
`) a ( && b`, which gives `a b &&`. -/
theorem to_rpn_lenient (ts : List Tok) :
    (∀ tk ∈ to_rpn ts, tk.t ≠ TokType.T_LP ∧ tk.t ≠ TokType.T_RP) ∧
    term_tokens (to_rpn ts) = term_tokens (tokens_before_end ts) ∧
    count_type TokType.T_NOT (to_rpn ts) = count_type TokType.T_NOT (tokens_before_end ts) ∧
    count_type TokType.T_AND (to_rpn ts) = count_type TokType.T_AND (tokens_before_end ts) ∧
    count_type TokType.T_OR (to_rpn ts) = count_type TokType.T_OR (tokens_before_end ts) ∧
    (∀ body tail : List Tok, (∀ tk ∈ body, tk.t ≠ TokType.T_END) →
      tokens_before_end (body ++ Tok.op TokType.T_END :: tail) = body ∧
        tokens_before_end body = body) ∧
    (∀ (q : List Byte) (toks : List Tok), tokenize_query q = some toks →
      ∃ body, toks = body ++ [Tok.op TokType.T_END] ∧ (∀ tk ∈ body, tk.t ≠ TokType.T_END) ∧
        tokens_before_end toks = body) ∧
    to_rpn [Tok.op TokType.T_RP, { t := TokType.T_TERM, s := [0x61] }, Tok.op TokType.T_LP,
        Tok.op TokType.T_AND, { t := TokType.T_TERM, s := [0x62] }, Tok.op TokType.T_END] =
      [{ t := TokType.T_TERM, s := [0x61] }, { t := TokType.T_TERM, s := [0x62] },
        Tok.op TokType.T_AND, Tok.op TokType.T_END] := by
  obtain ⟨A, hA, hops, hnp, hterm, hcount⟩ := to_rpn_loop_inv ts [] [] (by simp)
  have hrpn : to_rpn ts = A ++ ((to_rpn_loop ts [] []).1.filter
      (fun t => decide (t ≠ TokType.T_LP))).map Tok.op ++ [Tok.op TokType.T_END] := by
    unfold to_rpn
    rw [← Prod.mk.eta (p := to_rpn_loop ts [] [])]
    simp only
    rw [pop_all_spec, hA, List.nil_append]
  have hfil : ∀ p ∈ (to_rpn_loop ts [] []).1.filter (fun t => decide (t ≠ TokType.T_LP)),
      is_op p = true := by
    intro p hp
    rw [List.mem_filter] at hp
    rcases hops p hp.1 with h | h
    · simp [h] at hp
    · exact h
  have hcnt : ∀ o, is_op o = true → count_type o (to_rpn ts) =
      count_type o (tokens_before_end ts) := by
    intro o ho
    have := hcount o ho
    rw [hrpn, count_type_append, count_type_append, count_type_map_op]
    have h1 : List.count o ((to_rpn_loop ts [] []).1.filter
        (fun t => decide (t ≠ TokType.T_LP))) = List.count o (to_rpn_loop ts [] []).1 := by
      rw [List.count_filter]
      simpa using (is_op_ne o ho).1
    have h2 : count_type o [Tok.op TokType.T_END] = 0 := by
      unfold count_type
      simp only [List.map_cons, List.map_nil]
      rw [List.count_singleton, if_neg]
      simp only [beq_iff_eq, Tok.op]
      exact fun h => (is_op_ne o ho).2.2.2 h.symm
    rw [h1, h2]
    simp only [List.count_nil, Nat.zero_add] at this
    omega
  refine ⟨?_, ?_, hcnt _ (by decide), hcnt _ (by decide), hcnt _ (by decide),
    tokens_before_end_body, tokenize_query_body, by decide⟩
  · intro tk htk
    rw [hrpn] at htk
    rcases List.mem_append.1 htk with h | h
    · rcases List.mem_append.1 h with h | h
      · exact hnp tk h
      · obtain ⟨p, hp, rfl⟩ := List.mem_map.1 h
        exact ⟨(is_op_ne p (hfil p hp)).1, (is_op_ne p (hfil p hp)).2.1⟩
    · rw [List.mem_singleton.1 h]
      simp [Tok.op]
  · rw [hrpn, term_tokens_append, term_tokens_append, hterm,
      term_tokens_map_op _ (fun p hp => (is_op_ne p (hfil p hp)).2.2.1)]
    simp [term_tokens, Tok.op]

/-! Rehashing to any power-of-two capacity with room. -/

/-- Rehashing to a power-of-two capacity under the load factor keeps the dictionary
and its entries. -/
theorem dict_rehash_pow (d : TermDict) (terms : List (List Byte)) (j : Nat)
    (h : DictInv d terms) (hj : d.size * 10 < 2 ^ j * 7) :
    ∃ d1, dict_rehash d (2 ^ j) = some d1 ∧ DictInv d1 terms ∧ d1.cap = 2 ^ j ∧
      d1.size = d.size ∧ d1.pool = d.pool ∧
      (d1.tab.filter (fun e => e.used)).Perm (d.tab.filter (fun e => e.used)) := by
  obtain ⟨⟨k, hk⟩, hlen, hsize, hload, hnodup, hpath, hperm, hent⟩ := h
  have hcnt : (d.tab.filter (fun e => e.used)).length = d.size := by
    have := hperm.length_eq
    simpa using this
  have hmask : ∀ x, x &&& (2 ^ j - 1) = x % (2 ^ j) := fun x => land_mask_eq_mod x j
  have htake : d.tab.take d.cap = d.tab := by rw [← hlen, List.take_length]
  obtain ⟨nt1, h1, h2, h3, h4⟩ := dict_rehash_loop_spec (2 ^ j - 1) (2 ^ j) hmask
    d.tab (List.replicate (2 ^ j) TermEntry.zero) 0 [] (by simp) (pathOK_replicate _)
    (by rw [filter_used_replicate]) rfl (by simp only [List.length_nil]; omega)
  simp only [List.length_nil, Nat.zero_add, List.append_nil] at h1 h4
  refine ⟨{ d with tab := nt1, cap := 2 ^ j, size := d.size }, ?_, ?_, rfl, rfl, rfl, h4⟩
  · unfold dict_rehash
    rw [htake, h1, hcnt]
  · refine ⟨⟨j, rfl⟩, h2, hsize, hj, hnodup, h3, ?_, entOK_of_mem_perm h4 hent⟩
    exact (h4.map _).trans hperm

/-- A term that the dictionary holds is found, with its id, and the dictionary keeps
its size and its pool. -/
theorem dict_get_or_add_found (d : TermDict) (terms : List (List Byte)) (s : List Byte)
    (h : DictInv d terms) (hs : s ∈ terms) :
    ∃ d1 id, dict_get_or_add d s = some (d1, id) ∧ terms[id]? = some s ∧
      d1.size = d.size ∧ d1.pool = d.pool := by
  obtain ⟨d1, id, h1, h2⟩ := dict_get_or_add_spec d terms s h
  rcases h2 with ⟨_, hid, _, hsz, hp, _⟩ | ⟨hno, _⟩
  · exact ⟨d1, id, h1, hid, hsz, hp⟩
  · exact absurd hs hno

/-! Claim C37. -/

/-- C37: let the dictionary hold the terms `terms` and let the new capacity be a power
of two under the load factor (as is `cap * 2` at the call in `dict_get_or_add`). Then
`dict_rehash` returns; the byte pool and `size` are unchanged; the entries in use are
the same records (hash, pool offset, length, term id, `df` and posting chain), only
their slots may differ; and every term that was present is found by `dict_get_or_add`
after the rehash with the term id it is found with before, without a change of size or
pool. -/
theorem dict_rehash_frame (d : TermDict) (terms : List (List Byte)) (j : Nat)
    (h : DictInv d terms) (hj : d.size * 10 < 2 ^ j * 7) :
    (∃ k, d.cap * 2 = 2 ^ k ∧ d.size * 10 < 2 ^ k * 7) ∧
    ∃ d1, dict_rehash d (2 ^ j) = some d1 ∧ d1.cap = 2 ^ j ∧ d1.tab.length = 2 ^ j ∧
      d1.pool = d.pool ∧ d1.size = d.size ∧
      (d1.tab.filter (fun e => e.used)).Perm (d.tab.filter (fun e => e.used)) ∧
      ∀ s ∈ terms, ∃ d2 d3 id, dict_get_or_add d s = some (d2, id) ∧
        dict_get_or_add d1 s = some (d3, id) ∧ terms[id]? = some s ∧
        d3.size = d.size ∧ d3.pool = d.pool := by
  constructor
  · obtain ⟨⟨k, hk⟩, _, _, hload, _⟩ := h
    exact ⟨k + 1, by rw [pow_succ, ← hk], by rw [pow_succ, ← hk]; omega⟩
  · obtain ⟨d1, h1, hinv, hcap, hsz, hpool, hperm⟩ := dict_rehash_pow d terms j h hj
    refine ⟨d1, h1, hcap, by rw [hinv.2.1, hcap], hpool, hsz, hperm, ?_⟩
    intro s hs
    obtain ⟨d2, id, e1, e2, _, _⟩ := dict_get_or_add_found d terms s h hs
    obtain ⟨d3, id1, f1, f2, f3, f4⟩ := dict_get_or_add_found d1 terms s hinv hs
    have : id1 = id := nodup_getElem?_inj h.2.2.2.2.1 f2 e2
    subst this
    exact ⟨d2, d3, id1, e1, f1, e2, by rw [f3, hsz], by rw [f4, hpool]⟩

theorem dict_rehash_frame_witness :
    DictInv dict_three (distinct_terms [] [[0x63], [0x61, 0x62], [0x61]]) ∧
    dict_three.size * 10 < 2 ^ 5 * 7 ∧
    ((∃ k, dict_three.cap * 2 = 2 ^ k ∧ dict_three.size * 10 < 2 ^ k * 7) ∧
    ∃ d1, dict_rehash dict_three (2 ^ 5) = some d1 ∧ d1.cap = 2 ^ 5 ∧ d1.tab.length = 2 ^ 5 ∧
      d1.pool = dict_three.pool ∧ d1.size = dict_three.size ∧
      (d1.tab.filter (fun e => e.used)).Perm (dict_three.tab.filter (fun e => e.used)) ∧
      ∀ s ∈ distinct_terms [] [[0x63], [0x61, 0x62], [0x61]],
        ∃ d2 d3 id, dict_get_or_add dict_three s = some (d2, id) ∧
          dict_get_or_add d1 s = some (d3, id) ∧
          (distinct_terms [] [[0x63], [0x61, 0x62], [0x61]])[id]? = some s ∧
          d3.size = dict_three.size ∧ d3.pool = dict_three.pool) :=
  have hsz : dict_three.size * 10 < 2 ^ 5 * 7 := by
    rw [dictInv_dict_three.2.2.1]; decide
  ⟨dictInv_dict_three, hsz,
    dict_rehash_frame dict_three (distinct_terms [] [[0x63], [0x61, 0x62], [0x61]]) 5
      dictInv_dict_three hsz⟩

/-! The load factor of a document set, for any sequence of term ids. -/

theorem docset_cap_loop_total (need : Nat) :
    ∀ (fuel a : Nat), need ≤ 2 ^ (a + fuel) →
      ∃ b, docset_cap_loop fuel (2 ^ a) need = some (2 ^ b) ∧ need ≤ 2 ^ b := by
  intro fuel
  induction fuel with
  | zero =>
    intro a h
    refine ⟨a, ?_, h⟩
    simp only [docset_cap_loop]
    rw [if_neg (by simpa using h)]
  | succ fuel ih =>
    intro a h
    by_cases hlt : 2 ^ a < need
    · simp only [docset_cap_loop, if_pos hlt, Nat.shiftLeft_eq, pow_one]
      rw [← pow_succ]
      exact ih (a + 1) (by rw [show a + 1 + fuel = a + (fuel + 1) by omega]; exact h)
    · refine ⟨a, ?_, by omega⟩
      simp only [docset_cap_loop, if_neg hlt]

theorem dsLoad_free (s : DocSet) (h : DsLoad s) : ∃ q, q < s.tab.length ∧
    s.tab[q]? = some DOCSET_EMPTY := by
  obtain ⟨⟨k, hk⟩, hlen, hcnt, hload⟩ := h
  obtain ⟨q, hq, hfree⟩ := ds_exists_free_of_count s.tab (by rw [hlen]; omega)
  exact ⟨q, hq, (not_dsOcc_iff s.tab q hq).1 hfree⟩

theorem docset_init_load (cap : Nat) :
    ∃ s, docset_init cap = some s ∧ DsLoad s ∧ s.size = 0 ∧ cap ≤ s.cap := by
  obtain ⟨b, hb, hle⟩ := docset_cap_loop_total cap cap 0
    (by rw [Nat.zero_add]; exact Nat.le_of_lt (Nat.lt_two_pow cap))
  rw [pow_zero] at hb
  refine ⟨{ tab := List.replicate (2 ^ b) DOCSET_EMPTY, cap := 2 ^ b, size := 0 }, ?_, ?_, rfl,
    hle⟩
  · unfold docset_init
    rw [hb]
  · refine ⟨⟨b, rfl⟩, by simp, ?_, ?_⟩
    · show ((List.replicate (2 ^ b) DOCSET_EMPTY).filter _).length ≤ 0
      rw [ds_filter_replicate]; simp
    · show 0 * 10 < 2 ^ b * 7
      have := Nat.two_pow_pos b
      omega

theorem docset_rehash_load (s : DocSet) (h : DsLoad s) :
    ∃ s1, docset_rehash s (s.cap * 2) = some s1 ∧ DsLoad s1 ∧ s1.cap = s.cap * 2 ∧
      s1.size = s.size := by
  obtain ⟨⟨k, hk⟩, hlen, hcnt, hload⟩ := h
  have hcap2 : s.cap * 2 = 2 ^ (k + 1) := by rw [pow_succ, ← hk]
  have hmask : ∀ x, x &&& (s.cap * 2 - 1) = x % (s.cap * 2) := by
    intro x
    rw [hcap2]
    exact land_mask_eq_mod x (k + 1)
  have htake : s.tab.take s.cap = s.tab := by rw [← hlen, List.take_length]
  obtain ⟨nt1, h1, h2, _, h4⟩ := docset_rehash_loop_spec (s.cap * 2 - 1) (s.cap * 2) hmask
    s.tab (List.replicate (s.cap * 2) DOCSET_EMPTY) [] (by simp) (dsPathOK_replicate _)
    (by rw [ds_filter_replicate]) (by simp only [List.length_nil]; omega)
  simp only [List.append_nil] at h4
  refine ⟨{ s with tab := nt1, cap := s.cap * 2 }, ?_, ?_, rfl, rfl⟩
  · unfold docset_rehash
    have hloop : docset_cap_loop (s.cap * 2) 1 (s.cap * 2) = some (s.cap * 2) := by
      rw [hcap2]; exact docset_cap_loop_pow (k + 1)
    rw [hloop]
    simp only [htake, h1]
  · refine ⟨⟨k + 1, hcap2⟩, h2, ?_, ?_⟩
    · show (nt1.filter _).length ≤ s.size
      rw [h4.length_eq]; exact hcnt
    · show s.size * 10 < s.cap * 2 * 7
      omega

/-- The probe loop of `docset_add` ends when a slot on its way is empty. -/
theorem docset_probe_total (tab : List Nat) (x mask : Nat)
    (hmask : ∀ y, y &&& mask = y % tab.length) :
    ∀ (j pos fuel : Nat), pos < tab.length → j < fuel →
      tab[(pos + j) % tab.length]? = some DOCSET_EMPTY →
      ∃ r, docset_probe tab x mask fuel pos = some r ∧
        (r = ProbeResult.found x ∨ ∃ p, r = ProbeResult.free p ∧ tab[p]? = some DOCSET_EMPTY) := by
  intro j
  induction j with
  | zero =>
    intro pos fuel hpos hf he
    rw [Nat.add_zero, Nat.mod_eq_of_lt hpos] at he
    cases fuel with
    | zero => omega
    | succ f =>
      simp only [docset_probe, he]
      rw [if_pos trivial]
      exact ⟨_, rfl, Or.inr ⟨pos, rfl, he⟩⟩
  | succ j ih =>
    intro pos fuel hpos hf he
    cases fuel with
    | zero => omega
    | succ f =>
      obtain ⟨cur, hcur⟩ := getElem?_of_lt tab pos hpos
      simp only [docset_probe, hcur]
      by_cases h1 : cur = DOCSET_EMPTY
      · rw [if_pos h1]
        exact ⟨_, rfl, Or.inr ⟨pos, rfl, by rw [hcur, h1]⟩⟩
      · rw [if_neg h1]
        by_cases h2 : cur = x
        · rw [if_pos h2]
          exact ⟨_, rfl, Or.inl rfl⟩
        · rw [if_neg h2, hmask]
          have hlen : 0 < tab.length := by omega
          refine ih ((pos + 1) % tab.length) f (Nat.mod_lt _ hlen) (by omega) ?_
          rw [add_mod_succ]
          exact he

theorem set_self_of_getElem? {α : Type} (l : List α) (p : Nat) (v : α) (h : l[p]? = some v) :
    l.set p v = l := by
  apply List.ext_getElem?
  intro i
  rw [List.getElem?_set]
  by_cases hi : p = i
  · subst hi
    rw [if_pos rfl, h]
    have := (List.getElem?_eq_some_iff.1 h).1
    simp [this]
  · rw [if_neg hi]

theorem ds_filter_set_le (tab : List Nat) (p x : Nat) (h : tab[p]? = some DOCSET_EMPTY) :
    ((tab.set p x).filter (fun v => decide (v ≠ DOCSET_EMPTY))).length ≤
      (tab.filter (fun v => decide (v ≠ DOCSET_EMPTY))).length + 1 := by
  by_cases hx : x = DOCSET_EMPTY
  · rw [hx, set_self_of_getElem? tab p _ h]
    omega
  · have := (ds_filter_set x hx tab p h).length_eq
    rw [this, List.length_cons]

/-- Function `docset_add` returns for every term id and keeps the load factor. -/
theorem docset_add_load (s : DocSet) (x : Nat) (h : DsLoad s) :
    ∃ s1 b, docset_add s x = some (s1, b) ∧ DsLoad s1 := by
  have hgrow : ∃ s0, (if (s.size + 1) * 10 ≥ s.cap * 7 then docset_rehash s (s.cap * 2)
      else some s) = some s0 ∧ DsLoad s0 ∧ (s0.size + 1) * 10 < s0.cap * 7 := by
    by_cases hc : (s.size + 1) * 10 ≥ s.cap * 7
    · rw [if_pos hc]
      obtain ⟨s1, h1, h2, h3, h4⟩ := docset_rehash_load s h
      refine ⟨s1, h1, h2, ?_⟩
      obtain ⟨⟨k, hk⟩, _, _, hload⟩ := h
      have hcap : 0 < s.cap := by rw [hk]; exact Nat.two_pow_pos k
      rw [h3, h4]
      rcases Nat.eq_zero_or_pos s.size with hz | hz <;> omega
    · rw [if_neg hc]
      exact ⟨s, rfl, h, by omega⟩
  obtain ⟨s0, hg, hinv0, hroom⟩ := hgrow
  obtain ⟨q, hq, hfree⟩ := dsLoad_free s0 hinv0
  obtain ⟨⟨k, hk⟩, hlen, hcnt, hload⟩ := hinv0
  have hmask : ∀ y, y &&& (s0.cap - 1) = y % s0.tab.length := by
    intro y; rw [hlen, hk]; exact land_mask_eq_mod y k
  have hpos : 0 < s0.tab.length := by rw [hlen, hk]; exact Nat.two_pow_pos k
  have hhome : mix32 x % s0.tab.length < s0.tab.length := Nat.mod_lt _ hpos
  obtain ⟨j, hj, hjq⟩ : ∃ j, j < s0.tab.length ∧
      (mix32 x % s0.tab.length + j) % s0.tab.length = q := by
    by_cases hge : mix32 x % s0.tab.length ≤ q
    · refine ⟨q - mix32 x % s0.tab.length, by omega, ?_⟩
      rw [Nat.add_sub_cancel' hge, Nat.mod_eq_of_lt hq]
    · refine ⟨q + s0.tab.length - mix32 x % s0.tab.length, by omega, ?_⟩
      rw [← Nat.add_sub_assoc (by omega), Nat.add_comm (mix32 x % s0.tab.length),
        Nat.add_sub_cancel, Nat.add_mod_right, Nat.mod_eq_of_lt hq]
  obtain ⟨r, hr, hcase⟩ := docset_probe_total s0.tab x (s0.cap - 1) hmask j
    (mix32 x % s0.tab.length) s0.cap hhome (by rw [← hlen]; exact hj) (by rw [hjq]; exact hfree)
  rcases hcase with rfl | ⟨p, rfl, hp⟩
  · refine ⟨s0, false, ?_, ⟨k, hk⟩, hlen, hcnt, hload⟩
    unfold docset_add
    rw [hg]
    simp only [hmask, hr]
  · refine ⟨DocSet.mk (s0.tab.set p x) s0.cap (s0.size + 1), true, ?_, ⟨k, hk⟩, ?_, ?_, hroom⟩
    · unfold docset_add
      rw [hg]
      simp only [hmask, hr]
    · show (s0.tab.set _ _).length = s0.cap
      rw [List.length_set]; exact hlen
    · show ((s0.tab.set p x).filter _).length ≤ s0.size + 1
      have := ds_filter_set_le s0.tab p x hp
      omega

theorem docset_add_all_load : ∀ (ids : List Nat) (s : DocSet), DsLoad s →
    ∃ s1, docset_add_all s ids = some s1 ∧ DsLoad s1 := by
  intro ids
  induction ids with
  | nil => intro s h; exact ⟨s, rfl, h⟩
  | cons x rest ih =>
    intro s h
    obtain ⟨s1, b, h1, h2⟩ := docset_add_load s x h
    obtain ⟨s2, h3, h4⟩ := ih s1 h2
    exact ⟨s2, by simp only [docset_add_all, h1, h3], h4⟩

/-! Claim C38. -/

/-- C38: from an empty dictionary of capacity `2 ^ k`, every sequence of
`dict_get_or_add` calls returns (each probe loop of `dict_get_or_add` and of
`dict_rehash` ends within `cap` steps), and the dictionary it leaves has a power-of-two
capacity, `size * 10 < cap * 7` and a slot that is not in use. From the set that
`docset_init` builds for any requested capacity, every sequence of `docset_add` calls,
for any term ids, returns (each probe loop of `docset_add` and of `docset_rehash`
ends within `cap` steps), and the set it leaves has a power-of-two capacity,
`size * 10 < cap * 7` and an empty slot. -/
theorem load_factor_invariant (k : Nat) (calls : List (List Byte)) (cap : Nat)
    (ids : List Nat) :
    (∃ d r, dict_add_all (dict_init (2 ^ k)) calls = some (d, r) ∧ (∃ j, d.cap = 2 ^ j) ∧
      d.tab.length = d.cap ∧ d.size * 10 < d.cap * 7 ∧
      ∃ (p : Nat) (e : TermEntry), d.tab[p]? = some e ∧ e.used = false) ∧
    (∃ s0 s, docset_init cap = some s0 ∧ s0.size = 0 ∧ (∃ j, s0.cap = 2 ^ j) ∧
      docset_add_all s0 ids = some s ∧ (∃ j, s.cap = 2 ^ j) ∧ s.tab.length = s.cap ∧
      s.size * 10 < s.cap * 7 ∧ ∃ p : Nat, s.tab[p]? = some DOCSET_EMPTY) := by
  constructor
  · obtain ⟨d, r, h1, hinv, _⟩ := dict_add_all_spec calls (dict_init (2 ^ k)) [] (dictInv_init k)
    obtain ⟨hk, hlen, hsize, hload, _, _, hperm, _⟩ := hinv
    have hcnt : (d.tab.filter (fun e => e.used)).length = d.size := by
      have := hperm.length_eq
      simpa using this
    obtain ⟨q, hq, hfree⟩ := exists_free_of_count d.tab (by rw [hcnt, hlen]; omega)
    obtain ⟨e, he, hu⟩ := (not_usedAt_iff d.tab q hq).1 hfree
    exact ⟨d, r, h1, hk, hlen, hload, q, e, he, hu⟩
  · obtain ⟨s0, h0, hl0, hz, _⟩ := docset_init_load cap
    obtain ⟨s, h1, hl⟩ := docset_add_all_load ids s0 hl0
    obtain ⟨q, _, hfree⟩ := dsLoad_free s hl
    exact ⟨s0, s, h0, hz, hl0.1, h1, hl.1, hl.2.1, hl.2.2.2, q, hfree⟩

/-! The fields of the `List` that `list_from_term` returns. -/

theorem load_postings_loop_length (buf : List Byte) (p : Nat) :
    ∀ (c i : Nat) (l : List Nat), load_postings_loop buf p c i = some l → l.length = c := by
  intro c
  induction c with
  | zero =>
    intro i l h
    simp only [load_postings_loop, Option.some.injEq] at h
    rw [← h]; rfl
  | succ c ih =>
    intro i l h
    simp only [load_postings_loop] at h
    cases h1 : rd_u32 buf (p + 4 * i) with
    | none => rw [h1] at h; cases h
    | some v =>
      rw [h1] at h
      cases h2 : load_postings_loop buf p c (i + 1) with
      | none => rw [h2] at h; cases h
      | some rest =>
        rw [h2] at h
        simp only [Option.some.injEq] at h
        rw [← h, List.length_cons, ih (i + 1) rest h2]

/-- What `list_from_term` returns: when it holds an array, `n` is the number of its
ids; when it holds the null pointer, `n` is 0, or `n` is the non-zero `df` of an entry
whose posting range ends behind the end of the file. -/
theorem list_from_term_raw_shape (iv : IndexView) (term : List Byte) (r : PostList)
    (h : list_from_term_raw iv term = some r) :
    (∃ l, r.a = some l ∧ l.length = r.n) ∨ (r.a = none ∧ r.n = 0) ∨
      (r.a = none ∧ r.n ≠ 0 ∧ ∃ off, dict_find iv term = some (some (off, r.n)) ∧
        iv.bytes < ((iv.postings_offset + off) % 2 ^ 64 + r.n * 4) % 2 ^ 64) := by
  unfold list_from_term_raw at h
  cases hf : dict_find iv term with
  | none => rw [hf] at h; cases h
  | some v =>
    rw [hf] at h
    cases v with
    | none =>
      simp only [Option.some.injEq] at h
      rw [← h]; exact Or.inr (Or.inl ⟨rfl, rfl⟩)
    | some w =>
      obtain ⟨off, df⟩ := w
      simp only at h
      by_cases hdf : df = 0
      · rw [if_pos hdf] at h
        simp only [Option.some.injEq] at h
        rw [← h]; exact Or.inr (Or.inl ⟨rfl, rfl⟩)
      · rw [if_neg hdf] at h
        cases hl : load_postings iv off df with
        | none => rw [hl] at h; cases h
        | some p =>
          rw [hl] at h
          simp only [Option.some.injEq] at h
          rw [← h]
          unfold load_postings at hl
          simp only at hl
          by_cases hneed : ((iv.postings_offset + off) % 2 ^ 64 + df * 4) % 2 ^ 64 > iv.bytes
          · rw [if_pos hneed] at hl
            simp only [Option.some.injEq] at hl
            rw [← hl]
            exact Or.inr (Or.inr ⟨rfl, hdf, off, rfl, hneed⟩)
          · rw [if_neg hneed] at hl
            cases hq : load_postings_loop iv.base ((iv.postings_offset + off) % 2 ^ 64) df 0 with
            | none => rw [hq] at hl; cases hl
            | some a =>
              rw [hq] at hl
              simp only [Option.some.injEq] at hl
              rw [← hl]
              exact Or.inl ⟨a, rfl, load_postings_loop_length _ _ _ _ _ hq⟩

set_option maxRecDepth 100000 in
theorem short_postings_file_length : short_postings_file.length = 190 := by
  decide

set_option maxRecDepth 100000 in
theorem short_postings_file_loads :
    load_index short_postings_file = some short_postings_view := by
  decide

set_option maxRecDepth 100000 in
theorem short_postings_lookup :
    dict_find short_postings_view [0x62] = some (some (4, 5)) ∧
    load_postings short_postings_view 4 5 = some none ∧
    list_from_term_raw short_postings_view [0x62] = some { a := none, n := 5 } := by
  decide

/-! Claim C40. -/

/-- C40: the file `short_postings_file` of 190 bytes is accepted by `load_index`; its
entry `b` has `df = 5` and posting offset 4, so that its posting range ends at
`170 + 4 + 4 * 5 = 194`, behind the end of the file. `load_postings` returns the null
pointer for it, and `list_from_term` returns the `List` with the null pointer and
`n = 5`: a list whose `n` is not the number of ids it holds. -/
theorem list_from_term_null_with_count :
    short_postings_file.length = 190 ∧
    load_index short_postings_file = some short_postings_view ∧
    dict_find short_postings_view [0x62] = some (some (4, 5)) ∧
    short_postings_view.postings_offset + 4 + 4 * 5 = 194 ∧
    load_postings short_postings_view 4 5 = some none ∧
    list_from_term_raw short_postings_view [0x62] = some { a := none, n := 5 } :=
  ⟨short_postings_file_length, short_postings_file_loads, short_postings_lookup.1, rfl,
    short_postings_lookup.2.1, short_postings_lookup.2.2⟩

/-- The list that the evaluator works with is the array of the `List` that
`list_from_term` returns; a `List` with the null pointer is the empty list when its `n`
is 0 and has no counterpart otherwise. -/
theorem list_from_term_of_raw (iv : IndexView) (term : List Byte) :
    list_from_term iv term =
      (list_from_term_raw iv term).bind (fun r =>
        match r.a with
        | some a => some a
        | none => if r.n = 0 then some [] else none) := by
  unfold list_from_term list_from_term_raw
  cases hf : dict_find iv term with
  | none => rfl
  | some v =>
    cases v with
    | none => rfl
    | some w =>
      obtain ⟨off, df⟩ := w
      simp only
      by_cases hdf : df = 0
      · rw [if_pos hdf, if_pos hdf]; rfl
      · rw [if_neg hdf, if_neg hdf]
        cases hl : load_postings iv off df with
        | none => rfl
        | some p =>
          cases p with
          | none => simp [hdf]
          | some a => rfl

/-! Function `print_results`. -/

/-- The loop of `print_results` when every document of the result has metadata in the
file: one row for each position from `i` up to `e`, in order. -/
theorem print_results_loop_rows (iv : IndexView) (res : List Nat) (e : Nat)
    (he : e ≤ res.length)
    (hmeta : ∀ doc_id ∈ res, ∃ m,
      (if iv.version ≥ 2 then get_doc_meta_v2 iv doc_id else get_doc_meta_v1 iv doc_id) =
        some (some m) ∧ m.title + m.title_len ≤ iv.base.length) :
    ∀ (fuel i : Nat) (rows : List ResultRow), e - i ≤ fuel →
      ∃ R, print_results_loop iv res e fuel i rows = some (rows ++ R) ∧
        R.map (fun r => r.doc_id) = (res.drop i).take (e - i) := by
  intro fuel
  induction fuel with
  | zero =>
    intro i rows hf
    refine ⟨[], ?_, ?_⟩
    · simp only [print_results_loop]
      rw [if_neg (by omega), List.append_nil]
    · rw [show e - i = 0 by omega]; rfl
  | succ f ih =>
    intro i rows hf
    simp only [print_results_loop]
    by_cases hi : i < e
    · rw [if_pos hi]
      obtain ⟨d, hd⟩ := getElem?_of_lt res i (by omega)
      obtain ⟨m, hm, hlen⟩ := hmeta d (List.getElem?_mem hd)
      rw [hd]
      simp only [hm]
      rw [if_pos hlen]
      obtain ⟨R, hR, hmap⟩ := ih (i + 1)
        (rows ++ [{ doc_id := d, page_id := m.page_id,
                    title := (iv.base.drop m.title).take m.title_len,
                    url := base_url_by_source m.source_id }]) (by omega)
      refine ⟨{ doc_id := d, page_id := m.page_id,
                title := (iv.base.drop m.title).take m.title_len,
                url := base_url_by_source m.source_id } :: R, ?_, ?_⟩
      · rw [hR, List.append_assoc]; rfl
      · rw [List.map_cons, hmap, drop_of_getElem? res i d hd,
          show e - i = (e - (i + 1)) + 1 by omega, List.take_succ_cons]
    · rw [if_neg hi]
      refine ⟨[], by rw [List.append_nil], ?_⟩
      rw [show e - i = 0 by omega]; rfl

/-- Function `print_results` when every document of the result has metadata in the
file: it reports `total` and prints the rows of the positions from `offset` up to the
end that it computes; when `offset + limit` fits `uint32_t` these are the positions
`offset ≤ i < min (offset + limit) total`. -/
theorem print_results_rows (iv : IndexView) (res : List Nat) (limit offset : Nat)
    (hmeta : ∀ doc_id ∈ res, ∃ m,
      (if iv.version ≥ 2 then get_doc_meta_v2 iv doc_id else get_doc_meta_v1 iv doc_id) =
        some (some m) ∧ m.title + m.title_len ≤ iv.base.length) :
    ∃ rows, print_results iv res limit offset = some (res.length, rows) ∧
      rows.map (fun r => r.doc_id) =
        (res.drop offset).take (min ((offset + limit) % 2 ^ 32) res.length - offset) ∧
      (offset + limit < 2 ^ 32 →
        rows.map (fun r => r.doc_id) = (res.drop offset).take limit) := by
  have hmin : (if (offset + limit) % 2 ^ 32 > res.length then res.length
      else (offset + limit) % 2 ^ 32) = min ((offset + limit) % 2 ^ 32) res.length := by
    by_cases h : (offset + limit) % 2 ^ 32 > res.length
    · rw [if_pos h, Nat.min_eq_right (by omega)]
    · rw [if_neg h, Nat.min_eq_left (by omega)]
  obtain ⟨R, hR, hmap⟩ := print_results_loop_rows iv res
    (min ((offset + limit) % 2 ^ 32) res.length) (Nat.min_le_right _ _) hmeta
    (min ((offset + limit) % 2 ^ 32) res.length - offset) offset [] (le_refl _)
  refine ⟨R, ?_, hmap, ?_⟩
  · unfold print_results
    simp only
    rw [hmin, hR]
    rfl
  · intro hfit
    rw [hmap, Nat.mod_eq_of_lt hfit]
    apply List.ext_getElem?
    intro n
    rw [List.getElem?_take, List.getElem?_take]
    by_cases h1 : n < limit
    · rw [if_pos h1]
      by_cases h2 : n < min (offset + limit) res.length - offset
      · rw [if_pos h2]
      · rw [if_neg h2, List.getElem?_drop, List.getElem?_eq_none]
        omega
    · rw [if_neg h1, if_neg]
      have := Nat.min_le_left (offset + limit) res.length
      omega

set_option maxRecDepth 100000 in
theorem two_doc_file_loads :
    two_doc_file.length = 187 ∧ load_index two_doc_file = some two_doc_view := by
  decide

set_option maxRecDepth 100000 in
theorem two_doc_pages :
    print_results two_doc_view [1, 2] 0xFFFFFFFF 1 = some (2, []) ∧
    print_results two_doc_view [1, 2] 1 1 =
      some (2, [{ doc_id := 2, page_id := 11, title := [0x42, 0x43],
                  url := "https://ru.wikisource.org/?curid=" }]) ∧
    print_results two_doc_view [1, 2] 50 0 =
      some (2, [{ doc_id := 1, page_id := 10, title := [0x41],
                  url := "https://ru.wikipedia.org/?curid=" },
                { doc_id := 2, page_id := 11, title := [0x42, 0x43],
                  url := "https://ru.wikisource.org/?curid=" }]) := by
  decide

/-! Claim C31. -/

/-- C31: on the index of two documents and the result list `[1, 2]`, `print_results`
with `offset = 1` and `limit = 0xFFFFFFFF` reports `total = 2` and prints no row,
although position 1 satisfies `offset ≤ 1 < min (offset + limit) total` for the
unbounded sum: the sum `offset + limit` of `uint32_t` is 0. With `limit = 1` the row of
position 1 is printed. -/
theorem print_results_offset_limit_wraps :
    load_index two_doc_file = some two_doc_view ∧
    (1 ≤ 1 ∧ 1 < min (1 + 0xFFFFFFFF) ([1, 2] : List Nat).length) ∧
    (1 + 0xFFFFFFFF) % 2 ^ 32 = 0 ∧
    print_results two_doc_view [1, 2] 0xFFFFFFFF 1 = some (2, []) ∧
    print_results two_doc_view [1, 2] 1 1 =
      some (2, [{ doc_id := 2, page_id := 11, title := [0x42, 0x43],
                  url := "https://ru.wikisource.org/?curid=" }]) :=
  ⟨two_doc_file_loads.2, by decide, by decide, two_doc_pages.1, two_doc_pages.2.1⟩

/-! The lists on the stack of `eval_rpn`. -/

/-- The loop of `eval_rpn` from a stack of strictly ascending lists with ids in
`[1, D]`, when the lookups of its terms give such lists: it ends, and when it returns,
it returns such a list. -/
theorem eval_rpn_loop_sorted (iv : IndexView) (D : Nat) :
    ∀ (rpn : List Tok) (st : List (List Nat)),
      (∀ tk ∈ rpn, tk.t = TokType.T_TERM → ∃ l, list_from_term iv tk.s = some l ∧
        l.Pairwise (fun a b => a < b) ∧ ∀ x ∈ l, 1 ≤ x ∧ x ≤ D) →
      (∀ l ∈ st, l.Pairwise (fun a b => a < b) ∧ ∀ x ∈ l, 1 ≤ x ∧ x ≤ D) →
      ∃ o, eval_rpn_loop iv (universe_list D) rpn st = some o ∧
        ∀ r, o = Outcome.ret r → r.Pairwise (fun a b => a < b) ∧ ∀ x ∈ r, 1 ≤ x ∧ x ≤ D := by
  have hfin : ∀ st : List (List Nat),
      (∀ l ∈ st, l.Pairwise (fun a b => a < b) ∧ ∀ x ∈ l, 1 ≤ x ∧ x ≤ D) →
      (eval_rpn_finish st).Pairwise (fun a b => a < b) ∧
        ∀ x ∈ eval_rpn_finish st, 1 ≤ x ∧ x ≤ D := by
    intro st hst
    match st, hst with
    | [], _ => exact ⟨List.Pairwise.nil, by simp [eval_rpn_finish]⟩
    | [out], hst => exact hst out (List.mem_singleton.2 rfl)
    | _ :: _ :: _, _ => exact ⟨List.Pairwise.nil, by simp [eval_rpn_finish]⟩
  have hnil : ∀ r : List Nat, (Outcome.ret ([] : List Nat)) = Outcome.ret r →
      r.Pairwise (fun a b => a < b) ∧ ∀ x ∈ r, 1 ≤ x ∧ x ≤ D := by
    intro r h
    cases h
    exact ⟨List.Pairwise.nil, by simp⟩
  have hoom : ∀ r : List Nat, (Outcome.oom : Outcome (List Nat)) = Outcome.ret r →
      r.Pairwise (fun a b => a < b) ∧ ∀ x ∈ r, 1 ≤ x ∧ x ≤ D := by
    intro r h
    cases h
  have hret : ∀ st : List (List Nat),
      (∀ l ∈ st, l.Pairwise (fun a b => a < b) ∧ ∀ x ∈ l, 1 ≤ x ∧ x ≤ D) →
      ∀ r : List Nat, Outcome.ret (eval_rpn_finish st) = Outcome.ret r →
      r.Pairwise (fun a b => a < b) ∧ ∀ x ∈ r, 1 ≤ x ∧ x ≤ D := by
    intro st hst r h
    cases h
    exact hfin st hst
  intro rpn
  induction rpn with
  | nil =>
    intro st _ hst
    exact ⟨_, rfl, hret st hst⟩
  | cons tk rest ih =>
    intro st hlk hst
    have hrest := fun tk1 h1 => hlk tk1 (List.mem_cons_of_mem _ h1)
    simp only [eval_rpn_loop]
    by_cases hE : tk.t = TokType.T_END
    · rw [if_pos hE]
      exact ⟨_, rfl, hret st hst⟩
    · rw [if_neg hE]
      by_cases hT : tk.t = TokType.T_TERM
      · rw [if_pos hT]
        obtain ⟨l, hl, hasc, hr⟩ := hlk tk (List.mem_cons_self _ _) hT
        rw [hl]
        refine ih (l :: st) hrest ?_
        intro l1 h1
        rcases List.mem_cons.1 h1 with rfl | h1
        · exact ⟨hasc, hr⟩
        · exact hst l1 h1
      · rw [if_neg hT]
        by_cases hN : tk.t = TokType.T_NOT
        · rw [if_pos hN]
          cases st with
          | nil => exact ⟨_, rfl, hnil⟩
          | cons A st1 =>
            obtain ⟨hA, _⟩ := hst A (List.mem_cons_self _ _)
            obtain ⟨R, hR, hRasc, hRmem⟩ := op_not_outcome (universe_list D) A
              (universe_list_asc D) hA
            simp only [hR]
            cases hx : xrealloc R with
            | oom => exact ⟨_, rfl, hoom⟩
            | ret S =>
              obtain ⟨hS, _⟩ := xrealloc_eq_ret R S hx
              subst hS
              simp only
              refine ih (S :: st1) hrest ?_
              intro l1 h1
              rcases List.mem_cons.1 h1 with rfl | h1
              · exact ⟨hRasc, fun x hx => (mem_universe_list D x).1 ((hRmem x).1 hx).1⟩
              · exact hst l1 (List.mem_cons_of_mem _ h1)
        · rw [if_neg hN]
          by_cases hAO : tk.t = TokType.T_AND ∨ tk.t = TokType.T_OR
          · rw [if_pos hAO]
            match st, hst with
            | [], _ => exact ⟨_, rfl, hnil⟩
            | [_], _ => exact ⟨_, rfl, hnil⟩
            | B :: A :: st1, hst =>
              obtain ⟨hA, hAr⟩ := hst A (List.mem_cons_of_mem _ (List.mem_cons_self _ _))
              obtain ⟨hB, hBr⟩ := hst B (List.mem_cons_self _ _)
              have hst1 : ∀ l ∈ st1, l.Pairwise (fun a b => a < b) ∧ ∀ x ∈ l, 1 ≤ x ∧ x ≤ D :=
                fun l1 h1 => hst l1 (List.mem_cons_of_mem _ (List.mem_cons_of_mem _ h1))
              by_cases hand : tk.t = TokType.T_AND
              · obtain ⟨R, hR, hRasc, hRmem⟩ := op_and_outcome A B hA hB
                simp only [if_pos hand, hR]
                cases hx : xrealloc R with
                | oom => exact ⟨_, rfl, hoom⟩
                | ret S =>
                  obtain ⟨hS, _⟩ := xrealloc_eq_ret R S hx
                  subst hS
                  simp only
                  refine ih (S :: st1) hrest ?_
                  intro l1 h1
                  rcases List.mem_cons.1 h1 with rfl | h1
                  · exact ⟨hRasc, fun x hx => hAr x ((hRmem x).1 hx).1⟩
                  · exact hst1 l1 h1
              · obtain ⟨R, hR, hRasc, hRmem⟩ := op_or_outcome A B hA hB
                simp only [if_neg hand, hR]
                cases hx : xrealloc R with
                | oom => exact ⟨_, rfl, hoom⟩
                | ret S =>
                  obtain ⟨hS, _⟩ := xrealloc_eq_ret R S hx
                  subst hS
                  simp only
                  refine ih (S :: st1) hrest ?_
                  intro l1 h1
                  rcases List.mem_cons.1 h1 with rfl | h1
                  · refine ⟨hRasc, fun x hx => ?_⟩
                    rcases (hRmem x).1 hx with h | h
                    · exact hAr x h
                    · exact hBr x h
                  · exact hst1 l1 h1
          · rw [if_neg hAO]
            exact ih st hrest hst

/-- The loop of `eval_rpn` on a sequence without `NOT` and `AND`, from a stack of
lists that are not empty, when no lookup of its terms is empty: no set operation has
an empty result, and the loop returns. -/
theorem eval_rpn_loop_returns (iv : IndexView) (ALL : List Nat) :
    ∀ (rpn : List Tok) (st : List (List Nat)),
      (∀ tk ∈ rpn, tk.t ≠ TokType.T_NOT ∧ tk.t ≠ TokType.T_AND) →
      (∀ tk ∈ rpn, tk.t = TokType.T_TERM → ∃ l, list_from_term iv tk.s = some l ∧
        l.Pairwise (fun a b => a < b) ∧ l ≠ []) →
      (∀ l ∈ st, l.Pairwise (fun a b => a < b) ∧ l ≠ []) →
      ∃ r, eval_rpn_loop iv ALL rpn st = some (Outcome.ret r) := by
  intro rpn
  induction rpn with
  | nil => intro st _ _ _; exact ⟨_, rfl⟩
  | cons tk rest ih =>
    intro st hno hlk hst
    have hno1 := fun tk1 h1 => hno tk1 (List.mem_cons_of_mem _ h1)
    have hlk1 := fun tk1 h1 => hlk tk1 (List.mem_cons_of_mem _ h1)
    obtain ⟨hnN, hnA⟩ := hno tk (List.mem_cons_self _ _)
    simp only [eval_rpn_loop]
    by_cases hE : tk.t = TokType.T_END
    · rw [if_pos hE]; exact ⟨_, rfl⟩
    · rw [if_neg hE]
      by_cases hT : tk.t = TokType.T_TERM
      · rw [if_pos hT]
        obtain ⟨l, hl, hasc, hne⟩ := hlk tk (List.mem_cons_self _ _) hT
        rw [hl]
        refine ih (l :: st) hno1 hlk1 ?_
        intro l1 h1
        rcases List.mem_cons.1 h1 with rfl | h1
        · exact ⟨hasc, hne⟩
        · exact hst l1 h1
      · rw [if_neg hT, if_neg hnN]
        by_cases hAO : tk.t = TokType.T_AND ∨ tk.t = TokType.T_OR
        · rw [if_pos hAO]
          match st, hst with
          | [], _ => exact ⟨_, rfl⟩
          | [_], _ => exact ⟨_, rfl⟩
          | B :: A :: st1, hst =>
            obtain ⟨hA, hAne⟩ := hst A (List.mem_cons_of_mem _ (List.mem_cons_self _ _))
            obtain ⟨hB, _⟩ := hst B (List.mem_cons_self _ _)
            obtain ⟨R, hR, hRasc, hRmem⟩ := op_or_outcome A B hA hB
            have hRne : R ≠ [] := by
              obtain ⟨x, tl, hx⟩ := List.exists_cons_of_ne_nil hAne
              intro hn
              have : x ∈ R := (hRmem x).2 (Or.inl (by rw [hx]; exact List.mem_cons_self _ _))
              rw [hn] at this
              cases this
            simp only [if_neg hnA, hR, xrealloc_ret R hRne]
            refine ih (R :: st1) hno1 hlk1 ?_
            intro l1 h1
            rcases List.mem_cons.1 h1 with rfl | h1
            · exact ⟨hRasc, hRne⟩
            · exact hst l1 (List.mem_cons_of_mem _ (List.mem_cons_of_mem _ h1))
        · rw [if_neg hAO]
          exact ih st hno1 hlk1 hst

set_option maxRecDepth 100000 in
theorem two_term_postings :
    list_from_term two_term_view [0x61] = some [1] ∧
    list_from_term two_term_view [0x62] = some [1, 2] := by
  decide

theorem two_term_stored :
    ∀ tk ∈ [({ t := TokType.T_TERM, s := [0x61] } : Tok), { t := TokType.T_TERM, s := [0x62] },
      Tok.op TokType.T_OR, Tok.op TokType.T_END],
      tk.t = TokType.T_TERM → ∃ l, list_from_term two_term_view tk.s = some l ∧
        l.Pairwise (fun a b => a < b) ∧ ∀ x ∈ l, 1 ≤ x ∧ x ≤ 2 := by
  intro tk htk ht
  simp only [List.mem_cons, List.mem_singleton, List.not_mem_nil, or_false] at htk
  rcases htk with rfl | rfl | rfl | rfl
  · exact ⟨[1], two_term_postings.1, by decide, by decide⟩
  · exact ⟨[1, 2], two_term_postings.2, by decide, by decide⟩
  · cases ht
  · cases ht

/-! Claim C33. -/

/-- C33: let the lookups of the terms of a token sequence give strictly ascending
lists with ids in `[1, D]`. Then `eval_rpn` with `ALL = [1..D]` ends for every token
sequence, well formed or not: a set operation with an empty result ends the process,
and otherwise `eval_rpn` returns; every list that it returns is strictly ascending
(sorted, without duplicates) with every element in `[1, D]`. It does return when the
sequence has no `NOT` and no `AND` and no lookup of its terms is empty. -/
theorem eval_rpn_sorted (iv : IndexView) (D : Nat) (rpn : List Tok)
    (hstored : ∀ tk ∈ rpn, tk.t = TokType.T_TERM → ∃ l, list_from_term iv tk.s = some l ∧
      l.Pairwise (fun a b => a < b) ∧ ∀ x ∈ l, 1 ≤ x ∧ x ≤ D) :
    (∃ o, eval_rpn iv rpn (universe_list D) = some o ∧
      ∀ r, o = Outcome.ret r →
        r.Pairwise (fun a b => a < b) ∧ r.Nodup ∧ ∀ x ∈ r, 1 ≤ x ∧ x ≤ D) ∧
    ((∀ tk ∈ rpn, tk.t ≠ TokType.T_NOT ∧ tk.t ≠ TokType.T_AND) →
      (∀ tk ∈ rpn, tk.t = TokType.T_TERM → list_from_term iv tk.s ≠ some []) →
      ∃ r, eval_rpn iv rpn (universe_list D) = some (Outcome.ret r) ∧
        r.Pairwise (fun a b => a < b) ∧ r.Nodup ∧ ∀ x ∈ r, 1 ≤ x ∧ x ≤ D) := by
  obtain ⟨o, h1, h2⟩ := eval_rpn_loop_sorted iv D rpn [] hstored (by simp)
  have key : ∀ r, o = Outcome.ret r →
      r.Pairwise (fun a b => a < b) ∧ r.Nodup ∧ ∀ x ∈ r, 1 ≤ x ∧ x ≤ D := by
    intro r hr
    obtain ⟨a, b⟩ := h2 r hr
    exact ⟨a, a.imp (fun hab => Nat.ne_of_lt hab), b⟩
  refine ⟨⟨o, h1, key⟩, ?_⟩
  intro hno hne
  obtain ⟨r, hr⟩ := eval_rpn_loop_returns iv (universe_list D) rpn [] hno (by
    intro tk htk ht
    obtain ⟨l, hl, hasc, _⟩ := hstored tk htk ht
    exact ⟨l, hl, hasc, fun hn => hne tk htk ht (by rw [hl, hn])⟩) (by simp)
  have hr1 : eval_rpn iv rpn (universe_list D) = some (Outcome.ret r) := hr
  refine ⟨r, hr1, key r ?_⟩
  have : eval_rpn iv rpn (universe_list D) = some o := h1
  rw [hr1] at this
  exact (Option.some.inj this).symm

theorem eval_rpn_sorted_witness :
    (∀ tk ∈ [({ t := TokType.T_TERM, s := [0x61] } : Tok), { t := TokType.T_TERM, s := [0x62] },
        Tok.op TokType.T_OR, Tok.op TokType.T_END],
      tk.t = TokType.T_TERM → ∃ l, list_from_term two_term_view tk.s = some l ∧
        l.Pairwise (fun a b => a < b) ∧ ∀ x ∈ l, 1 ≤ x ∧ x ≤ 2) ∧
    ((∃ o, eval_rpn two_term_view [{ t := TokType.T_TERM, s := [0x61] },
          { t := TokType.T_TERM, s := [0x62] }, Tok.op TokType.T_OR, Tok.op TokType.T_END]
          (universe_list 2) = some o ∧
      ∀ r, o = Outcome.ret r →
        r.Pairwise (fun a b => a < b) ∧ r.Nodup ∧ ∀ x ∈ r, 1 ≤ x ∧ x ≤ 2) ∧
    ((∀ tk ∈ [({ t := TokType.T_TERM, s := [0x61] } : Tok), { t := TokType.T_TERM, s := [0x62] },
        Tok.op TokType.T_OR, Tok.op TokType.T_END],
        tk.t ≠ TokType.T_NOT ∧ tk.t ≠ TokType.T_AND) →
      (∀ tk ∈ [({ t := TokType.T_TERM, s := [0x61] } : Tok), { t := TokType.T_TERM, s := [0x62] },
        Tok.op TokType.T_OR, Tok.op TokType.T_END],
        tk.t = TokType.T_TERM → list_from_term two_term_view tk.s ≠ some []) →
      ∃ r, eval_rpn two_term_view [{ t := TokType.T_TERM, s := [0x61] },
          { t := TokType.T_TERM, s := [0x62] }, Tok.op TokType.T_OR, Tok.op TokType.T_END]
          (universe_list 2) = some (Outcome.ret r) ∧
        r.Pairwise (fun a b => a < b) ∧ r.Nodup ∧ ∀ x ∈ r, 1 ≤ x ∧ x ≤ 2)) :=
  ⟨two_term_stored, eval_rpn_sorted two_term_view 2 _ two_term_stored⟩

/-! The lookups of the evaluator on a built index. -/

/-- On the index file built from a corpus whose sizes fit, the lookup of a term of a
document returns the ascending list of the ids of the documents that contain it. -/
theorem built_list_from_term (k N L : Nat) (docs : List (List Byte × DocRec))
    (title_pool : List Byte) (h : SizesFit N L docs title_pool) :
    ∃ file iv, build_index k docs title_pool = some file ∧ load_index file = some iv ∧
      iv.version = 2 ∧ iv.docs_count = docs.length ∧
      (∃ terms : List (List Byte), terms.Nodup ∧ iv.terms_count = terms.length ∧
        ∀ t, t ∈ terms ↔ ∃ d ∈ docs, t ∈ doc_token_lines d.1) ∧
      ∀ t, (∃ d ∈ docs, t ∈ doc_token_lines d.1) →
        list_from_term iv t =
          some (ref_postings t 1 (docs.map (fun d => doc_token_lines d.1))) := by
  obtain ⟨st, terms, file, iv, _, hinv, hbuild, hload, hver, hdc, htc, hfind⟩ :=
    built_lookup k N L docs title_pool h
  have hmem : ∀ t, t ∈ terms ↔ ∃ d ∈ docs, t ∈ doc_token_lines d.1 := by
    intro t
    rw [hinv.2.2.1 t]
    constructor
    · rintro ⟨doc, hdoc, ht⟩
      obtain ⟨d, hd, rfl⟩ := List.mem_map.1 hdoc
      exact ⟨d, hd, ht⟩
    · rintro ⟨d, hd, ht⟩
      exact ⟨_, List.mem_map.2 ⟨d, hd, rfl⟩, ht⟩
  refine ⟨file, iv, hbuild, hload, hver, hdc,
    ⟨terms, hinv.1.2.2.2.2.1, by rw [htc, hinv.1.2.2.1], hmem⟩, ?_⟩
  intro t ht
  obtain ⟨e, he, hu, hterm⟩ := entry_of_term st terms hinv.1 t ((hmem t).2 ht)
  obtain ⟨off, h1, h2⟩ := hfind e he hu
  obtain ⟨hchain, hdf⟩ := hinv.2.2.2 e he hu
  rw [hterm] at h1 hchain
  unfold list_from_term
  rw [h1]
  simp only
  by_cases hz : e.df = 0
  · rw [if_pos hz, ← hchain]
    rw [hz] at hdf
    rw [List.length_eq_zero.1 hdf.symm]
  · rw [if_neg hz, h2, hchain]

/-! The scenario of the specification. -/

set_option maxRecDepth 100000 in
theorem scenario_lines : ∀ d ∈ scenario_corpus, ∀ t ∈ doc_token_lines d.1,
    t ∈ [term_kot, term_i, term_sobak, term_koshk] := by
  decide

set_option maxRecDepth 100000 in
theorem scenario_term_lengths : ∀ t ∈ [term_kot, term_i, term_sobak, term_koshk],
    t.length ≤ 10 := by
  decide

theorem sizesFit_scenario : SizesFit 4 10 scenario_corpus [0x41, 0x42, 0x43] := by
  refine ⟨?_, by decide, ?_, by decide, by decide, by decide, by decide⟩
  · intro ts hnd hts
    exact nodup_length_le_of_subset ts [term_kot, term_i, term_sobak, term_koshk] hnd
      (fun t ht =>
        match hts t ht with
        | ⟨d, hd, hin⟩ => scenario_lines d hd t hin)
  · intro d hd t ht
    exact scenario_term_lengths t (scenario_lines d hd t ht)

set_option maxRecDepth 100000 in
theorem scenario_postings :
    (∀ t ∈ [term_kot, term_i, term_sobak, term_koshk],
      ∃ d ∈ scenario_corpus, t ∈ doc_token_lines d.1) ∧
    ref_postings term_kot 1 (scenario_corpus.map (fun d => doc_token_lines d.1)) = [1] ∧
    ref_postings term_i 1 (scenario_corpus.map (fun d => doc_token_lines d.1)) = [1] ∧
    ref_postings term_sobak 1 (scenario_corpus.map (fun d => doc_token_lines d.1)) = [1] ∧
    ref_postings term_koshk 1 (scenario_corpus.map (fun d => doc_token_lines d.1)) = [2] := by
  decide

set_option maxRecDepth 100000 in
theorem scenario_documents :
    tokens_emitted doc_kot_i_sobaka true = some [term_kot, term_i, term_sobak] ∧
    tokens_emitted doc_koshka true = some [term_koshk] := by
  decide

set_option maxRecDepth 100000 in
theorem scenario_tokens :
    tokenize_query scenario_query =
      some [Tok.op TokType.T_LP, { t := TokType.T_TERM, s := term_kot }, Tok.op TokType.T_OR,
        { t := TokType.T_TERM, s := term_koshk }, Tok.op TokType.T_RP, Tok.op TokType.T_AND,
        Tok.op TokType.T_NOT, { t := TokType.T_TERM, s := term_sobak },
        Tok.op TokType.T_END] ∧
    to_rpn [Tok.op TokType.T_LP, { t := TokType.T_TERM, s := term_kot }, Tok.op TokType.T_OR,
        { t := TokType.T_TERM, s := term_koshk }, Tok.op TokType.T_RP, Tok.op TokType.T_AND,
        Tok.op TokType.T_NOT, { t := TokType.T_TERM, s := term_sobak },
        Tok.op TokType.T_END] =
      [{ t := TokType.T_TERM, s := term_kot }, { t := TokType.T_TERM, s := term_koshk },
        Tok.op TokType.T_OR, { t := TokType.T_TERM, s := term_sobak }, Tok.op TokType.T_NOT,
        Tok.op TokType.T_AND, Tok.op TokType.T_END] := by
  decide

/-- The evaluation of the postfix form of the scenario query on any index with the
three lookups of the scenario. -/
theorem scenario_eval (iv : IndexView) (h1 : list_from_term iv term_kot = some [1])
    (h2 : list_from_term iv term_koshk = some [2])
    (h3 : list_from_term iv term_sobak = some [1]) :
    eval_rpn iv
      [{ t := TokType.T_TERM, s := term_kot }, { t := TokType.T_TERM, s := term_koshk },
        Tok.op TokType.T_OR, { t := TokType.T_TERM, s := term_sobak }, Tok.op TokType.T_NOT,
        Tok.op TokType.T_AND, Tok.op TokType.T_END] (universe_list 2) = some (Outcome.ret [2]) := by
  have ho : op_or [1] [2] = some (Outcome.ret [1, 2]) := by decide
  have hn : op_not (universe_list 2) [1] = some (Outcome.ret [2]) := by decide
  have ha : op_and [1, 2] [2] = some (Outcome.ret [2]) := by decide
  simp [eval_rpn, eval_rpn_loop, Tok.op, h1, h2, h3, ho, hn, ha, eval_rpn_finish]

/-! Claim C32. -/

/-- C32: the documents `кот и собака` and `кошка` tokenize to the terms `кот`, `и`,
`собак` and `кошк`. On the index file built from these two token files, which has
`D = 2`, four terms and the postings кот -> [1], и -> [1], собак -> [1], кошк -> [2],
the query `(кот || кошк) && !собак` is lexed, converted to the postfix form
`кот кошк OR собак NOT AND` and evaluated to the list `[2]`: one result, document 2.
The same result is obtained on every index that has these postings for the three
terms of the query. -/
theorem scenario_query_result (k : Nat) :
    (tokens_emitted doc_kot_i_sobaka true = some [term_kot, term_i, term_sobak] ∧
      tokens_emitted doc_koshka true = some [term_koshk]) ∧
    (∃ file iv toks, build_index k scenario_corpus [0x41, 0x42, 0x43] = some file ∧
      load_index file = some iv ∧ iv.docs_count = 2 ∧ iv.terms_count = 4 ∧
      list_from_term iv term_kot = some [1] ∧ list_from_term iv term_i = some [1] ∧
      list_from_term iv term_sobak = some [1] ∧ list_from_term iv term_koshk = some [2] ∧
      tokenize_query scenario_query = some toks ∧
      to_rpn toks =
        [{ t := TokType.T_TERM, s := term_kot }, { t := TokType.T_TERM, s := term_koshk },
          Tok.op TokType.T_OR, { t := TokType.T_TERM, s := term_sobak }, Tok.op TokType.T_NOT,
          Tok.op TokType.T_AND, Tok.op TokType.T_END] ∧
      eval_rpn iv (to_rpn toks) (universe_list (iv.docs_count % 2 ^ 32)) = some (Outcome.ret [2]) ∧
      ([2] : List Nat).length = 1) ∧
    (∀ (iv : IndexView) (toks : List Tok), tokenize_query scenario_query = some toks →
      list_from_term iv term_kot = some [1] → list_from_term iv term_koshk = some [2] →
      list_from_term iv term_sobak = some [1] →
      eval_rpn iv (to_rpn toks) (universe_list 2) = some (Outcome.ret [2])) := by
  refine ⟨scenario_documents, ?_, ?_⟩
  · obtain ⟨file, iv, hbuild, hload, _, hdc, ⟨terms, hnd, htc, hmem⟩, hlk⟩ :=
      built_list_from_term k 4 10 scenario_corpus [0x41, 0x42, 0x43] sizesFit_scenario
    obtain ⟨hin, p1, p2, p3, p4⟩ := scenario_postings
    have hD : iv.docs_count = 2 := hdc
    have l1 := hlk term_kot (hin _ (by simp))
    have l2 := hlk term_i (hin _ (by simp))
    have l3 := hlk term_sobak (hin _ (by simp))
    have l4 := hlk term_koshk (hin _ (by simp))
    rw [p1] at l1
    rw [p2] at l2
    rw [p3] at l3
    rw [p4] at l4
    have hT : iv.terms_count = 4 := by
      rw [htc]
      have hperm : terms.Perm [term_kot, term_i, term_sobak, term_koshk] := by
        rw [List.perm_ext_iff_of_nodup hnd (by decide)]
        intro t
        rw [hmem t]
        constructor
        · rintro ⟨d, hd, ht⟩
          exact scenario_lines d hd t ht
        · intro ht
          exact hin t ht
      exact hperm.length_eq
    refine ⟨file, iv, _, hbuild, hload, hD, hT, l1, l2, l3, l4, scenario_tokens.1,
      scenario_tokens.2, ?_, rfl⟩
    rw [scenario_tokens.2, hD]
    exact scenario_eval iv l1 l4 l3
  · intro iv toks ht h1 h2 h3
    rw [scenario_tokens.1] at ht
    simp only [Option.some.injEq] at ht
    rw [← ht, scenario_tokens.2]
    exact scenario_eval iv h1 h2 h3

end IR
